import Mathlib

/-!
# Sieve script scanner, parser and AST (qingshan/sieve)

A shallow embedding of `parse/token.go`, `parse/lex.go`, `parse/parser.go`,
`ast/ast.go`, `ast/util.go` and `sieve.go`, followed by theorems about them.

Conventions of the embedding

* A Go `string` holding source text is a `List Char` (valid UTF-8 text); a rune
  is an `Option Char`, `none` standing for the constant `eof = -1`.
* The scanner's cursor fields `pos`, `start`, `width` count runes; `Token.Pos`
  is converted to the byte offset the Go code stores.
* The scanner is a small-step machine: one call of a state function, or one
  iteration of the `for` loop that forms the body of a state function, is one
  step, and `Lexer.run` iterates steps under a step budget.
* `Parser.errorf` ends the process (`os.Exit(1)`); it is the outcome
  `Run.exit`.  A receive on the token channel that no send can ever match is
  the outcome `Run.blocked`.
-/

namespace Sieve

/-! ## Standard-library functions used by the program -/

/-- Behaviour of the Go standard library that the program relies on and that is
given by tables outside the repository: the Unicode letter and digit classes of
runes outside ASCII, and the escape decoder of `strconv.Unquote`. -/
structure GoLib where
  /-- Value of `unicode.IsLetter` on a rune outside ASCII. -/
  isLetterHi : Char → Bool
  /-- Value of `unicode.IsDigit` on a rune outside ASCII. -/
  isDigitHi : Char → Bool
  /-- Value of `strconv.Unquote` on a double-quoted literal, given its inside,
  when that inside contains a backslash; `none` is `ErrSyntax`. -/
  unquoteEscaped : List Char → Option String

/-- A library whose tables hold ASCII only and which rejects every escape;
used to instantiate theorems at concrete inputs. -/
def GoLib.ascii : GoLib :=
  { isLetterHi := fun _ => false, isDigitHi := fun _ => false, unquoteEscaped := fun _ => none }

/-- Go `unicode.IsLetter`. -/
def unicodeIsLetter (L : GoLib) (r : Char) : Bool :=
  if r.toNat < 128 then r.isAlpha else L.isLetterHi r

/-- Go `unicode.IsDigit`. -/
def unicodeIsDigit (L : GoLib) (r : Char) : Bool :=
  if r.toNat < 128 then r.isDigit else L.isDigitHi r

/-- Go `strings.IndexRune(valid, r) >= 0`; `eof` is in no set. -/
def inSet (valid : List Char) (r : Option Char) : Bool :=
  match r with
  | none => false
  | some c => valid.contains c

/-- Go `strings.Index(s, sep)`: index of the first occurrence of `sep`, or -1. -/
def stringsIndex (s sep : List Char) : Int :=
  match s with
  | [] => if sep.isEmpty then 0 else -1
  | c :: cs =>
    if sep.isPrefixOf (c :: cs) then 0
    else
      let i := stringsIndex cs sep
      if i < 0 then -1 else i + 1

/-- Go `strconv.Unquote` applied to a token text.  A text that is not wrapped in
double quotes, or whose inside holds a line feed or a double quote, is
`ErrSyntax`; an inside without backslash is returned as it is; the rest is
decoded by the library. -/
def strconvUnquote (L : GoLib) (s : String) : Option String :=
  match s.data with
  | [] => none
  | [_] => none
  | q :: rest =>
    if q = '"' ∧ rest.getLast? = some '"' then
      let inner := rest.dropLast
      if inner.contains '\n' then none
      else if inner.contains '"' then none
      else if inner.contains '\\' then L.unquoteEscaped inner
      else some (String.mk inner)
    else none

/-! ## parse/token.go -/

/-- Go `TokenType`, in the order of the `iota` block. -/
inductive TokenType where
  | ERROR | EOF | LINECOMMENT | BLOCKCOMMENT | LEFTPAREN | RIGHTPAREN
  | LEFTBRACKET | RIGHTBRACKET | LEFTCURLY | RIGHTCURLY | SEMICOLON | COMMA
  | ARGUMENT | NUMBER | TAG | STRING | COMMAND | IF | ELSIF | ELSE | STOP
  | TEST | TRUE | FALSE | NOT | ANYOF | ALLOF | IDENTIFIER
  deriving DecidableEq, Repr

/-- The integer value of a token type. -/
def TokenType.toNat : TokenType → Nat
  | .ERROR => 0 | .EOF => 1 | .LINECOMMENT => 2 | .BLOCKCOMMENT => 3
  | .LEFTPAREN => 4 | .RIGHTPAREN => 5 | .LEFTBRACKET => 6 | .RIGHTBRACKET => 7
  | .LEFTCURLY => 8 | .RIGHTCURLY => 9 | .SEMICOLON => 10 | .COMMA => 11
  | .ARGUMENT => 12 | .NUMBER => 13 | .TAG => 14 | .STRING => 15 | .COMMAND => 16
  | .IF => 17 | .ELSIF => 18 | .ELSE => 19 | .STOP => 20 | .TEST => 21
  | .TRUE => 22 | .FALSE => 23 | .NOT => 24 | .ANYOF => 25 | .ALLOF => 26
  | .IDENTIFIER => 27

/-- Go `Token`. -/
structure Token where
  Typ : TokenType
  Pos : Nat
  Val : String
  deriving DecidableEq, Repr

/-- Go map `key`; a missing word gives the zero value `ERROR`. -/
def key (word : String) : TokenType :=
  if word = "if" then .IF
  else if word = "else" then .ELSE
  else if word = "elsif" then .ELSIF
  else if word = "stop" then .STOP
  else if word = "true" then .TRUE
  else if word = "false" then .FALSE
  else if word = "not" then .NOT
  else if word = "allof" then .ALLOF
  else if word = "anyof" then .ANYOF
  else .ERROR

/-- Go `Token.IsCommand`. -/
def Token.IsCommand (tok : Token) : Bool :=
  decide (tok.Typ.toNat > TokenType.COMMAND.toNat) && decide (tok.Typ.toNat < TokenType.TEST.toNat)

/-- Go `Token.String`, used for the text of a lexical error report. -/
def Token.String (t : Token) : String :=
  if t.Typ = .EOF then "EOF"
  else if t.Typ = .ERROR then t.Val
  else if t.Typ.toNat > TokenType.COMMAND.toNat then "<" ++ t.Val ++ ">"
  else t.Val

/-! ## parse/lex.go -/

/-- The state functions of the scanner. -/
inductive StateFn where
  | lexStart | lexSemiColon | lexSpace | lexEndOfLine | lexNumber | lexString
  | lexTag | lexIdentifier | lexLineComment | lexBlockComment
  deriving DecidableEq, Repr

/-- Go `Lexer`: the fields the scan depends on.  `items` is the sequence of
tokens sent on the channel so far. -/
structure Lexer where
  input : List Char
  pos : Nat
  start : Nat
  width : Nat
  parenDepth : Int
  items : List Token
  deriving DecidableEq, Repr

/-- Number of bytes of the UTF-8 encoding of a text. -/
def byteLen (s : List Char) : Nat := (s.map Char.utf8Size).sum

/-- Go `l.input[i:j]`, with rune indices. -/
def slice (s : List Char) (i j : Nat) : List Char := (s.drop i).take (j - i)

/-- Go `Lexer.next`. -/
def Lexer.next (l : Lexer) : Option Char × Lexer :=
  match l.input[l.pos]? with
  | none => (none, { l with width := 0 })
  | some r => (some r, { l with width := 1, pos := l.pos + 1 })

/-- Go `Lexer.backup`. -/
def Lexer.backup (l : Lexer) : Lexer := { l with pos := l.pos - l.width }

/-- Go `Lexer.peek`. -/
def Lexer.peek (l : Lexer) : Option Char × Lexer :=
  let (r, l1) := l.next
  (r, l1.backup)

/-- Go `Lexer.emit`. -/
def Lexer.emit (l : Lexer) (t : TokenType) : Lexer :=
  { l with
    items := l.items ++ [⟨t, byteLen (l.input.take l.start), String.mk (slice l.input l.start l.pos)⟩],
    start := l.pos }

/-- Go `Lexer.ignore`. -/
def Lexer.ignore (l : Lexer) : Lexer := { l with start := l.pos }

/-- Go `Lexer.errorf`: sends an ERROR token and returns the nil state.  The
token text is the message without its formatted arguments. -/
def Lexer.errorf (l : Lexer) (msg : String) : Option StateFn × Lexer :=
  (none, { l with items := l.items ++ [⟨.ERROR, byteLen (l.input.take l.start), msg⟩] })

/-- Go `Lexer.accept`. -/
def Lexer.accept (l : Lexer) (valid : List Char) : Bool × Lexer :=
  let (r, l1) := l.next
  if inSet valid r then (true, l1) else (false, l1.backup)

/-- The loop of Go `Lexer.acceptRun`, bounded by the runes left to read. -/
def Lexer.acceptRunLoop (valid : List Char) : Nat → Lexer → Lexer
  | 0, l => l.backup
  | n + 1, l =>
    let (r, l1) := l.next
    if inSet valid r then Lexer.acceptRunLoop valid n l1 else l1.backup

/-- Go `Lexer.acceptRun`. -/
def Lexer.acceptRun (l : Lexer) (valid : List Char) : Lexer :=
  Lexer.acceptRunLoop valid (l.input.length + 1 - l.pos) l

/-- Go `isSpace`. -/
def isSpace (r : Option Char) : Bool := r == some ' ' || r == some '\t'

/-- Go `isEndOfLine`. -/
def isEndOfLine (r : Option Char) : Bool := r == some '\r' || r == some '\n'

/-- Go `isAlphaNumeric`. -/
def isAlphaNumeric (L : GoLib) (r : Option Char) : Bool :=
  match r with
  | none => false
  | some c => c == '_' || unicodeIsLetter L c || unicodeIsDigit L c

/-- Go `Lexer.atTerminator`. -/
def Lexer.atTerminator (l : Lexer) : Bool × Lexer :=
  let (r, l1) := l.peek
  if isSpace r || isEndOfLine r then (true, l1)
  else
    match r with
    | none => (true, l1)
    | some c => (c == '.' || c == ',' || c == ':' || c == ')' || c == '(', l1)

/-- Go `Lexer.atEndBlockComment`: the two bytes before `pos` are `*/`.  Both
bytes are ASCII, so they are the two runes before `pos`. -/
def Lexer.atEndBlockComment (l : Lexer) : Bool :=
  let word := slice l.input (l.pos - 2) l.pos
  decide (stringsIndex word ['*', '/'] = (word.length : Int) - 2)

/-- Go `Lexer.scanNumber`. -/
def Lexer.scanNumber (L : GoLib) (l : Lexer) : Bool × Lexer :=
  let l1 := l.acceptRun "0123456789".data
  let l2 := (l1.accept "kKmMgG".data).2
  let (r, l3) := l2.peek
  if isAlphaNumeric L r then (false, l3.next.2) else (true, l3)

/-- Go `lexStart`. -/
def lexStart (L : GoLib) (l0 : Lexer) : Option StateFn × Lexer :=
  let (r, l) := l0.next
  match r with
  | none => (none, l.emit .EOF)
  | some c =>
    if c = ';' then (some .lexSemiColon, l)
    else if c = ':' then (some .lexTag, l)
    else if c = ',' then (some .lexStart, l.emit .COMMA)
    else if c = '"' then (some .lexString, l)
    else if c = '(' then
      let l1 := l.emit .LEFTPAREN
      (some .lexStart, { l1 with parenDepth := l1.parenDepth + 1 })
    else if c = ')' then
      let l1 := l.emit .RIGHTPAREN
      let l2 := { l1 with parenDepth := l1.parenDepth - 1 }
      if l2.parenDepth < 0 then l2.errorf "unexpected right paren"
      else (some .lexStart, l2)
    else if c = '[' then (some .lexStart, l.emit .LEFTBRACKET)
    else if c = ']' then (some .lexStart, l.emit .RIGHTBRACKET)
    else if c = '{' then (some .lexStart, l.emit .LEFTCURLY)
    else if c = '}' then (some .lexStart, l.emit .RIGHTCURLY)
    else if isSpace r then (some .lexSpace, l)
    else if isEndOfLine r then (some .lexEndOfLine, l)
    else if '0' ≤ c ∧ c ≤ '9' then (some .lexNumber, l.backup)
    else if isAlphaNumeric L r then (some .lexIdentifier, l.backup)
    else if c = '#' then (some .lexLineComment, l)
    else if c = '/' then
      let (r2, l1) := l.peek
      if r2 = some '*' then (some .lexBlockComment, l1)
      else l1.errorf "unknown syntax"
    else l.errorf "unknown syntax"

/-- Go `lexSemiColon`. -/
def lexSemiColon (l : Lexer) : Option StateFn × Lexer :=
  (some .lexStart, l.emit .SEMICOLON)

/-- One iteration of the loop of Go `lexSpace`, or its exit. -/
def lexSpace (l : Lexer) : Option StateFn × Lexer :=
  let (r, l1) := l.peek
  if isSpace r then (some .lexSpace, l1.next.2)
  else (some .lexStart, l1.ignore)

/-- One iteration of the loop of Go `lexEndOfLine`, or its exit. -/
def lexEndOfLine (l : Lexer) : Option StateFn × Lexer :=
  let (r, l1) := l.peek
  if isEndOfLine r then (some .lexEndOfLine, l1.next.2)
  else (some .lexStart, l1.ignore)

/-- Go `lexNumber`. -/
def lexNumber (L : GoLib) (l : Lexer) : Option StateFn × Lexer :=
  let (ok, l1) := l.scanNumber L
  if !ok then l1.errorf "bad number syntax"
  else (some .lexStart, l1.emit .NUMBER)

/-- One iteration of the loop of Go `lexString`.  The cases are tried in the
order of the source: `r != '"'` first, then `r == eof`. -/
def lexString (l : Lexer) : Option StateFn × Lexer :=
  let (r, l1) := l.next
  if r ≠ some '"' then (some .lexString, l1)
  else if r = none then l1.errorf "Non-terminating string literal"
  else (some .lexStart, l1.emit .STRING)

/-- One iteration of the loop of Go `lexTag`. -/
def lexTag (L : GoLib) (l : Lexer) : Option StateFn × Lexer :=
  let (r, l1) := l.next
  if isAlphaNumeric L r then (some .lexTag, l1)
  else (some .lexStart, l1.backup.emit .TAG)

/-- One iteration of the loop of Go `lexIdentifier`. -/
def lexIdentifier (L : GoLib) (l : Lexer) : Option StateFn × Lexer :=
  let (r, l1) := l.next
  if isAlphaNumeric L r then (some .lexIdentifier, l1)
  else
    let l2 := l1.backup
    let word := String.mk (slice l2.input l2.start l2.pos)
    if (key word).toNat > TokenType.COMMAND.toNat then (some .lexStart, l2.emit (key word))
    else (some .lexStart, l2.emit .IDENTIFIER)

/-- One iteration of the loop of Go `lexLineComment`. -/
def lexLineComment (l : Lexer) : Option StateFn × Lexer :=
  let (r, l1) := l.next
  if !isEndOfLine r then (some .lexLineComment, l1)
  else
    let (t, l2) := l1.backup.atTerminator
    if !t then l2.errorf "bad character"
    else (some .lexStart, l2.emit .LINECOMMENT)

/-- One iteration of the loop of Go `lexBlockComment`.  The cases are tried in
the order of the source: not at the end of the comment first, then `r == eof`. -/
def lexBlockComment (l : Lexer) : Option StateFn × Lexer :=
  let (r, l1) := l.next
  if !l1.atEndBlockComment then (some .lexBlockComment, l1)
  else if r = none then l1.errorf "Non-terminating block comment"
  else
    let word := slice l1.input l1.start l1.pos
    if stringsIndex word ['*', '/'] = (word.length : Int) - 2 then
      (some .lexStart, l1.emit .BLOCKCOMMENT)
    else l1.errorf "error in  block comment"

/-- One step of the scanner in the given state. -/
def step (L : GoLib) : StateFn → Lexer → Option StateFn × Lexer
  | .lexStart, l => lexStart L l
  | .lexSemiColon, l => lexSemiColon l
  | .lexSpace, l => lexSpace l
  | .lexEndOfLine, l => lexEndOfLine l
  | .lexNumber, l => lexNumber L l
  | .lexString, l => lexString l
  | .lexTag, l => lexTag L l
  | .lexIdentifier, l => lexIdentifier L l
  | .lexLineComment, l => lexLineComment l
  | .lexBlockComment, l => lexBlockComment l

/-- Go `Lexer.run` under a step budget: the state reached (`none` is the nil
state, the scanner has halted) and the scanner. -/
def Lexer.run (L : GoLib) : Nat → Option StateFn × Lexer → Option StateFn × Lexer
  | 0, c => c
  | _, (none, l) => (none, l)
  | n + 1, (some s, l) => Lexer.run L n (step L s l)

/-- Go `Lex`: the scanner before its first step. -/
def Lex (input : String) : Option StateFn × Lexer :=
  (some .lexStart, { input := input.data, pos := 0, start := 0, width := 0, parenDepth := 0, items := [] })

/-- The tokens the scanner has sent once it has halted within `fuel` steps. -/
def lexTokens (L : GoLib) (fuel : Nat) (input : String) : Option (List Token) :=
  match Lexer.run L fuel (Lex input) with
  | (none, l) => some l.items
  | (some _, _) => none

/-- The kinds and texts of a token list. -/
def shape (ts : List Token) : List (TokenType × String) := ts.map (fun t => (t.Typ, t.Val))

/-! ## ast/ast.go -/

/-- Go `ast.Argument`: the value types the parser builds with
`ast.NumberArgument(..)`, `ast.TagArgument(..)`, `ast.StringArgument(..)` and
that `ast.Equals` switches on. -/
inductive Argument where
  | NumberArgument (Value : String)
  | TagArgument (Value : String)
  | StringArgument (Value : List String)
  deriving DecidableEq, Repr

/-- Go `ast.Test`. -/
inductive Test where
  | TrueTest
  | FalseTest
  | NotTest (Test : Test)
  | AllofTest (Tests : List Test)
  | AnyofTest (Tests : List Test)
  | GenericTest (Name : String) (Arguments : List Argument)
  deriving Repr

/-- Go `ast.Command`; the `Test` of a `ControlCommand` may be nil. -/
inductive Command where
  | CommentCommand (Style : String) (Text : String)
  | StopCommand
  | GenericCommand (Name : String) (Arguments : List Argument)
  | ControlCommand (Name : String) (Test : Option Test) (Block : List Command)
  deriving Repr

/-- Go `ast.File`. -/
structure File where
  Name : String
  List : List Command
  deriving Repr

/-- The loop `for i, v := range a.Value` of `StringArgument.String`. -/
def stringsLoop : List String → Nat → String
  | [], _ => ""
  | v :: vs, i => (if i > 0 then ", " else "") ++ v ++ stringsLoop vs (i + 1)

/-- Go `String` of the three argument types. -/
def Argument.String : Argument → String
  | .NumberArgument v => v
  | .TagArgument v => v
  | .StringArgument a =>
    match a with
    | [s] => s
    | _ => "[" ++ stringsLoop a 0 ++ "]"

/-- The loop `for _, a := range Arguments` of `GenericTest.String` and of
`stringDepth`. -/
def argumentsLoop : List Argument → String
  | [] => ""
  | a :: as => " " ++ a.String ++ argumentsLoop as

mutual
/-- Go `String` of the test types. -/
def Test.String : Test → String
  | .TrueTest => "true"
  | .FalseTest => "false"
  | .NotTest t => "not " ++ t.String
  | .AllofTest ts => "allof" ++ " (" ++ Test.loop ts 0 ++ ")"
  | .AnyofTest ts => "anyof" ++ " (" ++ Test.loop ts 0 ++ ")"
  | .GenericTest name args => name ++ argumentsLoop args
/-- The loop `for i, v := range t.Tests`. -/
def Test.loop : List Test → Nat → String
  | [], _ => ""
  | v :: vs, i => (if i > 0 then ", " else "") ++ v.String ++ Test.loop vs (i + 1)
end

/-- The loop `for i := 0; i < d; i++` of `stringDepth` writing tabs. -/
def tabs : Nat → String
  | 0 => ""
  | d + 1 => "\t" ++ tabs d

mutual
/-- Go `stringDepth`. -/
def stringDepth : Command → Nat → String
  | .ControlCommand name test block, d =>
    tabs d ++ name
      ++ (match test with
          | some t => " " ++ t.String
          | none => "")
      ++ " " ++ "\x7b\n" ++ blockLoop block d ++ tabs d ++ "\x7d"
  | .StopCommand, d => tabs d ++ "stop;"
  | .CommentCommand style text, d =>
    if style = "line" then tabs d ++ style ++ " " ++ text
    else tabs d ++ "/*" ++ text ++ "*/"
  | .GenericCommand name args, d => tabs d ++ name ++ argumentsLoop args ++ ";"
/-- The loop `for _, bv := range v.Block` of `stringDepth`. -/
def blockLoop : List Command → Nat → String
  | [], _ => ""
  | bv :: bvs, d => stringDepth bv (d + 1) ++ "\n" ++ blockLoop bvs d
end

/-- Go `String` of the command types. -/
def Command.String (c : Command) : String := stringDepth c 0

/-- The loop of Go `File.String`. -/
def fileLoop : List Command → String
  | [] => ""
  | c :: cs => c.String ++ "\n" ++ fileLoop cs

/-- Go `File.String`. -/
def File.String (f : File) : String := fileLoop f.List

/-! ## ast/util.go -/

/-- Go `ast.Node`: a value of one of the node types, or nil. -/
inductive Node where
  | nil
  | File (f : File)
  | Command (c : Command)
  | Test (t : Test)
  | Argument (a : Argument)

/-- A Go `Test` interface value, possibly nil, passed as a `Node`. -/
def Node.ofTest : Option Sieve.Test → Node
  | none => .nil
  | some t => .Test t

/-- The loop of the `StringArgument` case of Go `Equals`. -/
def equalsStringsLoop : List String → List String → Bool
  | a :: as, b :: bs => if a ≠ b then false else equalsStringsLoop as bs
  | _, _ => true

/-- Go `Equals`, the cases of the three argument types. -/
def Argument.Equals : Argument → Argument → Bool
  | .NumberArgument av, .NumberArgument bv => decide (av = bv)
  | .TagArgument av, .TagArgument bv => decide (av = bv)
  | .StringArgument av, .StringArgument bv =>
    if av.length ≠ bv.length then false else equalsStringsLoop av bv
  | _, _ => false

/-- The loop of Go `equalsArguments`. -/
def equalsArgumentsLoop : List Argument → List Argument → Bool
  | a :: as, b :: bs => if !(Argument.Equals a b) then false else equalsArgumentsLoop as bs
  | _, _ => true

/-- Go `equalsArguments`. -/
def equalsArguments (av bv : List Argument) : Bool :=
  if av.length ≠ bv.length then false else equalsArgumentsLoop av bv

mutual
/-- Go `Equals`, the cases of the test types. -/
def Test.Equals : Test → Test → Bool
  | .TrueTest, .TrueTest => true
  | .FalseTest, .FalseTest => true
  | .NotTest av, .NotTest bv => Test.Equals av bv
  | .AnyofTest av, .AnyofTest bv =>
    if av.length ≠ bv.length then false else Test.equalsLoop av bv
  | .AllofTest av, .AllofTest bv =>
    if av.length ≠ bv.length then false else Test.equalsLoop av bv
  | .GenericTest an aa, .GenericTest bn ba => decide (an = bn) && equalsArguments aa ba
  | _, _ => false
/-- The loop of Go `equalsTests`. -/
def Test.equalsLoop : List Test → List Test → Bool
  | a :: as, b :: bs => if !(Test.Equals a b) then false else Test.equalsLoop as bs
  | _, _ => true
end

/-- Go `equalsTests`. -/
def equalsTests (av bv : List Test) : Bool :=
  if av.length ≠ bv.length then false else Test.equalsLoop av bv

/-- Go `Equals(av.Test, bv.Test)` on the tests of two control commands, either
of which may be nil. -/
def equalsOptTest : Option Test → Option Test → Bool
  | none, none => true
  | some a, some b => Test.Equals a b
  | _, _ => false

mutual
/-- Go `Equals`, the cases of the command types. -/
def Command.Equals : Command → Command → Bool
  | .ControlCommand an at_ ab, .ControlCommand bn bt bb =>
    decide (an = bn) && equalsOptTest at_ bt &&
      (if ab.length ≠ bb.length then false else Command.equalsLoop ab bb)
  | .StopCommand, .StopCommand => true
  | .GenericCommand an aa, .GenericCommand bn ba => decide (an = bn) && equalsArguments aa ba
  | .CommentCommand as_ at_, .CommentCommand bs bt => decide (as_ = bs) && decide (at_ = bt)
  | _, _ => false
/-- The loop of Go `equalsCommands`. -/
def Command.equalsLoop : List Command → List Command → Bool
  | a :: as, b :: bs => if !(Command.Equals a b) then false else Command.equalsLoop as bs
  | _, _ => true
end

/-- Go `equalsCommands`. -/
def equalsCommands (av bv : List Command) : Bool :=
  if av.length ≠ bv.length then false else Command.equalsLoop av bv

/-- Go `Equals`. -/
def Equals : Node → Node → Bool
  | .File av, .File bv => decide (av.Name = bv.Name) && equalsCommands av.List bv.List
  | .Command av, .Command bv => Command.Equals av bv
  | .Test av, .Test bv => Test.Equals av bv
  | .Argument av, .Argument bv => Argument.Equals av bv
  | .nil, .nil => true
  | _, _ => false

/-! ## parse/parser.go -/

/-- What `Parser.errorf` prints before it ends the process: the message and
the text of the token it names. -/
structure Diag where
  msg : String
  token : String
  deriving DecidableEq, Repr

/-- Outcome of a run of the parser: a value; the end of the process through
`errorf` or a runtime panic; a receive on the token channel that is never
matched; or the step budget of the model used up. -/
inductive Run (α : Type) where
  | ok (a : α)
  | exit (d : Diag)
  | blocked
  | outOfFuel
  deriving Repr

/-- Sequencing of runs. -/
def Run.bind {α β : Type} (r : Run α) (f : α → Run β) : Run β :=
  match r with
  | .ok a => f a
  | .exit d => .exit d
  | .blocked => .blocked
  | .outOfFuel => .outOfFuel

instance : Monad Run where
  pure := Run.ok
  bind := Run.bind

/-- A Go slice of tokens. -/
abbrev Tokens := List Token

/-- A Go slice of token types. -/
abbrev TokenTypes := List TokenType

/-- Go `Parser`: the fields the parse depends on. -/
structure Parser where
  name : String
  pos : Int
  Items : List Token
  List : List Command

/-- Go `p.Items[p.pos]`; an index out of range is a runtime panic. -/
def Parser.item (p : Parser) : Run Token :=
  if p.pos < 0 then .exit ⟨"index out of range", ""⟩
  else
    match p.Items[p.pos.toNat]? with
    | some t => .ok t
    | none => .exit ⟨"index out of range", ""⟩

/-- Go `Parser.next`. -/
def Parser.next (p : Parser) : Run (Token × Parser) := do
  let atEOF ← (if p.pos ≠ -1 then do
      let t ← p.item
      pure (decide (t.Typ = .EOF))
    else pure false)
  if atEOF then
    let t ← p.item
    pure (t, p)
  else
    let p1 := { p with pos := p.pos + 1 }
    if p1.pos ≥ p1.Items.length then
      .exit ⟨"Internal error in next(): parser.pos moving out of bounds of lexed tokens", ""⟩
    else
      let t ← p1.item
      if t.Typ = .ERROR then .exit ⟨t.String, ""⟩
      else pure (t, p1)

/-- Go `Parser.backup`. -/
def Parser.backup (p : Parser) : Run Parser :=
  if p.pos ≤ -1 then
    .exit ⟨"Internal error in backup: Cannot backup anymore pos is at start of Items", ""⟩
  else .ok { p with pos := p.pos - 1 }

/-- Go `Parser.accept`. -/
def Parser.accept (p : Parser) (valid : TokenTypes) : Run (Bool × Parser) := do
  let (item, p1) ← p.next
  if valid.any (fun tokTyp => decide (item.Typ = tokTyp)) then pure (true, p1)
  else
    let p2 ← p1.backup
    pure (false, p2)

/-- Go `atTerminator` of the parser. -/
def atTerminator (t : Token) : Bool :=
  decide (t.Typ = .SEMICOLON ∨ t.Typ = .COMMA ∨ t.Typ = .LEFTCURLY ∨ t.Typ = .EOF)

/-- The loop of Go `parseStrings`, with the slice `sl` built so far. -/
def parseStringsLoop (L : GoLib) : Nat → Parser → List String → Run (List String × Parser)
  | 0, _, _ => .outOfFuel
  | fuel + 1, p, sl => do
    let (t, p1) ← p.next
    if t.Typ = .STRING then
      match strconvUnquote L t.Val with
      | none => .exit ⟨"invalid syntax", ""⟩
      | some s =>
        let sl1 := sl ++ [s]
        let (t2, p2) ← p1.next
        if t2.Typ = .COMMA then parseStringsLoop L fuel p2 sl1
        else if t2.Typ = .RIGHTBRACKET then pure (sl1, p2)
        else .exit ⟨"Invalid Strings statement", t2.Val⟩
    else .exit ⟨"Invalid Strings statement", t.Val⟩

/-- Go `parseStrings`. -/
def parseStrings (L : GoLib) (fuel : Nat) (p : Parser) : Run (List String × Parser) := do
  let (t, p1) ← p.next
  if t.Typ = .LEFTBRACKET then parseStringsLoop L fuel p1 []
  else .exit ⟨"Invalid Strings statement", t.Val⟩

/-- The loop of Go `parseArguments`, with the slice `al` built so far. -/
def parseArgumentsLoop (L : GoLib) : Nat → Parser → List Argument → Run (List Argument × Parser)
  | 0, _, _ => .outOfFuel
  | fuel + 1, p, al => do
    let (t, p1) ← p.next
    if t.Typ = .NUMBER then parseArgumentsLoop L fuel p1 (al ++ [.NumberArgument t.Val])
    else if t.Typ = .TAG then parseArgumentsLoop L fuel p1 (al ++ [.TagArgument t.Val])
    else if t.Typ = .STRING then
      match strconvUnquote L t.Val with
      | none => .exit ⟨"invalid syntax", ""⟩
      | some s => parseArgumentsLoop L fuel p1 (al ++ [.StringArgument [s]])
    else if t.Typ = .LEFTBRACKET then do
      let p2 ← p1.backup
      let (sl, p3) ← parseStrings L fuel p2
      parseArgumentsLoop L fuel p3 (al ++ [.StringArgument sl])
    else if atTerminator t then do
      let p2 ← p1.backup
      pure (al, p2)
    else .exit ⟨"Invalid Arguments statement", t.Val⟩

/-- Go `parseArguments`. -/
def parseArguments (L : GoLib) (fuel : Nat) (p : Parser) : Run (List Argument × Parser) :=
  parseArgumentsLoop L fuel p []

mutual
/-- Go `parseTest`. -/
def parseTest (L : GoLib) : Nat → Parser → Run (Test × Parser)
  | 0, _ => .outOfFuel
  | fuel + 1, p => do
    let (t, p1) ← p.next
    if t.Typ = .NOT then do
      let (x, p2) ← parseTest L fuel p1
      pure (.NotTest x, p2)
    else if t.Typ = .ANYOF then do
      let (tl, p2) ← parseTests L fuel p1
      pure (.AnyofTest tl, p2)
    else if t.Typ = .ALLOF then do
      let (tl, p2) ← parseTests L fuel p1
      pure (.AllofTest tl, p2)
    else if t.Typ = .TRUE then pure (.TrueTest, p1)
    else if t.Typ = .FALSE then pure (.FalseTest, p1)
    else if t.Typ = .IDENTIFIER then do
      let (al, p2) ← parseArguments L fuel p1
      pure (.GenericTest t.Val al, p2)
    else .exit ⟨"Invalid Test statement", t.Val⟩
/-- Go `parseTests`. -/
def parseTests (L : GoLib) : Nat → Parser → Run (List Test × Parser)
  | 0, _ => .outOfFuel
  | fuel + 1, p => do
    let (t, p1) ← p.next
    if t.Typ = .LEFTPAREN then parseTestsLoop L fuel p1 []
    else .exit ⟨"Invalid Tests statement", t.Val⟩
/-- The loop of Go `parseTests`, with the slice `tl` built so far. -/
def parseTestsLoop (L : GoLib) : Nat → Parser → List Test → Run (List Test × Parser)
  | 0, _, _ => .outOfFuel
  | fuel + 1, p, tl => do
    let (x, p1) ← parseTest L fuel p
    let tl1 := tl ++ [x]
    let (t, p2) ← p1.next
    if t.Typ = .COMMA then parseTestsLoop L fuel p2 tl1
    else if t.Typ = .RIGHTPAREN then pure (tl1, p2)
    else .exit ⟨"Invalid Tests statement", t.Val⟩
end

mutual
/-- Go `parseCommand`. -/
def parseCommand (L : GoLib) : Nat → Parser → Run (Command × Parser)
  | 0, _ => .outOfFuel
  | fuel + 1, p => do
    let (t, p1) ← p.next
    if t.Typ = .IF ∨ t.Typ = .ELSE ∨ t.Typ = .ELSIF then do
      let name := t.Val
      let (test, p2) ← (if t.Typ = .IF ∨ t.Typ = .ELSIF then do
          let (x, q) ← parseTest L fuel p1
          pure (some x, q)
        else pure (none, p1))
      let (block, p3) ← parseBlock L fuel p2
      pure (.ControlCommand name test block, p3)
    else if t.Typ = .LINECOMMENT then pure (.CommentCommand "line" t.Val, p1)
    else if t.Typ = .BLOCKCOMMENT then pure (.CommentCommand "block" t.Val, p1)
    else if t.Typ = .STOP then do
      let (ok, p2) ← p1.accept [.SEMICOLON]
      if !ok then .exit ⟨"Invalid command", t.Val⟩
      else pure (.StopCommand, p2)
    else if t.Typ = .IDENTIFIER then do
      let name := t.Val
      let (al, p2) ← parseArguments L fuel p1
      let (ok, p3) ← p2.accept [.SEMICOLON]
      if !ok then .exit ⟨"Invalid command", t.Val⟩
      else pure (.GenericCommand name al, p3)
    else .exit ⟨"Invalid command", t.Val⟩
/-- Go `parseBlock`. -/
def parseBlock (L : GoLib) : Nat → Parser → Run (List Command × Parser)
  | 0, _ => .outOfFuel
  | fuel + 1, p => do
    let (t, p1) ← p.next
    if t.Typ = .LEFTCURLY then parseBlockLoop L fuel p1 []
    else .exit ⟨"Invalid block statement", t.Val⟩
/-- The loop of Go `parseBlock`, with the slice `cl` built so far. -/
def parseBlockLoop (L : GoLib) : Nat → Parser → List Command → Run (List Command × Parser)
  | 0, _, _ => .outOfFuel
  | fuel + 1, p, cl => do
    let (c, p1) ← parseCommand L fuel p
    let cl1 := cl ++ [c]
    let (t, p2) ← p1.next
    if t.Typ = .RIGHTCURLY then pure (cl1, p2)
    else do
      let p3 ← p2.backup
      parseBlockLoop L fuel p3 cl1
end

/-- Go `parseFile`. -/
def parseFile (L : GoLib) (fuel : Nat) (p : Parser) : Run Parser := do
  let (t, p1) ← p.next
  if t.IsCommand ∨ t.Typ = .LINECOMMENT ∨ t.Typ = .BLOCKCOMMENT ∨ t.Typ = .IDENTIFIER then do
    let p2 ← p1.backup
    let (command, p3) ← parseCommand L fuel p2
    pure { p3 with List := p3.List ++ [command] }
  else if t.Typ = .EOF then pure p1
  else .exit ⟨"Invalid statement", t.Val⟩

/-- The receive loop of Go `Parser.run` on the tokens the scanner sends before
it halts: the tokens up to and including the first EOF token, or `none` when
the loop asks for a token after the last one sent. -/
def receive : List Token → Option (List Token)
  | [] => none
  | t :: ts => if t.Typ ≠ .EOF then (receive ts).map (fun r => t :: r) else some [t]

/-- Go `Parser.run` on the tokens of a scanner that has halted. -/
def Parser.run (L : GoLib) (fuel : Nat) (p : Parser) (sent : Tokens) : Run Parser :=
  match receive sent with
  | none => .blocked
  | some items => parseFile L fuel { p with Items := items }

/-- Go `parse.Parse`.  The scanner and the parser each get the budget `fuel`;
while the scanner has not halted within it the outcome is `outOfFuel`. -/
def parse.Parse (L : GoLib) (fuel : Nat) (name input : String) : Run Parser :=
  match Lexer.run L fuel (Lex input) with
  | (some _, _) => .outOfFuel
  | (none, l) => Parser.run L fuel { name := name, pos := -1, Items := [], List := [] } l.items

/-! ## sieve.go -/

/-- Go `sieve.Parse`. -/
def Parse (L : GoLib) (fuel : Nat) (name text : String) : Run File := do
  let p ← parse.Parse L fuel name text
  pure { Name := name, List := p.List }

/-! ## Notions used in the statements -/

/-- Information order on outcomes: `outOfFuel` is below every outcome. -/
def Run.le {α : Type} (r r' : Run α) : Prop := r = .outOfFuel ∨ r = r'

/-- Partial correctness of a run: a value it returns satisfies `P`. -/
def Run.Sat {α : Type} (r : Run α) (P : α → Prop) : Prop := ∀ a, r = .ok a → P a

/-- The parser `q` differs from `p` in its position only. -/
def Frame (p q : Parser) : Prop := q.name = p.name ∧ q.Items = p.Items ∧ q.List = p.List

/-- The outcome of `sieve.Parse`: the outcome reached within some budget. -/
def Returns (L : GoLib) (name text : String) (r : Run File) : Prop :=
  r ≠ .outOfFuel ∧ ∃ fuel, Parse L fuel name text = r

/-- The scanner halts on `input` after it has sent exactly the tokens `sent`. -/
def Scans (L : GoLib) (input : String) (sent : List Token) : Prop :=
  ∃ fuel, lexTokens L fuel input = some sent

/-- The parser before `run`, as `parse.Parse` builds it. -/
def Parser.init (name : String) : Parser := { name := name, pos := -1, Items := [], List := [] }

/-- The input of `TestIfElseControlCommand` in `parse/parser_test.go`. -/
def testIfElseInput : String :=
  "if header :contains \"Subject\" [\"keyword1\", \"keyword2\"] \x7b discard :under \"test\"; stop; \x7d else \x7b stop; \x7d"

/-- The first of the two commands `TestIfElseControlCommand` expects. -/
def testIfElseFirst : Command :=
  .ControlCommand "if"
    (some (.GenericTest "header"
      [.TagArgument ":contains", .StringArgument ["Subject"], .StringArgument ["keyword1", "keyword2"]]))
    [.GenericCommand "discard" [.TagArgument ":under", .StringArgument ["test"]], .StopCommand]

/-- The text of a keyword token is its keyword. -/
def KwOK (t : Token) : Prop :=
  (t.Typ = .IF → t.Val = "if") ∧ (t.Typ = .ELSIF → t.Val = "elsif") ∧ (t.Typ = .ELSE → t.Val = "else")

/-- A token that is neither EOF nor ERROR. -/
def Token.plain (t : Token) : Prop := t.Typ ≠ .EOF ∧ t.Typ ≠ .ERROR

/-- What one step of the scanner may send: tokens with keyword texts; plain
tokens only while the scanner goes on; and, when it halts, plain tokens
followed by one EOF or ERROR token. -/
def StepSends (s : Option StateFn) (new : List Token) : Prop :=
  (∀ t ∈ new, KwOK t) ∧
  (s ≠ none → ∀ t ∈ new, t.plain) ∧
  (s = none → ∃ pre last, new = pre ++ [last] ∧ (∀ t ∈ pre, t.plain) ∧
    (last.Typ = .EOF ∨ last.Typ = .ERROR))

/-- The configuration `c` follows the scanner `l0` by one step's worth of
sent tokens. -/
def Sends (l0 : Lexer) (c : Option StateFn × Lexer) : Prop :=
  ∃ new, c.2.items = l0.items ++ new ∧ StepSends c.1 new

/-- The parser one token further. -/
def Parser.adv (p : Parser) : Parser := { p with pos := p.pos + 1 }

/-- The parser has not yet taken the tokens `ts`, which are all that is left
of `Items`, and does not stand on an EOF token. -/
def Before (p : Parser) (ts : List Token) : Prop :=
  -1 ≤ p.pos ∧ p.Items.drop (p.pos + 1).toNat = ts ∧
    (p.pos = -1 ∨ ∃ t, p.item = .ok t ∧ t.Typ ≠ .EOF)

/-- The parser `n` tokens further. -/
def Parser.advBy (p : Parser) (n : Nat) : Parser := { p with pos := p.pos + n }

/-- The grammar of a string list after its `[`: STRING tokens separated by
COMMA tokens and closed by a RIGHTBRACKET token, with the values they unquote
to. -/
inductive StringsToks (L : GoLib) : List String → List Token → Prop where
  | last (t rb : Token) (s : String) :
      t.Typ = .STRING → strconvUnquote L t.Val = some s → rb.Typ = .RIGHTBRACKET →
      StringsToks L [s] [t, rb]
  | cons (t c : Token) (s : String) (ss : List String) (ts : List Token) :
      t.Typ = .STRING → strconvUnquote L t.Val = some s → c.Typ = .COMMA →
      StringsToks L ss ts → StringsToks L (s :: ss) (t :: c :: ts)

/-- The grammar of one argument: a NUMBER, a TAG, a STRING or a bracketed
string list, with the argument it denotes. -/
inductive ArgToks (L : GoLib) : Argument → List Token → Prop where
  | number (t : Token) : t.Typ = .NUMBER → ArgToks L (.NumberArgument t.Val) [t]
  | tag (t : Token) : t.Typ = .TAG → ArgToks L (.TagArgument t.Val) [t]
  | string (t : Token) (s : String) :
      t.Typ = .STRING → strconvUnquote L t.Val = some s → ArgToks L (.StringArgument [s]) [t]
  | list (lb : Token) (ss : List String) (ts : List Token) :
      lb.Typ = .LEFTBRACKET → StringsToks L ss ts → ArgToks L (.StringArgument ss) (lb :: ts)

/-- The grammar of an argument sequence. -/
inductive ArgsToks (L : GoLib) : List Argument → List Token → Prop where
  | nil : ArgsToks L [] []
  | cons (a : Argument) (as : List Argument) (ta tas : List Token) :
      ArgToks L a ta → ArgsToks L as tas → ArgsToks L (a :: as) (ta ++ tas)

/-- The argument a NUMBER, TAG or STRING token stands for. -/
def SimpleArg (L : GoLib) (a : Argument) (t : Token) : Prop :=
  (t.Typ = .NUMBER ∧ a = .NumberArgument t.Val) ∨ (t.Typ = .TAG ∧ a = .TagArgument t.Val) ∨
    (t.Typ = .STRING ∧ ∃ s, strconvUnquote L t.Val = some s ∧ a = .StringArgument [s])

/-- The input of `TestIfControlCommand` in `parse/parser_test.go`. -/
def testIfInput : String :=
  "if header :contains \"Subject\" [\"keyword1\", \"keyword2\"] \x7b discard :under \"test\"; stop; \x7d"

/-- The parse of a test: `parseTest`, started at `p`, returns the test `x` and
the parser `q` within some budget. -/
def ParsesTest (L : GoLib) (p : Parser) (x : Test) (q : Parser) : Prop :=
  ∃ fuel, parseTest L fuel p = .ok (x, q)

/-- The tests of a parenthesised list, after its `(`: the parse of a test
followed by `)`, or the parse of a test followed by `,` and the rest. -/
inductive TestsRun (L : GoLib) : Parser → List Test → Parser → Prop where
  | last (p q r : Parser) (x : Test) (t : Token) :
      ParsesTest L p x q → q.next = .ok (t, r) → t.Typ = .RIGHTPAREN → TestsRun L p [x] r
  | cons (p q r s : Parser) (x : Test) (xs : List Test) (t : Token) :
      ParsesTest L p x q → q.next = .ok (t, r) → t.Typ = .COMMA → TestsRun L r xs s →
      TestsRun L p (x :: xs) s

/-- A control command: its name, test and block. -/
abbrev Control := String × Option Test × List Command

mutual
/-- The control commands of a command, at every nesting depth, each as its
name, test and block. -/
def controls : Command → List Control
  | .ControlCommand name test block => (name, test, block) :: controlsList block
  | .CommentCommand _ _ => []
  | .StopCommand => []
  | .GenericCommand _ _ => []
/-- The control commands of a command sequence, at every nesting depth. -/
def controlsList : List Command → List Control
  | [] => []
  | c :: cs => controls c ++ controlsList cs
end

/-- The invariant of a control command: `if` and `elsif` carry a test, `else`
carries none, and there is no other name. -/
def ControlOK (x : Control) : Prop :=
  ((x.1 = "if" ∨ x.1 = "elsif") ∧ x.2.1.isSome = true) ∨ (x.1 = "else" ∧ x.2.1 = none)

/-- What the parser guarantees of every control command it builds. -/
def ControlBuilt (x : Control) : Prop :=
  ControlOK x ∧ x.2.2 ≠ []

/-- A script with control commands nested in a block. -/
def nestedInput : String :=
  "if true \x7b if false \x7b stop; \x7d elsif exists \"a\" \x7b keep; \x7d else \x7b stop; \x7d \x7d"

/-- The file `Parse` returns on `nestedInput`. -/
def nestedFile : File :=
  { Name := "t",
    List := [.ControlCommand "if" (some .TrueTest)
      [.ControlCommand "if" (some .FalseTest) [.StopCommand],
       .ControlCommand "elsif" (some (.GenericTest "exists" [.StringArgument ["a"]]))
         [.GenericCommand "keep" []],
       .ControlCommand "else" none [.StopCommand]]] }

/-! ## Notions of the round trip -/

/-- The scanner seen through its input: `pre` is the text before `start`, `tok`
the text between `start` and `pos`, `suf` the text from `pos` on; `d` is the
parenthesis depth and `items` the tokens sent. -/
structure Lexer.Is (l : Lexer) (pre tok suf : List Char) (d : Int) (items : List Token) : Prop where
  input_eq : l.input = pre ++ (tok ++ suf)
  start_eq : l.start = pre.length
  pos_eq : l.pos = pre.length + tok.length
  depth_eq : l.parenDepth = d
  items_eq : l.items = items

/-- The text of an IDENTIFIER or keyword token: letters, digits and
underscores, the first not an ASCII digit. -/
def IdentWord (L : GoLib) (w : List Char) : Prop :=
  (∀ c ∈ w, isAlphaNumeric L (some c) = true) ∧
    ∃ c, w.head? = some c ∧ ¬ ('0' ≤ c ∧ c ≤ '9')

/-- The text of a NUMBER token: ASCII digits, then at most one magnitude
letter. -/
def NumText (w : List Char) : Prop :=
  ∃ ds suf, w = ds ++ suf ∧ ds ≠ [] ∧ (∀ c ∈ ds, c ∈ "0123456789".data) ∧
    (suf = [] ∨ ∃ c, suf = [c] ∧ c ∈ "kKmMgG".data)

/-- The text of a TAG token: a colon, then letters, digits and underscores. -/
def TagText (L : GoLib) (w : List Char) : Prop :=
  ∃ v, w = ':' :: v ∧ ∀ c ∈ v, isAlphaNumeric L (some c) = true

/-- The text of a token agrees with its kind. -/
def TokOK (L : GoLib) (t : Token) : Prop :=
  KwOK t ∧
    (t.Typ = .IDENTIFIER → IdentWord L t.Val.data ∧ (key t.Val).toNat ≤ TokenType.COMMAND.toNat) ∧
    (t.Typ = .NUMBER → NumText t.Val.data) ∧
    (t.Typ = .TAG → TagText L t.Val.data)

/-- What a state of the scanner knows of the pending text `tok` and of the
text `suf` still to read. -/
def StateOK (L : GoLib) : StateFn → List Char → List Char → Prop
  | .lexStart, tok, _ => tok = []
  | .lexNumber, tok, suf => tok = [] ∧ ∃ c rest, suf = c :: rest ∧ ('0' ≤ c ∧ c ≤ '9')
  | .lexIdentifier, tok, suf =>
    (∀ c ∈ tok, isAlphaNumeric L (some c) = true) ∧
      ∃ c, (tok ++ suf).head? = some c ∧ isAlphaNumeric L (some c) = true ∧
        ¬ ('0' ≤ c ∧ c ≤ '9')
  | .lexTag, tok, _ => ∃ v, tok = ':' :: v ∧ ∀ c ∈ v, isAlphaNumeric L (some c) = true
  | .lexSemiColon, _, _ => True
  | .lexSpace, _, _ => True
  | .lexEndOfLine, _, _ => True
  | .lexString, _, _ => True
  | .lexLineComment, _, _ => True
  | .lexBlockComment, _, _ => True

/-- The invariant of a scan: the tokens sent have texts of their kind, and
while the scanner runs its cursor splits the input in a way its state knows. -/
def LexInv (L : GoLib) (c : Option StateFn × Lexer) : Prop :=
  (∀ t ∈ c.2.items, TokOK L t) ∧
    ∀ s, c.1 = some s →
      ∃ pre tok suf, c.2.Is pre tok suf c.2.parenDepth c.2.items ∧ StateOK L s tok suf

/-- An argument other than a StringArgument. -/
def plainArgument : Argument → Bool
  | .StringArgument _ => false
  | .NumberArgument _ => true
  | .TagArgument _ => true

mutual
/-- A test holding no StringArgument. -/
def plainTest : Test → Bool
  | .TrueTest => true
  | .FalseTest => true
  | .NotTest t => plainTest t
  | .AllofTest ts => plainTests ts
  | .AnyofTest ts => plainTests ts
  | .GenericTest _ args => args.all plainArgument
/-- Tests holding no StringArgument. -/
def plainTests : List Test → Bool
  | [] => true
  | t :: ts => plainTest t && plainTests ts
end

mutual
/-- A command holding no StringArgument and no CommentCommand, at any depth. -/
def plainCommand : Command → Bool
  | .CommentCommand _ _ => false
  | .StopCommand => true
  | .GenericCommand _ args => args.all plainArgument
  | .ControlCommand _ test block =>
    (match test with
      | none => true
      | some t => plainTest t) && plainCommands block
/-- Commands holding no StringArgument and no CommentCommand, at any depth. -/
def plainCommands : List Command → Bool
  | [] => true
  | c :: cs => plainCommand c && plainCommands cs
end

/-- A file holding no StringArgument and no CommentCommand, at any depth. -/
def plainFile (f : File) : Bool := plainCommands f.List

/-- A test whose text ends with the arguments of a generic test. -/
def opens : Test → Bool
  | .GenericTest _ _ => true
  | .NotTest t => opens t
  | .TrueTest => false
  | .FalseTest => false
  | .AllofTest _ => false
  | .AnyofTest _ => false

/-- An argument built from a token of the scanner. -/
def goodArgument (L : GoLib) : Argument → Prop
  | .NumberArgument v => NumText v.data
  | .TagArgument v => TagText L v.data
  | .StringArgument _ => True

/-- A name built from an IDENTIFIER token of the scanner. -/
def goodName (L : GoLib) (name : String) : Prop :=
  IdentWord L name.data ∧ (key name).toNat ≤ TokenType.COMMAND.toNat

mutual
/-- A test as the parser builds it from tokens of the scanner. -/
def goodTest (L : GoLib) : Test → Prop
  | .TrueTest => True
  | .FalseTest => True
  | .NotTest t => goodTest L t
  | .AllofTest ts => ts ≠ [] ∧ goodTests L ts
  | .AnyofTest ts => ts ≠ [] ∧ goodTests L ts
  | .GenericTest name args => goodName L name ∧ ∀ a ∈ args, goodArgument L a
/-- A test list as the parser builds it: the last test is followed by `)`, so
it does not end with the arguments of a generic test. -/
def goodTests (L : GoLib) : List Test → Prop
  | [] => True
  | t :: ts => goodTest L t ∧ (ts = [] → opens t = false) ∧ goodTests L ts
end

mutual
/-- A command as the parser builds it from tokens of the scanner. -/
def goodCommand (L : GoLib) : Command → Prop
  | .CommentCommand _ _ => True
  | .StopCommand => True
  | .GenericCommand name args => goodName L name ∧ ∀ a ∈ args, goodArgument L a
  | .ControlCommand name test block =>
    ControlOK (name, test, block) ∧ block ≠ [] ∧
      (match test with
        | none => True
        | some t => goodTest L t) ∧ goodCommands L block
/-- Commands as the parser builds them. -/
def goodCommands (L : GoLib) : List Command → Prop
  | [] => True
  | c :: cs => goodCommand L c ∧ goodCommands L cs
end

/-- The token the parser would take next is one that ends an argument list. -/
def NextTerm (p : Parser) : Prop :=
  ∀ t q, p.next = .ok (t, q) → atTerminator t = true

/-- The scanner, started in configuration `c` with the tokens `items` sent,
halts after it has sent further tokens of kinds and texts `sh`. -/
def Halts (L : GoLib) (c : Option StateFn × Lexer) (items : List Token)
    (sh : List (TokenType × String)) : Prop :=
  ∃ n l new, Lexer.run L n c = (none, l) ∧ l.items = items ++ new ∧ shape new = sh

/-- A state in which the scanner skips blanks: `lexStart` with nothing pending,
`lexSpace` or `lexEndOfLine`. -/
def BlankState (s : StateFn) (tok : List Char) : Prop :=
  (s = .lexStart ∧ tok = []) ∨ s = .lexSpace ∨ s = .lexEndOfLine

/-- From a state that skips blanks, at parenthesis depth `d`, the scanner reads
the text `text` to its end and halts, sending tokens of kinds and texts `sh`. -/
def Scan (L : GoLib) (text : List Char) (d : Int) (sh : List (TokenType × String)) : Prop :=
  ∀ (s : StateFn) (l : Lexer) (pre tok : List Char) (items : List Token),
    BlankState s tok → l.Is pre tok text d items → Halts L (some s, l) items sh

/-- The kinds and texts of the tokens of rendered NUMBER and TAG arguments. -/
def argsShape : List Argument → List (TokenType × String)
  | [] => []
  | .NumberArgument v :: as => (.NUMBER, v) :: argsShape as
  | .TagArgument v :: as => (.TAG, v) :: argsShape as
  | .StringArgument _ :: as => argsShape as

mutual
/-- The kinds and texts of the tokens of a rendered test. -/
def testShape : Test → List (TokenType × String)
  | .TrueTest => [(.TRUE, "true")]
  | .FalseTest => [(.FALSE, "false")]
  | .NotTest t => (.NOT, "not") :: testShape t
  | .AllofTest ts =>
    (.ALLOF, "allof") :: (.LEFTPAREN, "(") :: (testsShape ts 0 ++ [(.RIGHTPAREN, ")")])
  | .AnyofTest ts =>
    (.ANYOF, "anyof") :: (.LEFTPAREN, "(") :: (testsShape ts 0 ++ [(.RIGHTPAREN, ")")])
  | .GenericTest name args => (.IDENTIFIER, name) :: argsShape args
/-- The kinds and texts of the tokens of a rendered test list, from index `i`. -/
def testsShape : List Test → Nat → List (TokenType × String)
  | [], _ => []
  | v :: vs, i => (if i > 0 then [(.COMMA, ",")] else []) ++ testShape v ++ testsShape vs (i + 1)
end

mutual
/-- The kinds and texts of the tokens of a rendered command. -/
def cmdShape : Command → List (TokenType × String)
  | .ControlCommand name test block =>
    (key name, name) ::
      ((match test with
        | some t => testShape t
        | none => []) ++ (.LEFTCURLY, "\x7b") :: (blockShape block ++ [(.RIGHTCURLY, "\x7d")]))
  | .StopCommand => [(.STOP, "stop"), (.SEMICOLON, ";")]
  | .CommentCommand _ _ => []
  | .GenericCommand name args => (.IDENTIFIER, name) :: (argsShape args ++ [(.SEMICOLON, ";")])
/-- The kinds and texts of the tokens of a rendered block. -/
def blockShape : List Command → List (TokenType × String)
  | [] => []
  | c :: cs => cmdShape c ++ blockShape cs
end

/-- The spec's first witness input for the round trip. -/
def headerInput : String := "header :contains \"Subject\" \"subject keyword\";"

/-- The file `Parse` returns on `headerInput`. -/
def headerFile : File :=
  { Name := "t",
    List := [.GenericCommand "header"
      [.TagArgument ":contains", .StringArgument ["Subject"], .StringArgument ["subject keyword"]]] }

/-- A script holding a `#aoeu` line comment. -/
def commentInput : String := "#aoeu\n"

/-- The file `Parse` returns on `commentInput`. -/
def commentFile : File := { Name := "t", List := [.CommentCommand "line" "#aoeu"] }

/-- A script without string literals and comments. -/
def plainInput : String :=
  "if not allof (size :over 10k, true) \x7b keep :flags 1; stop; \x7d"

/-- The file `Parse` returns on `plainInput`. -/
def plainParsed : File :=
  { Name := "t",
    List := [.ControlCommand "if"
      (some (.NotTest (.AllofTest
        [.GenericTest "size" [.TagArgument ":over", .NumberArgument "10k"], .TrueTest])))
      [.GenericCommand "keep" [.TagArgument ":flags", .NumberArgument "1"], .StopCommand]] }

/-! ## Notions of the scan -/

/-- An EOF or ERROR token: the token after which the scanner sends nothing. -/
def Token.sentinel (t : Token) : Bool := decide (t.Typ = .EOF ∨ t.Typ = .ERROR)

/-- The words of the keyword table `key`. -/
def keywords : List String :=
  ["if", "elsif", "else", "stop", "true", "false", "not", "anyof", "allof"]

/-- Literals joined by single spaces. -/
def spaced : List String → String
  | [] => ""
  | [w] => w
  | w :: ws => w ++ " " ++ spaced ws

/-- The scanner started in configuration `c` gets to configuration `c'`. -/
def Reaches (L : GoLib) (c c' : Option StateFn × Lexer) : Prop :=
  ∃ n, Lexer.run L n c = c'

/-- The scanner started in configuration `c` never halts and never sends a
token: after any number of steps it is still running and the tokens sent are
`items`. -/
def Diverges (L : GoLib) (c : Option StateFn × Lexer) (items : List Token) : Prop :=
  ∀ n, ∃ s l, Lexer.run L n c = (some s, l) ∧ l.items = items

/-- The text holds the two-character sequence `*/`. -/
def hasCloser : List Char → Bool
  | [] => false
  | c :: cs => (c == '*' && cs.head? == some '/') || hasCloser cs

/-- A blank: space, tab, carriage return or line feed. -/
def isBlank (c : Char) : Bool := isSpace (some c) || isEndOfLine (some c)

/-- The tokens `ts` lie in the text `text`, which starts at byte offset `off`
of the input, one after the other: before each token come blanks only, its
`Pos` is the byte offset at which its text starts, its text is the input from
there, and after the last token the text holds blanks only. -/
def Tiled : Nat → List Char → List Token → Prop
  | _, text, [] => ∀ c ∈ text, isBlank c = true
  | off, text, t :: ts =>
    ∃ gap rest, text = gap ++ (t.Val.data ++ rest) ∧ (∀ c ∈ gap, isBlank c = true) ∧
      t.Pos = off + byteLen gap ∧ Tiled (off + byteLen gap + byteLen t.Val.data) rest ts

/-- What a state of the scanner knows of the pending text: none at `lexStart`
and `lexNumber`, blanks in `lexSpace` and `lexEndOfLine`. -/
def BlankOK : StateFn → List Char → Prop
  | .lexStart, tok => tok = []
  | .lexSpace, tok => ∀ c ∈ tok, isBlank c = true
  | .lexEndOfLine, tok => ∀ c ∈ tok, isBlank c = true
  | .lexNumber, tok => tok = []
  | _, _ => True

/-- The tokens sent by a scan that has halted: the tokens before the last lie
one after the other in a part `a` of the input that starts at offset 0, the
last token is placed at the end of `a`, and if it is no ERROR token then `a` is
the whole input and the text of the token is empty. -/
def Final (input : List Char) (sent : List Token) : Prop :=
  ∃ ts last a b, sent = ts ++ [last] ∧ input = a ++ b ∧ Tiled 0 a ts ∧
    last.Pos = byteLen a ∧ (last.Typ ≠ .ERROR → b = [] ∧ last.Val = "")

/-- The invariant of a scan of `input`: while the scanner runs, the tokens sent
lie one after the other in the text before `start`; once it has halted they are
`Final`. -/
def TileInv (input : List Char) (c : Option StateFn × Lexer) : Prop :=
  match c.1 with
  | some s =>
    ∃ pre tok suf, c.2.Is pre tok suf c.2.parenDepth c.2.items ∧ pre ++ (tok ++ suf) = input ∧
      Tiled 0 pre c.2.items ∧ BlankOK s tok
  | none => Final input c.2.items

/-! ## Notions of the syntax trees, the rendering and the tags -/

/-- The parser stands on an EOF token: the test
`p.pos != -1 && p.Items[p.pos].Typ == EOF` of `Parser.next`. -/
def Parser.atEOF (p : Parser) : Prop := p.pos ≠ -1 ∧ ∃ t, p.item = .ok t ∧ t.Typ = .EOF

/-- The parser with the tokens `stop` and EOF at position `pos`. -/
def stopEnd (pos : Int) : Parser :=
  { name := "t", pos := pos, Items := [⟨.STOP, 0, "stop"⟩, ⟨.EOF, 4, ""⟩], List := [] }

/-- The text a command is rendered to begins with a name that begins with a
tab. -/
def tabName : Command → Bool
  | .ControlCommand name _ _ => name.data.head? == some '\t'
  | .GenericCommand name _ => name.data.head? == some '\t'
  | _ => false

/-- The input of `TestArguments` in `parse/lex_test.go`. -/
def testArgumentsInput : String := "\"subject\" :under 1024k"

/-- The scanner on `testArgumentsInput` after the STRING token and the blank. -/
def testArgumentsAtTag : Lexer :=
  { input := testArgumentsInput.data
    pos := 10
    start := 10
    width := 1
    parenDepth := 0
    items := [⟨.STRING, 0, "\"subject\""⟩] }

/-! ## Notions of parentheses and strings -/

/-- Number of tokens of kind `k` among `ts`. -/
def countTyp (k : TokenType) (ts : List Token) : Nat :=
  (ts.filter (fun t => decide (t.Typ = k))).length

/-- The text of a STRING token: a double quote, a text without double quote,
and a double quote. -/
def StrText (w : List Char) : Prop := ∃ s, w = '"' :: (s ++ ['"']) ∧ '"' ∉ s

/-- No initial part of `ts` has more RIGHTPAREN than LEFTPAREN tokens. -/
def ParensOK (ts : List Token) : Prop :=
  ∀ n, countTyp .RIGHTPAREN (ts.take n) ≤ countTyp .LEFTPAREN (ts.take n)

/-- What a running scanner has sent: the depth `d` is the number of LEFTPAREN
less the number of RIGHTPAREN tokens, no initial part closes more parentheses
than it opens, and the STRING tokens have the text of a string. -/
def Marks (d : Int) (items : List Token) : Prop :=
  d = (countTyp .LEFTPAREN items : Int) - (countTyp .RIGHTPAREN items : Int) ∧ ParensOK items ∧
    ∀ t ∈ items, t.Typ = .STRING → StrText t.Val.data

/-- What a state of the scanner knows of the pending text: none at `lexStart`
and `lexNumber`, an opening double quote and no other in `lexString`. -/
def QuoteOK : StateFn → List Char → Prop
  | .lexStart, tok => tok = []
  | .lexNumber, tok => tok = []
  | .lexString, tok => ∃ s, tok = '"' :: s ∧ '"' ∉ s
  | _, _ => True

/-- What a halted scanner has sent: STRING tokens with the text of a string,
and, when the last token is EOF, no initial part that closes more parentheses
than it opens. -/
def Ended (items : List Token) : Prop :=
  (∀ t ∈ items, t.Typ = .STRING → StrText t.Val.data) ∧
    ((∃ ts e, items = ts ++ [e] ∧ e.Typ = .EOF) → ParensOK items)

/-- The invariant of a scan on parentheses and strings. -/
def MarkInv (c : Option StateFn × Lexer) : Prop :=
  match c.1 with
  | some s =>
    ∃ pre tok suf, c.2.Is pre tok suf c.2.parenDepth c.2.items ∧
      Marks c.2.parenDepth c.2.items ∧ QuoteOK s tok
  | none => Ended c.2.items

/-- The input `"a\\"b"`: a string literal with a backslash before a quote. -/
def escapedQuoteInput : String := "\"a\\\"b\""

/-! ## Notions of termination -/

/-- A list of tokens left to parse: no ERROR token, and nothing after an EOF
token. -/
def Buffer (ts : List Token) : Prop :=
  (∀ t ∈ ts, t.Typ ≠ .ERROR) ∧ ∀ a t b, ts = a ++ t :: b → t.Typ = .EOF → b = []

/-- A token buffer without ERROR token whose only EOF token is its last
element. -/
def WellFormed (items : List Token) : Prop :=
  ∃ body e, items = body ++ [e] ∧ e.Typ = .EOF ∧ ∀ t ∈ body, t.Typ ≠ .EOF ∧ t.Typ ≠ .ERROR

/-- The parser `q` has taken an initial part of `ts`, at least one token when
`strict`, has the rest before it and does not stand on an EOF token. -/
def Took (strict : Bool) (ts : List Token) (q : Parser) : Prop :=
  ∃ pre rest, ts = pre ++ rest ∧ Before q rest ∧ (strict = true → 0 < pre.length)

/-- The run has ended, by a value with tokens of `ts` taken, or by `errorf`. -/
def Prog {α : Type} (strict : Bool) (ts : List Token) (r : Run (α × Parser)) : Prop :=
  match r with
  | .ok (_, q) => Took strict ts q
  | .exit _ => True
  | .blocked => False
  | .outOfFuel => False

/-- The run has ended, by a value or by `errorf`. -/
def Run.Halted {α : Type} (r : Run α) : Prop := (∃ a, r = .ok a) ∨ ∃ d, r = .exit d

/-- The tokens of `stop;`. -/
def stopItems : List Token := [⟨.STOP, 0, "stop"⟩, ⟨.SEMICOLON, 4, ";"⟩, ⟨.EOF, 5, ""⟩]

/-- The tokens of `if`, with nothing after it. -/
def ifItems : List Token := [⟨.IF, 0, "if"⟩, ⟨.EOF, 2, ""⟩]

/-- The input `stop; stop`: a terminated `stop` and one that no `;` follows. -/
def stopStopInput : String := "stop; stop"

/-! # Theorems -/

/-! ## Budget monotonicity

A run that ends within a budget ends the same way within every larger one. -/

theorem Run.le_refl {α : Type} (r : Run α) : Run.le r r := Or.inr rfl

theorem Run.le_trans {α : Type} {a b c : Run α} (h1 : Run.le a b) (h2 : Run.le b c) :
    Run.le a c := by
  rcases h1 with h | h
  · exact Or.inl h
  · subst h; exact h2

theorem Run.bind_le {α β : Type} {r r' : Run α} {f g : α → Run β}
    (h : Run.le r r') (hf : ∀ a, Run.le (f a) (g a)) :
    Run.le (r >>= f) (r' >>= g) := by
  rcases h with h | h
  · subst h; exact Or.inl rfl
  · subst h
    cases r with
    | ok a => exact hf a
    | exit d => exact Or.inr rfl
    | blocked => exact Or.inr rfl
    | outOfFuel => exact Or.inl rfl

theorem Run.ite_le {α : Type} {c : Prop} [Decidable c] {a a' b b' : Run α}
    (h1 : Run.le a a') (h2 : Run.le b b') :
    Run.le (if c then a else b) (if c then a' else b') := by
  split <;> assumption

theorem Run.le_of_step {α : Type} (f : Nat → Run α) (h : ∀ n, Run.le (f n) (f (n + 1))) :
    ∀ n m, n ≤ m → Run.le (f n) (f m) := by
  intro n m hnm
  induction hnm with
  | refl => exact Run.le_refl _
  | step _ ih => exact Run.le_trans ih (h _)

theorem Run.eq_of_le {α : Type} {r r' : Run α} (h : Run.le r r') (hr : r ≠ .outOfFuel) :
    r' = r := by
  rcases h with h | h
  · exact absurd h hr
  · exact h.symm

theorem parseStringsLoop_step (L : GoLib) (n : Nat) :
    ∀ p sl, Run.le (parseStringsLoop L n p sl) (parseStringsLoop L (n + 1) p sl) := by
  induction n with
  | zero => intro p sl; exact Or.inl rfl
  | succ n ih =>
    intro p sl
    rw [parseStringsLoop, parseStringsLoop]
    refine Run.bind_le (Run.le_refl _) ?_
    rintro ⟨t, p1⟩
    refine Run.ite_le ?_ (Run.le_refl _)
    cases strconvUnquote L t.Val with
    | none => exact Run.le_refl _
    | some s =>
      refine Run.bind_le (Run.le_refl _) ?_
      rintro ⟨t2, p2⟩
      exact Run.ite_le (ih _ _) (Run.le_refl _)

theorem parseStrings_step (L : GoLib) (n : Nat) (p : Parser) :
    Run.le (parseStrings L n p) (parseStrings L (n + 1) p) := by
  unfold parseStrings
  refine Run.bind_le (Run.le_refl _) ?_
  rintro ⟨t, p1⟩
  exact Run.ite_le (parseStringsLoop_step L n _ _) (Run.le_refl _)

theorem parseArgumentsLoop_step (L : GoLib) (n : Nat) :
    ∀ p al, Run.le (parseArgumentsLoop L n p al) (parseArgumentsLoop L (n + 1) p al) := by
  induction n with
  | zero => intro p al; exact Or.inl rfl
  | succ n ih =>
    intro p al
    rw [parseArgumentsLoop, parseArgumentsLoop]
    refine Run.bind_le (Run.le_refl _) ?_
    rintro ⟨t, p1⟩
    refine Run.ite_le (ih _ _) (Run.ite_le (ih _ _) (Run.ite_le ?_ (Run.ite_le ?_ (Run.le_refl _))))
    · cases strconvUnquote L t.Val with
      | none => exact Run.le_refl _
      | some s => exact ih _ _
    · refine Run.bind_le (Run.le_refl _) ?_
      intro p2
      refine Run.bind_le (parseStrings_step L n p2) ?_
      rintro ⟨sl, p3⟩
      exact ih _ _

theorem parseArguments_step (L : GoLib) (n : Nat) (p : Parser) :
    Run.le (parseArguments L n p) (parseArguments L (n + 1) p) :=
  parseArgumentsLoop_step L n p []

theorem parseTest_step_all (L : GoLib) (n : Nat) :
    (∀ p, Run.le (parseTest L n p) (parseTest L (n + 1) p)) ∧
    (∀ p, Run.le (parseTests L n p) (parseTests L (n + 1) p)) ∧
    (∀ p tl, Run.le (parseTestsLoop L n p tl) (parseTestsLoop L (n + 1) p tl)) := by
  induction n with
  | zero => exact ⟨fun _ => Or.inl rfl, fun _ => Or.inl rfl, fun _ _ => Or.inl rfl⟩
  | succ n ih =>
    obtain ⟨ih1, ih2, ih3⟩ := ih
    refine ⟨?_, ?_, ?_⟩
    · intro p
      rw [parseTest, parseTest]
      refine Run.bind_le (Run.le_refl _) ?_
      rintro ⟨t, p1⟩
      refine Run.ite_le ?_ (Run.ite_le ?_ (Run.ite_le ?_ (Run.ite_le (Run.le_refl _)
        (Run.ite_le (Run.le_refl _) (Run.ite_le ?_ (Run.le_refl _))))))
      · exact Run.bind_le (ih1 _) (fun _ => Run.le_refl _)
      · exact Run.bind_le (ih2 _) (fun _ => Run.le_refl _)
      · exact Run.bind_le (ih2 _) (fun _ => Run.le_refl _)
      · exact Run.bind_le (parseArguments_step L n _) (fun _ => Run.le_refl _)
    · intro p
      rw [parseTests, parseTests]
      refine Run.bind_le (Run.le_refl _) ?_
      rintro ⟨t, p1⟩
      exact Run.ite_le (ih3 _ _) (Run.le_refl _)
    · intro p tl
      rw [parseTestsLoop, parseTestsLoop]
      refine Run.bind_le (ih1 _) ?_
      rintro ⟨x, p1⟩
      refine Run.bind_le (Run.le_refl _) ?_
      rintro ⟨t, p2⟩
      exact Run.ite_le (ih3 _ _) (Run.le_refl _)

theorem parseCommand_step_all (L : GoLib) (n : Nat) :
    (∀ p, Run.le (parseCommand L n p) (parseCommand L (n + 1) p)) ∧
    (∀ p, Run.le (parseBlock L n p) (parseBlock L (n + 1) p)) ∧
    (∀ p cl, Run.le (parseBlockLoop L n p cl) (parseBlockLoop L (n + 1) p cl)) := by
  induction n with
  | zero => exact ⟨fun _ => Or.inl rfl, fun _ => Or.inl rfl, fun _ _ => Or.inl rfl⟩
  | succ n ih =>
    obtain ⟨ih1, ih2, ih3⟩ := ih
    refine ⟨?_, ?_, ?_⟩
    · intro p
      rw [parseCommand, parseCommand]
      refine Run.bind_le (Run.le_refl _) ?_
      rintro ⟨t, p1⟩
      refine Run.ite_le ?_ (Run.ite_le (Run.le_refl _) (Run.ite_le (Run.le_refl _)
        (Run.ite_le (Run.le_refl _) (Run.ite_le ?_ (Run.le_refl _)))))
      · refine Run.bind_le ?_ ?_
        · refine Run.ite_le ?_ (Run.le_refl _)
          exact Run.bind_le ((parseTest_step_all L n).1 _) (fun _ => Run.le_refl _)
        · rintro ⟨test, p2⟩
          exact Run.bind_le (ih2 _) (fun _ => Run.le_refl _)
      · refine Run.bind_le (parseArguments_step L n _) ?_
        rintro ⟨al, p2⟩
        exact Run.le_refl _
    · intro p
      rw [parseBlock, parseBlock]
      refine Run.bind_le (Run.le_refl _) ?_
      rintro ⟨t, p1⟩
      exact Run.ite_le (ih3 _ _) (Run.le_refl _)
    · intro p cl
      rw [parseBlockLoop, parseBlockLoop]
      refine Run.bind_le (ih1 _) ?_
      rintro ⟨c, p1⟩
      refine Run.bind_le (Run.le_refl _) ?_
      rintro ⟨t, p2⟩
      refine Run.ite_le (Run.le_refl _) ?_
      exact Run.bind_le (Run.le_refl _) (fun _ => ih3 _ _)

theorem parseFile_step (L : GoLib) (n : Nat) (p : Parser) :
    Run.le (parseFile L n p) (parseFile L (n + 1) p) := by
  unfold parseFile
  refine Run.bind_le (Run.le_refl _) ?_
  rintro ⟨t, p1⟩
  refine Run.ite_le ?_ (Run.le_refl _)
  refine Run.bind_le (Run.le_refl _) ?_
  intro p2
  exact Run.bind_le ((parseCommand_step_all L n).1 _) (fun _ => Run.le_refl _)

theorem Lexer.run_none (L : GoLib) (n : Nat) (l : Lexer) : Lexer.run L n (none, l) = (none, l) := by
  cases n <;> rfl

theorem Lexer.run_add (L : GoLib) (n k : Nat) (c : Option StateFn × Lexer) :
    Lexer.run L (n + k) c = Lexer.run L k (Lexer.run L n c) := by
  induction n generalizing c with
  | zero => simp [Lexer.run]
  | succ n ih =>
    obtain ⟨s, l⟩ := c
    cases s with
    | none => rw [Lexer.run_none, Lexer.run_none, Lexer.run_none]
    | some s =>
      have : n + 1 + k = (n + k) + 1 := by omega
      rw [this]
      simp only [Lexer.run]
      exact ih _

theorem Lexer.run_halted_mono (L : GoLib) {n m : Nat} {c : Option StateFn × Lexer} {l : Lexer}
    (h : Lexer.run L n c = (none, l)) (hnm : n ≤ m) : Lexer.run L m c = (none, l) := by
  obtain ⟨k, rfl⟩ := Nat.exists_eq_add_of_le hnm
  rw [Lexer.run_add, h, Lexer.run_none]

theorem Parse_step (L : GoLib) (n : Nat) (name text : String) :
    Run.le (Parse L n name text) (Parse L (n + 1) name text) := by
  unfold Parse parse.Parse
  refine Run.bind_le ?_ (fun _ => Run.le_refl _)
  rcases h : Lexer.run L n (Lex text) with ⟨s, l⟩
  cases s with
  | some s => exact Or.inl rfl
  | none =>
    rw [Lexer.run_halted_mono L h (Nat.le_succ n)]
    simp only [Parser.run]
    cases receive l.items with
    | none => exact Run.le_refl _
    | some items => exact parseFile_step L n _

/-- An outcome reached within some budget is the outcome within every larger
budget. -/
theorem Parse_mono (L : GoLib) {n m : Nat} (name text : String) {r : Run File}
    (h : Parse L n name text = r) (hr : r ≠ .outOfFuel) (hnm : n ≤ m) :
    Parse L m name text = r := by
  have := Run.le_of_step (fun k => Parse L k name text) (fun k => Parse_step L k name text) n m hnm
  subst h
  exact Run.eq_of_le this hr

/-! ## Outcomes -/

@[simp] theorem Run.bind_ok {α β : Type} (a : α) (f : α → Run β) : (Run.ok a >>= f) = f a := rfl

@[simp] theorem Run.bind_exit {α β : Type} (d : Diag) (f : α → Run β) :
    ((Run.exit d : Run α) >>= f) = Run.exit d := rfl

@[simp] theorem Run.bind_blocked {α β : Type} (f : α → Run β) :
    ((Run.blocked : Run α) >>= f) = Run.blocked := rfl

@[simp] theorem Run.bind_outOfFuel {α β : Type} (f : α → Run β) :
    ((Run.outOfFuel : Run α) >>= f) = Run.outOfFuel := rfl

@[simp] theorem Run.pure_eq {α : Type} (a : α) : (pure a : Run α) = Run.ok a := rfl

theorem Run.bind_eq_ok {α β : Type} {r : Run α} {f : α → Run β} {b : β}
    (h : (r >>= f) = .ok b) : ∃ a, r = .ok a ∧ f a = .ok b := by
  cases r with
  | ok a => exact ⟨a, rfl, h⟩
  | exit d => cases h
  | blocked => cases h
  | outOfFuel => cases h

theorem Run.Sat_bind {α β : Type} {r : Run α} {f : α → Run β} {P : α → Prop} {Q : β → Prop}
    (h : Run.Sat r P) (hf : ∀ a, P a → Run.Sat (f a) Q) : Run.Sat (r >>= f) Q := by
  intro b hb
  obtain ⟨a, ha, hfa⟩ := Run.bind_eq_ok hb
  exact hf a (h a ha) b hfa

theorem Run.Sat_ok {α : Type} {a : α} {P : α → Prop} (h : P a) : Run.Sat (Run.ok a) P := by
  intro b hb
  cases hb
  exact h

theorem Run.Sat_pure {α : Type} {a : α} {P : α → Prop} (h : P a) : Run.Sat (pure a) P :=
  Run.Sat_ok h

theorem Run.Sat_exit {α : Type} {d : Diag} {P : α → Prop} : Run.Sat (Run.exit d) P := by
  intro b hb
  cases hb

theorem Run.Sat_outOfFuel {α : Type} {P : α → Prop} : Run.Sat (Run.outOfFuel) P := by
  intro b hb
  cases hb

theorem Run.Sat_ite {α : Type} {c : Prop} [Decidable c] {a b : Run α} {P : α → Prop}
    (h1 : c → Run.Sat a P) (h2 : ¬c → Run.Sat b P) : Run.Sat (if c then a else b) P := by
  split
  · exact h1 ‹_›
  · exact h2 ‹_›

theorem Run.Sat_mono {α : Type} {r : Run α} {P Q : α → Prop} (h : Run.Sat r P)
    (hPQ : ∀ a, P a → Q a) : Run.Sat r Q := fun a ha => hPQ a (h a ha)

theorem Frame.refl (p : Parser) : Frame p p := ⟨rfl, rfl, rfl⟩

theorem Frame.trans {p q r : Parser} (h1 : Frame p q) (h2 : Frame q r) : Frame p r :=
  ⟨h2.1.trans h1.1, h2.2.1.trans h1.2.1, h2.2.2.trans h1.2.2⟩

/-! ## The parsing primitives -/

theorem Parser.next_frame (p : Parser) : Run.Sat p.next (fun r => Frame p r.2) := by
  unfold Parser.next
  refine Run.Sat_bind (P := fun _ => True) (fun _ _ => trivial) ?_
  intro atEOF _
  split
  · refine Run.Sat_bind (P := fun _ => True) (fun _ _ => trivial) ?_
    intro t _
    exact Run.Sat_pure (Frame.refl p)
  · refine Run.Sat_ite (fun _ => Run.Sat_exit) (fun _ => ?_)
    refine Run.Sat_bind (P := fun _ => True) (fun _ _ => trivial) ?_
    intro t _
    exact Run.Sat_ite (fun _ => Run.Sat_exit) (fun _ => Run.Sat_pure ⟨rfl, rfl, rfl⟩)

theorem Parser.backup_frame (p : Parser) : Run.Sat p.backup (fun q => Frame p q) := by
  unfold Parser.backup
  exact Run.Sat_ite (fun _ => Run.Sat_exit) (fun _ => Run.Sat_ok ⟨rfl, rfl, rfl⟩)

theorem Parser.accept_frame (p : Parser) (valid : TokenTypes) :
    Run.Sat (p.accept valid) (fun r => Frame p r.2) := by
  unfold Parser.accept
  refine Run.Sat_bind (Parser.next_frame p) ?_
  rintro ⟨item, p1⟩ h1
  refine Run.Sat_ite (fun _ => Run.Sat_pure h1) (fun _ => ?_)
  refine Run.Sat_bind (Parser.backup_frame p1) ?_
  intro p2 h2
  exact Run.Sat_pure (Frame.trans h1 h2)

theorem parseStringsLoop_frame (L : GoLib) (n : Nat) :
    ∀ p sl, Run.Sat (parseStringsLoop L n p sl) (fun r => Frame p r.2) := by
  induction n with
  | zero => intro p sl; exact Run.Sat_outOfFuel
  | succ n ih =>
    intro p sl
    rw [parseStringsLoop]
    refine Run.Sat_bind (Parser.next_frame p) ?_
    rintro ⟨t, p1⟩ h1
    refine Run.Sat_ite (fun _ => ?_) (fun _ => Run.Sat_exit)
    cases strconvUnquote L t.Val with
    | none => exact Run.Sat_exit
    | some s =>
      refine Run.Sat_bind (Parser.next_frame p1) ?_
      rintro ⟨t2, p2⟩ h2
      refine Run.Sat_ite (fun _ => ?_) (fun _ => Run.Sat_ite (fun _ => ?_) (fun _ => Run.Sat_exit))
      · exact Run.Sat_mono (ih p2 _) (fun _ h => Frame.trans (Frame.trans h1 h2) h)
      · exact Run.Sat_pure (Frame.trans h1 h2)

theorem parseStrings_frame (L : GoLib) (n : Nat) (p : Parser) :
    Run.Sat (parseStrings L n p) (fun r => Frame p r.2) := by
  unfold parseStrings
  refine Run.Sat_bind (Parser.next_frame p) ?_
  rintro ⟨t, p1⟩ h1
  refine Run.Sat_ite (fun _ => ?_) (fun _ => Run.Sat_exit)
  exact Run.Sat_mono (parseStringsLoop_frame L n p1 _) (fun _ h => Frame.trans h1 h)

theorem parseArgumentsLoop_frame (L : GoLib) (n : Nat) :
    ∀ p al, Run.Sat (parseArgumentsLoop L n p al) (fun r => Frame p r.2) := by
  induction n with
  | zero => intro p al; exact Run.Sat_outOfFuel
  | succ n ih =>
    intro p al
    rw [parseArgumentsLoop]
    refine Run.Sat_bind (Parser.next_frame p) ?_
    rintro ⟨t, p1⟩ h1
    have hrec : ∀ al1, Run.Sat (parseArgumentsLoop L n p1 al1) (fun r => Frame p r.2) :=
      fun al1 => Run.Sat_mono (ih p1 al1) (fun _ h => Frame.trans h1 h)
    refine Run.Sat_ite (fun _ => hrec _) (fun _ => Run.Sat_ite (fun _ => hrec _) (fun _ =>
      Run.Sat_ite (fun _ => ?_) (fun _ => Run.Sat_ite (fun _ => ?_) (fun _ =>
        Run.Sat_ite (fun _ => ?_) (fun _ => Run.Sat_exit)))))
    · cases strconvUnquote L t.Val with
      | none => exact Run.Sat_exit
      | some s => exact hrec _
    · refine Run.Sat_bind (Parser.backup_frame p1) ?_
      intro p2 h2
      refine Run.Sat_bind (parseStrings_frame L n p2) ?_
      rintro ⟨sl, p3⟩ h3
      exact Run.Sat_mono (ih p3 _) (fun _ h => Frame.trans (Frame.trans (Frame.trans h1 h2) h3) h)
    · refine Run.Sat_bind (Parser.backup_frame p1) ?_
      intro p2 h2
      exact Run.Sat_pure (Frame.trans h1 h2)

theorem parseArguments_frame (L : GoLib) (n : Nat) (p : Parser) :
    Run.Sat (parseArguments L n p) (fun r => Frame p r.2) :=
  parseArgumentsLoop_frame L n p []

theorem parseTest_frame_all (L : GoLib) (n : Nat) :
    (∀ p, Run.Sat (parseTest L n p) (fun r => Frame p r.2)) ∧
    (∀ p, Run.Sat (parseTests L n p) (fun r => Frame p r.2)) ∧
    (∀ p tl, Run.Sat (parseTestsLoop L n p tl) (fun r => Frame p r.2)) := by
  induction n with
  | zero => exact ⟨fun _ => Run.Sat_outOfFuel, fun _ => Run.Sat_outOfFuel, fun _ _ => Run.Sat_outOfFuel⟩
  | succ n ih =>
    obtain ⟨ih1, ih2, ih3⟩ := ih
    refine ⟨?_, ?_, ?_⟩
    · intro p
      rw [parseTest]
      refine Run.Sat_bind (Parser.next_frame p) ?_
      rintro ⟨t, p1⟩ h1
      refine Run.Sat_ite (fun _ => ?_) (fun _ => Run.Sat_ite (fun _ => ?_) (fun _ =>
        Run.Sat_ite (fun _ => ?_) (fun _ => Run.Sat_ite (fun _ => Run.Sat_pure h1) (fun _ =>
          Run.Sat_ite (fun _ => Run.Sat_pure h1) (fun _ =>
            Run.Sat_ite (fun _ => ?_) (fun _ => Run.Sat_exit))))))
      · exact Run.Sat_bind (ih1 p1) (fun _ h => Run.Sat_pure (Frame.trans h1 h))
      · exact Run.Sat_bind (ih2 p1) (fun _ h => Run.Sat_pure (Frame.trans h1 h))
      · exact Run.Sat_bind (ih2 p1) (fun _ h => Run.Sat_pure (Frame.trans h1 h))
      · exact Run.Sat_bind (parseArguments_frame L n p1) (fun _ h => Run.Sat_pure (Frame.trans h1 h))
    · intro p
      rw [parseTests]
      refine Run.Sat_bind (Parser.next_frame p) ?_
      rintro ⟨t, p1⟩ h1
      refine Run.Sat_ite (fun _ => ?_) (fun _ => Run.Sat_exit)
      exact Run.Sat_mono (ih3 p1 _) (fun _ h => Frame.trans h1 h)
    · intro p tl
      rw [parseTestsLoop]
      refine Run.Sat_bind (ih1 p) ?_
      rintro ⟨x, p1⟩ h1
      refine Run.Sat_bind (Parser.next_frame p1) ?_
      rintro ⟨t, p2⟩ h2
      refine Run.Sat_ite (fun _ => ?_) (fun _ => Run.Sat_ite (fun _ => ?_) (fun _ => Run.Sat_exit))
      · exact Run.Sat_mono (ih3 p2 _) (fun _ h => Frame.trans (Frame.trans h1 h2) h)
      · exact Run.Sat_pure (Frame.trans h1 h2)

theorem parseCommand_frame_all (L : GoLib) (n : Nat) :
    (∀ p, Run.Sat (parseCommand L n p) (fun r => Frame p r.2)) ∧
    (∀ p, Run.Sat (parseBlock L n p) (fun r => Frame p r.2)) ∧
    (∀ p cl, Run.Sat (parseBlockLoop L n p cl) (fun r => Frame p r.2)) := by
  induction n with
  | zero => exact ⟨fun _ => Run.Sat_outOfFuel, fun _ => Run.Sat_outOfFuel, fun _ _ => Run.Sat_outOfFuel⟩
  | succ n ih =>
    obtain ⟨ih1, ih2, ih3⟩ := ih
    refine ⟨?_, ?_, ?_⟩
    · intro p
      rw [parseCommand]
      refine Run.Sat_bind (Parser.next_frame p) ?_
      rintro ⟨t, p1⟩ h1
      refine Run.Sat_ite (fun _ => ?_) (fun _ => Run.Sat_ite (fun _ => Run.Sat_pure h1) (fun _ =>
        Run.Sat_ite (fun _ => Run.Sat_pure h1) (fun _ => Run.Sat_ite (fun _ => ?_) (fun _ =>
          Run.Sat_ite (fun _ => ?_) (fun _ => Run.Sat_exit)))))
      · refine Run.Sat_bind (P := fun r => Frame p r.2) ?_ ?_
        · refine Run.Sat_ite (fun _ => ?_) (fun _ => Run.Sat_pure h1)
          exact Run.Sat_bind ((parseTest_frame_all L n).1 p1) (fun _ h => Run.Sat_pure (Frame.trans h1 h))
        · rintro ⟨test, p2⟩ h2
          exact Run.Sat_bind (ih2 p2) (fun _ h => Run.Sat_pure (Frame.trans h2 h))
      · refine Run.Sat_bind (Parser.accept_frame p1 _) ?_
        rintro ⟨ok, p2⟩ h2
        exact Run.Sat_ite (fun _ => Run.Sat_exit) (fun _ => Run.Sat_pure (Frame.trans h1 h2))
      · refine Run.Sat_bind (parseArguments_frame L n p1) ?_
        rintro ⟨al, p2⟩ h2
        refine Run.Sat_bind (Parser.accept_frame p2 _) ?_
        rintro ⟨ok, p3⟩ h3
        exact Run.Sat_ite (fun _ => Run.Sat_exit)
          (fun _ => Run.Sat_pure (Frame.trans (Frame.trans h1 h2) h3))
    · intro p
      rw [parseBlock]
      refine Run.Sat_bind (Parser.next_frame p) ?_
      rintro ⟨t, p1⟩ h1
      refine Run.Sat_ite (fun _ => ?_) (fun _ => Run.Sat_exit)
      exact Run.Sat_mono (ih3 p1 _) (fun _ h => Frame.trans h1 h)
    · intro p cl
      rw [parseBlockLoop]
      refine Run.Sat_bind (ih1 p) ?_
      rintro ⟨c, p1⟩ h1
      refine Run.Sat_bind (Parser.next_frame p1) ?_
      rintro ⟨t, p2⟩ h2
      refine Run.Sat_ite (fun _ => Run.Sat_pure (Frame.trans h1 h2)) (fun _ => ?_)
      refine Run.Sat_bind (Parser.backup_frame p2) ?_
      intro p3 h3
      exact Run.Sat_mono (ih3 p3 _) (fun _ h => Frame.trans (Frame.trans (Frame.trans h1 h2) h3) h)

/-! ## From the scanner to the parser -/

theorem Parse_of_tokens (L : GoLib) {fuel : Nat} (name : String) {text : String} {sent : List Token}
    (h : lexTokens L fuel text = some sent) :
    Parse L fuel name text =
      (Parser.run L fuel (Parser.init name) sent >>= fun p => pure { Name := name, List := p.List }) := by
  unfold lexTokens at h
  unfold Parse parse.Parse
  rcases hr : Lexer.run L fuel (Lex text) with ⟨s, l⟩
  rw [hr] at h
  cases s with
  | some s => cases h
  | none =>
    simp only [Option.some.injEq] at h
    subst h
    rfl

theorem Returns_of_tokens (L : GoLib) (fuel : Nat) (name : String) {text : String}
    {sent : List Token} {r : Run File} (h : lexTokens L fuel text = some sent)
    (hp : (Parser.run L fuel (Parser.init name) sent >>= fun p => pure { Name := name, List := p.List }) = r)
    (hr : r ≠ .outOfFuel) : Returns L name text r :=
  ⟨hr, fuel, (Parse_of_tokens L name h).trans hp⟩

/-- The outcome of `sieve.Parse` is unique. -/
theorem Returns_unique (L : GoLib) {name text : String} {r r' : Run File}
    (h : Returns L name text r) (h' : Returns L name text r') : r = r' := by
  obtain ⟨hr, n, hn⟩ := h
  obtain ⟨hr', m, hm⟩ := h'
  have h1 := Parse_mono L name text hn hr (Nat.le_max_left n m)
  have h2 := Parse_mono L name text hm hr' (Nat.le_max_right n m)
  exact h1.symm.trans h2

theorem parse_list_length_le_one (L : GoLib) (fuel : Nat) (name text : String) (f : File)
    (h : Parse L fuel name text = .ok f) : f.List.length ≤ 1 := by
  unfold Parse at h
  obtain ⟨p, hp, hf⟩ := Run.bind_eq_ok h
  cases hf
  show p.List.length ≤ 1
  unfold parse.Parse at hp
  rcases hr : Lexer.run L fuel (Lex text) with ⟨s, l⟩
  rw [hr] at hp
  cases s with
  | some s => cases hp
  | none =>
    simp only [Parser.run] at hp
    cases hrec : receive l.items with
    | none => rw [hrec] at hp; cases hp
    | some items =>
      rw [hrec] at hp
      simp only at hp
      unfold parseFile at hp
      obtain ⟨⟨t, p1⟩, h1, hp⟩ := Run.bind_eq_ok hp
      have f1 := Parser.next_frame _ _ h1
      simp only at hp
      split at hp
      · obtain ⟨p2, h2, hp⟩ := Run.bind_eq_ok hp
        have f2 := Parser.backup_frame _ _ h2
        obtain ⟨⟨c, p3⟩, h3, hp⟩ := Run.bind_eq_ok hp
        have f3 := (parseCommand_frame_all L fuel).1 _ _ h3
        have hl : p3.List = [] := by rw [f3.2.2, f2.2.2, f1.2.2]
        cases hp
        simp [hl]
      · split at hp
        · have hl : p1.List = [] := f1.2.2
          cases hp
          simp [hl]
        · cases hp

/-! ## C1 -/

set_option smartUnfolding false in
theorem eval_testIfElse (L : GoLib) :
    Parse L 200 "TestIfElseControlCommand" testIfElseInput =
      .ok { Name := "TestIfElseControlCommand", List := [testIfElseFirst] } := rfl


/-- C1 (defect of the code): `parseFile` parses one command and returns, so
`Parse` never returns more than one top-level command.  On the input of
`TestIfElseControlCommand`, which holds an `if` command followed by an `else`
command, it returns a file holding the `if` command alone. -/
theorem C1_parse_returns_first_command_only (L : GoLib) :
    Returns L "TestIfElseControlCommand" testIfElseInput
        (.ok { Name := "TestIfElseControlCommand", List := [testIfElseFirst] }) ∧
      ∀ (fuel : Nat) (name text : String) (f : File),
        Parse L fuel name text = .ok f → f.List.length ≤ 1 := by
  refine ⟨?_, parse_list_length_le_one L⟩
  exact ⟨by simp, 200, eval_testIfElse L⟩

/-! ## Tokens sent by the scanner -/

@[simp] theorem Lexer.next_items (l : Lexer) : l.next.2.items = l.items := by
  unfold Lexer.next; split <;> rfl

@[simp] theorem Lexer.backup_items (l : Lexer) : l.backup.items = l.items := rfl

@[simp] theorem Lexer.ignore_items (l : Lexer) : l.ignore.items = l.items := rfl

@[simp] theorem Lexer.peek_items (l : Lexer) : l.peek.2.items = l.items := by
  unfold Lexer.peek; simp

@[simp] theorem Lexer.accept_items (l : Lexer) (valid : List Char) :
    (l.accept valid).2.items = l.items := by
  unfold Lexer.accept
  simp only
  split <;> simp

@[simp] theorem Lexer.acceptRunLoop_items (valid : List Char) (n : Nat) (l : Lexer) :
    (Lexer.acceptRunLoop valid n l).items = l.items := by
  induction n generalizing l with
  | zero => rfl
  | succ n ih =>
    rw [Lexer.acceptRunLoop]
    simp only
    split
    · rw [ih]; simp
    · simp

@[simp] theorem Lexer.acceptRun_items (l : Lexer) (valid : List Char) :
    (l.acceptRun valid).items = l.items := by
  unfold Lexer.acceptRun; simp

@[simp] theorem Lexer.atTerminator_items (l : Lexer) : l.atTerminator.2.items = l.items := by
  unfold Lexer.atTerminator
  simp only
  split
  · simp
  · split <;> simp

@[simp] theorem Lexer.scanNumber_items (L : GoLib) (l : Lexer) :
    (l.scanNumber L).2.items = l.items := by
  unfold Lexer.scanNumber
  simp only
  split <;> simp

theorem Lexer.emit_items (l : Lexer) (t : TokenType) :
    (l.emit t).items = l.items ++ [⟨t, byteLen (l.input.take l.start), String.mk (slice l.input l.start l.pos)⟩] := rfl

theorem Lexer.errorf_items (l : Lexer) (msg : String) :
    (l.errorf msg).2.items = l.items ++ [⟨.ERROR, byteLen (l.input.take l.start), msg⟩] := rfl

theorem Lexer.errorf_state (l : Lexer) (msg : String) : (l.errorf msg).1 = none := rfl

theorem KwOK_of_not_kw {t : Token} (h1 : t.Typ ≠ .IF) (h2 : t.Typ ≠ .ELSIF) (h3 : t.Typ ≠ .ELSE) :
    KwOK t := ⟨fun h => absurd h h1, fun h => absurd h h2, fun h => absurd h h3⟩

theorem key_eq_IF (word : String) (h : key word = .IF) : word = "if" := by
  unfold key at h
  by_cases h1 : word = "if"
  · exact h1
  · rw [if_neg h1] at h
    repeat' split at h
    all_goals cases h

theorem key_eq_ELSE (word : String) (h : key word = .ELSE) : word = "else" := by
  unfold key at h
  by_cases h1 : word = "else"
  · exact h1
  · rw [if_neg h1] at h
    repeat' split at h
    all_goals cases h

theorem key_eq_ELSIF (word : String) (h : key word = .ELSIF) : word = "elsif" := by
  unfold key at h
  by_cases h1 : word = "elsif"
  · exact h1
  · rw [if_neg h1] at h
    repeat' split at h
    all_goals cases h

theorem KwOK_key (pos : Nat) (word : String) : KwOK ⟨key word, pos, word⟩ :=
  ⟨key_eq_IF word, key_eq_ELSIF word, key_eq_ELSE word⟩

theorem key_plain (pos : Nat) (word : String) (h : (key word).toNat > TokenType.COMMAND.toNat) :
    Token.plain ⟨key word, pos, word⟩ := by
  constructor <;> intro h' <;> simp only at h' <;> rw [h'] at h <;> simp [TokenType.toNat] at h

/-- A step that goes on after sending one plain token. -/
theorem StepSends.one {s : StateFn} {t : Token} (hk : KwOK t) (hp : t.plain) :
    StepSends (some s) [t] := by
  refine ⟨?_, ?_, ?_⟩
  · intro x hx; simp at hx; subst hx; exact hk
  · intro _ x hx; simp at hx; subst hx; exact hp
  · intro h; cases h

/-- A step that sends nothing and goes on. -/
theorem StepSends.nil {s : StateFn} : StepSends (some s) [] := by
  refine ⟨?_, ?_, ?_⟩
  · intro x hx; cases hx
  · intro _ x hx; cases hx
  · intro h; cases h

/-- A step that halts after sending one EOF or ERROR token. -/
theorem StepSends.halt {t : Token} (hk : KwOK t) (h : t.Typ = .EOF ∨ t.Typ = .ERROR) :
    StepSends none [t] := by
  refine ⟨?_, ?_, ?_⟩
  · intro x hx; simp at hx; subst hx; exact hk
  · intro h; exact absurd rfl h
  · intro _; exact ⟨[], t, rfl, by simp, h⟩

theorem Sends.none {l0 l : Lexer} {s : StateFn} (hi : l.items = l0.items) :
    Sends l0 (some s, l) := ⟨[], by simp [hi], StepSends.nil⟩

theorem Sends.emit {l0 l : Lexer} {s : StateFn} (t : TokenType) (hi : l.items = l0.items)
    (h : t ≠ .IF ∧ t ≠ .ELSIF ∧ t ≠ .ELSE ∧ t ≠ .EOF ∧ t ≠ .ERROR) :
    Sends l0 (some s, l.emit t) :=
  ⟨[_], by rw [Lexer.emit_items, hi],
    StepSends.one (KwOK_of_not_kw h.1 h.2.1 h.2.2.1) ⟨h.2.2.2.1, h.2.2.2.2⟩⟩

theorem Sends.errorf {l0 l : Lexer} (msg : String) (hi : l.items = l0.items) :
    Sends l0 (l.errorf msg) :=
  ⟨[_], by rw [Lexer.errorf_items, hi],
    StepSends.halt (KwOK_of_not_kw (by simp) (by simp) (by simp)) (Or.inr rfl)⟩

theorem Sends.ite {c : Prop} [Decidable c] {l0 : Lexer} {a b : Option StateFn × Lexer}
    (ha : c → Sends l0 a) (hb : ¬c → Sends l0 b) : Sends l0 (if c then a else b) := by
  by_cases h : c
  · rw [if_pos h]; exact ha h
  · rw [if_neg h]; exact hb h

theorem Sends.halt2 {l0 l : Lexer} (t : TokenType) (msg : String) (d : Int)
    (hi : l.items = l0.items)
    (h : t ≠ .IF ∧ t ≠ .ELSIF ∧ t ≠ .ELSE ∧ t ≠ .EOF ∧ t ≠ .ERROR) :
    Sends l0 (Lexer.errorf { l.emit t with parenDepth := d } msg) := by
  refine ⟨[⟨t, byteLen (l.input.take l.start), String.mk (slice l.input l.start l.pos)⟩,
      ⟨.ERROR, byteLen (l.input.take l.pos), msg⟩], ?_, ?_⟩
  · show (l.items ++ [_]) ++ [_] = _
    rw [hi, List.append_assoc]
    rfl
  · refine ⟨?_, fun h => absurd rfl h, fun _ => ⟨[_], _, rfl, ?_, Or.inr rfl⟩⟩
    · intro x hx
      simp only [List.mem_cons, List.mem_singleton, List.not_mem_nil, or_false] at hx
      rcases hx with hx | hx
      · subst hx; exact KwOK_of_not_kw h.1 h.2.1 h.2.2.1
      · subst hx; exact KwOK_of_not_kw (by simp) (by simp) (by simp)
    · intro x hx
      simp only [List.mem_singleton] at hx
      subst hx
      exact ⟨h.2.2.2.1, h.2.2.2.2⟩

theorem lexStart_sends (L : GoLib) (l : Lexer) : Sends l (lexStart L l) := by
  unfold lexStart
  rcases h : l.next with ⟨r, l1⟩
  have hi : l1.items = l.items := by
    have := Lexer.next_items l
    rw [h] at this
    exact this
  cases r with
  | none =>
    exact ⟨[_], by rw [Lexer.emit_items, hi],
      StepSends.halt (KwOK_of_not_kw (by simp) (by simp) (by simp)) (Or.inl rfl)⟩
  | some c =>
    show Sends l (if c = ';' then _ else _)
    refine Sends.ite (fun _ => Sends.none hi) (fun _ => ?_)
    refine Sends.ite (fun _ => Sends.none hi) (fun _ => ?_)
    refine Sends.ite (fun _ => Sends.emit _ hi (by decide)) (fun _ => ?_)
    refine Sends.ite (fun _ => Sends.none hi) (fun _ => ?_)
    refine Sends.ite (fun _ => ?_) (fun _ => ?_)
    · exact (Sends.emit (s := .lexStart) .LEFTPAREN hi (by decide) :
        Sends l (some .lexStart, l1.emit .LEFTPAREN))
    refine Sends.ite (fun _ => ?_) (fun _ => ?_)
    · refine Sends.ite (fun _ => Sends.halt2 _ _ _ hi (by decide)) (fun _ => ?_)
      exact (Sends.emit (s := .lexStart) .RIGHTPAREN hi (by decide) :
        Sends l (some .lexStart, l1.emit .RIGHTPAREN))
    refine Sends.ite (fun _ => Sends.emit _ hi (by decide)) (fun _ => ?_)
    refine Sends.ite (fun _ => Sends.emit _ hi (by decide)) (fun _ => ?_)
    refine Sends.ite (fun _ => Sends.emit _ hi (by decide)) (fun _ => ?_)
    refine Sends.ite (fun _ => Sends.emit _ hi (by decide)) (fun _ => ?_)
    refine Sends.ite (fun _ => Sends.none hi) (fun _ => ?_)
    refine Sends.ite (fun _ => Sends.none hi) (fun _ => ?_)
    refine Sends.ite (fun _ => Sends.none (by rw [Lexer.backup_items, hi])) (fun _ => ?_)
    refine Sends.ite (fun _ => Sends.none (by rw [Lexer.backup_items, hi])) (fun _ => ?_)
    refine Sends.ite (fun _ => Sends.none hi) (fun _ => ?_)
    refine Sends.ite (fun _ => ?_) (fun _ => Sends.errorf _ hi)
    exact Sends.ite (fun _ => Sends.none ((Lexer.peek_items l1).trans hi))
      (fun _ => Sends.errorf _ ((Lexer.peek_items l1).trans hi))

theorem lexSemiColon_sends (l : Lexer) : Sends l (lexSemiColon l) :=
  Sends.emit _ rfl (by decide)

theorem lexSpace_sends (l : Lexer) : Sends l (lexSpace l) := by
  unfold lexSpace
  simp only
  split
  · exact Sends.none (by simp)
  · exact Sends.none (by simp)

theorem lexEndOfLine_sends (l : Lexer) : Sends l (lexEndOfLine l) := by
  unfold lexEndOfLine
  simp only
  split
  · exact Sends.none (by simp)
  · exact Sends.none (by simp)

theorem lexNumber_sends (L : GoLib) (l : Lexer) : Sends l (lexNumber L l) := by
  unfold lexNumber
  simp only
  split
  · exact Sends.errorf _ (by simp)
  · exact Sends.emit _ (by simp) (by decide)

theorem lexString_sends (l : Lexer) : Sends l (lexString l) := by
  unfold lexString
  simp only
  split_ifs
  · exact Sends.none (by simp)
  · exact Sends.errorf _ (by simp)
  · exact Sends.emit _ (by simp) (by decide)

theorem lexTag_sends (L : GoLib) (l : Lexer) : Sends l (lexTag L l) := by
  unfold lexTag
  simp only
  split
  · exact Sends.none (by simp)
  · exact Sends.emit _ (by simp) (by decide)

theorem lexIdentifier_sends (L : GoLib) (l : Lexer) : Sends l (lexIdentifier L l) := by
  unfold lexIdentifier
  simp only
  split_ifs with h1 h2
  · exact Sends.none (by simp)
  · exact ⟨[_], by rw [Lexer.emit_items, Lexer.backup_items, Lexer.next_items],
      StepSends.one (KwOK_key _ _) (key_plain _ _ h2)⟩
  · exact Sends.emit _ (by simp) (by decide)

theorem lexLineComment_sends (l : Lexer) : Sends l (lexLineComment l) := by
  unfold lexLineComment
  simp only
  split_ifs
  · exact Sends.none (by simp)
  · exact Sends.errorf _ (by simp)
  · exact Sends.emit _ (by simp) (by decide)

theorem lexBlockComment_sends (l : Lexer) : Sends l (lexBlockComment l) := by
  unfold lexBlockComment
  simp only
  split_ifs
  · exact Sends.none (by simp)
  · exact Sends.errorf _ (by simp)
  · exact Sends.emit _ (by simp) (by decide)
  · exact Sends.errorf _ (by simp)

theorem step_sends (L : GoLib) (s : StateFn) (l : Lexer) : Sends l (step L s l) := by
  cases s
  · exact lexStart_sends L l
  · exact lexSemiColon_sends l
  · exact lexSpace_sends l
  · exact lexEndOfLine_sends l
  · exact lexNumber_sends L l
  · exact lexString_sends l
  · exact lexTag_sends L l
  · exact lexIdentifier_sends L l
  · exact lexLineComment_sends l
  · exact lexBlockComment_sends l

theorem Lexer.run_sent (L : GoLib) (n : Nat) :
    ∀ (s : StateFn) (l l' : Lexer),
      (∀ t ∈ l.items, KwOK t ∧ t.plain) → Lexer.run L n (some s, l) = (none, l') →
      (∀ t ∈ l'.items, KwOK t) ∧
        ∃ pre last, l'.items = pre ++ [last] ∧ (∀ t ∈ pre, t.plain) ∧
          (last.Typ = .EOF ∨ last.Typ = .ERROR) := by
  induction n with
  | zero => intro s l l' _ h; cases h
  | succ n ih =>
    intro s l l' hl h
    rw [Lexer.run] at h
    have hsend := step_sends L s l
    rcases hs : step L s l with ⟨s1, l1⟩
    rw [hs] at h hsend
    obtain ⟨new, hnew, hk, hgo, hhalt⟩ := hsend
    simp only at hnew hgo hhalt hk
    cases s1 with
    | some s1 =>
      refine ih s1 l1 l' ?_ h
      intro t ht
      rw [hnew, List.mem_append] at ht
      rcases ht with ht | ht
      · exact hl t ht
      · exact ⟨hk t ht, hgo (by simp) t ht⟩
    | none =>
      rw [Lexer.run_none] at h
      cases h
      obtain ⟨pre, last, hpl, hpre, hlast⟩ := hhalt rfl
      refine ⟨?_, l.items ++ pre, last, ?_, ?_, hlast⟩
      · intro t ht
        rw [hnew, List.mem_append] at ht
        rcases ht with ht | ht
        · exact (hl t ht).1
        · exact hk t ht
      · rw [hnew, hpl, List.append_assoc]
      · intro t ht
        rw [List.mem_append] at ht
        rcases ht with ht | ht
        · exact (hl t ht).2
        · exact hpre t ht

/-- The tokens of a scan that halts: plain tokens followed by one EOF or ERROR
token, keyword tokens carrying their keyword. -/
theorem Scans.sent {L : GoLib} {input : String} {sent : List Token} (h : Scans L input sent) :
    (∀ t ∈ sent, KwOK t) ∧
      ∃ pre last, sent = pre ++ [last] ∧ (∀ t ∈ pre, t.plain) ∧
        (last.Typ = .EOF ∨ last.Typ = .ERROR) := by
  obtain ⟨fuel, h⟩ := h
  unfold lexTokens at h
  rcases hr : Lexer.run L fuel (Lex input) with ⟨s, l⟩
  rw [hr] at h
  cases s with
  | some s => cases h
  | none =>
    simp only [Option.some.injEq] at h
    subst h
    exact Lexer.run_sent L fuel _ _ l (by intro t ht; cases ht) hr

theorem receive_plain (pre : List Token) (last : Token) (hpre : ∀ t ∈ pre, t.plain) :
    receive (pre ++ [last]) = if last.Typ = .EOF then some (pre ++ [last]) else none := by
  induction pre with
  | nil =>
    simp only [List.nil_append, receive]
    by_cases h : last.Typ = .EOF
    · simp [h]
    · simp [h, receive]
  | cons t ts ih =>
    have ht : t.Typ ≠ .EOF := (hpre t (by simp)).1
    have := ih (fun x hx => hpre x (by simp [hx]))
    show receive (t :: (ts ++ [last])) = _
    rw [receive, if_pos ht, this]
    split <;> simp

theorem receive_sub (sent items : List Token) (h : receive sent = some items) :
    ∀ t ∈ items, t ∈ sent := by
  induction sent generalizing items with
  | nil => cases h
  | cons t ts ih =>
    rw [receive] at h
    split at h
    · cases hr : receive ts with
      | none => rw [hr] at h; cases h
      | some r =>
        rw [hr] at h
        simp only [Option.map_some', Option.some.injEq] at h
        subst h
        intro x hx
        rcases List.mem_cons.1 hx with hx | hx
        · subst hx; simp
        · exact List.mem_cons_of_mem _ (ih r hr x hx)
    · simp only [Option.some.injEq] at h
      subst h
      intro x hx
      simp only [List.mem_singleton] at hx
      subst hx
      simp

/-! ## C10 -/

set_option smartUnfolding false in
theorem eval_rightParen (L : GoLib) : Parse L 10 "t" ")" = .blocked := rfl

set_option smartUnfolding false in
theorem scan_rightParen (L : GoLib) :
    lexTokens L 10 ")" = some [⟨.RIGHTPAREN, 0, ")"⟩, ⟨.ERROR, 1, "unexpected right paren"⟩] := rfl

/-- C10 (defect of the code): when the scan ends with an ERROR token, the
receive loop of `Parser.run`, which stops at an EOF token only, asks for a
token after the ERROR token; no token follows, so `Parse` blocks for ever and
reports nothing.  The input `)` scans to RIGHTPAREN, ERROR and blocks. -/
theorem C10_parse_blocks_after_error_token (L : GoLib) :
    (∀ (name text : String) (sent : List Token) (last : Token),
        Scans L text sent → sent.getLast? = some last → last.Typ = .ERROR →
        Returns L name text .blocked) ∧
      Scans L ")" [⟨.RIGHTPAREN, 0, ")"⟩, ⟨.ERROR, 1, "unexpected right paren"⟩] ∧
      Returns L "t" ")" .blocked := by
  refine ⟨?_, ⟨10, scan_rightParen L⟩, by simp, 10, eval_rightParen L⟩
  intro name text sent last hs hlast herr
  obtain ⟨_, pre, last', hsent, hpre, _⟩ := hs.sent
  obtain ⟨fuel, hf⟩ := hs
  have hl : last' = last := by
    rw [hsent, List.getLast?_append] at hlast
    simpa using hlast
  subst hl
  refine ⟨by simp, fuel, ?_⟩
  rw [Parse_of_tokens L name hf]
  unfold Parser.run
  rw [hsent, receive_plain pre last' hpre, if_neg (by rw [herr]; simp)]
  rfl

/-! ## C5 -/

set_option smartUnfolding false in
theorem eval_anyofExists (L : GoLib) :
    Parse L 50 "t" "if anyof (exists \"a\") \x7b stop; \x7d" =
      .exit ⟨"Invalid Arguments statement", ")"⟩ := rfl

set_option smartUnfolding false in
theorem eval_anyofTrue (L : GoLib) :
    Parse L 50 "t" "if anyof (true) \x7b stop; \x7d" =
      .ok ⟨"t", [.ControlCommand "if" (some (.AnyofTest [.TrueTest])) [.StopCommand]]⟩ := rfl

theorem parseArgumentsLoop_rightParen (L : GoLib) (fuel : Nat) (p p1 : Parser) (al : List Argument)
    (t : Token) (h : p.next = .ok (t, p1)) (ht : t.Typ = .RIGHTPAREN) :
    parseArgumentsLoop L (fuel + 1) p al = .exit ⟨"Invalid Arguments statement", t.Val⟩ := by
  rw [parseArgumentsLoop, h]
  simp [ht, atTerminator]

/-- C5 (defect of the code): the arguments of a generic test end only at `;`,
`,`, `\x7b` or end of input, so `parseArguments` rejects the `)` that closes a
test list: `if anyof (exists "a") \x7b stop; \x7d` ends with the report
"Invalid Arguments statement" naming `)`, whereas the same list closing after
`true` parses. -/
theorem C5_generic_test_before_right_paren_is_rejected (L : GoLib) :
    Returns L "t" "if anyof (exists \"a\") \x7b stop; \x7d"
        (.exit ⟨"Invalid Arguments statement", ")"⟩) ∧
      Returns L "t" "if anyof (true) \x7b stop; \x7d"
        (.ok ⟨"t", [.ControlCommand "if" (some (.AnyofTest [.TrueTest])) [.StopCommand]]⟩) ∧
      ∀ (fuel : Nat) (p p1 : Parser) (al : List Argument) (t : Token),
        p.next = .ok (t, p1) → t.Typ = .RIGHTPAREN →
        parseArgumentsLoop L (fuel + 1) p al = .exit ⟨"Invalid Arguments statement", t.Val⟩ :=
  ⟨⟨by simp, 50, eval_anyofExists L⟩, ⟨by simp, 50, eval_anyofTrue L⟩,
    parseArgumentsLoop_rightParen L⟩

/-! ## The semicolon of a command -/

theorem Parser.item_cases (p : Parser) : (∃ t, p.item = .ok t) ∨ ∃ d, p.item = .exit d := by
  unfold Parser.item
  split
  · exact Or.inr ⟨_, rfl⟩
  · split
    · exact Or.inl ⟨_, rfl⟩
    · exact Or.inr ⟨_, rfl⟩

theorem Parser.next_cases (p : Parser) : (∃ r, p.next = .ok r) ∨ ∃ d, p.next = .exit d := by
  unfold Parser.next
  by_cases hp : p.pos ≠ -1
  · rw [if_pos hp]
    rcases Parser.item_cases p with ⟨t, ht⟩ | ⟨d, hd⟩
    · rw [ht]
      simp only [Run.bind_ok, Run.pure_eq]
      split
      · exact Or.inl ⟨_, rfl⟩
      · split
        · exact Or.inr ⟨_, rfl⟩
        · rcases Parser.item_cases { p with pos := p.pos + 1 } with ⟨t1, ht1⟩ | ⟨d, hd⟩
          · rw [ht1]
            simp only [Run.bind_ok]
            split
            · exact Or.inr ⟨_, rfl⟩
            · exact Or.inl ⟨_, rfl⟩
          · rw [hd]; exact Or.inr ⟨_, rfl⟩
    · rw [hd]; exact Or.inr ⟨_, rfl⟩
  · rw [if_neg hp]
    simp only [Run.pure_eq, Run.bind_ok]
    rw [if_neg (by simp)]
    split
    · exact Or.inr ⟨_, rfl⟩
    · rcases Parser.item_cases { p with pos := p.pos + 1 } with ⟨t1, ht1⟩ | ⟨d, hd⟩
      · rw [ht1]
        simp only [Run.bind_ok]
        split
        · exact Or.inr ⟨_, rfl⟩
        · exact Or.inl ⟨_, rfl⟩
      · rw [hd]; exact Or.inr ⟨_, rfl⟩

theorem Parser.next_item (p q : Parser) (t : Token) (h : p.next = .ok (t, q)) : q.item = .ok t := by
  unfold Parser.next at h
  obtain ⟨atEOF, _, h⟩ := Run.bind_eq_ok h
  split at h
  · obtain ⟨t', ht', h⟩ := Run.bind_eq_ok h
    cases h
    exact ht'
  · dsimp only at h
    split at h
    · cases h
    · obtain ⟨t', ht', h⟩ := Run.bind_eq_ok h
      split at h
      · cases h
      · cases h
        exact ht'

theorem Parser.backup_cases (p : Parser) : (∃ q, p.backup = .ok q) ∨ ∃ d, p.backup = .exit d := by
  unfold Parser.backup
  split
  · exact Or.inr ⟨_, rfl⟩
  · exact Or.inl ⟨_, rfl⟩

/-- The token taken by a successful `accept` is in the accepted set. -/
theorem Parser.accept_true (p q : Parser) (valid : TokenTypes)
    (h : p.accept valid = .ok (true, q)) :
    ∃ t, p.next = .ok (t, q) ∧ t.Typ ∈ valid := by
  unfold Parser.accept at h
  obtain ⟨⟨item, p1⟩, h1, h⟩ := Run.bind_eq_ok h
  simp only at h
  split at h
  · rename_i hv
    cases h
    refine ⟨item, h1, ?_⟩
    rw [List.any_eq_true] at hv
    obtain ⟨x, hx, hxe⟩ := hv
    have : item.Typ = x := by simpa using hxe
    rw [this]; exact hx
  · obtain ⟨p2, _, h⟩ := Run.bind_eq_ok h
    cases h

/-- When the next token is not in the accepted set, `accept` returns false or
the process ends; it never returns true. -/
theorem Parser.accept_not (p : Parser) (valid : TokenTypes)
    (h : ¬ ∃ t q, p.next = .ok (t, q) ∧ t.Typ ∈ valid) :
    (∃ q, p.accept valid = .ok (false, q)) ∨ ∃ d, p.accept valid = .exit d := by
  unfold Parser.accept
  rcases Parser.next_cases p with ⟨⟨item, p1⟩, h1⟩ | ⟨d, hd⟩
  · rw [h1]
    simp only [Run.bind_ok]
    have hv : ¬ (valid.any (fun tokTyp => decide (item.Typ = tokTyp)) = true) := by
      intro hv
      rw [List.any_eq_true] at hv
      obtain ⟨x, hx, hxe⟩ := hv
      have : item.Typ = x := by simpa using hxe
      exact h ⟨item, p1, h1, this ▸ hx⟩
    rw [if_neg hv]
    rcases Parser.backup_cases p1 with ⟨q, hq⟩ | ⟨d, hd⟩
    · rw [hq]; exact Or.inl ⟨q, rfl⟩
    · rw [hd]; exact Or.inr ⟨d, rfl⟩
  · rw [hd]; exact Or.inr ⟨d, rfl⟩

set_option smartUnfolding false in
theorem eval_stop_unterminated (L : GoLib) :
    Parse L 50 "t" "stop" = .exit ⟨"Invalid command", "stop"⟩ := rfl

set_option smartUnfolding false in
theorem eval_generic_unterminated_eof (L : GoLib) :
    Parse L 50 "t" "keep :flags 1" = .exit ⟨"Invalid command", "keep"⟩ := rfl

/-- What `parseCommand` does about the `;` of a command: when `stop` is not
followed by `;`, and when an identifier with its arguments is not followed by
`;`, the process ends with a report; and whenever a StopCommand or
GenericCommand is returned, the last token taken is a `;`. -/
theorem parseCommand_needs_semicolon (L : GoLib) :
    (∀ (fuel : Nat) (p p1 : Parser) (t : Token),
        p.next = .ok (t, p1) → t.Typ = .STOP →
        (¬ ∃ t2 q, p1.next = .ok (t2, q) ∧ t2.Typ = .SEMICOLON) →
        ∃ d, parseCommand L (fuel + 1) p = .exit d) ∧
      (∀ (fuel : Nat) (p p1 p2 : Parser) (t : Token) (al : List Argument),
        p.next = .ok (t, p1) → t.Typ = .IDENTIFIER →
        parseArguments L fuel p1 = .ok (al, p2) →
        (¬ ∃ t2 q, p2.next = .ok (t2, q) ∧ t2.Typ = .SEMICOLON) →
        ∃ d, parseCommand L (fuel + 1) p = .exit d) ∧
      (∀ (fuel : Nat) (p q : Parser) (c : Command),
        parseCommand L fuel p = .ok (c, q) →
        (c = .StopCommand ∨ ∃ name al, c = .GenericCommand name al) →
        ∃ t, q.item = .ok t ∧ t.Typ = .SEMICOLON) ∧
      Returns L "t" "stop" (.exit ⟨"Invalid command", "stop"⟩) ∧
      Returns L "t" "keep :flags 1" (.exit ⟨"Invalid command", "keep"⟩) := by
  refine ⟨?_, ?_, ?_, ⟨by simp, 50, eval_stop_unterminated L⟩,
    ⟨by simp, 50, eval_generic_unterminated_eof L⟩⟩
  · intro fuel p p1 t h ht hno
    rw [parseCommand, h]
    simp only [Run.bind_ok, ht]
    simp only [reduceCtorEq, or_self, if_false, if_true]
    have hno' : ¬ ∃ t2 q, p1.next = .ok (t2, q) ∧ t2.Typ ∈ [TokenType.SEMICOLON] := by
      simpa using hno
    rcases Parser.accept_not p1 [.SEMICOLON] hno' with ⟨q, hq⟩ | ⟨d, hd⟩
    · rw [hq]; exact ⟨_, rfl⟩
    · rw [hd]; exact ⟨_, rfl⟩
  · intro fuel p p1 p2 t al h ht hargs hno
    rw [parseCommand, h]
    simp only [Run.bind_ok, ht]
    simp only [reduceCtorEq, or_self, if_false, if_true]
    rw [hargs]
    simp only [Run.bind_ok]
    have hno' : ¬ ∃ t2 q, p2.next = .ok (t2, q) ∧ t2.Typ ∈ [TokenType.SEMICOLON] := by
      simpa using hno
    rcases Parser.accept_not p2 [.SEMICOLON] hno' with ⟨q, hq⟩ | ⟨d, hd⟩
    · rw [hq]; exact ⟨_, rfl⟩
    · rw [hd]; exact ⟨_, rfl⟩
  · intro fuel p q c h hc
    cases fuel with
    | zero => cases h
    | succ fuel =>
      rw [parseCommand] at h
      obtain ⟨⟨t, p1⟩, h1, h⟩ := Run.bind_eq_ok h
      simp only at h
      split at h
      · obtain ⟨⟨test, p2⟩, _, h⟩ := Run.bind_eq_ok h
        obtain ⟨⟨block, p3⟩, _, h⟩ := Run.bind_eq_ok h
        cases h
        rcases hc with hc | ⟨_, _, hc⟩ <;> cases hc
      · split at h
        · cases h
          rcases hc with hc | ⟨_, _, hc⟩ <;> cases hc
        · split at h
          · cases h
            rcases hc with hc | ⟨_, _, hc⟩ <;> cases hc
          · split at h
            · obtain ⟨⟨ok, p2⟩, h2, h⟩ := Run.bind_eq_ok h
              cases ok with
              | false => cases h
              | true =>
                cases h
                obtain ⟨t2, hn, hmem⟩ := Parser.accept_true _ _ _ h2
                exact ⟨t2, Parser.next_item _ _ _ hn, by simpa using hmem⟩
            · split at h
              · obtain ⟨⟨al, p2⟩, _, h⟩ := Run.bind_eq_ok h
                obtain ⟨⟨ok, p3⟩, h3, h⟩ := Run.bind_eq_ok h
                cases ok with
                | false => cases h
                | true =>
                  cases h
                  obtain ⟨t2, hn, hmem⟩ := Parser.accept_true _ _ _ h3
                  exact ⟨t2, Parser.next_item _ _ _ hn, by simpa using hmem⟩
              · cases h

/-! ## Taking tokens -/

theorem Before.item_adv {p : Parser} {t : Token} {ts : List Token}
    (h : Before p (t :: ts)) : p.adv.item = .ok t ∧ ¬ (p.adv.pos ≥ p.adv.Items.length) := by
  obtain ⟨h1, h2, _⟩ := h
  have hk : (p.pos + 1).toNat < p.Items.length := by
    by_contra hc
    rw [List.drop_eq_nil_of_le (by omega)] at h2
    cases h2
  have hget : p.Items[(p.pos + 1).toNat]? = some t := by
    have := congrArg List.head? h2
    rw [List.head?_drop] at this
    simpa using this
  constructor
  · unfold Parser.item Parser.adv
    simp only
    rw [if_neg (by omega), hget]
  · show ¬ (p.pos + 1 ≥ (p.Items.length : Int))
    omega

theorem Before.next {p : Parser} {t : Token} {ts : List Token}
    (h : Before p (t :: ts)) (ht : t.Typ ≠ .ERROR) : p.next = .ok (t, p.adv) := by
  obtain ⟨hi, hb⟩ := h.item_adv
  obtain ⟨h1, h2, h3⟩ := h
  unfold Parser.next
  have hfirst : (if p.pos ≠ -1 then (p.item >>= fun t => pure (decide (t.Typ = .EOF)))
      else (pure false : Run Bool)) = .ok false := by
    rcases h3 with h3 | ⟨t0, h30, h31⟩
    · rw [if_neg (by simp [h3])]; rfl
    · by_cases hp : p.pos ≠ -1
      · rw [if_pos hp, h30]; simp [h31]
      · rw [if_neg hp]; rfl
  rw [hfirst]
  simp only [Run.bind_ok, Bool.false_eq_true, if_false]
  have hb' : ¬ (p.pos + 1 ≥ (p.Items.length : Int)) := hb
  have hi' : Parser.item { name := p.name, pos := p.pos + 1, Items := p.Items, List := p.List } =
      .ok t := hi
  rw [if_neg hb', hi']
  simp only [Run.bind_ok, ht, if_false, Run.pure_eq]
  rfl

theorem Before.adv {p : Parser} {t : Token} {ts : List Token}
    (h : Before p (t :: ts)) (ht : t.Typ ≠ .EOF) : Before p.adv ts := by
  obtain ⟨hi, _⟩ := h.item_adv
  obtain ⟨h1, h2, _⟩ := h
  refine ⟨?_, ?_, Or.inr ⟨t, hi, ht⟩⟩
  · show -1 ≤ p.pos + 1
    omega
  · show p.Items.drop (p.pos + 1 + 1).toNat = ts
    have : (p.pos + 1 + 1).toNat = (p.pos + 1).toNat + 1 := by omega
    rw [this, ← List.drop_drop, h2]
    rfl

theorem Before.backup {p : Parser} {ts : List Token} (h : Before p ts) :
    p.adv.backup = .ok p := by
  obtain ⟨h1, _, _⟩ := h
  unfold Parser.backup Parser.adv
  simp only
  rw [if_neg (by omega)]
  congr 1
  cases p
  simp

theorem Parser.adv_advBy (p : Parser) (n : Nat) : (p.advBy n).adv = p.advBy (n + 1) := by
  unfold Parser.adv Parser.advBy
  simp only [Parser.mk.injEq, true_and, and_true]
  push_cast
  omega

theorem Parser.advBy_zero (p : Parser) : p.advBy 0 = p := by
  cases p
  simp [Parser.advBy]

theorem Parser.advBy_one (p : Parser) : p.advBy 1 = p.adv := by
  cases p
  simp [Parser.advBy, Parser.adv]

theorem Parser.advBy_advBy (p : Parser) (n m : Nat) : (p.advBy n).advBy m = p.advBy (n + m) := by
  unfold Parser.advBy
  simp only [Parser.mk.injEq, true_and, and_true]
  push_cast
  omega

/-! ## Arguments -/

theorem StringsToks.length_le {L : GoLib} {ss : List String} {ts : List Token}
    (h : StringsToks L ss ts) : ss.length ≤ ts.length := by
  induction h with
  | last => simp
  | cons _ _ _ _ _ _ _ _ _ ih => simp only [List.length_cons]; omega

theorem parseStringsLoop_complete (L : GoLib) {ss : List String} {ts : List Token}
    (h : StringsToks L ss ts) :
    ∀ (p : Parser) (rest : List Token) (sl : List String) (fuel : Nat),
      Before p (ts ++ rest) → ss.length ≤ fuel →
      ∃ q, parseStringsLoop L fuel p sl = .ok (sl ++ ss, q) ∧ Before q rest := by
  induction h with
  | last t rb s ht hs hrb =>
    intro p rest sl fuel hb hf
    obtain ⟨n, rfl⟩ : ∃ n, fuel = n + 1 := ⟨fuel - 1, by simp at hf; omega⟩
    have hb1 : Before p.adv (rb :: rest) := Before.adv hb (by rw [ht]; simp)
    refine ⟨p.adv.adv, ?_, Before.adv hb1 (by rw [hrb]; simp)⟩
    rw [parseStringsLoop, Before.next hb (by rw [ht]; simp)]
    simp only [Run.bind_ok, ht, if_true, hs]
    rw [Before.next hb1 (by rw [hrb]; simp)]
    simp [hrb]
  | cons t c s ss ts ht hs hc _ ih =>
    intro p rest sl fuel hb hf
    obtain ⟨n, rfl⟩ : ∃ n, fuel = n + 1 := ⟨fuel - 1, by simp at hf; omega⟩
    have hb1 : Before p.adv (c :: (ts ++ rest)) := Before.adv hb (by rw [ht]; simp)
    have hb2 : Before p.adv.adv (ts ++ rest) := Before.adv hb1 (by rw [hc]; simp)
    obtain ⟨q, hq, hbq⟩ := ih p.adv.adv rest (sl ++ [s]) n hb2 (by simp at hf; omega)
    refine ⟨q, ?_, hbq⟩
    rw [parseStringsLoop, Before.next hb (by rw [ht]; simp)]
    simp only [Run.bind_ok, ht, if_true, hs]
    rw [Before.next hb1 (by rw [hc]; simp)]
    simp only [Run.bind_ok, hc, if_true]
    rw [hq]
    simp

theorem parseStrings_complete (L : GoLib) {ss : List String} {ts : List Token} (lb : Token)
    (hlb : lb.Typ = .LEFTBRACKET) (h : StringsToks L ss ts) (p : Parser) (rest : List Token)
    (fuel : Nat) (hb : Before p (lb :: (ts ++ rest))) (hf : ss.length ≤ fuel) :
    ∃ q, parseStrings L fuel p = .ok (ss, q) ∧ Before q rest := by
  obtain ⟨q, hq, hbq⟩ := parseStringsLoop_complete L h p.adv rest [] fuel
    (Before.adv hb (by rw [hlb]; simp)) hf
  refine ⟨q, ?_, hbq⟩
  unfold parseStrings
  rw [Before.next hb (by rw [hlb]; simp)]
  simp only [Run.bind_ok, hlb, if_true]
  rw [hq]
  simp

theorem atTerminator_typ {t : Token} (h : atTerminator t = true) :
    t.Typ ≠ .NUMBER ∧ t.Typ ≠ .TAG ∧ t.Typ ≠ .STRING ∧ t.Typ ≠ .LEFTBRACKET ∧ t.Typ ≠ .ERROR := by
  unfold atTerminator at h
  simp only [decide_eq_true_eq] at h
  rcases h with h | h | h | h <;> rw [h] <;> simp

theorem parseArgumentsLoop_complete (L : GoLib) {args : List Argument} {toks : List Token}
    (h : ArgsToks L args toks) :
    ∀ (p : Parser) (term : Token) (rest : List Token) (al : List Argument) (fuel : Nat),
      Before p (toks ++ term :: rest) → atTerminator term = true → toks.length < fuel →
      ∃ q, parseArgumentsLoop L fuel p al = .ok (al ++ args, q) ∧ Before q (term :: rest) := by
  induction h with
  | nil =>
    intro p term rest al fuel hb hterm hf
    obtain ⟨n, rfl⟩ : ∃ n, fuel = n + 1 := ⟨fuel - 1, by omega⟩
    obtain ⟨h1, h2, h3, h4, h5⟩ := atTerminator_typ hterm
    refine ⟨p, ?_, hb⟩
    rw [parseArgumentsLoop, Before.next hb h5]
    simp only [Run.bind_ok, h1, h2, h3, h4, if_false, hterm, if_true]
    rw [Before.backup hb]
    simp
  | cons a as ta tas ha _ ih =>
    intro p term rest al fuel hb hterm hf
    obtain ⟨n, rfl⟩ : ∃ n, fuel = n + 1 := ⟨fuel - 1, by omega⟩
    cases ha with
    | number t ht =>
      have hb' : Before p (t :: (tas ++ term :: rest)) := by simpa using hb
      obtain ⟨q, hq, hbq⟩ := ih p.adv term rest (al ++ [.NumberArgument t.Val]) n
        (Before.adv hb' (by rw [ht]; simp)) hterm (by simp at hf; omega)
      refine ⟨q, ?_, hbq⟩
      rw [parseArgumentsLoop, Before.next hb' (by rw [ht]; simp)]
      simp only [Run.bind_ok, ht, if_true]
      rw [hq]
      simp
    | tag t ht =>
      have hb' : Before p (t :: (tas ++ term :: rest)) := by simpa using hb
      obtain ⟨q, hq, hbq⟩ := ih p.adv term rest (al ++ [.TagArgument t.Val]) n
        (Before.adv hb' (by rw [ht]; simp)) hterm (by simp at hf; omega)
      refine ⟨q, ?_, hbq⟩
      rw [parseArgumentsLoop, Before.next hb' (by rw [ht]; simp)]
      simp only [Run.bind_ok, ht, reduceCtorEq, if_false, if_true]
      rw [hq]
      simp
    | string t s ht hs =>
      have hb' : Before p (t :: (tas ++ term :: rest)) := by simpa using hb
      obtain ⟨q, hq, hbq⟩ := ih p.adv term rest (al ++ [.StringArgument [s]]) n
        (Before.adv hb' (by rw [ht]; simp)) hterm (by simp at hf; omega)
      refine ⟨q, ?_, hbq⟩
      rw [parseArgumentsLoop, Before.next hb' (by rw [ht]; simp)]
      simp only [Run.bind_ok, ht, reduceCtorEq, if_false, if_true, hs]
      rw [hq]
      simp
    | list lb ss ts hlb hss =>
      have hb' : Before p (lb :: (ts ++ (tas ++ term :: rest))) := by simpa using hb
      have hlen := hss.length_le
      simp only [List.length_append, List.length_cons] at hf
      obtain ⟨q1, hq1, hbq1⟩ := parseStrings_complete L lb hlb hss p (tas ++ term :: rest) n hb'
        (by omega)
      obtain ⟨q, hq, hbq⟩ := ih q1 term rest (al ++ [.StringArgument ss]) n hbq1 hterm (by omega)
      refine ⟨q, ?_, hbq⟩
      rw [parseArgumentsLoop, Before.next hb' (by rw [hlb]; simp)]
      simp only [Run.bind_ok, hlb, reduceCtorEq, if_false, if_true]
      rw [Before.backup hb']
      simp only [Run.bind_ok]
      rw [hq1]
      simp only [Run.bind_ok]
      rw [hq]
      simp

theorem lexTokens_mono (L : GoLib) {n m : Nat} {input : String} {sent : List Token}
    (h : lexTokens L n input = some sent) (hnm : n ≤ m) : lexTokens L m input = some sent := by
  unfold lexTokens at h ⊢
  rcases hr : Lexer.run L n (Lex input) with ⟨s, l⟩
  rw [hr] at h
  cases s with
  | some s => cases h
  | none => rw [Lexer.run_halted_mono L hr hnm]; exact h

theorem Before.init (name : String) (items : List Token) :
    Before { Parser.init name with Items := items } items :=
  ⟨by simp [Parser.init], by simp [Parser.init], Or.inl rfl⟩

theorem ArgsToks.of_simple (L : GoLib) {as : List Argument} {args : List Token}
    (h : List.Forall₂ (SimpleArg L) as args) : ArgsToks L as args := by
  induction h with
  | nil => exact ArgsToks.nil
  | @cons a t as ts ha _ ih =>
    have : ArgToks L a [t] := by
      rcases ha with ⟨ht, rfl⟩ | ⟨ht, rfl⟩ | ⟨ht, s, hs, rfl⟩
      · exact ArgToks.number t ht
      · exact ArgToks.tag t ht
      · exact ArgToks.string t s ht hs
    exact ArgsToks.cons a as [t] ts this ih

theorem SimpleArg.plain {L : GoLib} {a : Argument} {t : Token} (h : SimpleArg L a t) : t.plain := by
  rcases h with ⟨ht, _⟩ | ⟨ht, _⟩ | ⟨ht, _⟩ <;> constructor <;> rw [ht] <;> simp

/-! ## C3 -/

/-- C3: a source text that scans to an IDENTIFIER, then n NUMBER, TAG or
STRING tokens (each STRING text being a literal `strconv.Unquote` accepts),
then a SEMICOLON and EOF, parses to exactly one GenericCommand named by the
identifier whose n arguments are, in source order, the NumberArgument or
TagArgument of the token text or the one-valued StringArgument of the unquoted
literal. -/
theorem C3_generic_command_arguments_in_order (L : GoLib) (name text : String)
    (id semi eof : Token) (args : List Token) (as : List Argument)
    (hscan : Scans L text (id :: args ++ [semi, eof]))
    (hid : id.Typ = .IDENTIFIER) (hsemi : semi.Typ = .SEMICOLON) (heof : eof.Typ = .EOF)
    (hargs : List.Forall₂ (SimpleArg L) as args) :
    Returns L name text (.ok { Name := name, List := [.GenericCommand id.Val as] }) ∧
      as.length = args.length := by
  refine ⟨?_, hargs.length_eq⟩
  obtain ⟨fuel0, h0⟩ := hscan
  obtain ⟨m, hm⟩ : ∃ m, max fuel0 (args.length + 3) = m + 1 :=
    ⟨max fuel0 (args.length + 3) - 1, by omega⟩
  have hlex := lexTokens_mono L h0 (Nat.le_max_left fuel0 (args.length + 3))
  rw [hm] at hlex
  refine ⟨by simp, m + 1, ?_⟩
  rw [Parse_of_tokens L name hlex]
  have hrecv : receive (id :: args ++ [semi, eof]) = some (id :: args ++ [semi, eof]) := by
    have := receive_plain (id :: args ++ [semi]) eof (by
      intro t ht
      simp only [List.cons_append, List.mem_cons, List.mem_append, List.mem_singleton,
        List.not_mem_nil, or_false] at ht
      rcases ht with rfl | ht | rfl
      · constructor <;> rw [hid] <;> simp
      · obtain ⟨i, hi, rfl⟩ := List.getElem_of_mem ht
        have hi' : i < as.length := by rw [hargs.length_eq]; exact hi
        exact ((List.forall₂_iff_get.1 hargs).2 i hi' hi).plain
      · constructor <;> rw [hsemi] <;> simp)
    rw [if_pos heof] at this
    simpa using this
  unfold Parser.run
  rw [hrecv]
  simp only
  have hb0 := Before.init name (id :: args ++ [semi, eof])
  generalize hp0 : ({ Parser.init name with Items := id :: args ++ [semi, eof] } : Parser) = p0 at hb0
  have hl0 : p0.List = [] := by rw [← hp0]; rfl
  have hb0' : Before p0 (id :: (args ++ semi :: [eof])) := by simpa using hb0
  have hidE : id.Typ ≠ .ERROR := by rw [hid]; simp
  obtain ⟨q, hq, hbq⟩ := parseArgumentsLoop_complete L (ArgsToks.of_simple L hargs) p0.adv semi
    [eof] [] m (Before.adv hb0' (by rw [hid]; simp)) (by simp [atTerminator, hsemi])
    (by omega)
  have hfr := parseArguments_frame L m p0.adv _ hq
  have hacc : q.accept [.SEMICOLON] = .ok (true, q.adv) := by
    unfold Parser.accept
    rw [Before.next hbq (by rw [hsemi]; simp)]
    simp [hsemi]
  have hcmd : parseCommand L (m + 1) p0 = .ok (.GenericCommand id.Val as, q.adv) := by
    rw [parseCommand, Before.next hb0' hidE]
    simp only [Run.bind_ok, hid, reduceCtorEq, or_self, if_false, if_true]
    unfold parseArguments
    rw [hq]
    simp only [Run.bind_ok, List.nil_append]
    rw [hacc]
    simp
  show (parseFile L (m + 1) p0 >>= _) = _
  unfold parseFile
  rw [Before.next hb0' hidE]
  simp only [Run.bind_ok, hid, or_true, if_true]
  rw [Before.backup hb0']
  simp only [Run.bind_ok]
  rw [hcmd]
  simp only [Run.bind_ok, Run.pure_eq]
  have : q.adv.List = [] := by
    show q.List = []
    rw [hfr.2.2]
    exact hl0
  rw [this]
  rfl

set_option smartUnfolding false in
theorem scan_sizeUnder (L : GoLib) :
    lexTokens L 50 "size :under \"Subject\" 10M;" =
      some (⟨.IDENTIFIER, 0, "size"⟩ :: [⟨.TAG, 5, ":under"⟩, ⟨.STRING, 12, "\"Subject\""⟩,
        ⟨.NUMBER, 22, "10M"⟩] ++ [⟨.SEMICOLON, 25, ";"⟩, ⟨.EOF, 26, ""⟩]) := rfl

/-- C3 at `size :under "Subject" 10M;`: the arguments are TagArgument
`:under`, StringArgument `Subject`, NumberArgument `10M`, in this order. -/
theorem C3_generic_command_arguments_in_order_witness :
    Returns GoLib.ascii "TestAction" "size :under \"Subject\" 10M;"
        (.ok { Name := "TestAction", List := [.GenericCommand "size"
          [.TagArgument ":under", .StringArgument ["Subject"], .NumberArgument "10M"]] }) ∧
      [Argument.TagArgument ":under", .StringArgument ["Subject"], .NumberArgument "10M"].length =
        [(⟨.TAG, 5, ":under"⟩ : Token), ⟨.STRING, 12, "\"Subject\""⟩, ⟨.NUMBER, 22, "10M"⟩].length :=
  C3_generic_command_arguments_in_order GoLib.ascii "TestAction" "size :under \"Subject\" 10M;"
    ⟨.IDENTIFIER, 0, "size"⟩ ⟨.SEMICOLON, 25, ";"⟩ ⟨.EOF, 26, ""⟩
    [⟨.TAG, 5, ":under"⟩, ⟨.STRING, 12, "\"Subject\""⟩, ⟨.NUMBER, 22, "10M"⟩]
    [.TagArgument ":under", .StringArgument ["Subject"], .NumberArgument "10M"]
    ⟨50, scan_sizeUnder GoLib.ascii⟩ rfl rfl rfl
    (List.Forall₂.cons (Or.inr (Or.inl ⟨rfl, rfl⟩))
      (List.Forall₂.cons (Or.inr (Or.inr ⟨rfl, "Subject", rfl, rfl⟩))
        (List.Forall₂.cons (Or.inl ⟨rfl, rfl⟩) List.Forall₂.nil)))

/-! ## C7 -/

set_option smartUnfolding false in
theorem eval_stringList (L : GoLib) :
    Parse L 80 "t" "fileinto [\"Subject\", \"From\", \"To\"] \"x\";" =
      .ok ⟨"t", [.GenericCommand "fileinto"
        [.StringArgument ["Subject", "From", "To"], .StringArgument ["x"]]]⟩ := rfl

set_option smartUnfolding false in
theorem eval_testIf (L : GoLib) :
    Parse L 200 "TestIfControlCommand" testIfInput =
      .ok ⟨"TestIfControlCommand", [testIfElseFirst]⟩ := rfl

/-- C7: in argument position a bracketed list of n ≥ 1 string literals makes
`parseArguments` append exactly one StringArgument, holding the n unquoted
values in source order, and go on after the `]`; a single string literal makes
it append one StringArgument with exactly one value.  `["Subject", "From",
"To"]` gives one StringArgument with the values Subject, From, To, and the
input of `TestIfControlCommand` gives `["keyword1", "keyword2"]` as one
argument. -/
theorem C7_bracketed_strings_are_one_argument (L : GoLib) :
    (∀ (ss : List String) (ts rest : List Token) (lb : Token) (p : Parser)
        (al : List Argument) (fuel : Nat),
        lb.Typ = .LEFTBRACKET → StringsToks L ss ts → Before p (lb :: (ts ++ rest)) →
        ss.length ≤ fuel →
        ∃ q, Before q rest ∧
          parseArgumentsLoop L (fuel + 1) p al =
            parseArgumentsLoop L fuel q (al ++ [.StringArgument ss])) ∧
      (∀ (t : Token) (s : String) (rest : List Token) (p : Parser) (al : List Argument)
        (fuel : Nat),
        t.Typ = .STRING → strconvUnquote L t.Val = some s → Before p (t :: rest) →
        Before p.adv rest ∧
          parseArgumentsLoop L (fuel + 1) p al =
            parseArgumentsLoop L fuel p.adv (al ++ [.StringArgument [s]])) ∧
      Returns L "t" "fileinto [\"Subject\", \"From\", \"To\"] \"x\";"
        (.ok ⟨"t", [.GenericCommand "fileinto"
          [.StringArgument ["Subject", "From", "To"], .StringArgument ["x"]]]⟩) ∧
      Returns L "TestIfControlCommand" testIfInput
        (.ok ⟨"TestIfControlCommand", [testIfElseFirst]⟩) := by
  refine ⟨?_, ?_, ⟨by simp, 80, eval_stringList L⟩, ⟨by simp, 200, eval_testIf L⟩⟩
  · intro ss ts rest lb p al fuel hlb hss hb hf
    obtain ⟨q, hq, hbq⟩ := parseStrings_complete L lb hlb hss p rest fuel hb hf
    refine ⟨q, hbq, ?_⟩
    rw [parseArgumentsLoop, Before.next hb (by rw [hlb]; simp)]
    simp only [Run.bind_ok, hlb, reduceCtorEq, if_false, if_true]
    rw [Before.backup hb]
    simp only [Run.bind_ok]
    rw [hq]
    rfl
  · intro t s rest p al fuel ht hs hb
    refine ⟨Before.adv hb (by rw [ht]; simp), ?_⟩
    rw [parseArgumentsLoop, Before.next hb (by rw [ht]; simp)]
    simp only [Run.bind_ok, ht, reduceCtorEq, if_false, if_true, hs]

/-! ## C4 -/

theorem parseTest_mono (L : GoLib) {n m : Nat} {p : Parser} {r : Test × Parser}
    (h : parseTest L n p = .ok r) (hnm : n ≤ m) : parseTest L m p = .ok r := by
  have := Run.le_of_step (fun k => parseTest L k p) (fun k => (parseTest_step_all L k).1 p) n m hnm
  simp only at this
  rw [h] at this
  exact Run.eq_of_le this (by simp)

theorem parseTestsLoop_mono (L : GoLib) {n m : Nat} {p : Parser} {tl : List Test}
    {r : List Test × Parser}
    (h : parseTestsLoop L n p tl = .ok r) (hnm : n ≤ m) : parseTestsLoop L m p tl = .ok r := by
  have := Run.le_of_step (fun k => parseTestsLoop L k p tl)
    (fun k => (parseTest_step_all L k).2.2 p tl) n m hnm
  simp only at this
  rw [h] at this
  exact Run.eq_of_le this (by simp)

theorem TestsRun.loop {L : GoLib} {p q : Parser} {xs : List Test} (h : TestsRun L p xs q) :
    ∃ fuel, ∀ tl, parseTestsLoop L fuel p tl = .ok (tl ++ xs, q) := by
  induction h with
  | last p q r x t hx hn ht =>
    obtain ⟨n, hn1⟩ := hx
    refine ⟨n + 1, fun tl => ?_⟩
    rw [parseTestsLoop, hn1]
    simp only [Run.bind_ok]
    rw [hn]
    simp [ht]
  | cons p q r s x xs t hx hn ht _ ih =>
    obtain ⟨n, hn1⟩ := hx
    obtain ⟨m, hm⟩ := ih
    refine ⟨max n m + 1, fun tl => ?_⟩
    rw [parseTestsLoop, parseTest_mono L hn1 (Nat.le_max_left n m)]
    simp only [Run.bind_ok]
    rw [hn]
    simp only [Run.bind_ok, ht, if_true]
    rw [parseTestsLoop_mono L (hm (tl ++ [x])) (Nat.le_max_right n m)]
    simp

theorem TestsRun.ne_nil {L : GoLib} {p q : Parser} {xs : List Test} (h : TestsRun L p xs q) :
    xs ≠ [] := by
  cases h <;> simp

set_option smartUnfolding false in
theorem eval_notAllof (L : GoLib) :
    Parse L 100 "t" "if not allof (true, false) \x7b discard; stop; \x7d" =
      .ok ⟨"t", [.ControlCommand "if" (some (.NotTest (.AllofTest [.TrueTest, .FalseTest])))
        [.GenericCommand "discard" [], .StopCommand]]⟩ := rfl

/-- C4: `parseTest` builds the variant the grammar names.  On `true` it
returns TrueTest and on `false` FalseTest; on `not` followed by a test it
returns NotTest of the parse of that test; on `allof` (`anyof`) followed by
`(`, tests separated by `,` and `)`, it returns AllofTest (AnyofTest) whose
list is non-empty and holds exactly the parses of those tests in source order.
`if not allof (true, false) \x7b discard; stop; \x7d` gives the test
NotTest (AllofTest [TrueTest, FalseTest]) and the block [discard, stop]. -/
theorem C4_parseTest_builds_named_variant (L : GoLib) :
    (∀ (p p1 : Parser) (t : Token), p.next = .ok (t, p1) → t.Typ = .TRUE →
        ParsesTest L p .TrueTest p1) ∧
      (∀ (p p1 : Parser) (t : Token), p.next = .ok (t, p1) → t.Typ = .FALSE →
        ParsesTest L p .FalseTest p1) ∧
      (∀ (p p1 q : Parser) (t : Token) (x : Test), p.next = .ok (t, p1) → t.Typ = .NOT →
        ParsesTest L p1 x q → ParsesTest L p (.NotTest x) q) ∧
      (∀ (p p1 p2 q : Parser) (t t2 : Token) (xs : List Test),
        p.next = .ok (t, p1) → t.Typ = .ALLOF → p1.next = .ok (t2, p2) → t2.Typ = .LEFTPAREN →
        TestsRun L p2 xs q → ParsesTest L p (.AllofTest xs) q ∧ xs ≠ []) ∧
      (∀ (p p1 p2 q : Parser) (t t2 : Token) (xs : List Test),
        p.next = .ok (t, p1) → t.Typ = .ANYOF → p1.next = .ok (t2, p2) → t2.Typ = .LEFTPAREN →
        TestsRun L p2 xs q → ParsesTest L p (.AnyofTest xs) q ∧ xs ≠ []) ∧
      Returns L "t" "if not allof (true, false) \x7b discard; stop; \x7d"
        (.ok ⟨"t", [.ControlCommand "if" (some (.NotTest (.AllofTest [.TrueTest, .FalseTest])))
          [.GenericCommand "discard" [], .StopCommand]]⟩) := by
  refine ⟨?_, ?_, ?_, ?_, ?_, ⟨by simp, 100, eval_notAllof L⟩⟩
  · intro p p1 t h ht
    refine ⟨1, ?_⟩
    rw [parseTest, h]
    simp [ht]
  · intro p p1 t h ht
    refine ⟨1, ?_⟩
    rw [parseTest, h]
    simp [ht]
  · intro p p1 q t x h ht ⟨n, hx⟩
    refine ⟨n + 1, ?_⟩
    rw [parseTest, h]
    simp only [Run.bind_ok, ht, if_true]
    rw [hx]
    simp
  · intro p p1 p2 q t t2 xs h ht h2 ht2 hrun
    refine ⟨?_, hrun.ne_nil⟩
    obtain ⟨n, hn⟩ := hrun.loop
    refine ⟨n + 2, ?_⟩
    rw [parseTest, h]
    simp only [Run.bind_ok, ht, reduceCtorEq, if_false, if_true]
    rw [parseTests, h2]
    simp only [Run.bind_ok, ht2, if_true]
    rw [hn []]
    simp
  · intro p p1 p2 q t t2 xs h ht h2 ht2 hrun
    refine ⟨?_, hrun.ne_nil⟩
    obtain ⟨n, hn⟩ := hrun.loop
    refine ⟨n + 2, ?_⟩
    rw [parseTest, h]
    simp only [Run.bind_ok, ht, reduceCtorEq, if_false, if_true]
    rw [parseTests, h2]
    simp only [Run.bind_ok, ht2, if_true]
    rw [hn []]
    simp

/-! ## Control commands built by the parser -/

theorem controlsList_append (as bs : List Command) :
    controlsList (as ++ bs) = controlsList as ++ controlsList bs := by
  induction as with
  | nil => simp [controlsList]
  | cons a as ih => simp [controlsList, ih]

theorem controlsList_single (c : Command) : controlsList [c] = controls c := by
  simp [controlsList]

theorem item_mem (p : Parser) : Run.Sat p.item (fun t => t ∈ p.Items) := by
  intro t h
  unfold Parser.item at h
  split at h
  · cases h
  · split at h
    · rename_i t' ht'
      cases h
      exact List.getElem?_mem ht'
    · cases h

theorem next_mem (p : Parser) : Run.Sat p.next (fun r => r.1 ∈ p.Items) := by
  rintro ⟨t, q⟩ h
  have h1 := Parser.next_item p q t h
  have h2 := Parser.next_frame p _ h
  have := item_mem q t h1
  rw [h2.2.1] at this
  exact this

theorem Run.Sat_and {α : Type} {r : Run α} {P Q : α → Prop} (h1 : Run.Sat r P)
    (h2 : Run.Sat r Q) : Run.Sat r (fun a => P a ∧ Q a) := fun a ha => ⟨h1 a ha, h2 a ha⟩

theorem parseCommand_built_all (L : GoLib) (n : Nat) :
    (∀ p, (∀ t ∈ p.Items, KwOK t) →
      Run.Sat (parseCommand L n p) (fun r => ∀ x ∈ controls r.1, ControlBuilt x)) ∧
    (∀ p, (∀ t ∈ p.Items, KwOK t) →
      Run.Sat (parseBlock L n p)
        (fun r => r.1 ≠ [] ∧ ∀ x ∈ controlsList r.1, ControlBuilt x)) ∧
    (∀ p cl, (∀ t ∈ p.Items, KwOK t) → (∀ x ∈ controlsList cl, ControlBuilt x) →
      Run.Sat (parseBlockLoop L n p cl)
        (fun r => r.1 ≠ [] ∧ ∀ x ∈ controlsList r.1, ControlBuilt x)) := by
  induction n with
  | zero =>
    exact ⟨fun _ _ => Run.Sat_outOfFuel, fun _ _ => Run.Sat_outOfFuel,
      fun _ _ _ _ => Run.Sat_outOfFuel⟩
  | succ n ih =>
    obtain ⟨ih1, ih2, ih3⟩ := ih
    refine ⟨?_, ?_, ?_⟩
    · intro p hp
      rw [parseCommand]
      refine Run.Sat_bind (Run.Sat_and (Parser.next_frame p) (next_mem p)) ?_
      rintro ⟨t, p1⟩ ⟨f1, hmem⟩
      have hk : KwOK t := hp t hmem
      have hp1 : ∀ t ∈ p1.Items, KwOK t := by rw [f1.2.1]; exact hp
      refine Run.Sat_ite (fun hc => ?_) (fun _ => Run.Sat_ite
        (fun _ => Run.Sat_pure (by intro x hx; simp [controls] at hx))
        (fun _ => Run.Sat_ite
          (fun _ => Run.Sat_pure (by intro x hx; simp [controls] at hx))
          (fun _ => Run.Sat_ite (fun _ => ?_) (fun _ => Run.Sat_ite (fun _ => ?_)
            (fun _ => Run.Sat_exit)))))
      · refine Run.Sat_bind
          (P := fun r => Frame p1 r.2 ∧ (((t.Typ = .IF ∨ t.Typ = .ELSIF) ∧ r.1.isSome = true) ∨
            (t.Typ = .ELSE ∧ r.1 = none))) ?_ ?_
        · refine Run.Sat_ite (fun hc2 => ?_) (fun hc2 => ?_)
          · refine Run.Sat_bind ((parseTest_frame_all L n).1 p1) ?_
            rintro ⟨x, q⟩ hq
            exact Run.Sat_pure ⟨hq, Or.inl ⟨hc2, rfl⟩⟩
          · refine Run.Sat_pure ⟨Frame.refl p1, Or.inr ⟨?_, rfl⟩⟩
            rcases hc with hc | hc | hc
            · exact absurd (Or.inl hc) hc2
            · exact hc
            · exact absurd (Or.inr hc) hc2
        · rintro ⟨test, p2⟩ ⟨f2, htest⟩
          have hp2 : ∀ t ∈ p2.Items, KwOK t := by rw [f2.2.1]; exact hp1
          refine Run.Sat_bind (ih2 p2 hp2) ?_
          rintro ⟨block, p3⟩ ⟨hne, hblock⟩
          refine Run.Sat_pure ?_
          intro x hx
          simp only [controls, List.mem_cons] at hx
          rcases hx with rfl | hx
          · refine ⟨?_, hne⟩
            rcases htest with ⟨hty, hsome⟩ | ⟨hty, hnone⟩
            · left
              refine ⟨?_, hsome⟩
              rcases hty with hty | hty
              · exact Or.inl (hk.1 hty)
              · exact Or.inr (hk.2.1 hty)
            · right
              exact ⟨hk.2.2 hty, hnone⟩
          · exact hblock x hx
      · refine Run.Sat_bind (P := fun _ => True) (fun _ _ => trivial) ?_
        rintro ⟨ok, p2⟩ _
        exact Run.Sat_ite (fun _ => Run.Sat_exit)
          (fun _ => Run.Sat_pure (by intro x hx; simp [controls] at hx))
      · refine Run.Sat_bind (P := fun _ => True) (fun _ _ => trivial) ?_
        rintro ⟨al, p2⟩ _
        refine Run.Sat_bind (P := fun _ => True) (fun _ _ => trivial) ?_
        rintro ⟨ok, p3⟩ _
        exact Run.Sat_ite (fun _ => Run.Sat_exit)
          (fun _ => Run.Sat_pure (by intro x hx; simp [controls] at hx))
    · intro p hp
      rw [parseBlock]
      refine Run.Sat_bind (Parser.next_frame p) ?_
      rintro ⟨t, p1⟩ f1
      refine Run.Sat_ite (fun _ => ?_) (fun _ => Run.Sat_exit)
      exact ih3 p1 [] (by rw [f1.2.1]; exact hp) (by intro x hx; simp [controlsList] at hx)
    · intro p cl hp hcl
      rw [parseBlockLoop]
      refine Run.Sat_bind (Run.Sat_and ((parseCommand_frame_all L n).1 p) (ih1 p hp)) ?_
      rintro ⟨c, p1⟩ ⟨f1, hc⟩
      have hcl1 : ∀ x ∈ controlsList (cl ++ [c]), ControlBuilt x := by
        intro x hx
        rw [controlsList_append, controlsList_single, List.mem_append] at hx
        rcases hx with hx | hx
        · exact hcl x hx
        · exact hc x hx
      refine Run.Sat_bind (Parser.next_frame p1) ?_
      rintro ⟨t, p2⟩ f2
      refine Run.Sat_ite (fun _ => Run.Sat_pure ⟨by simp, hcl1⟩) (fun _ => ?_)
      refine Run.Sat_bind (Parser.backup_frame p2) ?_
      intro p3 f3
      refine ih3 p3 _ ?_ hcl1
      rw [f3.2.1, f2.2.1, f1.2.1]
      exact hp

/-- Every control command, at every depth, of a file that `Parse` returns is
built by `parseCommand`: its name and test agree and its block is not empty. -/
theorem Parse_controls_built (L : GoLib) (fuel : Nat) (name text : String) (f : File)
    (h : Parse L fuel name text = .ok f) :
    ∀ x ∈ controlsList f.List, ControlBuilt x := by
  unfold Parse at h
  obtain ⟨p, hp, hf⟩ := Run.bind_eq_ok h
  cases hf
  show ∀ x ∈ controlsList p.List, ControlBuilt x
  unfold parse.Parse at hp
  rcases hr : Lexer.run L fuel (Lex text) with ⟨s, l⟩
  rw [hr] at hp
  cases s with
  | some s => cases hp
  | none =>
    have hsent : Scans L text l.items := ⟨fuel, by unfold lexTokens; rw [hr]⟩
    simp only [Parser.run] at hp
    cases hrec : receive l.items with
    | none => rw [hrec] at hp; cases hp
    | some items =>
      rw [hrec] at hp
      simp only at hp
      have hk : ∀ t ∈ items, KwOK t := fun t ht => hsent.sent.1 t (receive_sub _ _ hrec t ht)
      unfold parseFile at hp
      obtain ⟨⟨t, p1⟩, h1, hp⟩ := Run.bind_eq_ok hp
      have f1 := Parser.next_frame _ _ h1
      simp only at hp
      split at hp
      · obtain ⟨p2, h2, hp⟩ := Run.bind_eq_ok hp
        have f2 := Parser.backup_frame _ _ h2
        obtain ⟨⟨c, p3⟩, h3, hp⟩ := Run.bind_eq_ok hp
        have f3 := (parseCommand_frame_all L fuel).1 _ _ h3
        have hc := (parseCommand_built_all L fuel).1 p2
          (by rw [f2.2.1, f1.2.1]; exact hk) _ h3
        have hl : p3.List = [] := by rw [f3.2.2, f2.2.2, f1.2.2]
        cases hp
        simp only [hl, List.nil_append, controlsList_single]
        exact hc
      · split at hp
        · have hl : p1.List = [] := f1.2.2
          cases hp
          rw [hl]
          intro x hx
          simp [controlsList] at hx
        · cases hp

set_option smartUnfolding false in
theorem eval_nested (L : GoLib) : Parse L 200 "t" nestedInput = .ok nestedFile := rfl

/-! ## C8 -/

/-- C8: every ControlCommand, at any nesting depth, of a file returned by a
successful `Parse` is named `if`, `elsif` or `else`; it carries a test when
its name is `if` or `elsif` and no test when its name is `else`. -/
theorem C8_control_command_name_and_test (L : GoLib) (fuel : Nat) (name text : String)
    (f : File) (h : Parse L fuel name text = .ok f) :
    ∀ x ∈ controlsList f.List,
      (x.1 = "if" ∨ x.1 = "elsif" ∨ x.1 = "else") ∧
        ((x.1 = "if" ∨ x.1 = "elsif") → x.2.1.isSome = true) ∧
        (x.1 = "else" → x.2.1 = none) := by
  intro x hx
  rcases (Parse_controls_built L fuel name text f h x hx).1 with ⟨hn, ht⟩ | ⟨hn, ht⟩
  · refine ⟨?_, fun _ => ht, ?_⟩
    · rcases hn with hn | hn
      · exact Or.inl hn
      · exact Or.inr (Or.inl hn)
    · intro he
      rcases hn with hn | hn <;> rw [hn] at he <;> exact absurd he (by decide)
  · refine ⟨Or.inr (Or.inr hn), ?_, fun _ => ht⟩
    intro he
    rcases he with he | he <;> rw [hn] at he <;> exact absurd he (by decide)

/-- C8 at a script whose block nests an `if`, an `elsif` and an `else`. -/
theorem C8_control_command_name_and_test_witness :
    Parse GoLib.ascii 200 "t" nestedInput = .ok nestedFile ∧
      ∀ x ∈ controlsList nestedFile.List,
        (x.1 = "if" ∨ x.1 = "elsif" ∨ x.1 = "else") ∧
          ((x.1 = "if" ∨ x.1 = "elsif") → x.2.1.isSome = true) ∧
          (x.1 = "else" → x.2.1 = none) :=
  ⟨eval_nested GoLib.ascii,
    C8_control_command_name_and_test GoLib.ascii 200 "t" nestedInput nestedFile
      (eval_nested GoLib.ascii)⟩

/-! ## C6 -/

set_option smartUnfolding false in
theorem eval_emptyBlock (L : GoLib) :
    Parse L 50 "t" "if true \x7b \x7d" = .exit ⟨"Invalid command", "\x7d"⟩ := rfl

/-- C6 as stated fails: `if true \x7b \x7d` is not parsed; under every library
the process ends with the report "Invalid command" naming `\x7d`. -/
theorem C6_empty_block_counterexample :
    ¬ ∃ L : GoLib, ∃ f : File, Returns L "t" "if true \x7b \x7d" (.ok f) := by
  rintro ⟨L, f, h⟩
  have h2 : Returns L "t" "if true \x7b \x7d" (.exit ⟨"Invalid command", "\x7d"⟩) :=
    ⟨by simp, 50, eval_emptyBlock L⟩
  cases Returns_unique L h h2

/-- C6 amended: a block holds at least one command.  Every ControlCommand, at
any nesting depth, of a file returned by a successful `Parse` has a non-empty
Block, and `parseBlock` started before `\x7b \x7d` ends the process with the
report "Invalid command" naming the `\x7d`. -/
theorem C6_block_has_a_command (L : GoLib) (fuel : Nat) (name text : String)
    (f : File) (h : Parse L fuel name text = .ok f) :
    (∀ x ∈ controlsList f.List, x.2.2 ≠ []) ∧
      ∀ (n : Nat) (p : Parser) (lc rc : Token) (rest : List Token),
        Before p (lc :: rc :: rest) → lc.Typ = .LEFTCURLY → rc.Typ = .RIGHTCURLY →
        parseBlock L (n + 3) p = .exit ⟨"Invalid command", rc.Val⟩ := by
  refine ⟨fun x hx => (Parse_controls_built L fuel name text f h x hx).2, ?_⟩
  intro n p lc rc rest hb hlc hrc
  have hb1 : Before p.adv (rc :: rest) := Before.adv hb (by rw [hlc]; simp)
  rw [parseBlock, Before.next hb (by rw [hlc]; simp)]
  simp only [Run.bind_ok, hlc, if_true]
  rw [parseBlockLoop, parseCommand, Before.next hb1 (by rw [hrc]; simp)]
  simp [hrc]

/-- C6 amended, at a script with nested blocks. -/
theorem C6_block_has_a_command_witness :
    Parse GoLib.ascii 200 "t" nestedInput = .ok nestedFile ∧
      (∀ x ∈ controlsList nestedFile.List, x.2.2 ≠ []) ∧
      ∀ (n : Nat) (p : Parser) (lc rc : Token) (rest : List Token),
        Before p (lc :: rc :: rest) → lc.Typ = .LEFTCURLY → rc.Typ = .RIGHTCURLY →
        parseBlock GoLib.ascii (n + 3) p = .exit ⟨"Invalid command", rc.Val⟩ :=
  ⟨eval_nested GoLib.ascii,
    C6_block_has_a_command GoLib.ascii 200 "t" nestedInput nestedFile (eval_nested GoLib.ascii)⟩

/-! ## The scanner on a split input -/

theorem Lexer.Is.get {l : Lexer} {pre tok suf : List Char} {d : Int} {items : List Token}
    (h : l.Is pre tok suf d items) : l.input[l.pos]? = suf.head? := by
  rw [h.input_eq, h.pos_eq, ← List.append_assoc]
  rw [List.getElem?_append_right (by simp)]
  simp only [List.length_append, Nat.sub_self]
  cases suf <;> simp

theorem Lexer.Is.width {l : Lexer} {pre tok suf : List Char} {d : Int} {items : List Token}
    (h : l.Is pre tok suf d items) (w : Nat) : Lexer.Is { l with width := w } pre tok suf d items :=
  ⟨h.input_eq, h.start_eq, h.pos_eq, h.depth_eq, h.items_eq⟩

theorem Lexer.Is.next_nil {l : Lexer} {pre tok : List Char} {d : Int} {items : List Token}
    (h : l.Is pre tok [] d items) : l.next = (none, { l with width := 0 }) := by
  unfold Lexer.next
  rw [h.get]
  rfl

theorem Lexer.Is.next_cons {l : Lexer} {pre tok suf : List Char} {c : Char} {d : Int}
    {items : List Token} (h : l.Is pre tok (c :: suf) d items) :
    l.next = (some c, { l with width := 1, pos := l.pos + 1 }) := by
  unfold Lexer.next
  rw [h.get]
  rfl

theorem Lexer.Is.step_is {l : Lexer} {pre tok suf : List Char} {c : Char} {d : Int}
    {items : List Token} (h : l.Is pre tok (c :: suf) d items) :
    Lexer.Is { l with width := 1, pos := l.pos + 1 } pre (tok ++ [c]) suf d items :=
  ⟨by rw [show ({ l with width := 1, pos := l.pos + 1 } : Lexer).input = l.input from rfl,
      h.input_eq]; simp,
    h.start_eq,
    by show l.pos + 1 = _; rw [h.pos_eq]; simp; omega,
    h.depth_eq, h.items_eq⟩

theorem Lexer.backup_step (l : Lexer) :
    Lexer.backup { l with width := 1, pos := l.pos + 1 } = { l with width := 1 } := by
  unfold Lexer.backup
  simp

theorem Lexer.backup_zero (l : Lexer) :
    Lexer.backup { l with width := 0 } = { l with width := 0 } := by
  unfold Lexer.backup
  simp

/-- `peek` returns the rune at `pos` and moves nothing. -/
theorem Lexer.Is.peek {l : Lexer} {pre tok suf : List Char} {d : Int} {items : List Token}
    (h : l.Is pre tok suf d items) :
    ∃ l', l.peek = (suf.head?, l') ∧ l'.Is pre tok suf d items := by
  unfold Lexer.peek
  cases suf with
  | nil =>
    rw [h.next_nil]
    exact ⟨_, by simp only [Lexer.backup_zero, List.head?_nil], h.width 0⟩
  | cons c suf =>
    rw [h.next_cons]
    exact ⟨_, by simp only [Lexer.backup_step, List.head?_cons], h.width 1⟩

theorem slice_split (pre tok suf : List Char) :
    slice (pre ++ (tok ++ suf)) pre.length (pre.length + tok.length) = tok := by
  unfold slice
  simp

theorem Lexer.Is.emit_is {l : Lexer} {pre tok suf : List Char} {d : Int} {items : List Token}
    (h : l.Is pre tok suf d items) (t : TokenType) :
    (l.emit t).Is (pre ++ tok) [] suf d (items ++ [⟨t, byteLen pre, String.mk tok⟩]) := by
  refine ⟨?_, ?_, ?_, h.depth_eq, ?_⟩
  · show l.input = _
    rw [h.input_eq]; simp
  · show l.pos = _
    rw [h.pos_eq]; simp
  · show l.pos = _
    rw [h.pos_eq]; simp
  · show l.items ++ [_] = _
    rw [h.items_eq, h.input_eq, h.start_eq, h.pos_eq, slice_split]
    simp

theorem Lexer.Is.ignore {l : Lexer} {pre tok suf : List Char} {d : Int} {items : List Token}
    (h : l.Is pre tok suf d items) : l.ignore.Is (pre ++ tok) [] suf d items := by
  refine ⟨?_, ?_, ?_, h.depth_eq, h.items_eq⟩
  · show l.input = _
    rw [h.input_eq]; simp
  · show l.pos = _
    rw [h.pos_eq]; simp
  · show l.pos = _
    rw [h.pos_eq]; simp

theorem Lexer.Is.depth {l : Lexer} {pre tok suf : List Char} {d : Int} {items : List Token}
    (h : l.Is pre tok suf d items) (e : Int) :
    Lexer.Is { l with parenDepth := e } pre tok suf e items :=
  ⟨h.input_eq, h.start_eq, h.pos_eq, rfl, h.items_eq⟩

/-! ## Texts of the tokens sent -/

theorem TokOK.of_other {L : GoLib} {t : Token} (h1 : t.Typ ≠ .IF) (h2 : t.Typ ≠ .ELSIF)
    (h3 : t.Typ ≠ .ELSE) (h4 : t.Typ ≠ .IDENTIFIER) (h5 : t.Typ ≠ .NUMBER) (h6 : t.Typ ≠ .TAG) :
    TokOK L t :=
  ⟨KwOK_of_not_kw h1 h2 h3, fun h => absurd h h4, fun h => absurd h h5, fun h => absurd h h6⟩

/-- The invariant after a step that goes on to `s` having sent nothing. -/
theorem LexInv.go {L : GoLib} {l l' : Lexer} {s : StateFn} {pre tok suf : List Char} {d : Int}
    (h0 : ∀ t ∈ l.items, TokOK L t) (h : l'.Is pre tok suf d l.items) (hs : StateOK L s tok suf) :
    LexInv L (some s, l') := by
  refine ⟨fun t ht => h0 t (by rw [← h.items_eq]; exact ht), ?_⟩
  intro s' hs'
  cases hs'
  refine ⟨pre, tok, suf, ?_, hs⟩
  exact ⟨h.input_eq, h.start_eq, h.pos_eq, rfl, rfl⟩

/-- The invariant after a step that sends one token and goes on to `lexStart`. -/
theorem LexInv.of_sent {L : GoLib} {l l' : Lexer} {pre suf : List Char} {d : Int} {t : Token}
    (h0 : ∀ t ∈ l.items, TokOK L t) (h : l'.Is pre [] suf d (l.items ++ [t])) (ht : TokOK L t) :
    LexInv L (some .lexStart, l') := by
  refine ⟨?_, ?_⟩
  · intro x hx
    have : x ∈ l.items ++ [t] := by rw [← h.items_eq]; exact hx
    rcases List.mem_append.1 this with hx | hx
    · exact h0 x hx
    · simp only [List.mem_singleton] at hx; subst hx; exact ht
  · intro s' hs'
    cases hs'
    exact ⟨pre, [], suf, ⟨h.input_eq, h.start_eq, h.pos_eq, rfl, rfl⟩, rfl⟩

/-- The invariant after a step that halts having sent an ERROR token. -/
theorem LexInv.of_errorf {L : GoLib} {l l' : Lexer} (msg : String)
    (h0 : ∀ t ∈ l.items, TokOK L t) (h : l'.items = l.items) : LexInv L (l'.errorf msg) := by
  refine ⟨?_, fun s hs => by cases hs⟩
  intro x hx
  have : x ∈ l.items ++ [⟨.ERROR, byteLen (l'.input.take l'.start), msg⟩] := by
    rw [← h, ← Lexer.errorf_items]; exact hx
  rcases List.mem_append.1 this with hx | hx
  · exact h0 x hx
  · simp only [List.mem_singleton] at hx
    subst hx
    exact TokOK.of_other (by simp) (by simp) (by simp) (by simp) (by simp) (by simp)

theorem LexInv.of_ite {L : GoLib} {c : Prop} [Decidable c] {a b : Option StateFn × Lexer}
    (ha : c → LexInv L a) (hb : ¬c → LexInv L b) : LexInv L (if c then a else b) := by
  by_cases h : c
  · rw [if_pos h]; exact ha h
  · rw [if_neg h]; exact hb h

theorem key_cases (w : String) :
    key w ∈ [TokenType.IF, .ELSE, .ELSIF, .STOP, .TRUE, .FALSE, .NOT, .ALLOF, .ANYOF, .ERROR] := by
  unfold key
  repeat' split
  all_goals simp

theorem lexSemiColon_inv (L : GoLib) (l : Lexer) (h : LexInv L (some .lexSemiColon, l)) :
    LexInv L (lexSemiColon l) := by
  obtain ⟨h0, h1⟩ := h
  obtain ⟨pre, tok, suf, his, _⟩ := h1 _ rfl
  exact LexInv.of_sent h0 (his.emit_is .SEMICOLON)
    (TokOK.of_other (by simp) (by simp) (by simp) (by simp) (by simp) (by simp))

theorem lexSpace_inv (L : GoLib) (l : Lexer) (h : LexInv L (some .lexSpace, l)) :
    LexInv L (lexSpace l) := by
  obtain ⟨h0, h1⟩ := h
  obtain ⟨pre, tok, suf, his, _⟩ := h1 _ rfl
  unfold lexSpace
  obtain ⟨l1, hpk, his1⟩ := his.peek
  rw [hpk]
  refine LexInv.of_ite (fun hsp => ?_) (fun _ => LexInv.go h0 his1.ignore rfl)
  cases suf with
  | nil => simp [isSpace] at hsp
  | cons c suf =>
    rw [his1.next_cons]
    exact LexInv.go h0 his1.step_is trivial

theorem lexEndOfLine_inv (L : GoLib) (l : Lexer) (h : LexInv L (some .lexEndOfLine, l)) :
    LexInv L (lexEndOfLine l) := by
  obtain ⟨h0, h1⟩ := h
  obtain ⟨pre, tok, suf, his, _⟩ := h1 _ rfl
  unfold lexEndOfLine
  obtain ⟨l1, hpk, his1⟩ := his.peek
  rw [hpk]
  refine LexInv.of_ite (fun hsp => ?_) (fun _ => LexInv.go h0 his1.ignore rfl)
  cases suf with
  | nil => simp [isEndOfLine] at hsp
  | cons c suf =>
    rw [his1.next_cons]
    exact LexInv.go h0 his1.step_is trivial

theorem lexString_inv (L : GoLib) (l : Lexer) (h : LexInv L (some .lexString, l)) :
    LexInv L (lexString l) := by
  obtain ⟨h0, h1⟩ := h
  obtain ⟨pre, tok, suf, his, _⟩ := h1 _ rfl
  unfold lexString
  cases suf with
  | nil =>
    rw [his.next_nil]
    refine LexInv.of_ite (fun _ => LexInv.go h0 (his.width 0) trivial) (fun _ => ?_)
    exact LexInv.of_ite (fun _ => LexInv.of_errorf _ h0 rfl) (fun hc => absurd rfl hc)
  | cons c suf =>
    rw [his.next_cons]
    refine LexInv.of_ite (fun _ => LexInv.go h0 his.step_is trivial) (fun _ => ?_)
    refine LexInv.of_ite (fun _ => LexInv.of_errorf _ h0 rfl) (fun _ => ?_)
    exact LexInv.of_sent h0 (his.step_is.emit_is .STRING)
      (TokOK.of_other (by simp) (by simp) (by simp) (by simp) (by simp) (by simp))

theorem lexTag_inv (L : GoLib) (l : Lexer) (h : LexInv L (some .lexTag, l)) :
    LexInv L (lexTag L l) := by
  obtain ⟨h0, h1⟩ := h
  obtain ⟨pre, tok, suf, his, v, hv, hvs⟩ := h1 _ rfl
  unfold lexTag
  have htag : ∀ pos, TokOK L ⟨.TAG, pos, String.mk tok⟩ :=
    fun pos => ⟨KwOK_of_not_kw (by simp) (by simp) (by simp), (fun h => by cases h),
      (fun h => by cases h), fun _ => ⟨v, hv, hvs⟩⟩
  cases suf with
  | nil =>
    rw [his.next_nil]
    refine LexInv.of_ite (fun hc => by simp [isAlphaNumeric] at hc) (fun _ => ?_)
    rw [Lexer.backup_zero]
    exact LexInv.of_sent h0 ((his.width 0).emit_is .TAG) (htag _)
  | cons c suf =>
    rw [his.next_cons]
    refine LexInv.of_ite (fun hc => ?_) (fun _ => ?_)
    · refine LexInv.go h0 his.step_is ⟨v ++ [c], by rw [hv]; rfl, ?_⟩
      intro x hx
      rcases List.mem_append.1 hx with hx | hx
      · exact hvs x hx
      · simp only [List.mem_singleton] at hx; subst hx; exact hc
    · rw [Lexer.backup_step]
      exact LexInv.of_sent h0 ((his.width 1).emit_is .TAG) (htag _)

theorem lexIdentifier_inv (L : GoLib) (l : Lexer) (h : LexInv L (some .lexIdentifier, l)) :
    LexInv L (lexIdentifier L l) := by
  obtain ⟨h0, h1⟩ := h
  obtain ⟨pre, tok, suf, his, htok, c0, hc0, hc0a, hc0d⟩ := h1 _ rfl
  unfold lexIdentifier
  have hexit : ∀ (l1 : Lexer), l1.Is pre tok suf l.parenDepth l.items →
      (∀ c, suf.head? = some c → isAlphaNumeric L (some c) ≠ true) →
      LexInv L (if (key (String.mk (slice l1.input l1.start l1.pos))).toNat >
          TokenType.COMMAND.toNat
        then (some StateFn.lexStart, l1.emit (key (String.mk (slice l1.input l1.start l1.pos))))
        else (some StateFn.lexStart, l1.emit .IDENTIFIER)) := by
    intro l1 his1 hsuf
    have hword : slice l1.input l1.start l1.pos = tok := by
      rw [his1.input_eq, his1.start_eq, his1.pos_eq, slice_split]
    have htokne : tok.head? = some c0 := by
      cases tok with
      | nil => exact absurd hc0a (hsuf c0 (by simpa using hc0))
      | cons a as => simpa using hc0
    rw [hword]
    refine LexInv.of_ite (fun hk => ?_) (fun hk => ?_)
    · refine LexInv.of_sent h0 (his1.emit_is _) ⟨KwOK_key _ _, fun h => ?_, fun h => ?_, fun h => ?_⟩
      all_goals (have hkc := key_cases (String.mk tok); simp only at h; rw [h] at hkc; simp at hkc)
    · refine LexInv.of_sent h0 (his1.emit_is _) ⟨KwOK_of_not_kw (by simp) (by simp) (by simp),
        fun _ => ⟨⟨htok, c0, htokne, hc0d⟩, by simpa using hk⟩, (fun h => by cases h),
        (fun h => by cases h)⟩
  cases suf with
  | nil =>
    rw [his.next_nil]
    refine LexInv.of_ite (fun hc => by simp [isAlphaNumeric] at hc) (fun _ => ?_)
    rw [Lexer.backup_zero]
    exact hexit _ (his.width 0) (by simp)
  | cons c suf =>
    rw [his.next_cons]
    refine LexInv.of_ite (fun hc => ?_) (fun hc => ?_)
    · refine LexInv.go h0 his.step_is ⟨?_, c0, ?_, hc0a, hc0d⟩
      · intro x hx
        rcases List.mem_append.1 hx with hx | hx
        · exact htok x hx
        · simp only [List.mem_singleton] at hx; subst hx; exact hc
      · cases tok with
        | nil => simpa using hc0
        | cons a as => simpa using hc0
    · rw [Lexer.backup_step]
      exact hexit _ (his.width 1) (by intro x hx; simp at hx; subst hx; exact hc)


theorem LexInv.of_errorf_self {L : GoLib} {l : Lexer} (msg : String)
    (h0 : ∀ t ∈ l.items, TokOK L t) : LexInv L (l.errorf msg) :=
  LexInv.of_errorf msg h0 rfl

theorem LexInv.of_halt {L : GoLib} {l : Lexer} (h0 : ∀ t ∈ l.items, TokOK L t) :
    LexInv L (none, l) := ⟨h0, fun s hs => by cases hs⟩

theorem Lexer.Is.atTerminator {l : Lexer} {pre tok suf : List Char} {d : Int}
    {items : List Token} (h : l.Is pre tok suf d items) :
    ∃ b l', l.atTerminator = (b, l') ∧ l'.Is pre tok suf d items := by
  unfold Lexer.atTerminator
  obtain ⟨l1, hpk, his1⟩ := h.peek
  rw [hpk]
  simp only
  split
  · exact ⟨_, _, rfl, his1⟩
  · split
    · exact ⟨_, _, rfl, his1⟩
    · exact ⟨_, _, rfl, his1⟩

theorem lexLineComment_inv (L : GoLib) (l : Lexer) (h : LexInv L (some .lexLineComment, l)) :
    LexInv L (lexLineComment l) := by
  obtain ⟨h0, h1⟩ := h
  obtain ⟨pre, tok, suf, his, _⟩ := h1 _ rfl
  have hother : ∀ pos w, TokOK L ⟨.LINECOMMENT, pos, w⟩ := fun _ _ =>
    TokOK.of_other (by simp) (by simp) (by simp) (by simp) (by simp) (by simp)
  unfold lexLineComment
  cases suf with
  | nil =>
    rw [his.next_nil]
    refine LexInv.of_ite (fun _ => LexInv.go h0 (his.width 0) trivial) (fun _ => ?_)
    rw [Lexer.backup_zero]
    obtain ⟨b, l2, hat, his2⟩ := (his.width 0).atTerminator
    rw [hat]
    exact LexInv.of_ite (fun _ => LexInv.of_errorf _ h0 his2.items_eq)
      (fun _ => LexInv.of_sent h0 (his2.emit_is _) (hother _ _))
  | cons c suf =>
    rw [his.next_cons]
    refine LexInv.of_ite (fun _ => LexInv.go h0 his.step_is trivial) (fun _ => ?_)
    rw [Lexer.backup_step]
    obtain ⟨b, l2, hat, his2⟩ := (his.width 1).atTerminator
    rw [hat]
    exact LexInv.of_ite (fun _ => LexInv.of_errorf _ h0 his2.items_eq)
      (fun _ => LexInv.of_sent h0 (his2.emit_is _) (hother _ _))

theorem lexBlockComment_inv (L : GoLib) (l : Lexer) (h : LexInv L (some .lexBlockComment, l)) :
    LexInv L (lexBlockComment l) := by
  obtain ⟨h0, h1⟩ := h
  obtain ⟨pre, tok, suf, his, _⟩ := h1 _ rfl
  have hother : ∀ pos w, TokOK L ⟨.BLOCKCOMMENT, pos, w⟩ := fun _ _ =>
    TokOK.of_other (by simp) (by simp) (by simp) (by simp) (by simp) (by simp)
  unfold lexBlockComment
  cases suf with
  | nil =>
    rw [his.next_nil]
    refine LexInv.of_ite (fun _ => LexInv.go h0 (his.width 0) trivial) (fun _ => ?_)
    refine LexInv.of_ite (fun _ => LexInv.of_errorf _ h0 rfl) (fun _ => ?_)
    exact LexInv.of_ite (fun _ => LexInv.of_sent h0 ((his.width 0).emit_is _) (hother _ _))
      (fun _ => LexInv.of_errorf _ h0 rfl)
  | cons c suf =>
    rw [his.next_cons]
    refine LexInv.of_ite (fun _ => LexInv.go h0 his.step_is trivial) (fun _ => ?_)
    refine LexInv.of_ite (fun _ => LexInv.of_errorf _ h0 rfl) (fun _ => ?_)
    exact LexInv.of_ite (fun _ => LexInv.of_sent h0 (his.step_is.emit_is _) (hother _ _))
      (fun _ => LexInv.of_errorf _ h0 rfl)

theorem TokOK.append {L : GoLib} {items : List Token} {t : Token}
    (h0 : ∀ x ∈ items, TokOK L x) (ht : TokOK L t) : ∀ x ∈ items ++ [t], TokOK L x := by
  intro x hx
  rcases List.mem_append.1 hx with hx | hx
  · exact h0 x hx
  · simp only [List.mem_singleton] at hx; subst hx; exact ht

theorem lexStart_inv (L : GoLib) (l : Lexer) (h : LexInv L (some .lexStart, l)) :
    LexInv L (lexStart L l) := by
  obtain ⟨h0, h1⟩ := h
  obtain ⟨pre, tok, suf, his, htok⟩ := h1 _ rfl
  have htok' : tok = [] := htok
  subst htok'
  have hother : ∀ (t : TokenType) pos w,
      (t ≠ .IF ∧ t ≠ .ELSIF ∧ t ≠ .ELSE ∧ t ≠ .IDENTIFIER ∧ t ≠ .NUMBER ∧ t ≠ .TAG) →
      TokOK L ⟨t, pos, w⟩ := fun _ _ _ h =>
    TokOK.of_other h.1 h.2.1 h.2.2.1 h.2.2.2.1 h.2.2.2.2.1 h.2.2.2.2.2
  unfold lexStart
  cases suf with
  | nil =>
    rw [his.next_nil]
    exact LexInv.of_halt (by
      show ∀ t ∈ l.items ++ [_], TokOK L t
      exact TokOK.append h0 (hother _ _ _ (by decide)))
  | cons c suf =>
    rw [his.next_cons]
    have his1 := his.step_is
    simp only [List.nil_append] at his1
    show LexInv L (if c = ';' then _ else _)
    refine LexInv.of_ite (fun _ => LexInv.go h0 his1 trivial) (fun _ => ?_)
    refine LexInv.of_ite (fun hc => LexInv.go h0 his1 ⟨[], by rw [hc], by simp⟩) (fun _ => ?_)
    refine LexInv.of_ite (fun _ => LexInv.of_sent h0 (his1.emit_is _) (hother _ _ _ (by decide)))
      (fun _ => ?_)
    refine LexInv.of_ite (fun _ => LexInv.go h0 his1 trivial) (fun _ => ?_)
    refine LexInv.of_ite (fun _ => ?_) (fun _ => ?_)
    · exact LexInv.of_sent h0 ((his1.emit_is .LEFTPAREN).depth _) (hother _ _ _ (by decide))
    refine LexInv.of_ite (fun _ => ?_) (fun _ => ?_)
    · refine LexInv.of_ite (fun _ => ?_) (fun _ => ?_)
      · refine LexInv.of_errorf_self _ ?_
        show ∀ t ∈ l.items ++ [_], TokOK L t
        exact TokOK.append h0 (hother _ _ _ (by decide))
      · exact LexInv.of_sent h0 ((his1.emit_is .RIGHTPAREN).depth _) (hother _ _ _ (by decide))
    refine LexInv.of_ite (fun _ => LexInv.of_sent h0 (his1.emit_is _) (hother _ _ _ (by decide)))
      (fun _ => ?_)
    refine LexInv.of_ite (fun _ => LexInv.of_sent h0 (his1.emit_is _) (hother _ _ _ (by decide)))
      (fun _ => ?_)
    refine LexInv.of_ite (fun _ => LexInv.of_sent h0 (his1.emit_is _) (hother _ _ _ (by decide)))
      (fun _ => ?_)
    refine LexInv.of_ite (fun _ => LexInv.of_sent h0 (his1.emit_is _) (hother _ _ _ (by decide)))
      (fun _ => ?_)
    refine LexInv.of_ite (fun _ => LexInv.go h0 his1 trivial) (fun _ => ?_)
    refine LexInv.of_ite (fun _ => LexInv.go h0 his1 trivial) (fun _ => ?_)
    refine LexInv.of_ite (fun hd => ?_) (fun hd => ?_)
    · rw [Lexer.backup_step]
      exact LexInv.go h0 (his.width 1) ⟨rfl, c, suf, rfl, hd⟩
    refine LexInv.of_ite (fun ha => ?_) (fun _ => ?_)
    · rw [Lexer.backup_step]
      exact LexInv.go h0 (his.width 1) ⟨by simp, c, by simp, ha, hd⟩
    refine LexInv.of_ite (fun _ => LexInv.go h0 his1 trivial) (fun _ => ?_)
    refine LexInv.of_ite (fun _ => ?_) (fun _ => LexInv.of_errorf _ h0 rfl)
    obtain ⟨l2, hpk, his2⟩ := his1.peek
    rw [hpk]
    exact LexInv.of_ite (fun _ => LexInv.go h0 his2 trivial)
      (fun _ => LexInv.of_errorf _ h0 his2.items_eq)

theorem digit_mem {c : Char} (h : '0' ≤ c ∧ c ≤ '9') : c ∈ "0123456789".data := by
  obtain ⟨h1, h2⟩ := h
  have h1' : 48 ≤ c.toNat := h1
  have h2' : c.toNat ≤ 57 := h2
  have hc : c = Char.ofNat c.toNat := (Char.ofNat_toNat c).symm
  generalize c.toNat = n at h1' h2' hc
  subst hc
  interval_cases n <;> decide

theorem mem_digit {c : Char} (h : c ∈ "0123456789".data) : '0' ≤ c ∧ c ≤ '9' := by
  simp only [List.mem_cons, List.mem_singleton, List.not_mem_nil, or_false] at h
  rcases h with h | h | h | h | h | h | h | h | h | h <;> subst h <;> decide

theorem digit_alnum (L : GoLib) {c : Char} (h : c ∈ "0123456789".data) :
    isAlphaNumeric L (some c) = true := by
  simp only [List.mem_cons, List.mem_singleton, List.not_mem_nil, or_false] at h
  rcases h with h | h | h | h | h | h | h | h | h | h <;> subst h <;> rfl

theorem magnitude_alnum (L : GoLib) {c : Char} (h : c ∈ "kKmMgG".data) :
    isAlphaNumeric L (some c) = true := by
  simp only [List.mem_cons, List.mem_singleton, List.not_mem_nil, or_false] at h
  rcases h with h | h | h | h | h | h <;> subst h <;> rfl

theorem Lexer.Is.acceptRunLoop {pre : List Char} {d : Int} {items : List Token}
    (valid : List Char) (run : List Char) :
    ∀ (n : Nat) (l : Lexer) (tok rest : List Char),
      l.Is pre tok (run ++ rest) d items → (∀ c ∈ run, valid.contains c = true) →
      (∀ c, rest.head? = some c → valid.contains c = false) → run.length < n →
      (Lexer.acceptRunLoop valid n l).Is pre (tok ++ run) rest d items := by
  induction run with
  | nil =>
    intro n l tok rest h _ hrest hn
    obtain ⟨m, rfl⟩ : ∃ m, n = m + 1 := ⟨n - 1, by simp at hn; omega⟩
    rw [Lexer.acceptRunLoop]
    simp only [List.nil_append] at h
    cases rest with
    | nil =>
      rw [h.next_nil]
      simp only [inSet, Bool.false_eq_true, if_false, Lexer.backup_zero, List.append_nil]
      exact h.width 0
    | cons c rest =>
      rw [h.next_cons]
      simp only [inSet, hrest c rfl, Bool.false_eq_true, if_false, Lexer.backup_step,
        List.append_nil]
      exact h.width 1
  | cons c cs ih =>
    intro n l tok rest h hrun hrest hn
    obtain ⟨m, rfl⟩ : ∃ m, n = m + 1 := ⟨n - 1, by simp at hn; omega⟩
    rw [Lexer.acceptRunLoop]
    have h' : l.Is pre tok (c :: (cs ++ rest)) d items := h
    rw [h'.next_cons]
    simp only [inSet, hrun c (by simp), if_true]
    have := ih m _ (tok ++ [c]) rest h'.step_is (fun x hx => hrun x (by simp [hx])) hrest
      (by simp at hn; omega)
    simpa using this

theorem Lexer.Is.acceptRun {l : Lexer} {pre tok run rest : List Char} {d : Int}
    {items : List Token} (valid : List Char) (h : l.Is pre tok (run ++ rest) d items)
    (hrun : ∀ c ∈ run, valid.contains c = true)
    (hrest : ∀ c, rest.head? = some c → valid.contains c = false) :
    (l.acceptRun valid).Is pre (tok ++ run) rest d items := by
  unfold Lexer.acceptRun
  refine Lexer.Is.acceptRunLoop valid run _ l tok rest h hrun hrest ?_
  rw [h.input_eq, h.pos_eq]
  simp only [List.length_append]
  omega

theorem Lexer.Is.accept_yes {l : Lexer} {pre tok rest : List Char} {c : Char} {d : Int}
    {items : List Token} (valid : List Char) (h : l.Is pre tok (c :: rest) d items)
    (hc : valid.contains c = true) : (l.accept valid).2.Is pre (tok ++ [c]) rest d items := by
  unfold Lexer.accept
  rw [h.next_cons]
  simp only [inSet, hc, if_true]
  exact h.step_is

theorem Lexer.Is.accept_no {l : Lexer} {pre tok rest : List Char} {d : Int}
    {items : List Token} (valid : List Char) (h : l.Is pre tok rest d items)
    (hc : ∀ c, rest.head? = some c → valid.contains c = false) :
    (l.accept valid).2.Is pre tok rest d items := by
  unfold Lexer.accept
  cases rest with
  | nil =>
    rw [h.next_nil]
    simp only [inSet, Bool.false_eq_true, if_false, Lexer.backup_zero]
    exact h.width 0
  | cons c rest =>
    rw [h.next_cons]
    simp only [inSet, hc c rfl, Bool.false_eq_true, if_false, Lexer.backup_step]
    exact h.width 1

/-- `scanNumber` on digits `ds`, an optional magnitude letter `sufx` and the
rest `r2`: it fails exactly when `r2` starts with a letter, digit or
underscore, and otherwise stands after `ds ++ sufx`. -/
theorem Lexer.Is.scanNumber (L : GoLib) {l : Lexer} {pre ds sufx r2 : List Char} {d : Int}
    {items : List Token} (h : l.Is pre [] (ds ++ (sufx ++ r2)) d items)
    (hds : ∀ c ∈ ds, c ∈ "0123456789".data)
    (hnd : ∀ c, (sufx ++ r2).head? = some c → c ∉ "0123456789".data)
    (hsufx : (sufx = [] ∧ ∀ c, r2.head? = some c → c ∉ "kKmMgG".data) ∨
      ∃ k, sufx = [k] ∧ k ∈ "kKmMgG".data) :
    ∃ l', l.scanNumber L = (!(isAlphaNumeric L r2.head?), l') ∧ l'.items = items ∧
      (isAlphaNumeric L r2.head? = false → l'.Is pre (ds ++ sufx) r2 d items) := by
  have h1 := h.acceptRun "0123456789".data (fun c hc => by simpa using hds c hc)
    (fun c hc => by simpa using hnd c hc)
  simp only [List.nil_append] at h1
  have h2 : ((l.acceptRun "0123456789".data).accept "kKmMgG".data).2.Is pre (ds ++ sufx) r2 d
      items := by
    rcases hsufx with ⟨rfl, hr2⟩ | ⟨k, rfl, hk⟩
    · simp only [List.nil_append, List.append_nil] at h1 ⊢
      exact h1.accept_no _ (fun c hc => by simpa using hr2 c hc)
    · exact h1.accept_yes _ (by simpa using hk)
  obtain ⟨l3, hpk, h3⟩ := h2.peek
  unfold Lexer.scanNumber
  simp only
  rw [hpk]
  simp only
  by_cases ha : isAlphaNumeric L r2.head? = true
  · rw [if_pos ha]
    refine ⟨l3.next.2, by simp [ha], ?_, fun hf => ?_⟩
    · rw [Lexer.next_items]; exact h3.items_eq
    · rw [ha] at hf; cases hf
  · rw [if_neg ha]
    exact ⟨l3, by simp [ha], h3.items_eq, fun _ => h3⟩

theorem lexNumber_inv (L : GoLib) (l : Lexer) (h : LexInv L (some .lexNumber, l)) :
    LexInv L (lexNumber L l) := by
  obtain ⟨h0, h1⟩ := h
  obtain ⟨pre, tok, suf, his, htok, c, rest, hsuf, hc⟩ := h1 _ rfl
  subst htok
  let p : Char → Bool := fun x => "0123456789".data.contains x
  have hdec : suf = suf.takeWhile p ++ suf.dropWhile p := (List.takeWhile_append_dropWhile p suf).symm
  have hds : ∀ x ∈ suf.takeWhile p, x ∈ "0123456789".data := by
    intro x hx
    have := List.mem_takeWhile_imp hx
    simpa [p] using this
  have hne : suf.takeWhile p ≠ [] := by
    rw [hsuf]
    have : p c = true := by simpa [p] using digit_mem hc
    simp [List.takeWhile, this]
  have hr1 : ∀ x, (suf.dropWhile p).head? = some x → x ∉ "0123456789".data := by
    intro x hx hmem
    have hnot : p x = false := by
      have := List.head?_dropWhile_not p suf
      rw [hx] at this
      simpa using this
    have hyes : p x = true := by simpa [p] using hmem
    rw [hnot] at hyes
    cases hyes
  -- split off the magnitude letter
  obtain ⟨sufx, r2, hr, hsufx⟩ : ∃ sufx r2, suf.dropWhile p = sufx ++ r2 ∧
      ((sufx = [] ∧ ∀ c, r2.head? = some c → c ∉ "kKmMgG".data) ∨
        ∃ k, sufx = [k] ∧ k ∈ "kKmMgG".data) := by
    cases hd : suf.dropWhile p with
    | nil => exact ⟨[], [], rfl, Or.inl ⟨rfl, by simp⟩⟩
    | cons k r =>
      by_cases hk : k ∈ "kKmMgG".data
      · exact ⟨[k], r, rfl, Or.inr ⟨k, rfl, hk⟩⟩
      · exact ⟨[], k :: r, rfl, Or.inl ⟨rfl, by intro c hc; simp at hc; subst hc; exact hk⟩⟩
  have his' : l.Is pre [] (suf.takeWhile p ++ (sufx ++ r2)) l.parenDepth l.items := by
    rw [← hr, ← hdec]; exact his
  obtain ⟨l', hscan, hitems, hok⟩ := his'.scanNumber L hds (by rw [← hr]; exact hr1) hsufx
  unfold lexNumber
  rw [hscan]
  simp only
  refine LexInv.of_ite (fun _ => LexInv.of_errorf _ h0 hitems) (fun hb => ?_)
  have hb' : isAlphaNumeric L r2.head? = false := by simpa using hb
  refine LexInv.of_sent h0 ((hok hb').emit_is _) ⟨KwOK_of_not_kw (by simp) (by simp) (by simp),
    (fun h => by cases h), fun _ => ?_, (fun h => by cases h)⟩
  exact ⟨suf.takeWhile p, sufx, rfl, hne, hds, hsufx.imp (fun h => h.1) id⟩

theorem step_inv (L : GoLib) (s : StateFn) (l : Lexer) (h : LexInv L (some s, l)) :
    LexInv L (step L s l) := by
  cases s
  · exact lexStart_inv L l h
  · exact lexSemiColon_inv L l h
  · exact lexSpace_inv L l h
  · exact lexEndOfLine_inv L l h
  · exact lexNumber_inv L l h
  · exact lexString_inv L l h
  · exact lexTag_inv L l h
  · exact lexIdentifier_inv L l h
  · exact lexLineComment_inv L l h
  · exact lexBlockComment_inv L l h

theorem Lexer.run_inv (L : GoLib) (n : Nat) :
    ∀ c, LexInv L c → LexInv L (Lexer.run L n c) := by
  induction n with
  | zero => intro c h; simpa [Lexer.run] using h
  | succ n ih =>
    rintro ⟨s, l⟩ h
    cases s with
    | none => rw [Lexer.run_none]; exact h
    | some s =>
      rw [Lexer.run]
      exact ih _ (step_inv L s l h)

theorem Lex_inv (L : GoLib) (input : String) : LexInv L (Lex input) := by
  refine ⟨(fun t ht => by cases ht), ?_⟩
  intro s hs
  cases hs
  exact ⟨[], [], input.data, ⟨rfl, rfl, rfl, rfl, rfl⟩, rfl⟩

/-- Every token of a scan that halts has a text of its kind. -/
theorem Scans.tokOK {L : GoLib} {input : String} {sent : List Token} (h : Scans L input sent) :
    ∀ t ∈ sent, TokOK L t := by
  obtain ⟨fuel, h⟩ := h
  unfold lexTokens at h
  have hinv := Lexer.run_inv L fuel _ (Lex_inv L input)
  rcases hr : Lexer.run L fuel (Lex input) with ⟨s, l⟩
  rw [hr] at h hinv
  cases s with
  | some s => cases h
  | none =>
    simp only [Option.some.injEq] at h
    subst h
    exact hinv.1

/-! ## What the parser builds -/

theorem goodTests_snoc (L : GoLib) (tl : List Test) (x : Test)
    (h : ∀ t ∈ tl, goodTest L t) (hx : goodTest L x) (ho : opens x = false) :
    goodTests L (tl ++ [x]) := by
  induction tl with
  | nil => simp [goodTests, hx, ho]
  | cons t ts ih =>
    simp only [List.cons_append, goodTests]
    refine ⟨h t (by simp), ?_, ih (fun y hy => h y (by simp [hy]))⟩
    intro hnil
    simp at hnil

theorem goodCommands_snoc (L : GoLib) (cl : List Command) (c : Command)
    (h : goodCommands L cl) (hc : goodCommand L c) : goodCommands L (cl ++ [c]) := by
  induction cl with
  | nil => simp [goodCommands, hc]
  | cons t ts ih =>
    simp only [List.cons_append, goodCommands] at h ⊢
    exact ⟨h.1, ih h.2⟩

/-- What `next` returns: the EOF token it stands on, or the token one further. -/
theorem Parser.next_spec (p q : Parser) (t : Token) (h : p.next = .ok (t, q)) :
    (t.Typ = .EOF ∧ q = p) ∨ (q = p.adv ∧ p.adv.item = .ok t) := by
  unfold Parser.next at h
  obtain ⟨atEOF, h1, h⟩ := Run.bind_eq_ok h
  split at h
  · rename_i hat
    obtain ⟨t', ht', h⟩ := Run.bind_eq_ok h
    cases h
    left
    refine ⟨?_, rfl⟩
    split at h1
    · obtain ⟨t0, ht0, h1⟩ := Run.bind_eq_ok h1
      rw [ht0] at ht'
      cases ht'
      cases h1
      simpa using hat
    · cases h1
      cases hat
  · dsimp only at h
    split at h
    · cases h
    · obtain ⟨t', ht', h⟩ := Run.bind_eq_ok h
      split at h
      · cases h
      · cases h
        exact Or.inr ⟨rfl, ht'⟩

theorem Parser.backup_spec (p q : Parser) (h : p.backup = .ok q) :
    q = { p with pos := p.pos - 1 } := by
  unfold Parser.backup at h
  split at h
  · cases h
  · cases h; rfl

/-- After a terminator has been looked at and given back, it is still what
comes next. -/
theorem NextTerm.of_backup {p p1 p2 : Parser} {t : Token} (h : p.next = .ok (t, p1))
    (ht : atTerminator t = true) (hb : p1.backup = .ok p2) : NextTerm p2 := by
  intro t' q' h'
  have hq := Parser.backup_spec _ _ hb
  rcases Parser.next_spec _ _ _ h with ⟨hte, hp1⟩ | ⟨hp1, hitem⟩
  · -- the parser stood on EOF
    subst hp1
    rcases Parser.next_spec _ _ _ h' with ⟨hte', _⟩ | ⟨_, hitem'⟩
    · simp [atTerminator, hte']
    · have hadv : p2.adv = p1 := by
        rw [hq]
        cases p1
        simp [Parser.adv]
      rw [hadv] at hitem'
      have := Parser.next_item _ _ _ h
      rw [this] at hitem'
      cases hitem'
      exact ht
  · have hp : p2 = p := by
      rw [hq, hp1]
      cases p
      simp [Parser.adv]
    rw [hp, h] at h'
    cases h'
    exact ht

theorem Run.Sat_self {α : Type} (r : Run α) : Run.Sat r (fun a => r = .ok a) := fun _ h => h

theorem parseArgumentsLoop_good (L : GoLib) (n : Nat) :
    ∀ p al, (∀ t ∈ p.Items, TokOK L t) → (∀ a ∈ al, goodArgument L a) →
      Run.Sat (parseArgumentsLoop L n p al)
        (fun r => (∀ a ∈ r.1, goodArgument L a) ∧ NextTerm r.2) := by
  induction n with
  | zero => intro p al _ _; exact Run.Sat_outOfFuel
  | succ n ih =>
    intro p al hp hal
    rw [parseArgumentsLoop]
    refine Run.Sat_bind (Run.Sat_and (Run.Sat_self _)
      (Run.Sat_and (Parser.next_frame p) (next_mem p))) ?_
    rintro ⟨t, p1⟩ ⟨hnext, f1, hmem⟩
    have hk : TokOK L t := hp t hmem
    have hp1 : ∀ t ∈ p1.Items, TokOK L t := by rw [f1.2.1]; exact hp
    have hsnoc : ∀ a, goodArgument L a → ∀ x ∈ al ++ [a], goodArgument L x := by
      intro a ha x hx
      rcases List.mem_append.1 hx with hx | hx
      · exact hal x hx
      · simp only [List.mem_singleton] at hx; subst hx; exact ha
    refine Run.Sat_ite (fun hty => ih p1 _ hp1 (hsnoc _ (hk.2.2.1 hty))) (fun _ => ?_)
    refine Run.Sat_ite (fun hty => ih p1 _ hp1 (hsnoc _ (hk.2.2.2 hty))) (fun _ => ?_)
    refine Run.Sat_ite (fun _ => ?_) (fun _ => ?_)
    · cases strconvUnquote L t.Val with
      | none => exact Run.Sat_exit
      | some s => exact ih p1 _ hp1 (hsnoc _ trivial)
    refine Run.Sat_ite (fun _ => ?_) (fun _ => ?_)
    · refine Run.Sat_bind (Parser.backup_frame p1) ?_
      intro p2 f2
      refine Run.Sat_bind (parseStrings_frame L n p2) ?_
      rintro ⟨sl, p3⟩ f3
      refine ih p3 _ ?_ (hsnoc _ trivial)
      rw [f3.2.1, f2.2.1]
      exact hp1
    refine Run.Sat_ite (fun hterm => ?_) (fun _ => Run.Sat_exit)
    refine Run.Sat_bind (Run.Sat_self _) ?_
    intro p2 hb
    exact Run.Sat_pure ⟨hal, NextTerm.of_backup hnext hterm hb⟩

theorem parseTest_good_all (L : GoLib) (n : Nat) :
    (∀ p, (∀ t ∈ p.Items, TokOK L t) →
      Run.Sat (parseTest L n p)
        (fun r => goodTest L r.1 ∧ (opens r.1 = true → NextTerm r.2))) ∧
    (∀ p, (∀ t ∈ p.Items, TokOK L t) →
      Run.Sat (parseTests L n p) (fun r => r.1 ≠ [] ∧ goodTests L r.1)) ∧
    (∀ p tl, (∀ t ∈ p.Items, TokOK L t) → (∀ t ∈ tl, goodTest L t) →
      Run.Sat (parseTestsLoop L n p tl) (fun r => r.1 ≠ [] ∧ goodTests L r.1)) := by
  induction n with
  | zero =>
    exact ⟨fun _ _ => Run.Sat_outOfFuel, fun _ _ => Run.Sat_outOfFuel,
      fun _ _ _ _ => Run.Sat_outOfFuel⟩
  | succ n ih =>
    obtain ⟨ih1, ih2, ih3⟩ := ih
    refine ⟨?_, ?_, ?_⟩
    · intro p hp
      rw [parseTest]
      refine Run.Sat_bind (Run.Sat_and (Parser.next_frame p) (next_mem p)) ?_
      rintro ⟨t, p1⟩ ⟨f1, hmem⟩
      have hk : TokOK L t := hp t hmem
      have hp1 : ∀ t ∈ p1.Items, TokOK L t := by rw [f1.2.1]; exact hp
      refine Run.Sat_ite (fun _ => ?_) (fun _ => ?_)
      · refine Run.Sat_bind (ih1 p1 hp1) ?_
        rintro ⟨x, p2⟩ ⟨hx, ho⟩
        exact Run.Sat_pure ⟨hx, ho⟩
      refine Run.Sat_ite (fun _ => ?_) (fun _ => ?_)
      · refine Run.Sat_bind (ih2 p1 hp1) ?_
        rintro ⟨tl, p2⟩ ⟨hne, htl⟩
        exact Run.Sat_pure ⟨⟨hne, htl⟩, fun h => by simp [opens] at h⟩
      refine Run.Sat_ite (fun _ => ?_) (fun _ => ?_)
      · refine Run.Sat_bind (ih2 p1 hp1) ?_
        rintro ⟨tl, p2⟩ ⟨hne, htl⟩
        exact Run.Sat_pure ⟨⟨hne, htl⟩, fun h => by simp [opens] at h⟩
      refine Run.Sat_ite (fun _ => Run.Sat_pure ⟨trivial, fun h => by simp [opens] at h⟩)
        (fun _ => ?_)
      refine Run.Sat_ite (fun _ => Run.Sat_pure ⟨trivial, fun h => by simp [opens] at h⟩)
        (fun _ => ?_)
      refine Run.Sat_ite (fun hty => ?_) (fun _ => Run.Sat_exit)
      refine Run.Sat_bind (parseArgumentsLoop_good L n p1 [] hp1 (by simp)) ?_
      rintro ⟨al, p2⟩ ⟨hal, hnt⟩
      exact Run.Sat_pure ⟨⟨hk.2.1 hty, hal⟩, fun _ => hnt⟩
    · intro p hp
      rw [parseTests]
      refine Run.Sat_bind (Parser.next_frame p) ?_
      rintro ⟨t, p1⟩ f1
      refine Run.Sat_ite (fun _ => ?_) (fun _ => Run.Sat_exit)
      exact ih3 p1 [] (by rw [f1.2.1]; exact hp) (by simp)
    · intro p tl hp htl
      rw [parseTestsLoop]
      refine Run.Sat_bind (Run.Sat_and ((parseTest_frame_all L n).1 p) (ih1 p hp)) ?_
      rintro ⟨x, p1⟩ ⟨f1, hx, ho⟩
      refine Run.Sat_bind (Run.Sat_and (Run.Sat_self _) (Parser.next_frame p1)) ?_
      rintro ⟨t, p2⟩ ⟨hnext, f2⟩
      refine Run.Sat_ite (fun _ => ?_) (fun _ => Run.Sat_ite (fun hrp => ?_) (fun _ => Run.Sat_exit))
      · refine ih3 p2 _ (by rw [f2.2.1, f1.2.1]; exact hp) ?_
        intro y hy
        rcases List.mem_append.1 hy with hy | hy
        · exact htl y hy
        · simp only [List.mem_singleton] at hy; subst hy; exact hx
      · refine Run.Sat_pure ⟨by simp, goodTests_snoc L tl x htl hx ?_⟩
        cases hopen : opens x with
        | false => rfl
        | true =>
          have := ho hopen t p2 hnext
          simp [atTerminator, hrp] at this

theorem parseCommand_good_all (L : GoLib) (n : Nat) :
    (∀ p, (∀ t ∈ p.Items, TokOK L t) →
      Run.Sat (parseCommand L n p) (fun r => goodCommand L r.1)) ∧
    (∀ p, (∀ t ∈ p.Items, TokOK L t) →
      Run.Sat (parseBlock L n p) (fun r => r.1 ≠ [] ∧ goodCommands L r.1)) ∧
    (∀ p cl, (∀ t ∈ p.Items, TokOK L t) → goodCommands L cl →
      Run.Sat (parseBlockLoop L n p cl) (fun r => r.1 ≠ [] ∧ goodCommands L r.1)) := by
  induction n with
  | zero =>
    exact ⟨fun _ _ => Run.Sat_outOfFuel, fun _ _ => Run.Sat_outOfFuel,
      fun _ _ _ _ => Run.Sat_outOfFuel⟩
  | succ n ih =>
    obtain ⟨ih1, ih2, ih3⟩ := ih
    refine ⟨?_, ?_, ?_⟩
    · intro p hp
      rw [parseCommand]
      refine Run.Sat_bind (Run.Sat_and (Parser.next_frame p) (next_mem p)) ?_
      rintro ⟨t, p1⟩ ⟨f1, hmem⟩
      have hk : TokOK L t := hp t hmem
      have hp1 : ∀ t ∈ p1.Items, TokOK L t := by rw [f1.2.1]; exact hp
      refine Run.Sat_ite (fun hc => ?_) (fun _ => Run.Sat_ite
        (fun _ => Run.Sat_pure trivial)
        (fun _ => Run.Sat_ite
          (fun _ => Run.Sat_pure trivial)
          (fun _ => Run.Sat_ite (fun _ => ?_) (fun _ => Run.Sat_ite (fun hty => ?_)
            (fun _ => Run.Sat_exit)))))
      · refine Run.Sat_bind
          (P := fun r => Frame p1 r.2 ∧
            (((t.Typ = .IF ∨ t.Typ = .ELSIF) ∧ r.1.isSome = true) ∨
              (t.Typ = .ELSE ∧ r.1 = none)) ∧
            (match r.1 with
              | none => True
              | some x => goodTest L x)) ?_ ?_
        · refine Run.Sat_ite (fun hc2 => ?_) (fun hc2 => ?_)
          · refine Run.Sat_bind (Run.Sat_and ((parseTest_frame_all L n).1 p1)
              ((parseTest_good_all L n).1 p1 hp1)) ?_
            rintro ⟨x, q⟩ ⟨hq, hx, _⟩
            exact Run.Sat_pure ⟨hq, Or.inl ⟨hc2, rfl⟩, hx⟩
          · refine Run.Sat_pure ⟨Frame.refl p1, Or.inr ⟨?_, rfl⟩, trivial⟩
            rcases hc with hc | hc | hc
            · exact absurd (Or.inl hc) hc2
            · exact hc
            · exact absurd (Or.inr hc) hc2
        · rintro ⟨test, p2⟩ ⟨f2, htest, hgood⟩
          have hp2 : ∀ t ∈ p2.Items, TokOK L t := by rw [f2.2.1]; exact hp1
          refine Run.Sat_bind (ih2 p2 hp2) ?_
          rintro ⟨block, p3⟩ ⟨hne, hblock⟩
          refine Run.Sat_pure ⟨?_, hne, hgood, hblock⟩
          rcases htest with ⟨hty, hsome⟩ | ⟨hty, hnone⟩
          · left
            refine ⟨?_, hsome⟩
            rcases hty with hty | hty
            · exact Or.inl (hk.1.1 hty)
            · exact Or.inr (hk.1.2.1 hty)
          · right
            exact ⟨hk.1.2.2 hty, hnone⟩
      · refine Run.Sat_bind (P := fun _ => True) (fun _ _ => trivial) ?_
        rintro ⟨ok, p2⟩ _
        exact Run.Sat_ite (fun _ => Run.Sat_exit) (fun _ => Run.Sat_pure trivial)
      · refine Run.Sat_bind (parseArgumentsLoop_good L n p1 [] hp1 (by simp)) ?_
        rintro ⟨al, p2⟩ ⟨hal, _⟩
        refine Run.Sat_bind (P := fun _ => True) (fun _ _ => trivial) ?_
        rintro ⟨ok, p3⟩ _
        exact Run.Sat_ite (fun _ => Run.Sat_exit) (fun _ => Run.Sat_pure ⟨hk.2.1 hty, hal⟩)
    · intro p hp
      rw [parseBlock]
      refine Run.Sat_bind (Parser.next_frame p) ?_
      rintro ⟨t, p1⟩ f1
      refine Run.Sat_ite (fun _ => ?_) (fun _ => Run.Sat_exit)
      exact ih3 p1 [] (by rw [f1.2.1]; exact hp) trivial
    · intro p cl hp hcl
      rw [parseBlockLoop]
      refine Run.Sat_bind (Run.Sat_and ((parseCommand_frame_all L n).1 p) (ih1 p hp)) ?_
      rintro ⟨c, p1⟩ ⟨f1, hc⟩
      have hcl1 := goodCommands_snoc L cl c hcl hc
      refine Run.Sat_bind (Parser.next_frame p1) ?_
      rintro ⟨t, p2⟩ f2
      refine Run.Sat_ite (fun _ => Run.Sat_pure ⟨by simp, hcl1⟩) (fun _ => ?_)
      refine Run.Sat_bind (Parser.backup_frame p2) ?_
      intro p3 f3
      refine ih3 p3 _ ?_ hcl1
      rw [f3.2.1, f2.2.1, f1.2.1]
      exact hp

/-- The commands of a file that `Parse` returns are built from tokens of the
scanner. -/
theorem Parse_good (L : GoLib) (fuel : Nat) (name text : String) (f : File)
    (h : Parse L fuel name text = .ok f) : goodCommands L f.List ∧ f.Name = name := by
  unfold Parse at h
  obtain ⟨p, hp, hf⟩ := Run.bind_eq_ok h
  cases hf
  refine ⟨?_, rfl⟩
  show goodCommands L p.List
  unfold parse.Parse at hp
  rcases hr : Lexer.run L fuel (Lex text) with ⟨s, l⟩
  rw [hr] at hp
  cases s with
  | some s => cases hp
  | none =>
    have hsent : Scans L text l.items := ⟨fuel, by unfold lexTokens; rw [hr]⟩
    simp only [Parser.run] at hp
    cases hrec : receive l.items with
    | none => rw [hrec] at hp; cases hp
    | some items =>
      rw [hrec] at hp
      simp only at hp
      have hk : ∀ t ∈ items, TokOK L t := fun t ht => hsent.tokOK t (receive_sub _ _ hrec t ht)
      unfold parseFile at hp
      obtain ⟨⟨t, p1⟩, h1, hp⟩ := Run.bind_eq_ok hp
      have f1 := Parser.next_frame _ _ h1
      simp only at hp
      split at hp
      · obtain ⟨p2, h2, hp⟩ := Run.bind_eq_ok hp
        have f2 := Parser.backup_frame _ _ h2
        obtain ⟨⟨c, p3⟩, h3, hp⟩ := Run.bind_eq_ok hp
        have f3 := (parseCommand_frame_all L fuel).1 _ _ h3
        have hc := (parseCommand_good_all L fuel).1 p2
          (by rw [f2.2.1, f1.2.1]; exact hk) _ h3
        have hl : p3.List = [] := by rw [f3.2.2, f2.2.2, f1.2.2]
        cases hp
        simp only [hl, List.nil_append, goodCommands]
        exact ⟨hc, trivial⟩
      · split at hp
        · have hl : p1.List = [] := f1.2.2
          cases hp
          rw [hl]
          trivial
        · cases hp

/-! ## The scanner on a rendered text -/

theorem Halts.after_step {L : GoLib} {s : StateFn} {l : Lexer} {c : Option StateFn × Lexer}
    {items : List Token} {sh : List (TokenType × String)} (hs : Sieve.step L s l = c)
    (h : Halts L c items sh) : Halts L (some s, l) items sh := by
  obtain ⟨n, l', new, hrun, hi, hsh⟩ := h
  refine ⟨n + 1, l', new, ?_, hi, hsh⟩
  show Lexer.run L n (Sieve.step L s l) = _
  rw [hs, hrun]

theorem Halts.cons {L : GoLib} {c : Option StateFn × Lexer} {items : List Token} {t : Token}
    {sh : List (TokenType × String)} (h : Halts L c (items ++ [t]) sh) :
    Halts L c items ((t.Typ, t.Val) :: sh) := by
  obtain ⟨n, l', new, hrun, hi, hsh⟩ := h
  refine ⟨n, l', t :: new, hrun, ?_, ?_⟩
  · rw [hi]; simp
  · simp [shape] at hsh ⊢
    exact hsh

theorem Halts.now {L : GoLib} {l : Lexer} {items : List Token} (new : List Token)
    (h : l.items = items ++ new) : Halts L (none, l) items (shape new) :=
  ⟨0, l, new, rfl, h, rfl⟩

theorem alnum_ne (L : GoLib) {c x : Char} (ha : isAlphaNumeric L (some c) = true)
    (hx : isAlphaNumeric L (some x) = false) : c ≠ x := by
  rintro rfl
  rw [ha] at hx
  cases hx

theorem alnum_not_space (L : GoLib) {c : Char} (ha : isAlphaNumeric L (some c) = true) :
    isSpace (some c) = false := by
  have h1 := alnum_ne L ha (x := ' ') rfl
  have h2 := alnum_ne L ha (x := '\t') rfl
  simp [isSpace, h1, h2]

theorem alnum_not_eol (L : GoLib) {c : Char} (ha : isAlphaNumeric L (some c) = true) :
    isEndOfLine (some c) = false := by
  have h1 := alnum_ne L ha (x := '\r') rfl
  have h2 := alnum_ne L ha (x := '\n') rfl
  simp [isEndOfLine, h1, h2]

/-- A text that does not begin with a blank is scanned from the blank-skipping
states as it is from `lexStart`. -/
theorem Scan.of_start {L : GoLib} {text : List Char} {d : Int} {sh : List (TokenType × String)}
    (hsp : isSpace text.head? = false) (hel : isEndOfLine text.head? = false)
    (h : ∀ (l : Lexer) (pre : List Char) (items : List Token),
      l.Is pre [] text d items → Halts L (some .lexStart, l) items sh) :
    Scan L text d sh := by
  intro s l pre tok items hs his
  rcases hs with ⟨rfl, rfl⟩ | rfl | rfl
  · exact h l pre items his
  · obtain ⟨l1, hpk, his1⟩ := his.peek
    refine Halts.after_step (c := (some .lexStart, l1.ignore)) ?_ (h _ _ _ his1.ignore)
    show lexSpace l = _
    unfold lexSpace
    rw [hpk]
    simp only [hsp, Bool.false_eq_true, if_false]
  · obtain ⟨l1, hpk, his1⟩ := his.peek
    refine Halts.after_step (c := (some .lexStart, l1.ignore)) ?_ (h _ _ _ his1.ignore)
    show lexEndOfLine l = _
    unfold lexEndOfLine
    rw [hpk]
    simp only [hel, Bool.false_eq_true, if_false]

/-- At the end of the text the scanner sends EOF and halts. -/
theorem Scan.eof (L : GoLib) (d : Int) : Scan L [] d [(.EOF, "")] := by
  refine Scan.of_start rfl rfl ?_
  intro l pre items his
  refine Halts.after_step (c := (none, Lexer.emit { l with width := 0 } .EOF)) ?_ ?_
  · show lexStart L l = _
    unfold lexStart
    rw [his.next_nil]
  · exact Halts.now [⟨.EOF, byteLen pre, ""⟩] (by
      have := ((his.width 0).emit_is .EOF).items_eq
      simpa using this)

theorem Lexer.Is.start_one {l : Lexer} {pre tail : List Char} {c : Char} {d : Int}
    {items : List Token} (h : l.Is pre [] (c :: tail) d items) :
    Lexer.Is { l with width := 1, pos := l.pos + 1 } pre [c] tail d items := by
  have := h.step_is
  simpa using this

/-- A blank before a text is skipped. -/
theorem Scan.blank {L : GoLib} {c : Char} {tail : List Char} {d : Int}
    {sh : List (TokenType × String)} (hc : c = ' ' ∨ c = '\t' ∨ c = '\n')
    (h : Scan L tail d sh) : Scan L (c :: tail) d sh := by
  have hstart : ∀ (l : Lexer) (pre : List Char) (items : List Token),
      l.Is pre [] (c :: tail) d items → Halts L (some .lexStart, l) items sh := by
    intro l pre items his
    have his1 := his.start_one
    rcases hc with rfl | rfl | rfl
    · refine Halts.after_step (c := (some .lexSpace, _)) ?_
        (h .lexSpace _ pre [' '] items (Or.inr (Or.inl rfl)) his1)
      show lexStart L l = _
      unfold lexStart
      rw [his.next_cons]
      rfl
    · refine Halts.after_step (c := (some .lexSpace, _)) ?_
        (h .lexSpace _ pre ['\t'] items (Or.inr (Or.inl rfl)) his1)
      show lexStart L l = _
      unfold lexStart
      rw [his.next_cons]
      rfl
    · refine Halts.after_step (c := (some .lexEndOfLine, _)) ?_
        (h .lexEndOfLine _ pre ['\n'] items (Or.inr (Or.inr rfl)) his1)
      show lexStart L l = _
      unfold lexStart
      rw [his.next_cons]
      rfl
  intro s l pre tok items hs his
  rcases hs with ⟨rfl, rfl⟩ | rfl | rfl
  · exact hstart l pre items his
  · obtain ⟨l1, hpk, his1⟩ := his.peek
    by_cases hsp : isSpace (some c) = true
    · refine Halts.after_step (c := (some .lexSpace, l1.next.2)) ?_ ?_
      · show lexSpace l = _
        unfold lexSpace
        rw [hpk]
        simp only [List.head?_cons, hsp, if_true]
      · rw [his1.next_cons]
        exact h .lexSpace _ pre (tok ++ [c]) items (Or.inr (Or.inl rfl)) his1.step_is
    · refine Halts.after_step (c := (some .lexStart, l1.ignore)) ?_ (hstart _ _ _ his1.ignore)
      show lexSpace l = _
      unfold lexSpace
      rw [hpk]
      simp only [List.head?_cons, hsp, Bool.false_eq_true, if_false]
  · obtain ⟨l1, hpk, his1⟩ := his.peek
    by_cases hsp : isEndOfLine (some c) = true
    · refine Halts.after_step (c := (some .lexEndOfLine, l1.next.2)) ?_ ?_
      · show lexEndOfLine l = _
        unfold lexEndOfLine
        rw [hpk]
        simp only [List.head?_cons, hsp, if_true]
      · rw [his1.next_cons]
        exact h .lexEndOfLine _ pre (tok ++ [c]) items (Or.inr (Or.inr rfl)) his1.step_is
    · refine Halts.after_step (c := (some .lexStart, l1.ignore)) ?_ (hstart _ _ _ his1.ignore)
      show lexEndOfLine l = _
      unfold lexEndOfLine
      rw [hpk]
      simp only [List.head?_cons, hsp, Bool.false_eq_true, if_false]

/-- A comma is sent as a COMMA token. -/
theorem Scan.comma {L : GoLib} {tail : List Char} {d : Int} {sh : List (TokenType × String)}
    (h : Scan L tail d sh) : Scan L (',' :: tail) d ((.COMMA, ",") :: sh) := by
  refine Scan.of_start rfl rfl ?_
  intro l pre items his
  have his1 := his.start_one.emit_is .COMMA
  refine Halts.after_step (c := (some .lexStart, _)) ?_
    (Halts.cons (t := ⟨.COMMA, byteLen pre, ","⟩)
      (h .lexStart _ _ [] _ (Or.inl ⟨rfl, rfl⟩) his1))
  show lexStart L l = _
  unfold lexStart
  rw [his.next_cons]
  rfl

/-- An opening brace is sent as a LEFTCURLY token. -/
theorem Scan.leftCurly {L : GoLib} {tail : List Char} {d : Int} {sh : List (TokenType × String)}
    (h : Scan L tail d sh) : Scan L ('\x7b' :: tail) d ((.LEFTCURLY, "\x7b") :: sh) := by
  refine Scan.of_start rfl rfl ?_
  intro l pre items his
  have his1 := his.start_one.emit_is .LEFTCURLY
  refine Halts.after_step (c := (some .lexStart, _)) ?_
    (Halts.cons (t := ⟨.LEFTCURLY, byteLen pre, "\x7b"⟩)
      (h .lexStart _ _ [] _ (Or.inl ⟨rfl, rfl⟩) his1))
  show lexStart L l = _
  unfold lexStart
  rw [his.next_cons]
  rfl

/-- A closing brace is sent as a RIGHTCURLY token. -/
theorem Scan.rightCurly {L : GoLib} {tail : List Char} {d : Int} {sh : List (TokenType × String)}
    (h : Scan L tail d sh) : Scan L ('\x7d' :: tail) d ((.RIGHTCURLY, "\x7d") :: sh) := by
  refine Scan.of_start rfl rfl ?_
  intro l pre items his
  have his1 := his.start_one.emit_is .RIGHTCURLY
  refine Halts.after_step (c := (some .lexStart, _)) ?_
    (Halts.cons (t := ⟨.RIGHTCURLY, byteLen pre, "\x7d"⟩)
      (h .lexStart _ _ [] _ (Or.inl ⟨rfl, rfl⟩) his1))
  show lexStart L l = _
  unfold lexStart
  rw [his.next_cons]
  rfl

/-- A semicolon is sent as a SEMICOLON token. -/
theorem Scan.semicolon {L : GoLib} {tail : List Char} {d : Int} {sh : List (TokenType × String)}
    (h : Scan L tail d sh) : Scan L (';' :: tail) d ((.SEMICOLON, ";") :: sh) := by
  refine Scan.of_start rfl rfl ?_
  intro l pre items his
  have his1 := his.start_one.emit_is .SEMICOLON
  refine Halts.after_step (c := (some .lexSemiColon, _)) ?_
    (Halts.after_step (c := (some .lexStart, _)) rfl
      (Halts.cons (t := ⟨.SEMICOLON, byteLen pre, ";"⟩)
        (h .lexStart _ _ [] _ (Or.inl ⟨rfl, rfl⟩) his1)))
  show lexStart L l = _
  unfold lexStart
  rw [his.next_cons]
  rfl

/-- An opening parenthesis is sent as a LEFTPAREN token and deepens the
nesting. -/
theorem Scan.leftParen {L : GoLib} {tail : List Char} {d : Int} {sh : List (TokenType × String)}
    (h : Scan L tail (d + 1) sh) : Scan L ('(' :: tail) d ((.LEFTPAREN, "(") :: sh) := by
  refine Scan.of_start rfl rfl ?_
  intro l pre items his
  have his1 := (his.start_one.emit_is .LEFTPAREN).depth (d + 1)
  refine Halts.after_step (c := (some .lexStart, _)) ?_
    (Halts.cons (t := ⟨.LEFTPAREN, byteLen pre, "("⟩)
      (h .lexStart _ _ [] _ (Or.inl ⟨rfl, rfl⟩) his1))
  show lexStart L l = _
  unfold lexStart
  rw [his.next_cons]
  have hd : l.parenDepth = d := his.depth_eq
  rw [← hd]
  rfl

/-- A closing parenthesis inside a nesting is sent as a RIGHTPAREN token. -/
theorem Scan.rightParen {L : GoLib} {tail : List Char} {d : Int} {sh : List (TokenType × String)}
    (hd : 0 ≤ d) (h : Scan L tail d sh) :
    Scan L (')' :: tail) (d + 1) ((.RIGHTPAREN, ")") :: sh) := by
  refine Scan.of_start rfl rfl ?_
  intro l pre items his
  have his1 := (his.start_one.emit_is .RIGHTPAREN).depth d
  refine Halts.after_step (c := (some .lexStart, _)) ?_
    (Halts.cons (t := ⟨.RIGHTPAREN, byteLen pre, ")"⟩)
      (h .lexStart _ _ [] _ (Or.inl ⟨rfl, rfl⟩) his1))
  show lexStart L l = _
  unfold lexStart
  rw [his.next_cons]
  have hd1 : l.parenDepth = d + 1 := his.depth_eq
  have hd2 : (Lexer.emit { l with width := 1, pos := l.pos + 1 } .RIGHTPAREN).parenDepth - 1 = d := by
    show l.parenDepth - 1 = d
    omega
  show (if _ then _ else _) = _
  rw [if_neg (by decide), if_neg (by decide), if_neg (by decide), if_neg (by decide),
    if_neg (by decide), if_pos rfl]
  simp only
  rw [hd2, if_neg (by simpa using hd)]

/-- The kind of the token sent for a word. -/
theorem lexIdentifier_exit (L : GoLib) {l : Lexer} {pre w tail : List Char} {d : Int}
    {items : List Token} (his : l.Is pre w tail d items)
    (htail : isAlphaNumeric L tail.head? = false) :
    ∃ l', lexIdentifier L l = (some .lexStart, l') ∧
      l'.Is (pre ++ w) [] tail d (items ++ [⟨if (key (String.mk w)).toNat > TokenType.COMMAND.toNat
        then key (String.mk w) else .IDENTIFIER, byteLen pre, String.mk w⟩]) := by
  have hexit : ∀ (l1 : Lexer), l1.Is pre w tail d items →
      ∃ l', (if (key (String.mk (slice l1.input l1.start l1.pos))).toNat >
          TokenType.COMMAND.toNat
        then (some StateFn.lexStart, l1.emit (key (String.mk (slice l1.input l1.start l1.pos))))
        else (some StateFn.lexStart, l1.emit .IDENTIFIER)) = (some .lexStart, l') ∧
      l'.Is (pre ++ w) [] tail d (items ++ [⟨if (key (String.mk w)).toNat > TokenType.COMMAND.toNat
        then key (String.mk w) else .IDENTIFIER, byteLen pre, String.mk w⟩]) := by
    intro l1 his1
    have hword : slice l1.input l1.start l1.pos = w := by
      rw [his1.input_eq, his1.start_eq, his1.pos_eq, slice_split]
    rw [hword]
    by_cases hk : (key (String.mk w)).toNat > TokenType.COMMAND.toNat
    · rw [if_pos hk, if_pos hk]
      exact ⟨_, rfl, his1.emit_is _⟩
    · rw [if_neg hk, if_neg hk]
      exact ⟨_, rfl, his1.emit_is _⟩
  unfold lexIdentifier
  cases tail with
  | nil =>
    rw [his.next_nil]
    show ∃ l', (if isAlphaNumeric L none = true then _ else _) = _ ∧ _
    rw [if_neg (by simp [isAlphaNumeric])]
    simp only [Lexer.backup_zero]
    exact hexit _ (his.width 0)
  | cons c tail =>
    rw [his.next_cons]
    show ∃ l', (if isAlphaNumeric L (some c) = true then _ else _) = _ ∧ _
    rw [if_neg (by simpa using htail)]
    simp only [Lexer.backup_step]
    exact hexit _ (his.width 1)

theorem lexIdentifier_loop (L : GoLib) {pre tail : List Char} {d : Int} {items : List Token}
    {sh : List (TokenType × String)} (htail : isAlphaNumeric L tail.head? = false)
    (h : Scan L tail d sh) :
    ∀ (w2 w1 : List Char) (l : Lexer), l.Is pre w1 (w2 ++ tail) d items →
      (∀ c ∈ w2, isAlphaNumeric L (some c) = true) →
      Halts L (some .lexIdentifier, l) items
        ((if (key (String.mk (w1 ++ w2))).toNat > TokenType.COMMAND.toNat
          then key (String.mk (w1 ++ w2)) else .IDENTIFIER, String.mk (w1 ++ w2)) :: sh) := by
  intro w2
  induction w2 with
  | nil =>
    intro w1 l his _
    simp only [List.nil_append] at his
    obtain ⟨l', hstep, his'⟩ := lexIdentifier_exit L his htail
    rw [List.append_nil]
    exact Halts.after_step hstep (Halts.cons (t := ⟨_, byteLen pre, String.mk w1⟩)
      (h .lexStart _ _ [] _ (Or.inl ⟨rfl, rfl⟩) his'))
  | cons c w2 ih =>
    intro w1 l his hw
    have hc := hw c (by simp)
    have his' : l.Is pre w1 (c :: (w2 ++ tail)) d items := his
    have := ih (w1 ++ [c]) _ his'.step_is (fun x hx => hw x (by simp [hx]))
    rw [List.append_assoc] at this
    refine Halts.after_step ?_ this
    show lexIdentifier L l = _
    unfold lexIdentifier
    rw [his'.next_cons]
    show (if isAlphaNumeric L (some c) = true then _ else _) = _
    rw [if_pos hc]

/-- A word followed by something that is no letter, digit or underscore is sent
as one token: the keyword it spells, or an IDENTIFIER. -/
theorem Scan.word {L : GoLib} {w tail : List Char} {d : Int} {sh : List (TokenType × String)}
    (hw : IdentWord L w) (htail : isAlphaNumeric L tail.head? = false) (h : Scan L tail d sh) :
    Scan L (w ++ tail) d
      ((if (key (String.mk w)).toNat > TokenType.COMMAND.toNat then key (String.mk w)
        else .IDENTIFIER, String.mk w) :: sh) := by
  obtain ⟨hall, c0, hc0, hnd⟩ := hw
  cases w with
  | nil => simp at hc0
  | cons c w =>
    simp only [List.head?_cons, Option.some.injEq] at hc0
    subst hc0
    have hc : isAlphaNumeric L (some c) = true := hall c (by simp)
    refine Scan.of_start (by simpa using alnum_not_space L hc) (by simpa using alnum_not_eol L hc) ?_
    intro l pre items his
    have his' : l.Is pre [] (c :: (w ++ tail)) d items := his
    have hloop := lexIdentifier_loop L htail h (c :: w) [] _ (his.width 1) hall
    refine Halts.after_step ?_ hloop
    show lexStart L l = _
    unfold lexStart
    rw [his'.next_cons]
    show (if c = ';' then _ else _) = _
    rw [if_neg (alnum_ne L hc (x := ';') rfl), if_neg (alnum_ne L hc (x := ':') rfl),
      if_neg (alnum_ne L hc (x := ',') rfl), if_neg (alnum_ne L hc (x := '"') rfl),
      if_neg (alnum_ne L hc (x := '(') rfl), if_neg (alnum_ne L hc (x := ')') rfl),
      if_neg (alnum_ne L hc (x := '[') rfl), if_neg (alnum_ne L hc (x := ']') rfl),
      if_neg (alnum_ne L hc (x := '\x7b') rfl), if_neg (alnum_ne L hc (x := '\x7d') rfl),
      if_neg (by simp [alnum_not_space L hc]),
      if_neg (by simp [alnum_not_eol L hc]), if_neg hnd, if_pos hc, Lexer.backup_step]

theorem lexTag_loop (L : GoLib) {pre tail : List Char} {d : Int} {items : List Token}
    {sh : List (TokenType × String)} (htail : isAlphaNumeric L tail.head? = false)
    (h : Scan L tail d sh) :
    ∀ (w2 w1 : List Char) (l : Lexer), l.Is pre w1 (w2 ++ tail) d items →
      (∀ c ∈ w2, isAlphaNumeric L (some c) = true) →
      Halts L (some .lexTag, l) items ((.TAG, String.mk (w1 ++ w2)) :: sh) := by
  intro w2
  induction w2 with
  | nil =>
    intro w1 l his _
    simp only [List.nil_append] at his
    rw [List.append_nil]
    cases tail with
    | nil =>
      refine Halts.after_step (c := (some .lexStart, _)) ?_
        (Halts.cons (t := ⟨.TAG, byteLen pre, String.mk w1⟩)
          (h .lexStart _ _ [] _ (Or.inl ⟨rfl, rfl⟩) ((his.width 0).emit_is .TAG)))
      show lexTag L l = _
      unfold lexTag
      rw [his.next_nil]
      show (if isAlphaNumeric L none = true then _ else _) = _
      rw [if_neg (by simp [isAlphaNumeric]), Lexer.backup_zero]
    | cons c tail =>
      refine Halts.after_step (c := (some .lexStart, _)) ?_
        (Halts.cons (t := ⟨.TAG, byteLen pre, String.mk w1⟩)
          (h .lexStart _ _ [] _ (Or.inl ⟨rfl, rfl⟩) ((his.width 1).emit_is .TAG)))
      show lexTag L l = _
      unfold lexTag
      rw [his.next_cons]
      show (if isAlphaNumeric L (some c) = true then _ else _) = _
      rw [if_neg (by simpa using htail), Lexer.backup_step]
  | cons c w2 ih =>
    intro w1 l his hw
    have hc := hw c (by simp)
    have his' : l.Is pre w1 (c :: (w2 ++ tail)) d items := his
    have := ih (w1 ++ [c]) _ his'.step_is (fun x hx => hw x (by simp [hx]))
    rw [List.append_assoc] at this
    refine Halts.after_step ?_ this
    show lexTag L l = _
    unfold lexTag
    rw [his'.next_cons]
    show (if isAlphaNumeric L (some c) = true then _ else _) = _
    rw [if_pos hc]

/-- A tag followed by something that is no letter, digit or underscore is sent
as a TAG token. -/
theorem Scan.tag {L : GoLib} {w tail : List Char} {d : Int} {sh : List (TokenType × String)}
    (hw : TagText L w) (htail : isAlphaNumeric L tail.head? = false) (h : Scan L tail d sh) :
    Scan L (w ++ tail) d ((.TAG, String.mk w) :: sh) := by
  obtain ⟨v, rfl, hv⟩ := hw
  refine Scan.of_start rfl rfl ?_
  intro l pre items his
  have his' : l.Is pre [] (':' :: (v ++ tail)) d items := his
  have hloop := lexTag_loop L htail h v [':'] _ his'.start_one hv
  refine Halts.after_step ?_ hloop
  show lexStart L l = _
  unfold lexStart
  rw [his'.next_cons]
  rfl

/-- A number followed by something that is no letter, digit or underscore is
sent as a NUMBER token. -/
theorem Scan.number {L : GoLib} {w tail : List Char} {d : Int} {sh : List (TokenType × String)}
    (hw : NumText w) (htail : isAlphaNumeric L tail.head? = false) (h : Scan L tail d sh) :
    Scan L (w ++ tail) d ((.NUMBER, String.mk w) :: sh) := by
  obtain ⟨ds, sufx, rfl, hne, hds, hsufx⟩ := hw
  cases ds with
  | nil => exact absurd rfl hne
  | cons c ds =>
    have hcd : c ∈ "0123456789".data := hds c (by simp)
    have hc : isAlphaNumeric L (some c) = true := digit_alnum L hcd
    refine Scan.of_start (by simpa using alnum_not_space L hc) (by simpa using alnum_not_eol L hc) ?_
    intro l pre items his
    have his' : l.Is pre [] (c :: (ds ++ (sufx ++ tail))) d items := by simpa using his
    have his1 : Lexer.Is { l with width := 1 } pre [] ((c :: ds) ++ (sufx ++ tail)) d items :=
      his'.width 1
    have hnotdigit : ∀ x, isAlphaNumeric L (some x) = false → x ∉ "0123456789".data :=
      fun x hx hmem => by rw [digit_alnum L hmem] at hx; cases hx
    have hnotmag : ∀ x, isAlphaNumeric L (some x) = false → x ∉ "kKmMgG".data :=
      fun x hx hmem => by rw [magnitude_alnum L hmem] at hx; cases hx
    obtain ⟨l', hscan, _, his2⟩ := Lexer.Is.scanNumber L his1 hds
      (by
        intro x hx
        rcases hsufx with rfl | ⟨k, rfl, hk⟩
        · simp only [List.nil_append] at hx
          exact hnotdigit x (by rw [← hx]; exact htail)
        · simp only [List.singleton_append, List.head?_cons, Option.some.injEq] at hx
          subst hx
          simp only [List.mem_cons, List.mem_singleton, List.not_mem_nil, or_false] at hk
          rcases hk with h | h | h | h | h | h <;> subst h <;> decide)
      (by
        rcases hsufx with rfl | ⟨k, rfl, hk⟩
        · exact Or.inl ⟨rfl, fun x hx => hnotmag x (by rw [← hx]; exact htail)⟩
        · exact Or.inr ⟨k, rfl, hk⟩)
    rw [htail] at hscan
    have his3 := (his2 htail).emit_is .NUMBER
    refine Halts.after_step (c := (some .lexNumber, { l with width := 1 })) ?_
      (Halts.after_step (c := (some .lexStart, l'.emit .NUMBER)) ?_
        (Halts.cons (t := ⟨.NUMBER, byteLen pre, String.mk (c :: ds ++ sufx)⟩)
          (h .lexStart _ _ [] _ (Or.inl ⟨rfl, rfl⟩) (by simpa using his3))))
    · show lexStart L l = _
      unfold lexStart
      rw [his'.next_cons]
      show (if c = ';' then _ else _) = _
      rw [if_neg (alnum_ne L hc (x := ';') rfl), if_neg (alnum_ne L hc (x := ':') rfl),
        if_neg (alnum_ne L hc (x := ',') rfl), if_neg (alnum_ne L hc (x := '"') rfl),
        if_neg (alnum_ne L hc (x := '(') rfl), if_neg (alnum_ne L hc (x := ')') rfl),
        if_neg (alnum_ne L hc (x := '[') rfl), if_neg (alnum_ne L hc (x := ']') rfl),
        if_neg (alnum_ne L hc (x := '\x7b') rfl), if_neg (alnum_ne L hc (x := '\x7d') rfl),
        if_neg (by simp [alnum_not_space L hc]),
        if_neg (by simp [alnum_not_eol L hc]), if_pos (mem_digit hcd), Lexer.backup_step]
    · show lexNumber L _ = _
      unfold lexNumber
      rw [hscan]
      rfl

/-! ## The scanner on renderings -/

theorem IdentWord.lit (L : GoLib) (w : List Char)
    (h : w ∈ ["if".data, "elsif".data, "else".data, "stop".data, "true".data, "false".data,
      "not".data, "allof".data, "anyof".data]) : IdentWord L w := by
  simp only [List.mem_cons, List.mem_singleton, List.not_mem_nil, or_false] at h
  rcases h with h | h | h | h | h | h | h | h | h <;> subst h <;>
    refine ⟨?_, _, rfl, by decide⟩ <;> intro c hc <;> fin_cases hc <;> rfl

theorem argumentsLoop_head (L : GoLib) (as : List Argument) (tail : List Char)
    (h : isAlphaNumeric L tail.head? = false) :
    isAlphaNumeric L ((argumentsLoop as).data ++ tail).head? = false := by
  cases as with
  | nil => exact h
  | cons a as => rfl

theorem args_scan (L : GoLib) :
    ∀ (args : List Argument), (∀ a ∈ args, goodArgument L a) → args.all plainArgument = true →
      ∀ (tail : List Char) (d : Int) (sh : List (TokenType × String)),
        isAlphaNumeric L tail.head? = false → Scan L tail d sh →
        Scan L ((argumentsLoop args).data ++ tail) d (argsShape args ++ sh) := by
  intro args
  induction args with
  | nil => intro _ _ tail d sh _ h; exact h
  | cons a as ih =>
    intro hg hp tail d sh htail h
    have hga := hg a (by simp)
    simp only [List.all_cons, Bool.and_eq_true] at hp
    have ih' := ih (fun x hx => hg x (by simp [hx])) hp.2 tail d sh htail h
    have hhead := argumentsLoop_head L as tail htail
    have hdata : (argumentsLoop (a :: as)).data ++ tail =
        ' ' :: (a.String.data ++ ((argumentsLoop as).data ++ tail)) := by
      simp only [argumentsLoop, String.data_append, List.append_assoc]
      rfl
    rw [hdata]
    refine Scan.blank (Or.inl rfl) ?_
    cases a with
    | NumberArgument v => exact Scan.number hga hhead ih'
    | TagArgument v => exact Scan.tag hga hhead ih'
    | StringArgument v => simp [plainArgument] at hp

/-- A keyword is sent as the token of its kind. -/
theorem Scan.keyword {L : GoLib} {w : String} {k : TokenType} {tail : List Char} {d : Int}
    {sh : List (TokenType × String)}
    (hw : w.data ∈ ["if".data, "elsif".data, "else".data, "stop".data, "true".data,
      "false".data, "not".data, "allof".data, "anyof".data])
    (hk : key w = k) (hgt : k.toNat > TokenType.COMMAND.toNat)
    (htail : isAlphaNumeric L tail.head? = false) (h : Scan L tail d sh) :
    Scan L (w.data ++ tail) d ((k, w) :: sh) := by
  have := Scan.word (IdentWord.lit L _ hw) htail h
  have e : String.mk w.data = w := rfl
  rw [e, hk, if_pos hgt] at this
  exact this

/-- A name that is no keyword is sent as an IDENTIFIER token. -/
theorem Scan.ident {L : GoLib} {name : String} {tail : List Char} {d : Int}
    {sh : List (TokenType × String)} (hn : goodName L name)
    (htail : isAlphaNumeric L tail.head? = false) (h : Scan L tail d sh) :
    Scan L (name.data ++ tail) d ((.IDENTIFIER, name) :: sh) := by
  have := Scan.word hn.1 htail h
  have e : String.mk name.data = name := rfl
  rw [e, if_neg (by have := hn.2; omega)] at this
  exact this

theorem tests_head (L : GoLib) (vs : List Test) (i : Nat) (tail : List Char)
    (h : isAlphaNumeric L tail.head? = false) :
    isAlphaNumeric L ((Test.loop vs (i + 1)).data ++ tail).head? = false := by
  cases vs with
  | nil => exact h
  | cons v vs =>
    have : (Test.loop (v :: vs) (i + 1)).data ++ tail =
        ',' :: ' ' :: (v.String.data ++ ((Test.loop vs (i + 1 + 1)).data ++ tail)) := by
      show ((if i + 1 > 0 then ", " else "") ++ v.String ++ Test.loop vs (i + 1 + 1)).data ++ tail = _
      rw [if_pos (by omega)]
      simp only [String.data_append, List.append_assoc]
      rfl
    rw [this]
    rfl

mutual
theorem test_scan (L : GoLib) :
    ∀ (t : Test), goodTest L t → plainTest t = true →
      ∀ (tail : List Char) (d : Int) (sh : List (TokenType × String)),
        0 ≤ d → isAlphaNumeric L tail.head? = false → Scan L tail d sh →
        Scan L (t.String.data ++ tail) d (testShape t ++ sh)
  | .TrueTest, _, _, tail, d, sh, _, htail, h =>
    Scan.keyword (w := "true") (by decide) rfl (by decide) htail h
  | .FalseTest, _, _, tail, d, sh, _, htail, h =>
    Scan.keyword (w := "false") (by decide) rfl (by decide) htail h
  | .NotTest t, hg, hp, tail, d, sh, hd, htail, h => by
    have ih := test_scan L t hg hp tail d sh hd htail h
    have hdata : (Test.String (.NotTest t)).data ++ tail =
        "not".data ++ (' ' :: (t.String.data ++ tail)) := by
      show ("not " ++ t.String).data ++ tail = _
      simp only [String.data_append, List.append_assoc]
      rfl
    rw [hdata]
    exact Scan.keyword (w := "not") (by decide) rfl (by decide) rfl (Scan.blank (Or.inl rfl) ih)
  | .AllofTest ts, hg, hp, tail, d, sh, hd, htail, h => by
    have ih := tests_scan L ts 0 hg.2 hp (')' :: tail) (d + 1) ((.RIGHTPAREN, ")") :: sh)
      (by omega) rfl (Scan.rightParen hd h)
    have hdata : (Test.String (.AllofTest ts)).data ++ tail =
        "allof".data ++ (' ' :: '(' :: ((Test.loop ts 0).data ++ (')' :: tail))) := by
      show ("allof" ++ " (" ++ Test.loop ts 0 ++ ")").data ++ tail = _
      simp only [String.data_append, List.append_assoc]
      rfl
    have hshape : testShape (.AllofTest ts) ++ sh =
        (.ALLOF, "allof") :: (.LEFTPAREN, "(") :: (testsShape ts 0 ++ (.RIGHTPAREN, ")") :: sh) := by
      simp [testShape]
    rw [hdata, hshape]
    exact Scan.keyword (w := "allof") (by decide) rfl (by decide) rfl
      (Scan.blank (Or.inl rfl) (Scan.leftParen ih))
  | .AnyofTest ts, hg, hp, tail, d, sh, hd, htail, h => by
    have ih := tests_scan L ts 0 hg.2 hp (')' :: tail) (d + 1) ((.RIGHTPAREN, ")") :: sh)
      (by omega) rfl (Scan.rightParen hd h)
    have hdata : (Test.String (.AnyofTest ts)).data ++ tail =
        "anyof".data ++ (' ' :: '(' :: ((Test.loop ts 0).data ++ (')' :: tail))) := by
      show ("anyof" ++ " (" ++ Test.loop ts 0 ++ ")").data ++ tail = _
      simp only [String.data_append, List.append_assoc]
      rfl
    have hshape : testShape (.AnyofTest ts) ++ sh =
        (.ANYOF, "anyof") :: (.LEFTPAREN, "(") :: (testsShape ts 0 ++ (.RIGHTPAREN, ")") :: sh) := by
      simp [testShape]
    rw [hdata, hshape]
    exact Scan.keyword (w := "anyof") (by decide) rfl (by decide) rfl
      (Scan.blank (Or.inl rfl) (Scan.leftParen ih))
  | .GenericTest name args, hg, hp, tail, d, sh, _, htail, h => by
    have ih := args_scan L args hg.2 hp tail d sh htail h
    have hdata : (Test.String (.GenericTest name args)).data ++ tail =
        name.data ++ ((argumentsLoop args).data ++ tail) := by
      show (name ++ argumentsLoop args).data ++ tail = _
      simp only [String.data_append, List.append_assoc]
    rw [hdata]
    exact Scan.ident hg.1 (argumentsLoop_head L args tail htail) ih
theorem tests_scan (L : GoLib) :
    ∀ (ts : List Test) (i : Nat), goodTests L ts → plainTests ts = true →
      ∀ (tail : List Char) (d : Int) (sh : List (TokenType × String)),
        0 ≤ d → isAlphaNumeric L tail.head? = false → Scan L tail d sh →
        Scan L ((Test.loop ts i).data ++ tail) d (testsShape ts i ++ sh)
  | [], _, _, _, tail, d, sh, _, _, h => h
  | v :: vs, i, hg, hp, tail, d, sh, hd, htail, h => by
    have hp' : plainTest v = true ∧ plainTests vs = true := by
      simpa [plainTests] using hp
    have ih := tests_scan L vs (i + 1) hg.2.2 hp'.2 tail d sh hd htail h
    have ihv := test_scan L v hg.1 hp'.1 ((Test.loop vs (i + 1)).data ++ tail) d
      (testsShape vs (i + 1) ++ sh) hd (tests_head L vs i tail htail) ih
    by_cases hi : i > 0
    · have hdata : (Test.loop (v :: vs) i).data ++ tail =
          ',' :: ' ' :: (v.String.data ++ ((Test.loop vs (i + 1)).data ++ tail)) := by
        show ((if i > 0 then ", " else "") ++ v.String ++ Test.loop vs (i + 1)).data ++ tail = _
        rw [if_pos hi]
        simp only [String.data_append, List.append_assoc]
        rfl
      have hshape : testsShape (v :: vs) i ++ sh =
          (.COMMA, ",") :: (testShape v ++ (testsShape vs (i + 1) ++ sh)) := by
        simp [testsShape, hi]
      rw [hdata, hshape]
      exact Scan.comma (Scan.blank (Or.inl rfl) ihv)
    · have hdata : (Test.loop (v :: vs) i).data ++ tail =
          v.String.data ++ ((Test.loop vs (i + 1)).data ++ tail) := by
        show ((if i > 0 then ", " else "") ++ v.String ++ Test.loop vs (i + 1)).data ++ tail = _
        rw [if_neg hi]
        simp only [String.data_append, List.append_assoc]
        rfl
      have hshape : testsShape (v :: vs) i ++ sh =
          testShape v ++ (testsShape vs (i + 1) ++ sh) := by
        simp [testsShape, hi]
      rw [hdata, hshape]
      exact ihv
end

theorem tabs_scan (L : GoLib) (n : Nat) {tail : List Char} {d : Int}
    {sh : List (TokenType × String)} (h : Scan L tail d sh) :
    Scan L ((tabs n).data ++ tail) d sh := by
  induction n with
  | zero => exact h
  | succ n ih =>
    have : (tabs (n + 1)).data ++ tail = '\t' :: ((tabs n).data ++ tail) := by
      show ("\t" ++ tabs n).data ++ tail = _
      simp only [String.data_append, List.append_assoc]
      rfl
    rw [this]
    exact Scan.blank (Or.inr (Or.inl rfl)) ih

/-- The name of a control command is one of the three keywords. -/
theorem ControlOK.name {name : String} {test : Option Test} {block : List Command}
    (h : ControlOK (name, test, block)) :
    name.data ∈ ["if".data, "elsif".data, "else".data, "stop".data, "true".data,
      "false".data, "not".data, "allof".data, "anyof".data] ∧
    (key name).toNat > TokenType.COMMAND.toNat ∧
    (key name = .IF ∨ key name = .ELSIF ∨ key name = .ELSE) := by
  rcases h with ⟨h | h, _⟩ | ⟨h, _⟩
  all_goals (simp only at h; subst h; decide)

mutual
theorem cmd_scan (L : GoLib) :
    ∀ (c : Command) (dp : Nat), goodCommand L c → plainCommand c = true →
      ∀ (tail : List Char) (d : Int) (sh : List (TokenType × String)),
        0 ≤ d → Scan L tail d sh →
        Scan L ((stringDepth c dp).data ++ tail) d (cmdShape c ++ sh)
  | .StopCommand, dp, _, _, tail, d, sh, _, h => by
    have hdata : (stringDepth .StopCommand dp).data ++ tail =
        (tabs dp).data ++ ("stop".data ++ (';' :: tail)) := by
      show (tabs dp ++ "stop;").data ++ tail = _
      simp only [String.data_append, List.append_assoc]
      rfl
    rw [hdata]
    exact tabs_scan L dp
      (Scan.keyword (w := "stop") (by decide) rfl (by decide) rfl (Scan.semicolon h))
  | .CommentCommand _ _, _, _, hp, _, _, _, _, _ => by
    simp [plainCommand] at hp
  | .GenericCommand name args, dp, hg, hp, tail, d, sh, _, h => by
    have ih := args_scan L args hg.2 hp (';' :: tail) d ((.SEMICOLON, ";") :: sh) rfl
      (Scan.semicolon h)
    have hdata : (stringDepth (.GenericCommand name args) dp).data ++ tail =
        (tabs dp).data ++ (name.data ++ ((argumentsLoop args).data ++ (';' :: tail))) := by
      show (tabs dp ++ name ++ argumentsLoop args ++ ";").data ++ tail = _
      simp only [String.data_append, List.append_assoc]
      rfl
    have hshape : cmdShape (.GenericCommand name args) ++ sh =
        (.IDENTIFIER, name) :: (argsShape args ++ (.SEMICOLON, ";") :: sh) := by
      simp [cmdShape]
    rw [hdata, hshape]
    exact tabs_scan L dp (Scan.ident hg.1 (argumentsLoop_head L args _ rfl) ih)
  | .ControlCommand name test block, dp, hg, hp, tail, d, sh, hd, h => by
    obtain ⟨hok, _, hgt, hgb⟩ := hg
    obtain ⟨hw, hk, _⟩ := hok.name
    have hpb : plainCommands block = true := by
      cases test <;> simp [plainCommand] at hp
      · exact hp
      · exact hp.2
    have hblock := block_scan L block dp hgb hpb ((tabs dp).data ++ ('\x7d' :: tail)) d
      ((.RIGHTCURLY, "\x7d") :: sh) hd (tabs_scan L dp (Scan.rightCurly h))
    have hopen : Scan L (' ' :: '\x7b' :: '\n' :: ((blockLoop block dp).data ++
        ((tabs dp).data ++ ('\x7d' :: tail)))) d
        ((.LEFTCURLY, "\x7b") :: (blockShape block ++ (.RIGHTCURLY, "\x7d") :: sh)) :=
      Scan.blank (Or.inl rfl) (Scan.leftCurly (Scan.blank (Or.inr (Or.inr rfl)) hblock))
    cases test with
    | none =>
      have hdata : (stringDepth (.ControlCommand name none block) dp).data ++ tail =
          (tabs dp).data ++ (name.data ++ (' ' :: '\x7b' :: '\n' :: ((blockLoop block dp).data ++
            ((tabs dp).data ++ ('\x7d' :: tail))))) := by
        show (tabs dp ++ name ++ "" ++ " " ++ "\x7b\n" ++ blockLoop block dp ++ tabs dp
          ++ "\x7d").data ++ tail = _
        simp only [String.data_append, List.append_assoc]
        rfl
      have hshape : cmdShape (.ControlCommand name none block) ++ sh =
          (key name, name) :: (.LEFTCURLY, "\x7b") ::
            (blockShape block ++ (.RIGHTCURLY, "\x7d") :: sh) := by
        simp [cmdShape]
      rw [hdata, hshape]
      exact tabs_scan L dp (Scan.keyword hw rfl hk rfl hopen)
    | some t =>
      have hpt : plainTest t = true := by
        simp [plainCommand] at hp
        exact hp.1
      have ht := test_scan L t hgt hpt (' ' :: '\x7b' :: '\n' :: ((blockLoop block dp).data ++
        ((tabs dp).data ++ ('\x7d' :: tail)))) d _ hd rfl hopen
      have hdata : (stringDepth (.ControlCommand name (some t) block) dp).data ++ tail =
          (tabs dp).data ++ (name.data ++ (' ' :: (t.String.data ++
            (' ' :: '\x7b' :: '\n' :: ((blockLoop block dp).data ++
              ((tabs dp).data ++ ('\x7d' :: tail))))))) := by
        show (tabs dp ++ name ++ (" " ++ t.String) ++ " " ++ "\x7b\n" ++ blockLoop block dp
          ++ tabs dp ++ "\x7d").data ++ tail = _
        simp only [String.data_append, List.append_assoc]
        rfl
      have hshape : cmdShape (.ControlCommand name (some t) block) ++ sh =
          (key name, name) :: (testShape t ++ (.LEFTCURLY, "\x7b") ::
            (blockShape block ++ (.RIGHTCURLY, "\x7d") :: sh)) := by
        simp [cmdShape]
      rw [hdata, hshape]
      exact tabs_scan L dp (Scan.keyword hw rfl hk rfl (Scan.blank (Or.inl rfl) ht))
theorem block_scan (L : GoLib) :
    ∀ (cs : List Command) (dp : Nat), goodCommands L cs → plainCommands cs = true →
      ∀ (tail : List Char) (d : Int) (sh : List (TokenType × String)),
        0 ≤ d → Scan L tail d sh →
        Scan L ((blockLoop cs dp).data ++ tail) d (blockShape cs ++ sh)
  | [], _, _, _, tail, d, sh, _, h => h
  | c :: cs, dp, hg, hp, tail, d, sh, hd, h => by
    have hp' : plainCommand c = true ∧ plainCommands cs = true := by
      simpa [plainCommands] using hp
    have ih := block_scan L cs dp hg.2 hp'.2 tail d sh hd h
    have ihc := cmd_scan L c (dp + 1) hg.1 hp'.1 ('\n' :: ((blockLoop cs dp).data ++ tail)) d
      (blockShape cs ++ sh) hd (Scan.blank (Or.inr (Or.inr rfl)) ih)
    have hdata : (blockLoop (c :: cs) dp).data ++ tail =
        (stringDepth c (dp + 1)).data ++ ('\n' :: ((blockLoop cs dp).data ++ tail)) := by
      show (stringDepth c (dp + 1) ++ "\n" ++ blockLoop cs dp).data ++ tail = _
      simp only [String.data_append, List.append_assoc]
      rfl
    have hshape : blockShape (c :: cs) ++ sh = cmdShape c ++ (blockShape cs ++ sh) := by
      simp [blockShape]
    rw [hdata, hshape]
    exact ihc
end

/-- The tokens the scanner sends on the rendering of a file of one command. -/
theorem file_scans (L : GoLib) (c : Command) (hg : goodCommand L c)
    (hp : plainCommand c = true) (f : File) (hf : f.List = [c]) :
    ∃ sent, Scans L f.String sent ∧ shape sent = cmdShape c ++ [(.EOF, "")] := by
  have hs := cmd_scan L c 0 hg hp ['\n'] 0 [(.EOF, "")] (le_refl 0)
    (Scan.blank (Or.inr (Or.inr rfl)) (Scan.eof L 0))
  have hdata : f.String.data = (stringDepth c 0).data ++ ['\n'] := by
    unfold File.String
    rw [hf]
    show (stringDepth c 0 ++ "\n" ++ "").data = _
    simp only [String.data_append, List.append_assoc]
    rfl
  obtain ⟨n, l, new, hrun, hitems, hshape⟩ := hs .lexStart
    { input := f.String.data, pos := 0, start := 0, width := 0, parenDepth := 0, items := [] }
    [] [] [] (Or.inl ⟨rfl, rfl⟩) ⟨by simp [hdata], rfl, rfl, rfl, rfl⟩
  refine ⟨new, ⟨n, ?_⟩, hshape⟩
  unfold lexTokens Lex
  rw [hrun]
  simpa using hitems

/-! ## The parser on the tokens of a rendering -/

theorem shape_cons {ts : List Token} {x : TokenType × String} {sh : List (TokenType × String)}
    (h : shape ts = x :: sh) :
    ∃ t ts', ts = t :: ts' ∧ t.Typ = x.1 ∧ t.Val = x.2 ∧ shape ts' = sh := by
  cases ts with
  | nil => cases h
  | cons t ts' =>
    simp only [shape, List.map_cons, List.cons.injEq] at h
    refine ⟨t, ts', rfl, ?_, ?_, h.2⟩
    · rw [← h.1]
    · rw [← h.1]

theorem shape_append {ts : List Token} {a b : List (TokenType × String)}
    (h : shape ts = a ++ b) : ∃ ta tb, ts = ta ++ tb ∧ shape ta = a ∧ shape tb = b := by
  unfold shape at h
  obtain ⟨ta, tb, h1, h2, h3⟩ := List.map_eq_append_iff.1 h
  exact ⟨ta, tb, h1, h2, h3⟩

theorem shape_nil {ts : List Token} (h : shape ts = []) : ts = [] := by
  cases ts with
  | nil => rfl
  | cons t ts => cases h

theorem argsToks_of_shape (L : GoLib) :
    ∀ (args : List Argument) (ts : List Token), args.all plainArgument = true →
      shape ts = argsShape args → ArgsToks L args ts := by
  intro args
  induction args with
  | nil =>
    intro ts _ h
    rw [shape_nil h]
    exact ArgsToks.nil
  | cons a as ih =>
    intro ts hp h
    simp only [List.all_cons, Bool.and_eq_true] at hp
    cases a with
    | NumberArgument v =>
      obtain ⟨t, ts', rfl, ht, hv, hsh⟩ := shape_cons h
      simp only at ht hv
      subst hv
      exact ArgsToks.cons _ _ [t] ts' (ArgToks.number t ht) (ih ts' hp.2 hsh)
    | TagArgument v =>
      obtain ⟨t, ts', rfl, ht, hv, hsh⟩ := shape_cons h
      simp only at ht hv
      subst hv
      exact ArgsToks.cons _ _ [t] ts' (ArgToks.tag t ht) (ih ts' hp.2 hsh)
    | StringArgument v => simp [plainArgument] at hp

theorem testsShape_succ : ∀ (vs : List Test) (i j : Nat),
    testsShape vs (i + 1) = testsShape vs (j + 1) := by
  intro vs
  induction vs with
  | nil => intro i j; simp [testsShape]
  | cons v vs ih =>
    intro i j
    simp only [testsShape, Nat.zero_lt_succ, if_true]
    rw [ih (i + 1) (j + 1)]

theorem testsShape_pos (v : Test) (vs : List Test) (i : Nat) :
    testsShape (v :: vs) (i + 1) = (.COMMA, ",") :: testsShape (v :: vs) 0 := by
  simp only [testsShape, Nat.zero_lt_succ, if_true, Nat.lt_irrefl, if_false, List.nil_append,
    List.singleton_append, List.cons_append]
  rw [testsShape_succ vs (i + 1) 0]

mutual
theorem parseTest_complete (L : GoLib) :
    ∀ (x : Test), goodTest L x → plainTest x = true →
      ∀ (ts rest : List Token) (p : Parser) (fuel : Nat),
        shape ts = testShape x → Before p (ts ++ rest) → ts.length < fuel →
        (opens x = true → ∃ term rest', rest = term :: rest' ∧ atTerminator term = true) →
        ∃ q, parseTest L fuel p = .ok (x, q) ∧ Before q rest
  | .TrueTest, _, _, ts, rest, p, fuel, hsh, hb, hf, _ => by
    obtain ⟨t, ts', rfl, ht, _, hsh'⟩ := shape_cons hsh
    have := shape_nil hsh'
    subst this
    obtain ⟨n, rfl⟩ : ∃ n, fuel = n + 1 := ⟨fuel - 1, by omega⟩
    simp only at ht
    have hb' : Before p (t :: rest) := hb
    refine ⟨p.adv, ?_, Before.adv hb' (by rw [ht]; simp)⟩
    rw [parseTest, Before.next hb' (by rw [ht]; simp)]
    simp only [Run.bind_ok, ht, reduceCtorEq, if_false, if_true]
    rfl
  | .FalseTest, _, _, ts, rest, p, fuel, hsh, hb, hf, _ => by
    obtain ⟨t, ts', rfl, ht, _, hsh'⟩ := shape_cons hsh
    have := shape_nil hsh'
    subst this
    obtain ⟨n, rfl⟩ : ∃ n, fuel = n + 1 := ⟨fuel - 1, by omega⟩
    simp only at ht
    have hb' : Before p (t :: rest) := hb
    refine ⟨p.adv, ?_, Before.adv hb' (by rw [ht]; simp)⟩
    rw [parseTest, Before.next hb' (by rw [ht]; simp)]
    simp only [Run.bind_ok, ht, reduceCtorEq, if_false, if_true]
    rfl
  | .NotTest x, hg, hp, ts, rest, p, fuel, hsh, hb, hf, hopen => by
    obtain ⟨t, ts', rfl, ht, _, hsh'⟩ := shape_cons hsh
    obtain ⟨n, rfl⟩ : ∃ n, fuel = n + 1 := ⟨fuel - 1, by omega⟩
    simp only at ht
    have hb' : Before p (t :: (ts' ++ rest)) := hb
    obtain ⟨q, hq, hbq⟩ := parseTest_complete L x hg hp ts' rest p.adv n hsh'
      (Before.adv hb' (by rw [ht]; simp)) (by simp at hf; omega) hopen
    refine ⟨q, ?_, hbq⟩
    rw [parseTest, Before.next hb' (by rw [ht]; simp)]
    simp only [Run.bind_ok, ht, if_true]
    rw [hq]
    rfl
  | .AllofTest xs, hg, hp, ts, rest, p, fuel, hsh, hb, hf, _ => by
    obtain ⟨t, ts1, rfl, ht, _, hsh1⟩ := shape_cons hsh
    obtain ⟨lp, ts2, rfl, hlp, _, hsh2⟩ := shape_cons hsh1
    obtain ⟨ta, tb, rfl, hta, htb⟩ := shape_append hsh2
    obtain ⟨rp, tb', rfl, hrp, _, htb'⟩ := shape_cons htb
    have := shape_nil htb'
    subst this
    simp only at ht hlp hrp
    simp only [List.length_cons, List.length_append, List.length_nil] at hf
    obtain ⟨n, rfl⟩ : ∃ n, fuel = n + 1 + 1 := ⟨fuel - 2, by omega⟩
    have hb' : Before p (t :: lp :: (ta ++ rp :: rest)) := by simpa using hb
    have hb1 : Before p.adv (lp :: (ta ++ rp :: rest)) := Before.adv hb' (by rw [ht]; simp)
    have hb2 : Before p.adv.adv (ta ++ rp :: rest) := Before.adv hb1 (by rw [hlp]; simp)
    obtain ⟨q, hq, hbq⟩ := parseTestsLoop_complete L xs hg.1 hg.2 hp ta rp rest p.adv.adv n []
      hta hrp hb2 (by omega)
    refine ⟨q, ?_, hbq⟩
    rw [parseTest, Before.next hb' (by rw [ht]; simp)]
    simp only [Run.bind_ok, ht, reduceCtorEq, if_false, if_true]
    rw [parseTests, Before.next hb1 (by rw [hlp]; simp)]
    simp only [Run.bind_ok, hlp, if_true]
    rw [hq]
    rfl
  | .AnyofTest xs, hg, hp, ts, rest, p, fuel, hsh, hb, hf, _ => by
    obtain ⟨t, ts1, rfl, ht, _, hsh1⟩ := shape_cons hsh
    obtain ⟨lp, ts2, rfl, hlp, _, hsh2⟩ := shape_cons hsh1
    obtain ⟨ta, tb, rfl, hta, htb⟩ := shape_append hsh2
    obtain ⟨rp, tb', rfl, hrp, _, htb'⟩ := shape_cons htb
    have := shape_nil htb'
    subst this
    simp only at ht hlp hrp
    simp only [List.length_cons, List.length_append, List.length_nil] at hf
    obtain ⟨n, rfl⟩ : ∃ n, fuel = n + 1 + 1 := ⟨fuel - 2, by omega⟩
    have hb' : Before p (t :: lp :: (ta ++ rp :: rest)) := by simpa using hb
    have hb1 : Before p.adv (lp :: (ta ++ rp :: rest)) := Before.adv hb' (by rw [ht]; simp)
    have hb2 : Before p.adv.adv (ta ++ rp :: rest) := Before.adv hb1 (by rw [hlp]; simp)
    obtain ⟨q, hq, hbq⟩ := parseTestsLoop_complete L xs hg.1 hg.2 hp ta rp rest p.adv.adv n []
      hta hrp hb2 (by omega)
    refine ⟨q, ?_, hbq⟩
    rw [parseTest, Before.next hb' (by rw [ht]; simp)]
    simp only [Run.bind_ok, ht, reduceCtorEq, if_false, if_true]
    rw [parseTests, Before.next hb1 (by rw [hlp]; simp)]
    simp only [Run.bind_ok, hlp, if_true]
    rw [hq]
    rfl
  | .GenericTest name args, _, hp, ts, rest, p, fuel, hsh, hb, hf, hopen => by
    obtain ⟨t, targs, rfl, ht, hv, hsh'⟩ := shape_cons hsh
    obtain ⟨n, rfl⟩ : ∃ n, fuel = n + 1 := ⟨fuel - 1, by omega⟩
    simp only at ht hv
    subst hv
    obtain ⟨term, rest', rfl, hterm⟩ := hopen rfl
    have hb' : Before p (t :: (targs ++ term :: rest')) := hb
    obtain ⟨q, hq, hbq⟩ := parseArgumentsLoop_complete L (argsToks_of_shape L args targs hp hsh')
      p.adv term rest' [] n (Before.adv hb' (by rw [ht]; simp)) hterm (by simp at hf; omega)
    refine ⟨q, ?_, hbq⟩
    rw [parseTest, Before.next hb' (by rw [ht]; simp)]
    simp only [Run.bind_ok, ht, reduceCtorEq, if_false, if_true]
    unfold parseArguments
    rw [hq]
    rfl
theorem parseTestsLoop_complete (L : GoLib) :
    ∀ (xs : List Test), xs ≠ [] → goodTests L xs → plainTests xs = true →
      ∀ (ts : List Token) (rp : Token) (rest : List Token) (p : Parser) (fuel : Nat)
        (tl : List Test),
        shape ts = testsShape xs 0 → rp.Typ = .RIGHTPAREN → Before p (ts ++ rp :: rest) →
        ts.length + 1 < fuel →
        ∃ q, parseTestsLoop L fuel p tl = .ok (tl ++ xs, q) ∧ Before q rest
  | [], hne, _, _, _, _, _, _, _, _, _, _, _, _ => absurd rfl hne
  | v :: vs, _, hg, hp, ts, rp, rest, p, fuel, tl, hsh, hrp, hb, hf => by
    have hp' : plainTest v = true ∧ plainTests vs = true := by
      simpa [plainTests] using hp
    have hsh0 : shape ts = testShape v ++ testsShape vs 1 := by
      simpa [testsShape] using hsh
    obtain ⟨tv, tr, rfl, hv, hr⟩ := shape_append hsh0
    obtain ⟨n, rfl⟩ : ∃ n, fuel = n + 1 := ⟨fuel - 1, by omega⟩
    simp only [List.length_append] at hf
    have ihv := parseTest_complete L v hg.1 hp'.1 tv
    have ih := fun hne => parseTestsLoop_complete L vs hne hg.2.2 hp'.2
    have hlast := hg.2.1
    clear hg hp hsh hsh0
    cases vs with
    | nil =>
      have := shape_nil hr
      subst this
      have ho : opens v = false := hlast rfl
      have hb' : Before p (tv ++ rp :: rest) := by simpa using hb
      obtain ⟨q, hq, hbq⟩ := ihv (rp :: rest) p n hv hb' (by simp at hf; omega)
        (by rw [ho]; intro h; cases h)
      refine ⟨q.adv, ?_, Before.adv hbq (by rw [hrp]; simp)⟩
      rw [parseTestsLoop, hq]
      simp only [Run.bind_ok]
      rw [Before.next hbq (by rw [hrp]; simp)]
      simp only [Run.bind_ok, hrp, reduceCtorEq, if_false, if_true]
      rfl
    | cons v' vs' =>
      rw [testsShape_pos] at hr
      obtain ⟨cm, tr', rfl, hcm, _, hr'⟩ := shape_cons hr
      simp only at hcm
      simp only [List.length_cons] at hf
      have hb' : Before p (tv ++ cm :: (tr' ++ rp :: rest)) := by simpa using hb
      obtain ⟨q, hq, hbq⟩ := ihv (cm :: (tr' ++ rp :: rest)) p n hv hb' (by omega)
        (fun _ => ⟨cm, _, rfl, by simp [atTerminator, hcm]⟩)
      obtain ⟨q2, hq2, hbq2⟩ := ih (by simp) tr' rp rest q.adv n (tl ++ [v]) hr' hrp
        (Before.adv hbq (by rw [hcm]; simp)) (by omega)
      refine ⟨q2, ?_, hbq2⟩
      rw [parseTestsLoop, hq]
      simp only [Run.bind_ok]
      rw [Before.next hbq (by rw [hcm]; simp)]
      simp only [Run.bind_ok, hcm, if_true]
      rw [hq2]
      simp
end

theorem accept_semicolon {q : Parser} {sc : Token} {rest : List Token}
    (hb : Before q (sc :: rest)) (hsc : sc.Typ = .SEMICOLON) :
    q.accept [.SEMICOLON] = .ok (true, q.adv) := by
  unfold Parser.accept
  rw [Before.next hb (by rw [hsc]; simp)]
  simp [hsc]

/-- The first token of a rendered command opens a command. -/
theorem cmdShape_head (L : GoLib) (c : Command) (hg : goodCommand L c)
    (hp : plainCommand c = true) :
    ∃ x sh, cmdShape c = x :: sh ∧
      (x.1 = .IF ∨ x.1 = .ELSIF ∨ x.1 = .ELSE ∨ x.1 = .STOP ∨ x.1 = .IDENTIFIER) := by
  cases c with
  | CommentCommand a b => simp [plainCommand] at hp
  | StopCommand => exact ⟨_, _, rfl, by simp⟩
  | GenericCommand name args => exact ⟨_, _, rfl, by simp⟩
  | ControlCommand name test block =>
    obtain ⟨_, _, hk⟩ := hg.1.name
    refine ⟨_, _, rfl, ?_⟩
    rcases hk with hk | hk | hk <;> simp [hk]

mutual
theorem parseCommand_complete (L : GoLib) :
    ∀ (c : Command), goodCommand L c → plainCommand c = true →
      ∀ (ts rest : List Token) (p : Parser) (fuel : Nat),
        shape ts = cmdShape c → Before p (ts ++ rest) → ts.length < fuel →
        ∃ q, parseCommand L fuel p = .ok (c, q) ∧ Before q rest
  | .CommentCommand _ _, _, hp, _, _, _, _, _, _, _ => by
    simp [plainCommand] at hp
  | .StopCommand, _, _, ts, rest, p, fuel, hsh, hb, hf => by
    obtain ⟨t, ts1, rfl, ht, _, hsh1⟩ := shape_cons hsh
    obtain ⟨sc, ts2, rfl, hsc, _, hsh2⟩ := shape_cons hsh1
    have := shape_nil hsh2
    subst this
    simp only at ht hsc
    obtain ⟨n, rfl⟩ : ∃ n, fuel = n + 1 := ⟨fuel - 1, by omega⟩
    have hb' : Before p (t :: sc :: rest) := hb
    have hb1 : Before p.adv (sc :: rest) := Before.adv hb' (by rw [ht]; simp)
    refine ⟨p.adv.adv, ?_, Before.adv hb1 (by rw [hsc]; simp)⟩
    rw [parseCommand, Before.next hb' (by rw [ht]; simp)]
    simp only [Run.bind_ok, ht, reduceCtorEq, or_self, if_false, if_true]
    rw [accept_semicolon hb1 hsc]
    simp
  | .GenericCommand name args, _, hp, ts, rest, p, fuel, hsh, hb, hf => by
    obtain ⟨t, ts1, rfl, ht, hv, hsh1⟩ := shape_cons hsh
    obtain ⟨targs, tb, rfl, hta, htb⟩ := shape_append hsh1
    obtain ⟨sc, tb', rfl, hsc, _, htb'⟩ := shape_cons htb
    have := shape_nil htb'
    subst this
    simp only at ht hv hsc
    subst hv
    simp only [List.length_cons, List.length_append, List.length_nil] at hf
    obtain ⟨n, rfl⟩ : ∃ n, fuel = n + 1 := ⟨fuel - 1, by omega⟩
    have hb' : Before p (t :: (targs ++ sc :: rest)) := by simpa using hb
    obtain ⟨q, hq, hbq⟩ := parseArgumentsLoop_complete L (argsToks_of_shape L args targs hp hta)
      p.adv sc rest [] n (Before.adv hb' (by rw [ht]; simp)) (by simp [atTerminator, hsc])
      (by omega)
    refine ⟨q.adv, ?_, Before.adv hbq (by rw [hsc]; simp)⟩
    rw [parseCommand, Before.next hb' (by rw [ht]; simp)]
    simp only [Run.bind_ok, ht, reduceCtorEq, or_self, if_false, if_true]
    unfold parseArguments
    rw [hq]
    simp only [Run.bind_ok, List.nil_append]
    rw [accept_semicolon hbq hsc]
    simp
  | .ControlCommand name test block, hg, hp, ts, rest, p, fuel, hsh, hb, hf => by
    obtain ⟨hok, hne, hgt, hgb⟩ := hg
    obtain ⟨_, _, hk⟩ := hok.name
    have hpb : plainCommands block = true := by
      cases test <;> simp [plainCommand] at hp
      · exact hp
      · exact hp.2
    have ihb := parseBlockLoop_complete L block hne hgb hpb
    obtain ⟨t, ts1, rfl, ht, hv, hsh1⟩ := shape_cons hsh
    obtain ⟨tx, tb, rfl, htx, htb⟩ := shape_append hsh1
    obtain ⟨lc, tb1, rfl, hlc, _, htb1⟩ := shape_cons htb
    obtain ⟨tbl, tb2, rfl, htbl, htb2⟩ := shape_append htb1
    obtain ⟨rc, tb3, rfl, hrc, _, htb3⟩ := shape_cons htb2
    have := shape_nil htb3
    subst this
    simp only at ht hv hlc hrc
    subst hv
    simp only [List.length_cons, List.length_append, List.length_nil] at hf
    obtain ⟨n, rfl⟩ : ∃ n, fuel = n + 1 + 1 := ⟨fuel - 2, by omega⟩
    have htE : t.Typ ≠ .ERROR := by rcases hk with hk | hk | hk <;> rw [ht, hk] <;> simp
    have htF : t.Typ ≠ .EOF := by rcases hk with hk | hk | hk <;> rw [ht, hk] <;> simp
    have hb' : Before p (t :: (tx ++ lc :: (tbl ++ rc :: rest))) := by simpa using hb
    have hb1 : Before p.adv (tx ++ lc :: (tbl ++ rc :: rest)) := Before.adv hb' htF
    have hctl : t.Typ = .IF ∨ t.Typ = .ELSE ∨ t.Typ = .ELSIF := by
      rcases hk with hk | hk | hk
      · exact Or.inl (ht.trans hk)
      · exact Or.inr (Or.inr (ht.trans hk))
      · exact Or.inr (Or.inl (ht.trans hk))
    have hblock : ∀ (q : Parser), Before q (lc :: (tbl ++ rc :: rest)) →
        ∃ q', parseBlock L (n + 1) q = .ok (block, q') ∧ Before q' rest := by
      intro q hbq
      obtain ⟨q', hq', hbq'⟩ := ihb tbl rc rest q.adv n [] htbl hrc
        (Before.adv hbq (by rw [hlc]; simp)) (by omega)
      refine ⟨q', ?_, hbq'⟩
      rw [parseBlock, Before.next hbq (by rw [hlc]; simp)]
      simp only [Run.bind_ok, hlc, if_true]
      rw [hq']
      rfl
    cases test with
    | none =>
      have hname : t.Val = "else" := by
        rcases hok with ⟨_, h⟩ | ⟨h, _⟩
        · cases h
        · exact h
      have hty : t.Typ = .ELSE := by rw [ht, hname]; rfl
      have := shape_nil htx
      subst this
      obtain ⟨q', hq', hbq'⟩ := hblock p.adv (by simpa using hb1)
      refine ⟨q', ?_, hbq'⟩
      rw [parseCommand, Before.next hb' htE]
      simp only [Run.bind_ok, hty, reduceCtorEq, or_self, or_true, true_or, or_false, if_false,
        if_true, Run.pure_eq]
      rw [hq']
      rfl
    | some x =>
      have hty : t.Typ = .IF ∨ t.Typ = .ELSIF := by
        rcases hok with ⟨h | h, _⟩ | ⟨_, h⟩
        · left; rw [ht]; simp only at h; rw [h]; rfl
        · right; rw [ht]; simp only at h; rw [h]; rfl
        · cases h
      have hpt : plainTest x = true := by
        simp [plainCommand] at hp
        exact hp.1
      obtain ⟨q1, hq1, hbq1⟩ := parseTest_complete L x hgt hpt tx (lc :: (tbl ++ rc :: rest))
        p.adv (n + 1) htx hb1 (by omega) (fun _ => ⟨lc, _, rfl, by simp [atTerminator, hlc]⟩)
      obtain ⟨q', hq', hbq'⟩ := hblock q1 hbq1
      refine ⟨q', ?_, hbq'⟩
      rw [parseCommand, Before.next hb' htE]
      simp only [Run.bind_ok]
      rw [if_pos hctl, if_pos hty, hq1]
      simp only [Run.bind_ok, Run.pure_eq]
      rw [hq']
      rfl
theorem parseBlockLoop_complete (L : GoLib) :
    ∀ (cs : List Command), cs ≠ [] → goodCommands L cs → plainCommands cs = true →
      ∀ (ts : List Token) (rc : Token) (rest : List Token) (p : Parser) (fuel : Nat)
        (cl : List Command),
        shape ts = blockShape cs → rc.Typ = .RIGHTCURLY → Before p (ts ++ rc :: rest) →
        ts.length + 1 < fuel →
        ∃ q, parseBlockLoop L fuel p cl = .ok (cl ++ cs, q) ∧ Before q rest
  | [], hne, _, _, _, _, _, _, _, _, _, _, _, _ => absurd rfl hne
  | c :: cs, _, hg, hp, ts, rc, rest, p, fuel, cl, hsh, hrc, hb, hf => by
    have hp' : plainCommand c = true ∧ plainCommands cs = true := by
      simpa [plainCommands] using hp
    have hsh0 : shape ts = cmdShape c ++ blockShape cs := hsh
    obtain ⟨tc, tr, rfl, hc, hr⟩ := shape_append hsh0
    obtain ⟨n, rfl⟩ : ∃ n, fuel = n + 1 := ⟨fuel - 1, by omega⟩
    simp only [List.length_append] at hf
    have ihc := parseCommand_complete L c hg.1 hp'.1 tc
    have ih := fun hne => parseBlockLoop_complete L cs hne hg.2 hp'.2
    have hgcs := hg.2
    have hpcs := hp'.2
    have htc : 0 < tc.length := by
      obtain ⟨x, sh, hx, _⟩ := cmdShape_head L c hg.1 hp'.1
      rw [hx] at hc
      obtain ⟨t, tc', rfl, _⟩ := shape_cons hc
      simp
    clear hg hp hsh hsh0
    have hb' : Before p (tc ++ (tr ++ rc :: rest)) := by simpa using hb
    obtain ⟨q, hq, hbq⟩ := ihc (tr ++ rc :: rest) p n hc hb' (by omega)
    cases cs with
    | nil =>
      have := shape_nil hr
      subst this
      have hbq' : Before q (rc :: rest) := hbq
      refine ⟨q.adv, ?_, Before.adv hbq' (by rw [hrc]; simp)⟩
      rw [parseBlockLoop, hq]
      simp only [Run.bind_ok]
      rw [Before.next hbq' (by rw [hrc]; simp)]
      simp only [Run.bind_ok, hrc, if_true]
      rfl
    | cons c' cs' =>
      obtain ⟨x, sh, hx, hxt⟩ := cmdShape_head L c' hgcs.1 (by
        have : plainCommand c' = true ∧ plainCommands cs' = true := by
          simpa [plainCommands] using hpcs
        exact this.1)
      have hr0 : shape tr = x :: (sh ++ blockShape cs') := by
        rw [hr]
        show cmdShape c' ++ blockShape cs' = _
        rw [hx]
        rfl
      obtain ⟨t, tr', htr, ht, _, _⟩ := shape_cons hr0
      have hbq' : Before q (t :: (tr' ++ rc :: rest)) := by rw [htr] at hbq; simpa using hbq
      have htE : t.Typ ≠ .ERROR := by rcases hxt with h | h | h | h | h <;> rw [ht, h] <;> simp
      have htR : ¬ t.Typ = .RIGHTCURLY := by
        rcases hxt with h | h | h | h | h <;> rw [ht, h] <;> simp
      obtain ⟨q2, hq2, hbq2⟩ := ih (by simp) tr rc rest q n (cl ++ [c]) hr hrc hbq (by omega)
      refine ⟨q2, ?_, hbq2⟩
      rw [parseBlockLoop, hq]
      simp only [Run.bind_ok]
      rw [Before.next hbq' htE]
      simp only [Run.bind_ok]
      rw [if_neg htR, Before.backup hbq']
      simp only [Run.bind_ok]
      rw [hq2]
      simp
end

/-! ## Equality of a node with itself -/

theorem equalsStringsLoop_refl : ∀ (as : List String), equalsStringsLoop as as = true := by
  intro as
  induction as with
  | nil => rfl
  | cons a as ih => simp [equalsStringsLoop, ih]

theorem argument_equals_refl (a : Argument) : Argument.Equals a a = true := by
  cases a <;> simp [Argument.Equals, equalsStringsLoop_refl]

theorem equalsArguments_refl (as : List Argument) : equalsArguments as as = true := by
  unfold equalsArguments
  simp only [ne_eq, not_true_eq_false, if_false]
  induction as with
  | nil => rfl
  | cons a as ih => simp [equalsArgumentsLoop, argument_equals_refl, ih]

mutual
theorem test_equals_refl : ∀ (t : Test), Test.Equals t t = true
  | .TrueTest => rfl
  | .FalseTest => rfl
  | .NotTest t => by
    have := test_equals_refl t
    simpa [Test.Equals] using this
  | .AllofTest ts => by
    have := tests_equalsLoop_refl ts
    simpa [Test.Equals] using this
  | .AnyofTest ts => by
    have := tests_equalsLoop_refl ts
    simpa [Test.Equals] using this
  | .GenericTest name args => by
    simp [Test.Equals, equalsArguments_refl]
theorem tests_equalsLoop_refl : ∀ (ts : List Test), Test.equalsLoop ts ts = true
  | [] => rfl
  | t :: ts => by
    have h1 := test_equals_refl t
    have h2 := tests_equalsLoop_refl ts
    simp [Test.equalsLoop, h1, h2]
end

mutual
theorem command_equals_refl : ∀ (c : Command), Command.Equals c c = true
  | .StopCommand => rfl
  | .CommentCommand _ _ => by simp [Command.Equals]
  | .GenericCommand name args => by simp [Command.Equals, equalsArguments_refl]
  | .ControlCommand name test block => by
    have h := commands_equalsLoop_refl block
    cases test with
    | none => simp [Command.Equals, equalsOptTest, h]
    | some t => simp [Command.Equals, equalsOptTest, test_equals_refl, h]
theorem commands_equalsLoop_refl : ∀ (cs : List Command), Command.equalsLoop cs cs = true
  | [] => rfl
  | c :: cs => by
    have h1 := command_equals_refl c
    have h2 := commands_equalsLoop_refl cs
    simp [Command.equalsLoop, h1, h2]
end

/-- A file is `Equals` to itself. -/
theorem Equals_refl_file (f : File) : Equals (.File f) (.File f) = true := by
  simp [Equals, equalsCommands, commands_equalsLoop_refl]

/-! ## C2 -/

set_option smartUnfolding false in
theorem eval_empty (L : GoLib) (name : String) :
    Parse L 5 name "" = .ok { Name := name, List := [] } := rfl

/-- Parsing the rendering of a file of one command without string literals
and comments, as the parser builds them, gives the file back. -/
theorem reparse_one (L : GoLib) (name : String) (c : Command) (hg : goodCommand L c)
    (hp : plainCommand c = true) (f : File) (hname : f.Name = name) (hf : f.List = [c]) :
    Returns L name f.String (.ok f) := by
  obtain ⟨sent, hscan, hshape⟩ := file_scans L c hg hp f hf
  obtain ⟨tc, te, rfl, htc, hte⟩ := shape_append hshape
  obtain ⟨eof, te', rfl, heof, _, hte'⟩ := shape_cons hte
  have := shape_nil hte'
  subst this
  simp only at heof
  obtain ⟨_, pre, last, hsplit, hplain, _⟩ := hscan.sent
  obtain ⟨hpre, hlast⟩ := List.append_inj' hsplit rfl
  subst hpre
  obtain ⟨fuel0, h0⟩ := hscan
  have hlex := lexTokens_mono L h0 (Nat.le_max_left fuel0 (tc.length + 1))
  refine ⟨by simp, max fuel0 (tc.length + 1), ?_⟩
  rw [Parse_of_tokens L name hlex]
  have hrecv : receive (tc ++ [eof]) = some (tc ++ [eof]) := by
    rw [receive_plain tc eof hplain, if_pos heof]
  unfold Parser.run
  rw [hrecv]
  simp only
  have hb0 := Before.init name (tc ++ [eof])
  generalize hp0 : ({ Parser.init name with Items := tc ++ [eof] } : Parser) = p0 at hb0
  have hl0 : p0.List = [] := by rw [← hp0]; rfl
  obtain ⟨q, hq, _⟩ := parseCommand_complete L c hg hp tc [eof] p0
    (max fuel0 (tc.length + 1)) htc hb0 (by omega)
  have hfr := (parseCommand_frame_all L _).1 p0 _ hq
  obtain ⟨x, sh, hx, hxt⟩ := cmdShape_head L c hg hp
  rw [hx] at htc
  obtain ⟨t, tc', rfl, ht, _, _⟩ := shape_cons htc
  have hb0' : Before p0 (t :: (tc' ++ [eof])) := hb0
  have htE : t.Typ ≠ .ERROR := by rcases hxt with h | h | h | h | h <;> rw [ht, h] <;> simp
  have hcond : (t.IsCommand = true ∨ t.Typ = .LINECOMMENT ∨ t.Typ = .BLOCKCOMMENT ∨
      t.Typ = .IDENTIFIER) := by
    rcases hxt with h | h | h | h | h
    · left; unfold Token.IsCommand; rw [ht, h]; rfl
    · left; unfold Token.IsCommand; rw [ht, h]; rfl
    · left; unfold Token.IsCommand; rw [ht, h]; rfl
    · left; unfold Token.IsCommand; rw [ht, h]; rfl
    · right; right; right; rw [ht, h]
  show (parseFile L _ p0 >>= _) = _
  unfold parseFile
  rw [Before.next hb0' htE]
  simp only [Run.bind_ok]
  rw [if_pos hcond, Before.backup hb0']
  simp only [Run.bind_ok]
  rw [hq]
  simp only [Run.bind_ok, Run.pure_eq]
  have hql : q.List = [] := by rw [hfr.2.2]; exact hl0
  rw [hql]
  cases f
  simp only at hname hf
  subst hname
  subst hf
  rfl

/-- The round trip on files without string literals and comments. -/
theorem reparse_plain (L : GoLib) (name text : String) (f : File)
    (h : Returns L name text (.ok f)) (hp : plainFile f = true) :
    Returns L name f.String (.ok f) := by
  obtain ⟨_, fuel, hparse⟩ := h
  obtain ⟨hgood, hname⟩ := Parse_good L fuel name text f hparse
  have hlen := parse_list_length_le_one L fuel name text f hparse
  rcases hl : f.List with _ | ⟨c, cs⟩
  · refine ⟨by simp, 5, ?_⟩
    have hs : f.String = "" := by unfold File.String; rw [hl]; rfl
    rw [hs, eval_empty]
    cases f
    simp only at hname hl
    subst hname
    subst hl
    rfl
  · rw [hl] at hlen hgood
    have hcs : cs = [] := by
      cases cs with
      | nil => rfl
      | cons _ _ => simp at hlen
    subst hcs
    have hpc : plainCommand c = true := by
      unfold plainFile at hp
      rw [hl] at hp
      simpa [plainCommands] using hp
    exact reparse_one L name c hgood.1 hpc f hname hl

set_option smartUnfolding false in
theorem eval_header (L : GoLib) : Parse L 100 "t" headerInput = .ok headerFile := rfl

set_option smartUnfolding false in
theorem eval_header_rendered (L : GoLib) :
    Parse L 100 "t" "header :contains Subject subject keyword;\n" =
      .exit ⟨"Invalid Arguments statement", "Subject"⟩ := rfl

set_option smartUnfolding false in
theorem eval_comment (L : GoLib) : Parse L 50 "t" commentInput = .ok commentFile := rfl

set_option smartUnfolding false in
theorem eval_comment_rendered (L : GoLib) :
    Parse L 50 "t" "line #aoeu\n" = .exit ⟨"Invalid Arguments statement", "#aoeu"⟩ := rfl

set_option smartUnfolding false in
theorem eval_plain (L : GoLib) : Parse L 100 "t" plainInput = .ok plainParsed := rfl

theorem render_header : headerFile.String = "header :contains Subject subject keyword;\n" := by
  decide

theorem render_comment : commentFile.String = "line #aoeu\n" := by decide

/-- C2 as stated fails at both witnesses the claim names.  `Parse` accepts
`header :contains "Subject" "subject keyword";`, the File renders to
`header :contains Subject subject keyword;` (string values are written without
quotes), and under no library does a second `Parse` of that text return a File:
the process ends with "Invalid Arguments statement" at `Subject`.  Likewise a
`#aoeu` line comment renders to `line #aoeu`, which no second `Parse` accepts. -/
theorem C2_round_trip_counterexample :
    Returns GoLib.ascii "t" headerInput (.ok headerFile) ∧
      headerFile.String = "header :contains Subject subject keyword;\n" ∧
      (¬ ∃ L : GoLib, ∃ g : File, Returns L "t" headerFile.String (.ok g)) ∧
      Returns GoLib.ascii "t" commentInput (.ok commentFile) ∧
      commentFile.String = "line #aoeu\n" ∧
      ¬ ∃ L : GoLib, ∃ g : File, Returns L "t" commentFile.String (.ok g) := by
  refine ⟨⟨by simp, 100, eval_header _⟩, render_header, ?_, ⟨by simp, 50, eval_comment _⟩,
    render_comment, ?_⟩
  · rintro ⟨L, g, h⟩
    rw [render_header] at h
    have h2 : Returns L "t" "header :contains Subject subject keyword;\n"
        (.exit ⟨"Invalid Arguments statement", "Subject"⟩) :=
      ⟨by simp, 100, eval_header_rendered L⟩
    cases Returns_unique L h h2
  · rintro ⟨L, g, h⟩
    rw [render_comment] at h
    have h2 : Returns L "t" "line #aoeu\n" (.exit ⟨"Invalid Arguments statement", "#aoeu"⟩) :=
      ⟨by simp, 50, eval_comment_rendered L⟩
    cases Returns_unique L h h2

/-- C2 amended: the round trip holds for files without string literals and
comments.  For every input `Parse` accepts whose File holds no StringArgument
and no CommentCommand, at any depth, parsing the rendering `f.String` under the
same name succeeds and returns the File `f` itself, and every File a second
parse returns is reported equal to `f` by `Equals`. -/
theorem C2_round_trip_plain (L : GoLib) (name text : String) (f : File)
    (h : Returns L name text (.ok f)) (hp : plainFile f = true) :
    Returns L name f.String (.ok f) ∧
      ∀ g : File, Returns L name f.String (.ok g) → Equals (.File f) (.File g) = true := by
  have hr := reparse_plain L name text f h hp
  refine ⟨hr, fun g hg => ?_⟩
  have := Returns_unique L hr hg
  cases this
  exact Equals_refl_file f

/-- C2 amended, at a script with a nested test list, tags and numbers. -/
theorem C2_round_trip_plain_witness :
    Returns GoLib.ascii "t" plainInput (.ok plainParsed) ∧ plainFile plainParsed = true ∧
      Returns GoLib.ascii "t" plainParsed.String (.ok plainParsed) ∧
      ∀ g : File, Returns GoLib.ascii "t" plainParsed.String (.ok g) →
        Equals (.File plainParsed) (.File g) = true :=
  ⟨⟨by simp, 100, eval_plain _⟩, by decide,
    C2_round_trip_plain GoLib.ascii "t" plainInput plainParsed ⟨by simp, 100, eval_plain _⟩
      (by decide)⟩

/-! ## C11 -/

/-- C11: when the scanner halts, the tokens it has sent hold exactly one EOF or
ERROR token, and it is the last one: every token before it is of another
kind. -/
theorem C11_one_sentinel_token_last (L : GoLib) (input : String) (sent : List Token)
    (h : Scans L input sent) :
    ∃ pre last, sent = pre ++ [last] ∧ last.sentinel = true ∧
      (∀ t ∈ pre, t.sentinel = false) ∧ (sent.filter Token.sentinel).length = 1 := by
  obtain ⟨_, pre, last, rfl, hpre, hlast⟩ := h.sent
  have hp : ∀ t ∈ pre, t.sentinel = false := by
    intro t ht
    obtain ⟨h1, h2⟩ := hpre t ht
    simp [Token.sentinel, h1, h2]
  have hl : last.sentinel = true := by simpa [Token.sentinel] using hlast
  refine ⟨pre, last, rfl, hl, hp, ?_⟩
  rw [List.filter_append, List.filter_eq_nil_iff.2 (fun t ht => by simp [hp t ht])]
  simp [List.filter, hl]

/-- C11 at `)`: the scanner sends RIGHTPAREN and then ERROR. -/
theorem C11_one_sentinel_token_last_witness :
    Scans GoLib.ascii ")" [⟨.RIGHTPAREN, 0, ")"⟩, ⟨.ERROR, 1, "unexpected right paren"⟩] ∧
      ∃ pre last, [(⟨.RIGHTPAREN, 0, ")"⟩ : Token), ⟨.ERROR, 1, "unexpected right paren"⟩] =
          pre ++ [last] ∧ last.sentinel = true ∧
        (∀ t ∈ pre, t.sentinel = false) ∧
        (List.filter Token.sentinel
          [(⟨.RIGHTPAREN, 0, ")"⟩ : Token), ⟨.ERROR, 1, "unexpected right paren"⟩]).length = 1 :=
  ⟨⟨10, scan_rightParen GoLib.ascii⟩,
    C11_one_sentinel_token_last GoLib.ascii ")" _ ⟨10, scan_rightParen GoLib.ascii⟩⟩

/-! ## Whole inputs -/

/-- A text the scanner reads to its end from `lexStart` is an input on which it
halts. -/
theorem Scan.scans {L : GoLib} {input : String} {sh : List (TokenType × String)}
    (h : Scan L input.data 0 sh) : ∃ sent, Scans L input sent ∧ shape sent = sh := by
  obtain ⟨n, l, new, hrun, hitems, hshape⟩ := h .lexStart
    { input := input.data, pos := 0, start := 0, width := 0, parenDepth := 0, items := [] }
    [] [] [] (Or.inl ⟨rfl, rfl⟩) ⟨by simp, rfl, rfl, rfl, rfl⟩
  refine ⟨new, ⟨n, ?_⟩, hshape⟩
  unfold lexTokens Lex
  rw [hrun]
  simpa using hitems

/-! ## C20 -/

theorem key_gt_iff (w : String) :
    (key w).toNat > TokenType.COMMAND.toNat ↔ w ∈ keywords := by
  unfold key keywords
  simp only [List.mem_cons, List.mem_singleton, List.not_mem_nil, or_false]
  constructor
  · intro h
    repeat' split at h
    all_goals first
      | (simp [TokenType.toNat] at h; done)
      | simp [*]
  · intro h
    rcases h with h | h | h | h | h | h | h | h | h <;> subst h <;> decide

/-- C20: a non-empty word of letters, digits and underscores that does not
begin with an ASCII digit scans to two tokens, the word and EOF.  The token of
the word carries the word as its text; its kind is the one the table `key`
gives when the word is one of `if`, `elsif`, `else`, `stop`, `true`, `false`,
`not`, `anyof`, `allof`, and IDENTIFIER otherwise. -/
theorem C20_word_scans_to_keyword_or_identifier (L : GoLib) (w : String)
    (hw : IdentWord L w.data) :
    ∃ t eof, Scans L w [t, eof] ∧ t.Val = w ∧
      t.Typ = (if w ∈ keywords then key w else .IDENTIFIER) ∧ eof.Typ = .EOF ∧ eof.Val = "" ∧
      keywords.map key = [.IF, .ELSIF, .ELSE, .STOP, .TRUE, .FALSE, .NOT, .ANYOF, .ALLOF] := by
  have hs : Scan L (w.data ++ []) 0 _ := Scan.word hw rfl (Scan.eof L 0)
  rw [List.append_nil] at hs
  obtain ⟨sent, hscan, hshape⟩ := Scan.scans hs
  obtain ⟨t, ts, rfl, ht, hv, hsh⟩ := shape_cons hshape
  obtain ⟨eof, ts', rfl, he, hev, hsh'⟩ := shape_cons hsh
  have := shape_nil hsh'
  subst this
  refine ⟨t, eof, hscan, hv, ?_, he, hev, by decide⟩
  rw [ht]
  show (if (key w).toNat > TokenType.COMMAND.toNat then key w else .IDENTIFIER) = _
  by_cases hk : w ∈ keywords
  · rw [if_pos ((key_gt_iff w).2 hk), if_pos hk]
  · rw [if_neg (fun h => hk ((key_gt_iff w).1 h)), if_neg hk]

theorem identWord_stop_ : IdentWord GoLib.ascii "stop_".data :=
  ⟨by intro c hc; fin_cases hc <;> rfl, _, rfl, by decide⟩

/-- C20 at `stop_`: one IDENTIFIER token, then EOF. -/
theorem C20_word_scans_to_keyword_or_identifier_witness :
    IdentWord GoLib.ascii "stop_".data ∧
      ∃ t eof, Scans GoLib.ascii "stop_" [t, eof] ∧ t.Val = "stop_" ∧
        t.Typ = (if "stop_" ∈ keywords then key "stop_" else .IDENTIFIER) ∧ eof.Typ = .EOF ∧
        eof.Val = "" ∧
        keywords.map key = [.IF, .ELSIF, .ELSE, .STOP, .TRUE, .FALSE, .NOT, .ANYOF, .ALLOF] :=
  ⟨identWord_stop_, C20_word_scans_to_keyword_or_identifier GoLib.ascii "stop_" identWord_stop_⟩

/-! ## C18 -/

theorem spaced_scan (L : GoLib) :
    ∀ (ws : List String), (∀ w ∈ ws, NumText w.data) →
      Scan L (spaced ws).data 0 (ws.map (fun w => (TokenType.NUMBER, w)) ++ [(.EOF, "")]) := by
  intro ws
  induction ws with
  | nil => intro _; exact Scan.eof L 0
  | cons w ws ih =>
    intro hw
    have hw1 := hw w (by simp)
    have ih' := ih (fun x hx => hw x (by simp [hx]))
    cases ws with
    | nil =>
      have hs : Scan L (w.data ++ []) 0 _ := Scan.number hw1 rfl (Scan.eof L 0)
      rw [List.append_nil] at hs
      exact hs
    | cons v vs =>
      have hdata : (spaced (w :: v :: vs)).data = w.data ++ (' ' :: (spaced (v :: vs)).data) := by
        show (w ++ " " ++ spaced (v :: vs)).data = _
        simp only [String.data_append, List.append_assoc]
        rfl
      rw [hdata]
      exact Scan.number hw1 rfl (Scan.blank (Or.inl rfl) ih')

/-- C18: for a list of literals, each one or more ASCII digits then
at most one of the letters k, K, m, M, g, G, the text of the literals joined by
single spaces scans to one NUMBER token for each literal, in order, with the
literal as its text, followed by one EOF token with empty text. -/
theorem C18_numbers_scan_to_their_literals (L : GoLib) (ws : List String)
    (hw : ∀ w ∈ ws, NumText w.data) :
    ∃ sent, Scans L (spaced ws) sent ∧
      shape sent = ws.map (fun w => (TokenType.NUMBER, w)) ++ [(.EOF, "")] ∧
      sent.length = ws.length + 1 := by
  obtain ⟨sent, hscan, hshape⟩ := Scan.scans (spaced_scan L ws hw)
  refine ⟨sent, hscan, hshape, ?_⟩
  have := congrArg List.length hshape
  simpa [shape] using this

theorem numText_testNumbers : ∀ w ∈ ["1024", "789k", "512M", "2G"], NumText w.data := by
  intro w hw
  simp only [List.mem_cons, List.mem_singleton, List.not_mem_nil, or_false] at hw
  rcases hw with rfl | rfl | rfl | rfl
  · exact ⟨"1024".data, [], rfl, by decide, by decide, Or.inl rfl⟩
  · exact ⟨"789".data, ['k'], rfl, by decide, by decide, Or.inr ⟨'k', rfl, by decide⟩⟩
  · exact ⟨"512".data, ['M'], rfl, by decide, by decide, Or.inr ⟨'M', rfl, by decide⟩⟩
  · exact ⟨"2".data, ['G'], rfl, by decide, by decide, Or.inr ⟨'G', rfl, by decide⟩⟩

/-- C18 at the input of `TestNumbers`, `1024 789k 512M 2G`. -/
theorem C18_numbers_scan_to_their_literals_witness :
    spaced ["1024", "789k", "512M", "2G"] = "1024 789k 512M 2G" ∧
      ∃ sent, Scans GoLib.ascii (spaced ["1024", "789k", "512M", "2G"]) sent ∧
        shape sent = ["1024", "789k", "512M", "2G"].map (fun w => (TokenType.NUMBER, w)) ++
          [(.EOF, "")] ∧
        sent.length = ["1024", "789k", "512M", "2G"].length + 1 :=
  ⟨by decide, C18_numbers_scan_to_their_literals GoLib.ascii ["1024", "789k", "512M", "2G"]
    numText_testNumbers⟩

/-! ## Runs of the scanner -/

theorem Reaches.here (L : GoLib) (c : Option StateFn × Lexer) : Reaches L c c :=
  ⟨0, by simp [Lexer.run]⟩

theorem Reaches.by_step {L : GoLib} {s : StateFn} {l : Lexer} {c c' : Option StateFn × Lexer}
    (hs : Sieve.step L s l = c) (h : Reaches L c c') : Reaches L (some s, l) c' := by
  obtain ⟨n, hn⟩ := h
  refine ⟨n + 1, ?_⟩
  show Lexer.run L n (Sieve.step L s l) = _
  rw [hs, hn]

theorem Diverges.after {L : GoLib} {s : StateFn} {l : Lexer} {c : Option StateFn × Lexer}
    {items : List Token} (hs : Sieve.step L s l = c) (hi : l.items = items)
    (h : Diverges L c items) : Diverges L (some s, l) items := by
  intro n
  cases n with
  | zero => exact ⟨s, l, by simp [Lexer.run], hi⟩
  | succ n =>
    obtain ⟨s', l', hrun, hi'⟩ := h n
    refine ⟨s', l', ?_, hi'⟩
    show Lexer.run L n (Sieve.step L s l) = _
    rw [hs, hrun]

/-- An input on which the scanner diverges is one on which it does not halt. -/
theorem Diverges.not_scans {L : GoLib} {input : String} {items : List Token}
    (h : Diverges L (Lex input) items) : ¬ ∃ sent, Scans L input sent := by
  rintro ⟨sent, fuel, hf⟩
  obtain ⟨s, l, hrun, _⟩ := h fuel
  unfold lexTokens at hf
  rw [hrun] at hf
  cases hf

theorem Lexer.Is.take_start {l : Lexer} {pre tok suf : List Char} {d : Int} {items : List Token}
    (h : l.Is pre tok suf d items) : l.input.take l.start = pre := by
  rw [h.input_eq, h.start_eq]
  simp

theorem Lexer.Is.errorf_sent {l : Lexer} {pre tok suf : List Char} {d : Int}
    {items : List Token} (h : l.Is pre tok suf d items) (msg : String) :
    (l.errorf msg).2.items = items ++ [⟨.ERROR, byteLen pre, msg⟩] := by
  rw [Lexer.errorf_items, h.take_start, h.items_eq]

theorem Lexer.Is.lex (input : String) :
    (Lex input).2.Is [] [] input.data 0 [] := ⟨by simp [Lex], rfl, rfl, rfl, rfl⟩

/-! ## C19 -/

/-- After a number that is glued to a letter, digit or underscore, `scanNumber`
has read that character too and reports failure. -/
theorem Lexer.Is.scanNumber_glued (L : GoLib) {l : Lexer} {pre ds sufx rest : List Char}
    {c : Char} {d : Int} {items : List Token}
    (h : l.Is pre [] (ds ++ (sufx ++ c :: rest)) d items)
    (hds : ∀ x ∈ ds, x ∈ "0123456789".data)
    (hsufx : (sufx = [] ∧ c ∉ "0123456789".data ∧ c ∉ "kKmMgG".data) ∨
      ∃ k, sufx = [k] ∧ k ∈ "kKmMgG".data)
    (hc : isAlphaNumeric L (some c) = true) :
    ∃ l', l.scanNumber L = (false, l') ∧ l'.Is pre (ds ++ sufx ++ [c]) rest d items := by
  have hnd : ∀ x, (sufx ++ c :: rest).head? = some x → x ∉ "0123456789".data := by
    intro x hx
    rcases hsufx with ⟨rfl, hcd, _⟩ | ⟨k, rfl, hk⟩
    · simp only [List.nil_append, List.head?_cons, Option.some.injEq] at hx
      subst hx
      exact hcd
    · simp only [List.singleton_append, List.head?_cons, Option.some.injEq] at hx
      subst hx
      simp only [List.mem_cons, List.mem_singleton, List.not_mem_nil, or_false] at hk
      rcases hk with h | h | h | h | h | h <;> subst h <;> decide
  have h1 := h.acceptRun "0123456789".data (fun x hx => by simpa using hds x hx)
    (fun x hx => by simpa using hnd x hx)
  simp only [List.nil_append] at h1
  have h2 : ((l.acceptRun "0123456789".data).accept "kKmMgG".data).2.Is pre (ds ++ sufx)
      (c :: rest) d items := by
    rcases hsufx with ⟨rfl, _, hcm⟩ | ⟨k, rfl, hk⟩
    · simp only [List.nil_append, List.append_nil] at h1 ⊢
      exact h1.accept_no _ (fun x hx => by
        simp only [List.head?_cons, Option.some.injEq] at hx
        subst hx
        simpa using hcm)
    · exact h1.accept_yes _ (by simpa using hk)
  obtain ⟨l3, hpk, h3⟩ := h2.peek
  refine ⟨l3.next.2, ?_, ?_⟩
  · unfold Lexer.scanNumber
    simp only
    rw [hpk]
    simp only [List.head?_cons, hc, if_true]
  · rw [h3.next_cons]
    exact h3.step_is

/-- C19: when the scanner, about to read a token, stands before a run of ASCII
digits `ds`, then at most one magnitude letter (the letter is taken whenever
one follows the digits), then a letter, digit or underscore `c`, it halts two
steps later: it has sent no NUMBER token for the run, only an ERROR token
placed at the start of the run. -/
theorem C19_number_glued_to_a_word_is_an_error (L : GoLib) (l : Lexer)
    (pre ds sufx rest : List Char) (c : Char) (d : Int) (items : List Token)
    (his : l.Is pre [] (ds ++ (sufx ++ c :: rest)) d items) (hne : ds ≠ [])
    (hds : ∀ x ∈ ds, x ∈ "0123456789".data)
    (hsufx : (sufx = [] ∧ c ∉ "0123456789".data ∧ c ∉ "kKmMgG".data) ∨
      ∃ k, sufx = [k] ∧ k ∈ "kKmMgG".data)
    (hc : isAlphaNumeric L (some c) = true) :
    ∃ l', Lexer.run L 2 (some .lexStart, l) = (none, l') ∧
      l'.items = items ++ [⟨.ERROR, byteLen pre, "bad number syntax"⟩] := by
  cases ds with
  | nil => exact absurd rfl hne
  | cons x ds =>
    have hxd : x ∈ "0123456789".data := hds x (by simp)
    have hx : isAlphaNumeric L (some x) = true := digit_alnum L hxd
    have his' : l.Is pre [] (x :: (ds ++ (sufx ++ c :: rest))) d items := his
    have his1 : Lexer.Is { l with width := 1 } pre [] ((x :: ds) ++ (sufx ++ c :: rest)) d
        items := his'.width 1
    obtain ⟨l', hscan, his2⟩ := Lexer.Is.scanNumber_glued L his1 hds hsufx hc
    have hstart : lexStart L l = (some .lexNumber, { l with width := 1 }) := by
      unfold lexStart
      rw [his'.next_cons]
      show (if x = ';' then _ else _) = _
      rw [if_neg (alnum_ne L hx (x := ';') rfl), if_neg (alnum_ne L hx (x := ':') rfl),
        if_neg (alnum_ne L hx (x := ',') rfl), if_neg (alnum_ne L hx (x := '"') rfl),
        if_neg (alnum_ne L hx (x := '(') rfl), if_neg (alnum_ne L hx (x := ')') rfl),
        if_neg (alnum_ne L hx (x := '[') rfl), if_neg (alnum_ne L hx (x := ']') rfl),
        if_neg (alnum_ne L hx (x := '\x7b') rfl), if_neg (alnum_ne L hx (x := '\x7d') rfl),
        if_neg (by simp [alnum_not_space L hx]),
        if_neg (by simp [alnum_not_eol L hx]), if_pos (mem_digit hxd), Lexer.backup_step]
    have hnum : lexNumber L { l with width := 1 } = l'.errorf "bad number syntax" := by
      unfold lexNumber
      rw [hscan]
      rfl
    refine ⟨(l'.errorf "bad number syntax").2, ?_, his2.errorf_sent _⟩
    show Lexer.run L 1 (lexStart L l) = _
    rw [hstart]
    show Lexer.run L 0 (lexNumber L _) = _
    rw [hnum]
    rfl

/-- C19 at `10kb`. -/
theorem C19_number_glued_to_a_word_is_an_error_witness :
    ∃ l', Lexer.run GoLib.ascii 2 (Lex "10kb") = (none, l') ∧
      l'.items = [] ++ [⟨.ERROR, byteLen [], "bad number syntax"⟩] :=
  C19_number_glued_to_a_word_is_an_error GoLib.ascii (Lex "10kb").2 [] "10".data ['k'] [] 'b' 0 []
    (Lexer.Is.lex "10kb") (by decide) (by decide) (Or.inr ⟨'k', rfl, by decide⟩) rfl

set_option smartUnfolding false in
theorem scan_glued_numbers (L : GoLib) :
    lexTokens L 5 "10kb" = some [⟨.ERROR, 0, "bad number syntax"⟩] ∧
      lexTokens L 5 "12abc" = some [⟨.ERROR, 0, "bad number syntax"⟩] ∧
      lexTokens L 5 "1k2" = some [⟨.ERROR, 0, "bad number syntax"⟩] := ⟨rfl, rfl, rfl⟩

/-! ## C13 -/

theorem lexString_diverges (L : GoLib) {pre : List Char} {d : Int} {items : List Token} :
    ∀ (n : Nat) (l : Lexer) (tok suf : List Char), l.Is pre tok suf d items → '"' ∉ suf →
      ∃ s l', Lexer.run L n (some .lexString, l) = (some s, l') ∧ l'.items = items := by
  intro n
  induction n with
  | zero => intro l tok suf his _; exact ⟨.lexString, l, by simp [Lexer.run], his.items_eq⟩
  | succ n ih =>
    intro l tok suf his hq
    show ∃ s l', Lexer.run L n (lexString l) = (some s, l') ∧ l'.items = items
    unfold lexString
    cases suf with
    | nil =>
      rw [his.next_nil]
      show ∃ s l', Lexer.run L n (if none ≠ some '"' then _ else _) = _ ∧ _
      rw [if_pos (by simp)]
      exact ih _ tok [] (his.width 0) hq
    | cons c suf =>
      rw [his.next_cons]
      have hc : c ≠ '"' := fun h => hq (by simp [h])
      show ∃ s l', Lexer.run L n (if some c ≠ some '"' then _ else _) = _ ∧ _
      rw [if_pos (by simpa using hc)]
      exact ih _ (tok ++ [c]) suf his.step_is (fun h => hq (by simp [h]))

/-- C13 (defect of the code): when the scanner, about to read a token, stands
before a double quote after which no double quote follows up to the end of the
input, it never halts and sends no token.  `lexString` tests `r != '"'` before
`r == eof`, and at the end of the input `next` returns `eof` for ever, so the
case that reports "Non-terminating string literal" is never reached. -/
theorem C13_unterminated_string_never_halts (L : GoLib) (l : Lexer) (pre s : List Char)
    (d : Int) (items : List Token) (his : l.Is pre [] ('"' :: s) d items) (hs : '"' ∉ s) :
    Diverges L (some .lexStart, l) items := by
  have hstep : lexStart L l = (some .lexString, { l with width := 1, pos := l.pos + 1 }) := by
    unfold lexStart
    rw [his.next_cons]
    rfl
  refine Diverges.after hstep his.items_eq ?_
  intro n
  exact lexString_diverges L n _ ['"'] s his.start_one hs

/-- C13 at `"abc`: the scanner never halts. -/
theorem C13_unterminated_string_never_halts_witness :
    Diverges GoLib.ascii (Lex "\"abc") [] ∧ ¬ ∃ sent, Scans GoLib.ascii "\"abc" sent :=
  ⟨C13_unterminated_string_never_halts GoLib.ascii (Lex "\"abc").2 [] "abc".data 0 []
      (Lexer.Is.lex "\"abc") (by decide),
    Diverges.not_scans (C13_unterminated_string_never_halts GoLib.ascii (Lex "\"abc").2 []
      "abc".data 0 [] (Lexer.Is.lex "\"abc") (by decide))⟩

/-! ## C15 -/

theorem lexLineComment_diverges (L : GoLib) {pre : List Char} {d : Int} {items : List Token} :
    ∀ (n : Nat) (l : Lexer) (tok suf : List Char), l.Is pre tok suf d items →
      (∀ c ∈ suf, isEndOfLine (some c) = false) →
      ∃ s l', Lexer.run L n (some .lexLineComment, l) = (some s, l') ∧ l'.items = items := by
  intro n
  induction n with
  | zero => intro l tok suf his _; exact ⟨.lexLineComment, l, by simp [Lexer.run], his.items_eq⟩
  | succ n ih =>
    intro l tok suf his hq
    show ∃ s l', Lexer.run L n (lexLineComment l) = (some s, l') ∧ l'.items = items
    unfold lexLineComment
    cases suf with
    | nil =>
      rw [his.next_nil]
      show ∃ s l', Lexer.run L n (if (!isEndOfLine none) = true then _ else _) = _ ∧ _
      rw [if_pos (by simp [isEndOfLine])]
      exact ih _ tok [] (his.width 0) hq
    | cons c suf =>
      rw [his.next_cons]
      show ∃ s l', Lexer.run L n (if (!isEndOfLine (some c)) = true then _ else _) = _ ∧ _
      rw [if_pos (by simp [hq c (by simp)])]
      exact ih _ (tok ++ [c]) suf his.step_is (fun x hx => hq x (by simp [hx]))

/-- C15 (defect of the code): when the scanner, about to read a token, stands
before `#` and a text without carriage return and line feed that runs to the
end of the input, it never halts and sends no token, so no LINECOMMENT and no
EOF.  `lexLineComment` absorbs every rune that is no end of line, and `eof` is
none, so the loop never reaches `atTerminator`, whose `eof` case shows that a
comment was meant to end at the end of the input. -/
theorem C15_line_comment_at_end_of_input_never_halts (L : GoLib) (l : Lexer)
    (pre s : List Char) (d : Int) (items : List Token) (his : l.Is pre [] ('#' :: s) d items)
    (hs : ∀ c ∈ s, isEndOfLine (some c) = false) :
    Diverges L (some .lexStart, l) items := by
  have hstep : lexStart L l = (some .lexLineComment, { l with width := 1, pos := l.pos + 1 }) := by
    unfold lexStart
    rw [his.next_cons]
    rfl
  refine Diverges.after hstep his.items_eq ?_
  intro n
  exact lexLineComment_diverges L n _ ['#'] s his.start_one hs

/-- C15 at `#aoeu`: the scanner never halts. -/
theorem C15_line_comment_at_end_of_input_never_halts_witness :
    Diverges GoLib.ascii (Lex "#aoeu") [] ∧ ¬ ∃ sent, Scans GoLib.ascii "#aoeu" sent :=
  ⟨C15_line_comment_at_end_of_input_never_halts GoLib.ascii (Lex "#aoeu").2 [] "aoeu".data 0 []
      (Lexer.Is.lex "#aoeu") (by decide),
    Diverges.not_scans (C15_line_comment_at_end_of_input_never_halts GoLib.ascii
      (Lex "#aoeu").2 [] "aoeu".data 0 [] (Lexer.Is.lex "#aoeu") (by decide))⟩

/-! ## C16 -/

theorem Lexer.Is.atTerminator_eol {l : Lexer} {pre tok rest : List Char} {e : Char} {d : Int}
    {items : List Token} (h : l.Is pre tok (e :: rest) d items)
    (he : isEndOfLine (some e) = true) :
    ∃ l', l.atTerminator = (true, l') ∧ l'.Is pre tok (e :: rest) d items := by
  unfold Lexer.atTerminator
  obtain ⟨l1, hpk, his1⟩ := h.peek
  rw [hpk]
  refine ⟨l1, ?_, his1⟩
  simp only [List.head?_cons, he, Bool.or_true, if_true]

theorem lexLineComment_loop (L : GoLib) {pre rest : List Char} {e : Char} {d : Int}
    {items : List Token} (he : isEndOfLine (some e) = true) :
    ∀ (s tok : List Char) (l : Lexer), l.Is pre tok (s ++ e :: rest) d items →
      (∀ c ∈ s, isEndOfLine (some c) = false) →
      ∃ l', Reaches L (some .lexLineComment, l) (some .lexStart, l') ∧
        l'.Is (pre ++ (tok ++ s)) [] (e :: rest) d
          (items ++ [⟨.LINECOMMENT, byteLen pre, String.mk (tok ++ s)⟩]) := by
  intro s
  induction s with
  | nil =>
    intro tok l his _
    have his' : l.Is pre tok (e :: rest) d items := his
    obtain ⟨l2, hat, his2⟩ := (his'.width 1).atTerminator_eol he
    refine ⟨l2.emit .LINECOMMENT, Reaches.by_step ?_ (Reaches.here L _), ?_⟩
    · show lexLineComment l = _
      unfold lexLineComment
      rw [his'.next_cons]
      show (if (!isEndOfLine (some e)) = true then _ else _) = _
      rw [if_neg (by simp [he]), Lexer.backup_step, hat]
      rfl
    · have := his2.emit_is .LINECOMMENT
      simpa using this
  | cons c s ih =>
    intro tok l his hs
    have his' : l.Is pre tok (c :: (s ++ e :: rest)) d items := his
    obtain ⟨l', hr, his2⟩ := ih (tok ++ [c]) _ his'.step_is (fun x hx => hs x (by simp [hx]))
    refine ⟨l', Reaches.by_step ?_ hr, by simpa using his2⟩
    show lexLineComment l = _
    unfold lexLineComment
    rw [his'.next_cons]
    show (if (!isEndOfLine (some c)) = true then _ else _) = _
    rw [if_pos (by simp [hs c (by simp)])]

theorem lexEndOfLine_loop (L : GoLib) {pre rest : List Char} {d : Int} {items : List Token}
    (hrest : isEndOfLine rest.head? = false) :
    ∀ (eols tok : List Char) (l : Lexer), l.Is pre tok (eols ++ rest) d items →
      (∀ c ∈ eols, isEndOfLine (some c) = true) →
      ∃ l', Reaches L (some .lexEndOfLine, l) (some .lexStart, l') ∧
        l'.Is (pre ++ (tok ++ eols)) [] rest d items := by
  intro eols
  induction eols with
  | nil =>
    intro tok l his _
    have his' : l.Is pre tok rest d items := his
    obtain ⟨l1, hpk, his1⟩ := his'.peek
    refine ⟨l1.ignore, Reaches.by_step ?_ (Reaches.here L _), by simpa using his1.ignore⟩
    show lexEndOfLine l = _
    unfold lexEndOfLine
    rw [hpk]
    simp only [hrest, Bool.false_eq_true, if_false]
  | cons c eols ih =>
    intro tok l his hs
    have his' : l.Is pre tok (c :: (eols ++ rest)) d items := his
    obtain ⟨l1, hpk, his1⟩ := his'.peek
    obtain ⟨l', hr, his2⟩ := ih (tok ++ [c]) _ his1.step_is (fun x hx => hs x (by simp [hx]))
    refine ⟨l', Reaches.by_step ?_ hr, by simpa using his2⟩
    show lexEndOfLine l = _
    unfold lexEndOfLine
    rw [hpk]
    simp only [List.head?_cons, hs c (by simp), if_true]
    rw [his1.next_cons]

theorem Reaches.chain {L : GoLib} {a b c : Option StateFn × Lexer} (h1 : Reaches L a b)
    (h2 : Reaches L b c) : Reaches L a c := by
  obtain ⟨n, hn⟩ := h1
  obtain ⟨m, hm⟩ := h2
  exact ⟨n + m, by rw [Lexer.run_add, hn, hm]⟩

/-- C16: when the scanner, about to read a token, stands before `#`, a text
`s` without carriage return and line feed, and a line break, it sends one
LINECOMMENT token whose text is `#` and `s`, the line break left out and
nothing in `s` treated specially, and gets back to `lexStart`, first before the
line break and then after the run of line breaks. -/
theorem C16_line_comment_before_a_line_break (L : GoLib) (l : Lexer)
    (pre s eols rest : List Char) (e : Char) (d : Int) (items : List Token)
    (his : l.Is pre [] ('#' :: (s ++ e :: (eols ++ rest))) d items)
    (hs : ∀ c ∈ s, isEndOfLine (some c) = false) (he : isEndOfLine (some e) = true)
    (heols : ∀ c ∈ eols, isEndOfLine (some c) = true)
    (hrest : isEndOfLine rest.head? = false) :
    ∃ l1 l2, Reaches L (some .lexStart, l) (some .lexStart, l1) ∧
      l1.Is (pre ++ '#' :: s) [] (e :: (eols ++ rest)) d
        (items ++ [⟨.LINECOMMENT, byteLen pre, String.mk ('#' :: s)⟩]) ∧
      Reaches L (some .lexStart, l1) (some .lexStart, l2) ∧
      l2.Is (pre ++ '#' :: s ++ e :: eols) [] rest d
        (items ++ [⟨.LINECOMMENT, byteLen pre, String.mk ('#' :: s)⟩]) := by
  have hstep : lexStart L l = (some .lexLineComment, { l with width := 1, pos := l.pos + 1 }) := by
    unfold lexStart
    rw [his.next_cons]
    rfl
  obtain ⟨l1, hr1, his1⟩ := lexLineComment_loop L he s ['#'] _ his.start_one hs
  have his1' : l1.Is (pre ++ '#' :: s) [] (e :: (eols ++ rest)) d
      (items ++ [⟨.LINECOMMENT, byteLen pre, String.mk ('#' :: s)⟩]) := by simpa using his1
  have hstep2 : lexStart L l1 = (some .lexEndOfLine, { l1 with width := 1, pos := l1.pos + 1 }) := by
    unfold lexStart
    rw [his1'.next_cons]
    have : e = '\r' ∨ e = '\n' := by simpa [isEndOfLine] using he
    rcases this with rfl | rfl <;> rfl
  obtain ⟨l2, hr2, his2⟩ := lexEndOfLine_loop L hrest eols [e] _ his1'.start_one heols
  refine ⟨l1, l2, Reaches.by_step hstep hr1, his1', Reaches.by_step hstep2 hr2, ?_⟩
  simpa using his2

/-- C16 at `#/*test*/` followed by a line feed. -/
theorem C16_line_comment_before_a_line_break_witness :
    ∃ l1 l2, Reaches GoLib.ascii (Lex "#/*test*/\n") (some .lexStart, l1) ∧
      l1.Is ([] ++ '#' :: "/*test*/".data) [] ('\n' :: ([] ++ [])) 0
        ([] ++ [⟨.LINECOMMENT, byteLen [], String.mk ('#' :: "/*test*/".data)⟩]) ∧
      Reaches GoLib.ascii (some .lexStart, l1) (some .lexStart, l2) ∧
      l2.Is ([] ++ '#' :: "/*test*/".data ++ '\n' :: []) [] [] 0
        ([] ++ [⟨.LINECOMMENT, byteLen [], String.mk ('#' :: "/*test*/".data)⟩]) :=
  C16_line_comment_before_a_line_break GoLib.ascii (Lex "#/*test*/\n").2 [] "/*test*/".data []
    [] '\n' 0 [] (Lexer.Is.lex "#/*test*/\n") (by decide) rfl (by simp) rfl

/-! ## Block comments -/

theorem stringsIndex_pair (y x : Char) :
    (stringsIndex [y, x] ['*', '/'] = ((([y, x] : List Char).length : Int)) - 2) ↔
      (y = '*' ∧ x = '/') := by
  by_cases hy : y = '*'
  · by_cases hx : x = '/'
    · subst hy; subst hx; simp [stringsIndex, List.isPrefixOf]
    · subst hy; simp [stringsIndex, List.isPrefixOf, hx, Ne.symm hx]
  · simp [stringsIndex, List.isPrefixOf, hy, Ne.symm hy]

/-- Inside a block comment `atEndBlockComment` looks at the last two runes
read. -/
theorem Lexer.Is.atEndBlockComment {l : Lexer} {pre t suf : List Char} {y x : Char} {d : Int}
    {items : List Token} (h : l.Is pre (t ++ [y, x]) suf d items) :
    l.atEndBlockComment = decide (y = '*' ∧ x = '/') := by
  have hsl : slice l.input (l.pos - 2) l.pos = [y, x] := by
    rw [h.input_eq, h.pos_eq]
    have h1 : pre ++ (t ++ [y, x] ++ suf) = (pre ++ t) ++ ([y, x] ++ suf) := by simp
    have h2 : pre.length + (t ++ [y, x]).length - 2 = (pre ++ t).length := by simp; omega
    have h3 : pre.length + (t ++ [y, x]).length = (pre ++ t).length + [y, x].length := by
      simp; omega
    rw [h2, h3, h1, slice_split]
  unfold Lexer.atEndBlockComment
  simp only [hsl]
  by_cases hc : y = '*' ∧ x = '/'
  · rw [decide_eq_true ((stringsIndex_pair y x).2 hc), decide_eq_true hc]
  · rw [decide_eq_false (fun h => hc ((stringsIndex_pair y x).1 h)), decide_eq_false hc]

/-- From `lexStart` before `/*` the scanner enters `lexBlockComment` with the
slash read. -/
theorem lexStart_slash_star (L : GoLib) {l : Lexer} {pre s : List Char} {d : Int}
    {items : List Token} (his : l.Is pre [] ('/' :: '*' :: s) d items) :
    ∃ l', lexStart L l = (some .lexBlockComment, l') ∧ l'.Is pre ['/'] ('*' :: s) d items := by
  obtain ⟨l2, hpk, his2⟩ := his.start_one.peek
  refine ⟨l2, ?_, his2⟩
  unfold lexStart
  rw [his.next_cons]
  show (if '/' = ';' then _ else _) = _
  rw [if_neg (by decide), if_neg (by decide), if_neg (by decide), if_neg (by decide),
    if_neg (by decide), if_neg (by decide), if_neg (by decide), if_neg (by decide),
    if_neg (by decide), if_neg (by decide), if_neg (by decide), if_neg (by decide),
    if_neg (by decide), if_neg (fun h => by cases h), if_neg (by decide), if_pos rfl]
  simp only
  rw [hpk]
  rfl

/-- One iteration of `lexBlockComment` that absorbs a rune. -/
theorem lexBlockComment_absorb {l : Lexer} {pre t suf : List Char} {y c : Char} {d : Int}
    {items : List Token} (his : l.Is pre (t ++ [y]) (c :: suf) d items)
    (hyc : ¬ (y = '*' ∧ c = '/')) :
    lexBlockComment l = (some .lexBlockComment, { l with width := 1, pos := l.pos + 1 }) ∧
      Lexer.Is { l with width := 1, pos := l.pos + 1 } pre (t ++ [y, c]) suf d items := by
  have his1 : Lexer.Is { l with width := 1, pos := l.pos + 1 } pre (t ++ [y, c]) suf d items := by
    have := his.step_is
    simpa using this
  refine ⟨?_, his1⟩
  unfold lexBlockComment
  rw [his.next_cons]
  show (if (!Lexer.atEndBlockComment _) = true then _ else _) = _
  rw [his1.atEndBlockComment, decide_eq_false hyc]
  rfl

/-- At the end of the input `lexBlockComment` stays where it is. -/
theorem lexBlockComment_eof {l : Lexer} {pre t : List Char} {y x : Char} {d : Int}
    {items : List Token} (his : l.Is pre (t ++ [y, x]) [] d items)
    (hyx : ¬ (y = '*' ∧ x = '/')) :
    lexBlockComment l = (some .lexBlockComment, { l with width := 0 }) := by
  unfold lexBlockComment
  rw [his.next_nil]
  show (if (!Lexer.atEndBlockComment _) = true then _ else _) = _
  rw [(his.width 0).atEndBlockComment, decide_eq_false hyx]
  rfl

theorem lexBlockComment_diverges (L : GoLib) {pre : List Char} {d : Int} {items : List Token} :
    ∀ (n : Nat) (l : Lexer) (t suf : List Char) (y x : Char),
      l.Is pre (t ++ [y, x]) suf d items → ¬ (y = '*' ∧ x = '/') →
      hasCloser (x :: suf) = false →
      ∃ s l', Lexer.run L n (some .lexBlockComment, l) = (some s, l') ∧ l'.items = items := by
  intro n
  induction n with
  | zero =>
    intro l t suf y x his _ _
    exact ⟨.lexBlockComment, l, by simp [Lexer.run], his.items_eq⟩
  | succ n ih =>
    intro l t suf y x his hyx hc
    show ∃ s l', Lexer.run L n (lexBlockComment l) = (some s, l') ∧ l'.items = items
    cases suf with
    | nil =>
      rw [lexBlockComment_eof his hyx]
      exact ih _ t [] y x (his.width 0) hyx hc
    | cons c suf =>
      have hc' : ¬ (x = '*' ∧ c = '/') ∧ hasCloser (c :: suf) = false := by
        have : ((x == '*' && (c :: suf).head? == some '/') || hasCloser (c :: suf)) = false := hc
        simpa using this
      have his' : l.Is pre ((t ++ [y]) ++ [x]) (c :: suf) d items := by simpa using his
      obtain ⟨hstep, his1⟩ := lexBlockComment_absorb his' hc'.1
      rw [hstep]
      exact ih _ (t ++ [y]) suf x c (by simpa using his1) hc'.1 hc'.2

/-- C14 (defect of the code): when the scanner, about to read a token, stands
before `/*` and a text that runs to the end of the input without closing the
comment (it holds no `*/` and does not begin with `/`), it never halts and
sends no token.  `lexBlockComment` tests `!l.atEndBlockComment()` before
`r == eof`, and at the end of the input the last two runes read stay what they
are, so the case that reports "Non-terminating block comment" is never
reached. -/
theorem C14_unterminated_block_comment_never_halts (L : GoLib) (l : Lexer)
    (pre s : List Char) (d : Int) (items : List Token)
    (his : l.Is pre [] ('/' :: '*' :: s) d items) (hs : hasCloser s = false)
    (hh : s.head? ≠ some '/') : Diverges L (some .lexStart, l) items := by
  obtain ⟨l1, hstart, his1⟩ := lexStart_slash_star L his
  have his1' : l1.Is pre ([] ++ ['/']) ('*' :: s) d items := his1
  obtain ⟨hstep, his2⟩ := lexBlockComment_absorb his1' (by decide)
  refine Diverges.after hstart his.items_eq (Diverges.after hstep his1.items_eq ?_)
  intro n
  refine lexBlockComment_diverges L n _ [] s '/' '*' his2 (by decide) ?_
  show ((('*' : Char) == '*' && s.head? == some '/') || hasCloser s) = false
  simp [hs, hh]

/-- C14 at `/* abc`: the scanner never halts. -/
theorem C14_unterminated_block_comment_never_halts_witness :
    Diverges GoLib.ascii (Lex "/* abc") [] ∧ ¬ ∃ sent, Scans GoLib.ascii "/* abc" sent :=
  ⟨C14_unterminated_block_comment_never_halts GoLib.ascii (Lex "/* abc").2 [] " abc".data 0 []
      (Lexer.Is.lex "/* abc") (by decide) (by decide),
    Diverges.not_scans (C14_unterminated_block_comment_never_halts GoLib.ascii
      (Lex "/* abc").2 [] " abc".data 0 [] (Lexer.Is.lex "/* abc") (by decide) (by decide))⟩

/-! ## C17 -/

/-- The iteration of `lexBlockComment` that reads the `/` of `*/`, when that
is the first `*/` of the pending text. -/
theorem lexBlockComment_close {l : Lexer} {pre t suf : List Char} {d : Int}
    {items : List Token} (his : l.Is pre (t ++ ['*']) ('/' :: suf) d items)
    (hidx : stringsIndex (t ++ ['*', '/']) ['*', '/'] = (t.length : Int)) :
    ∃ l', lexBlockComment l = (some .lexStart, l') ∧
      l'.Is (pre ++ (t ++ ['*', '/'])) [] suf d
        (items ++ [⟨.BLOCKCOMMENT, byteLen pre, String.mk (t ++ ['*', '/'])⟩]) := by
  have his1 : Lexer.Is { l with width := 1, pos := l.pos + 1 } pre (t ++ ['*', '/']) suf d
      items := by
    have := his.step_is
    simpa using this
  refine ⟨_, ?_, his1.emit_is .BLOCKCOMMENT⟩
  have hword : slice l.input l.start (l.pos + 1) = t ++ ['*', '/'] := by
    have h1 := his1.input_eq
    have h2 := his1.start_eq
    have h3 := his1.pos_eq
    simp only at h1 h2 h3
    rw [h1, h2, h3, slice_split]
  unfold lexBlockComment
  rw [his.next_cons]
  show (if (!Lexer.atEndBlockComment _) = true then _ else _) = _
  rw [his1.atEndBlockComment, decide_eq_true ⟨rfl, rfl⟩]
  simp only [Bool.not_true, Bool.false_eq_true, if_false, reduceCtorEq]
  rw [hword, if_pos (by rw [hidx]; simp)]

theorem hasCloser_snoc_star : ∀ (s : List Char), hasCloser s = false →
    hasCloser (s ++ ['*']) = false := by
  intro s
  induction s with
  | nil => intro _; rfl
  | cons c s ih =>
    intro h
    have h' : ¬ (c = '*' ∧ s.head? = some '/') ∧ hasCloser s = false := by
      have : ((c == '*' && s.head? == some '/') || hasCloser s) = false := h
      simpa using this
    show ((c == '*' && (s ++ ['*']).head? == some '/') || hasCloser (s ++ ['*'])) = false
    rw [ih h'.2]
    cases s with
    | nil => simp
    | cons a s => simpa using h'.1

/-- The index of `*/` in a text that ends with its first `*/`. -/
theorem stringsIndex_closer : ∀ (w : List Char), hasCloser (w ++ ['*']) = false →
    stringsIndex (w ++ ['*', '/']) ['*', '/'] = (w.length : Int) := by
  intro w
  induction w with
  | nil => intro _; simp [stringsIndex, List.isPrefixOf]
  | cons c w ih =>
    intro h
    have h' : ¬ (c = '*' ∧ (w ++ ['*']).head? = some '/') ∧ hasCloser (w ++ ['*']) = false := by
      have : ((c == '*' && (w ++ ['*']).head? == some '/') || hasCloser (w ++ ['*'])) = false := h
      simpa using this
    have hnp : List.isPrefixOf ['*', '/'] (c :: (w ++ ['*', '/'])) = false := by
      cases w with
      | nil =>
        by_cases hc : c = '*'
        · subst hc; simp [List.isPrefixOf]
        · simp [List.isPrefixOf, hc, Ne.symm hc]
      | cons a w =>
        by_cases hc : c = '*'
        · subst hc
          have ha : ¬ a = '/' := by simpa using h'.1
          simp [List.isPrefixOf, ha, Ne.symm ha]
        · simp [List.isPrefixOf, hc, Ne.symm hc]
    show stringsIndex (c :: (w ++ ['*', '/'])) ['*', '/'] = _
    rw [stringsIndex, hnp, ih h'.2]
    simp only [Bool.false_eq_true, if_false]
    rw [if_neg (by omega)]
    simp

theorem lexBlockComment_loop (L : GoLib) {pre rest : List Char} {d : Int} {items : List Token} :
    ∀ (s t : List Char) (y x : Char) (l : Lexer), l.Is pre (t ++ [y, x]) (s ++ rest) d items →
      hasCloser (x :: s) = false →
      ∃ l', Reaches L (some .lexBlockComment, l) (some .lexBlockComment, l') ∧
        l'.Is pre (t ++ [y, x] ++ s) rest d items := by
  intro s
  induction s with
  | nil =>
    intro t y x l his _
    exact ⟨l, Reaches.here L _, by simpa using his⟩
  | cons c s ih =>
    intro t y x l his hc
    have hc' : ¬ (x = '*' ∧ c = '/') ∧ hasCloser (c :: s) = false := by
      have : ((x == '*' && (c :: s).head? == some '/') || hasCloser (c :: s)) = false := hc
      simpa using this
    have his' : l.Is pre ((t ++ [y]) ++ [x]) (c :: (s ++ rest)) d items := by simpa using his
    obtain ⟨hstep, his1⟩ := lexBlockComment_absorb his' hc'.1
    obtain ⟨l', hr, his2⟩ := ih (t ++ [y]) x c _ (by simpa using his1) hc'.2
    exact ⟨l', Reaches.by_step hstep hr, by simpa using his2⟩

theorem lexStart_eof (L : GoLib) {l : Lexer} {pre : List Char} {d : Int} {items : List Token}
    (his : l.Is pre [] [] d items) :
    ∃ l', lexStart L l = (none, l') ∧ l'.items = items ++ [⟨.EOF, byteLen pre, ""⟩] := by
  refine ⟨Lexer.emit { l with width := 0 } .EOF, ?_, ?_⟩
  · unfold lexStart
    rw [his.next_nil]
  · have := ((his.width 0).emit_is .EOF).items_eq
    simpa using this

/-- A block comment that is closed by the first `*/` after its opener. -/
theorem blockComment_scans (L : GoLib) (s : List Char) (hs : hasCloser s = false)
    (hh : s.head? ≠ some '/') :
    Scans L (String.mk ('/' :: '*' :: s ++ ['*', '/']))
      [⟨.BLOCKCOMMENT, 0, String.mk ('/' :: '*' :: s ++ ['*', '/'])⟩,
        ⟨.EOF, byteLen ('/' :: '*' :: s ++ ['*', '/']), ""⟩] := by
  have his := Lexer.Is.lex (String.mk ('/' :: '*' :: s ++ ['*', '/']))
  have his0 : (Lex (String.mk ('/' :: '*' :: s ++ ['*', '/']))).2.Is [] []
      ('/' :: '*' :: (s ++ ['*', '/'])) 0 [] := by simpa using his
  have hstar : hasCloser ('*' :: s) = false := by
    show ((('*' : Char) == '*' && s.head? == some '/') || hasCloser s) = false
    simp [hs, hh]
  obtain ⟨l1, hstart, his1⟩ := lexStart_slash_star L his0
  have his1' : l1.Is [] ([] ++ ['/']) ('*' :: (s ++ ['*', '/'])) 0 [] := his1
  obtain ⟨hstep, his2⟩ := lexBlockComment_absorb his1' (by decide)
  obtain ⟨l3, hr3, his3⟩ := lexBlockComment_loop L s [] '/' '*' _ his2 hstar
  -- the star of the closer
  obtain ⟨t0, z, htz⟩ : ∃ t0 z, ([] ++ ['/', '*'] ++ s : List Char) = t0 ++ [z] := by
    rcases List.eq_nil_or_concat ('/' :: '*' :: s) with h | ⟨t0, z, h⟩
    · cases h
    · exact ⟨t0, z, by simpa using h⟩
  have his3' : l3.Is [] (t0 ++ [z]) ('*' :: ['/']) 0 [] := by rw [← htz]; exact his3
  obtain ⟨hstep4, his4⟩ := lexBlockComment_absorb his3' (fun h => absurd h.2 (by decide))
  have his4' : Lexer.Is { l3 with width := 1, pos := l3.pos + 1 } []
      (('/' :: '*' :: s) ++ ['*']) ('/' :: []) 0 [] := by
    have e : t0 ++ [z, '*'] = ('/' :: '*' :: s) ++ ['*'] := by
      have : t0 ++ [z, '*'] = (t0 ++ [z]) ++ ['*'] := by simp
      rw [this, ← htz]
      simp
    rw [← e]
    exact his4
  have hidx := stringsIndex_closer ('/' :: '*' :: s) (by
    show ((('/' : Char) == '*' && ('*' :: s ++ ['*']).head? == some '/') ||
      hasCloser ('*' :: s ++ ['*'])) = false
    have := hasCloser_snoc_star ('*' :: s) hstar
    simpa using this)
  obtain ⟨l5, hstep5, his5⟩ := lexBlockComment_close his4' hidx
  have his5' : l5.Is ('/' :: '*' :: s ++ ['*', '/']) [] [] 0
      [⟨.BLOCKCOMMENT, 0, String.mk ('/' :: '*' :: s ++ ['*', '/'])⟩] := by
    simpa [byteLen] using his5
  obtain ⟨l6, hstep6, hitems6⟩ := lexStart_eof L his5'
  have hreach : Reaches L (Lex (String.mk ('/' :: '*' :: s ++ ['*', '/']))) (none, l6) :=
    Reaches.by_step hstart (Reaches.by_step hstep (Reaches.chain hr3
      (Reaches.by_step hstep4 (Reaches.by_step hstep5
        (Reaches.by_step hstep6 (Reaches.here L _))))))
  obtain ⟨n, hn⟩ := hreach
  refine ⟨n, ?_⟩
  unfold lexTokens
  rw [hn]
  simp only [hitems6]
  rfl

set_option smartUnfolding false in
theorem scan_overlapping_closer (L : GoLib) :
    lexTokens L 10 "/*/*/" =
      some [⟨.BLOCKCOMMENT, 0, "/*/"⟩, ⟨.ERROR, 3, "unknown syntax"⟩] := rfl

/-- C17 (defect of the code): the `*` of the opener `/*` is taken as the `*`
of a closer.  On `/*/*/` the scanner sends BLOCKCOMMENT `/*/` and then ERROR,
not one BLOCKCOMMENT holding the whole input; wherever a token starts with
`/*/`, these three runes are sent as a BLOCKCOMMENT token.  When the text `s`
between the delimiters holds no `*/` and does not begin with `/`, the claim
holds: `/*` `s` `*/` scans to one BLOCKCOMMENT token holding the whole input,
then EOF. -/
theorem C17_block_comment_closer_overlaps_opener (L : GoLib) :
    lexTokens L 10 "/*/*/" =
        some [⟨.BLOCKCOMMENT, 0, "/*/"⟩, ⟨.ERROR, 3, "unknown syntax"⟩] ∧
      (∀ (l : Lexer) (pre rest : List Char) (d : Int) (items : List Token),
        l.Is pre [] ('/' :: '*' :: '/' :: rest) d items →
        ∃ l', Reaches L (some .lexStart, l) (some .lexStart, l') ∧
          l'.Is (pre ++ ['/', '*', '/']) [] rest d
            (items ++ [⟨.BLOCKCOMMENT, byteLen pre, "/*/"⟩])) ∧
      ∀ s : List Char, hasCloser s = false → s.head? ≠ some '/' →
        Scans L (String.mk ('/' :: '*' :: s ++ ['*', '/']))
          [⟨.BLOCKCOMMENT, 0, String.mk ('/' :: '*' :: s ++ ['*', '/'])⟩,
            ⟨.EOF, byteLen ('/' :: '*' :: s ++ ['*', '/']), ""⟩] := by
  refine ⟨scan_overlapping_closer L, ?_, blockComment_scans L⟩
  intro l pre rest d items his
  obtain ⟨l1, hstart, his1⟩ := lexStart_slash_star L his
  have his1' : l1.Is pre ([] ++ ['/']) ('*' :: '/' :: rest) d items := his1
  obtain ⟨hstep, his2⟩ := lexBlockComment_absorb his1' (by decide)
  have his2' : Lexer.Is { l1 with width := 1, pos := l1.pos + 1 } pre (['/'] ++ ['*'])
      ('/' :: rest) d items := his2
  obtain ⟨l3, hstep3, his3⟩ := lexBlockComment_close his2'
    (by simp [stringsIndex, List.isPrefixOf])
  exact ⟨l3, Reaches.by_step hstart (Reaches.by_step hstep (Reaches.by_step hstep3
    (Reaches.here L _))), his3⟩

/-! ## Places of the tokens sent -/

theorem byteLen_append (a b : List Char) : byteLen (a ++ b) = byteLen a + byteLen b := by
  simp [byteLen]

theorem Tiled.add_blanks : ∀ (ts : List Token) (off : Nat) (text ws : List Char),
    Tiled off text ts → (∀ c ∈ ws, isBlank c = true) → Tiled off (text ++ ws) ts := by
  intro ts
  induction ts with
  | nil =>
    intro off text ws h hws c hc
    rcases List.mem_append.1 hc with hc | hc
    · exact h c hc
    · exact hws c hc
  | cons t ts ih =>
    intro off text ws h hws
    obtain ⟨gap, rest, htext, hgap, hpos, hrest⟩ := h
    exact ⟨gap, rest ++ ws, by rw [htext]; simp, hgap, hpos, ih _ rest ws hrest hws⟩

theorem Tiled.snoc : ∀ (ts : List Token) (off : Nat) (text tok : List Char) (typ : TokenType),
    Tiled off text ts →
    Tiled off (text ++ tok) (ts ++ [⟨typ, off + byteLen text, String.mk tok⟩]) := by
  intro ts
  induction ts with
  | nil =>
    intro off text tok typ h
    exact ⟨text, [], by simp, h, rfl, fun c hc => by cases hc⟩
  | cons t ts ih =>
    intro off text tok typ h
    obtain ⟨gap, rest, htext, hgap, hpos, hrest⟩ := h
    refine ⟨gap, rest ++ tok, by rw [htext]; simp, hgap, hpos, ?_⟩
    have := ih (off + byteLen gap + byteLen t.Val.data) rest tok typ hrest
    have e : off + byteLen gap + byteLen t.Val.data + byteLen rest = off + byteLen text := by
      rw [htext, byteLen_append, byteLen_append]
      omega
    rw [e] at this
    exact this

theorem TileInv.goes {input : List Char} {l : Lexer} {s : StateFn} {pre tok suf : List Char}
    {d : Int} {items : List Token} (his : l.Is pre tok suf d items)
    (hcat : pre ++ (tok ++ suf) = input) (ht : Tiled 0 pre items) (hb : BlankOK s tok) :
    TileInv input (some s, l) :=
  ⟨pre, tok, suf, ⟨his.input_eq, his.start_eq, his.pos_eq, rfl, rfl⟩, hcat,
    by rw [his.items_eq]; exact ht, hb⟩

theorem TileInv.of_emit {input : List Char} {l : Lexer} {pre tok suf : List Char}
    {d : Int} {items : List Token} (typ : TokenType) (his : l.Is pre tok suf d items)
    (hcat : pre ++ (tok ++ suf) = input) (ht : Tiled 0 pre items) :
    TileInv input (some .lexStart, l.emit typ) := by
  refine TileInv.goes (his.emit_is typ) (by simpa using hcat) ?_ rfl
  have := Tiled.snoc items 0 pre tok typ ht
  simpa using this

theorem TileInv.of_ignore {input : List Char} {l : Lexer} {pre tok suf : List Char}
    {d : Int} {items : List Token} (his : l.Is pre tok suf d items)
    (hcat : pre ++ (tok ++ suf) = input) (ht : Tiled 0 pre items)
    (hb : ∀ c ∈ tok, isBlank c = true) : TileInv input (some .lexStart, l.ignore) :=
  TileInv.goes his.ignore (by simpa using hcat) (Tiled.add_blanks items 0 pre tok ht hb) rfl

theorem TileInv.of_error {input : List Char} {l : Lexer} {pre tok suf : List Char}
    {d : Int} {items : List Token} (msg : String) (his : l.Is pre tok suf d items)
    (hcat : pre ++ (tok ++ suf) = input) (ht : Tiled 0 pre items) :
    TileInv input (l.errorf msg) := by
  show Final input (l.errorf msg).2.items
  rw [his.errorf_sent]
  exact ⟨items, _, pre, tok ++ suf, rfl, hcat.symm, ht, rfl, fun h => absurd rfl h⟩

theorem TileInv.of_cond {input : List Char} {c : Prop} [Decidable c]
    {a b : Option StateFn × Lexer} (ha : c → TileInv input a) (hb : ¬c → TileInv input b) :
    TileInv input (if c then a else b) := by
  by_cases h : c
  · rw [if_pos h]; exact ha h
  · rw [if_neg h]; exact hb h

theorem lexSemiColon_tiles (input : List Char) (l : Lexer)
    (h : TileInv input (some .lexSemiColon, l)) : TileInv input (lexSemiColon l) := by
  obtain ⟨pre, tok, suf, his, hcat, ht, _⟩ := h
  exact TileInv.of_emit .SEMICOLON his hcat ht

theorem lexSpace_tiles (input : List Char) (l : Lexer)
    (h : TileInv input (some .lexSpace, l)) : TileInv input (lexSpace l) := by
  obtain ⟨pre, tok, suf, his, hcat, ht, hb⟩ := h
  have hb' : ∀ c ∈ tok, isBlank c = true := hb
  unfold lexSpace
  obtain ⟨l1, hpk, his1⟩ := his.peek
  rw [hpk]
  refine TileInv.of_cond (fun hsp => ?_) (fun _ => TileInv.of_ignore his1 hcat ht hb')
  cases suf with
  | nil => simp [isSpace] at hsp
  | cons c suf =>
    rw [his1.next_cons]
    refine TileInv.goes his1.step_is (by simpa using hcat) ht ?_
    show ∀ x ∈ tok ++ [c], isBlank x = true
    intro x hx
    rcases List.mem_append.1 hx with hx | hx
    · exact hb' x hx
    · simp only [List.mem_singleton] at hx
      subst hx
      simp only [List.head?_cons] at hsp
      simp [isBlank, hsp]

theorem lexEndOfLine_tiles (input : List Char) (l : Lexer)
    (h : TileInv input (some .lexEndOfLine, l)) : TileInv input (lexEndOfLine l) := by
  obtain ⟨pre, tok, suf, his, hcat, ht, hb⟩ := h
  have hb' : ∀ c ∈ tok, isBlank c = true := hb
  unfold lexEndOfLine
  obtain ⟨l1, hpk, his1⟩ := his.peek
  rw [hpk]
  refine TileInv.of_cond (fun hsp => ?_) (fun _ => TileInv.of_ignore his1 hcat ht hb')
  cases suf with
  | nil => simp [isEndOfLine] at hsp
  | cons c suf =>
    rw [his1.next_cons]
    refine TileInv.goes his1.step_is (by simpa using hcat) ht ?_
    show ∀ x ∈ tok ++ [c], isBlank x = true
    intro x hx
    rcases List.mem_append.1 hx with hx | hx
    · exact hb' x hx
    · simp only [List.mem_singleton] at hx
      subst hx
      simp only [List.head?_cons] at hsp
      simp [isBlank, hsp]

theorem lexString_tiles (input : List Char) (l : Lexer)
    (h : TileInv input (some .lexString, l)) : TileInv input (lexString l) := by
  obtain ⟨pre, tok, suf, his, hcat, ht, _⟩ := h
  unfold lexString
  cases suf with
  | nil =>
    rw [his.next_nil]
    refine TileInv.of_cond (fun _ => TileInv.goes (his.width 0) hcat ht trivial) (fun _ => ?_)
    exact TileInv.of_cond (fun _ => TileInv.of_error _ (his.width 0) hcat ht)
      (fun hc => absurd rfl hc)
  | cons c suf =>
    rw [his.next_cons]
    have hcat' : pre ++ ((tok ++ [c]) ++ suf) = input := by simpa using hcat
    refine TileInv.of_cond (fun _ => TileInv.goes his.step_is hcat' ht trivial) (fun _ => ?_)
    refine TileInv.of_cond (fun _ => TileInv.of_error _ his.step_is hcat' ht) (fun _ => ?_)
    exact TileInv.of_emit .STRING his.step_is hcat' ht

theorem lexTag_tiles (L : GoLib) (input : List Char) (l : Lexer)
    (h : TileInv input (some .lexTag, l)) : TileInv input (lexTag L l) := by
  obtain ⟨pre, tok, suf, his, hcat, ht, _⟩ := h
  unfold lexTag
  cases suf with
  | nil =>
    rw [his.next_nil]
    refine TileInv.of_cond (fun hc => by simp [isAlphaNumeric] at hc) (fun _ => ?_)
    rw [Lexer.backup_zero]
    exact TileInv.of_emit .TAG (his.width 0) hcat ht
  | cons c suf =>
    rw [his.next_cons]
    refine TileInv.of_cond (fun _ => TileInv.goes his.step_is (by simpa using hcat) ht trivial)
      (fun _ => ?_)
    rw [Lexer.backup_step]
    exact TileInv.of_emit .TAG (his.width 1) hcat ht

theorem lexIdentifier_tiles (L : GoLib) (input : List Char) (l : Lexer)
    (h : TileInv input (some .lexIdentifier, l)) : TileInv input (lexIdentifier L l) := by
  obtain ⟨pre, tok, suf, his, hcat, ht, _⟩ := h
  unfold lexIdentifier
  cases suf with
  | nil =>
    rw [his.next_nil]
    refine TileInv.of_cond (fun hc => by simp [isAlphaNumeric] at hc) (fun _ => ?_)
    rw [Lexer.backup_zero]
    exact TileInv.of_cond (fun _ => TileInv.of_emit _ (his.width 0) hcat ht)
      (fun _ => TileInv.of_emit _ (his.width 0) hcat ht)
  | cons c suf =>
    rw [his.next_cons]
    refine TileInv.of_cond (fun _ => TileInv.goes his.step_is (by simpa using hcat) ht trivial)
      (fun _ => ?_)
    rw [Lexer.backup_step]
    exact TileInv.of_cond (fun _ => TileInv.of_emit _ (his.width 1) hcat ht)
      (fun _ => TileInv.of_emit _ (his.width 1) hcat ht)

theorem lexLineComment_tiles (input : List Char) (l : Lexer)
    (h : TileInv input (some .lexLineComment, l)) : TileInv input (lexLineComment l) := by
  obtain ⟨pre, tok, suf, his, hcat, ht, _⟩ := h
  unfold lexLineComment
  cases suf with
  | nil =>
    rw [his.next_nil]
    refine TileInv.of_cond (fun _ => TileInv.goes (his.width 0) hcat ht trivial) (fun _ => ?_)
    rw [Lexer.backup_zero]
    obtain ⟨b, l2, hat, his2⟩ := (his.width 0).atTerminator
    rw [hat]
    exact TileInv.of_cond (fun _ => TileInv.of_error _ his2 hcat ht)
      (fun _ => TileInv.of_emit _ his2 hcat ht)
  | cons c suf =>
    rw [his.next_cons]
    refine TileInv.of_cond (fun _ => TileInv.goes his.step_is (by simpa using hcat) ht trivial)
      (fun _ => ?_)
    rw [Lexer.backup_step]
    obtain ⟨b, l2, hat, his2⟩ := (his.width 1).atTerminator
    rw [hat]
    exact TileInv.of_cond (fun _ => TileInv.of_error _ his2 hcat ht)
      (fun _ => TileInv.of_emit _ his2 hcat ht)

theorem lexBlockComment_tiles (input : List Char) (l : Lexer)
    (h : TileInv input (some .lexBlockComment, l)) : TileInv input (lexBlockComment l) := by
  obtain ⟨pre, tok, suf, his, hcat, ht, _⟩ := h
  unfold lexBlockComment
  cases suf with
  | nil =>
    rw [his.next_nil]
    refine TileInv.of_cond (fun _ => TileInv.goes (his.width 0) hcat ht trivial) (fun _ => ?_)
    refine TileInv.of_cond (fun _ => TileInv.of_error _ (his.width 0) hcat ht) (fun _ => ?_)
    exact TileInv.of_cond (fun _ => TileInv.of_emit _ (his.width 0) hcat ht)
      (fun _ => TileInv.of_error _ (his.width 0) hcat ht)
  | cons c suf =>
    rw [his.next_cons]
    have hcat' : pre ++ ((tok ++ [c]) ++ suf) = input := by simpa using hcat
    refine TileInv.of_cond (fun _ => TileInv.goes his.step_is hcat' ht trivial) (fun _ => ?_)
    refine TileInv.of_cond (fun _ => TileInv.of_error _ his.step_is hcat' ht) (fun _ => ?_)
    exact TileInv.of_cond (fun _ => TileInv.of_emit _ his.step_is hcat' ht)
      (fun _ => TileInv.of_error _ his.step_is hcat' ht)

/-- Wherever `scanNumber` stops, it has only moved the cursor. -/
theorem Lexer.Is.scanNumber_moves (L : GoLib) {l : Lexer} {pre suf : List Char} {d : Int}
    {items : List Token} (his : l.Is pre [] suf d items) :
    ∃ b l' tok' suf', l.scanNumber L = (b, l') ∧ l'.Is pre tok' suf' d items ∧
      tok' ++ suf' = suf := by
  let p : Char → Bool := fun x => "0123456789".data.contains x
  have hdec : suf = suf.takeWhile p ++ suf.dropWhile p := (List.takeWhile_append_dropWhile p suf).symm
  have hds : ∀ x ∈ suf.takeWhile p, x ∈ "0123456789".data := by
    intro x hx
    have := List.mem_takeWhile_imp hx
    simpa [p] using this
  have hr1 : ∀ x, (suf.dropWhile p).head? = some x → x ∉ "0123456789".data := by
    intro x hx hmem
    have hnot : p x = false := by
      have := List.head?_dropWhile_not p suf
      rw [hx] at this
      simpa using this
    have hyes : p x = true := by simpa [p] using hmem
    rw [hnot] at hyes
    cases hyes
  obtain ⟨sufx, r2, hr, hsufx⟩ : ∃ sufx r2, suf.dropWhile p = sufx ++ r2 ∧
      ((sufx = [] ∧ ∀ c, r2.head? = some c → c ∉ "kKmMgG".data) ∨
        ∃ k, sufx = [k] ∧ k ∈ "kKmMgG".data) := by
    cases hd : suf.dropWhile p with
    | nil => exact ⟨[], [], rfl, Or.inl ⟨rfl, by simp⟩⟩
    | cons k r =>
      by_cases hk : k ∈ "kKmMgG".data
      · exact ⟨[k], r, rfl, Or.inr ⟨k, rfl, hk⟩⟩
      · exact ⟨[], k :: r, rfl, Or.inl ⟨rfl, by intro c hc; simp at hc; subst hc; exact hk⟩⟩
  have hsplit : suf = suf.takeWhile p ++ (sufx ++ r2) := by rw [← hr]; exact hdec
  have his' : l.Is pre [] (suf.takeWhile p ++ (sufx ++ r2)) d items := by
    rw [← hsplit]; exact his
  by_cases ha : isAlphaNumeric L r2.head? = true
  · cases r2 with
    | nil => simp [isAlphaNumeric] at ha
    | cons c rest =>
      simp only [List.head?_cons] at ha
      obtain ⟨l', hscan, his2⟩ := Lexer.Is.scanNumber_glued L his' hds
        (by
          rcases hsufx with ⟨rfl, hcm⟩ | hk
          · refine Or.inl ⟨rfl, ?_, hcm c rfl⟩
            exact hr1 c (by rw [hr]; rfl)
          · exact Or.inr hk) ha
      exact ⟨false, l', _, rest, hscan, his2, by simpa using hsplit.symm⟩
  · have ha' : isAlphaNumeric L r2.head? = false := by simpa using ha
    obtain ⟨l', hscan, _, hok⟩ := his'.scanNumber L hds (by rw [← hr]; exact hr1) hsufx
    exact ⟨_, l', _, r2, hscan, hok ha', by simpa using hsplit.symm⟩

theorem lexNumber_tiles (L : GoLib) (input : List Char) (l : Lexer)
    (h : TileInv input (some .lexNumber, l)) : TileInv input (lexNumber L l) := by
  obtain ⟨pre, tok, suf, his, hcat, ht, hb⟩ := h
  have hb' : tok = [] := hb
  subst hb'
  obtain ⟨b, l', tok', suf', hscan, his', hsplit⟩ := his.scanNumber_moves L
  have hcat' : pre ++ (tok' ++ suf') = input := by rw [hsplit]; simpa using hcat
  unfold lexNumber
  rw [hscan]
  exact TileInv.of_cond (fun _ => TileInv.of_error _ his' hcat' ht)
    (fun _ => TileInv.of_emit _ his' hcat' ht)

theorem lexStart_tiles (L : GoLib) (input : List Char) (l : Lexer)
    (h : TileInv input (some .lexStart, l)) : TileInv input (lexStart L l) := by
  obtain ⟨pre, tok, suf, his, hcat, ht, hb⟩ := h
  have hb' : tok = [] := hb
  subst hb'
  unfold lexStart
  cases suf with
  | nil =>
    rw [his.next_nil]
    show Final input (Lexer.emit _ .EOF).items
    rw [((his.width 0).emit_is .EOF).items_eq]
    exact ⟨l.items, _, pre, [], rfl, by simpa using hcat.symm, ht, rfl, fun _ => ⟨rfl, rfl⟩⟩
  | cons c suf =>
    rw [his.next_cons]
    have his1 := his.start_one
    have hcat1 : pre ++ ([c] ++ suf) = input := by simpa using hcat
    show TileInv input (if c = ';' then _ else _)
    refine TileInv.of_cond (fun _ => TileInv.goes his1 hcat1 ht trivial) (fun _ => ?_)
    refine TileInv.of_cond (fun _ => TileInv.goes his1 hcat1 ht trivial) (fun _ => ?_)
    refine TileInv.of_cond (fun _ => TileInv.of_emit _ his1 hcat1 ht) (fun _ => ?_)
    refine TileInv.of_cond (fun _ => TileInv.goes his1 hcat1 ht trivial) (fun _ => ?_)
    have hsnoc : ∀ typ, Tiled 0 (pre ++ [c]) (l.items ++ [⟨typ, byteLen pre, String.mk [c]⟩]) := by
      intro typ
      have := Tiled.snoc l.items 0 pre [c] typ ht
      simpa using this
    refine TileInv.of_cond (fun _ => ?_) (fun _ => ?_)
    · exact TileInv.goes ((his1.emit_is .LEFTPAREN).depth _) (by simpa using hcat1)
        (hsnoc _) rfl
    refine TileInv.of_cond (fun _ => ?_) (fun _ => ?_)
    · refine TileInv.of_cond (fun _ => ?_) (fun _ => ?_)
      · exact TileInv.of_error _ ((his1.emit_is .RIGHTPAREN).depth _) (by simpa using hcat1)
          (hsnoc _)
      · exact TileInv.goes ((his1.emit_is .RIGHTPAREN).depth _) (by simpa using hcat1)
          (hsnoc _) rfl
    refine TileInv.of_cond (fun _ => TileInv.of_emit _ his1 hcat1 ht) (fun _ => ?_)
    refine TileInv.of_cond (fun _ => TileInv.of_emit _ his1 hcat1 ht) (fun _ => ?_)
    refine TileInv.of_cond (fun _ => TileInv.of_emit _ his1 hcat1 ht) (fun _ => ?_)
    refine TileInv.of_cond (fun _ => TileInv.of_emit _ his1 hcat1 ht) (fun _ => ?_)
    refine TileInv.of_cond (fun hsp => ?_) (fun _ => ?_)
    · refine TileInv.goes his1 hcat1 ht ?_
      intro x hx
      simp only [List.mem_singleton] at hx
      subst hx
      simp [isBlank, hsp]
    refine TileInv.of_cond (fun hsp => ?_) (fun _ => ?_)
    · refine TileInv.goes his1 hcat1 ht ?_
      intro x hx
      simp only [List.mem_singleton] at hx
      subst hx
      simp [isBlank, hsp]
    refine TileInv.of_cond (fun _ => ?_) (fun _ => ?_)
    · rw [Lexer.backup_step]
      exact TileInv.goes (his.width 1) hcat ht rfl
    refine TileInv.of_cond (fun _ => ?_) (fun _ => ?_)
    · rw [Lexer.backup_step]
      exact TileInv.goes (his.width 1) hcat ht trivial
    refine TileInv.of_cond (fun _ => TileInv.goes his1 hcat1 ht trivial) (fun _ => ?_)
    refine TileInv.of_cond (fun _ => ?_) (fun _ => TileInv.of_error _ his1 hcat1 ht)
    obtain ⟨l2, hpk, his2⟩ := his1.peek
    rw [hpk]
    exact TileInv.of_cond (fun _ => TileInv.goes his2 hcat1 ht trivial)
      (fun _ => TileInv.of_error _ his2 hcat1 ht)

theorem step_tiles (L : GoLib) (input : List Char) (s : StateFn) (l : Lexer)
    (h : TileInv input (some s, l)) : TileInv input (step L s l) := by
  cases s
  · exact lexStart_tiles L input l h
  · exact lexSemiColon_tiles input l h
  · exact lexSpace_tiles input l h
  · exact lexEndOfLine_tiles input l h
  · exact lexNumber_tiles L input l h
  · exact lexString_tiles input l h
  · exact lexTag_tiles L input l h
  · exact lexIdentifier_tiles L input l h
  · exact lexLineComment_tiles input l h
  · exact lexBlockComment_tiles input l h

theorem Lexer.run_tiles (L : GoLib) (input : List Char) (n : Nat) :
    ∀ c, TileInv input c → TileInv input (Lexer.run L n c) := by
  induction n with
  | zero => intro c h; simpa [Lexer.run] using h
  | succ n ih =>
    rintro ⟨s, l⟩ h
    cases s with
    | none => rw [Lexer.run_none]; exact h
    | some s => exact ih _ (step_tiles L input s l h)

/-- The tokens of a scan that halts lie one after the other in the input. -/
theorem Scans.final {L : GoLib} {input : String} {sent : List Token} (h : Scans L input sent) :
    Final input.data sent := by
  obtain ⟨fuel, h⟩ := h
  unfold lexTokens at h
  have hinv := Lexer.run_tiles L input.data fuel (Lex input)
    (TileInv.goes (Lexer.Is.lex input) (by simp) (fun c hc => by cases hc) rfl)
  rcases hr : Lexer.run L fuel (Lex input) with ⟨s, l⟩
  rw [hr] at h hinv
  cases s with
  | some s => cases h
  | none =>
    simp only [Option.some.injEq] at h
    subst h
    exact hinv

theorem Tiled.place : ∀ (ts : List Token) (off : Nat) (text : List Char), Tiled off text ts →
    ∀ t ∈ ts, ∃ before after, text = before ++ (t.Val.data ++ after) ∧
      t.Pos = off + byteLen before := by
  intro ts
  induction ts with
  | nil => intro off text _ t ht; cases ht
  | cons u ts ih =>
    intro off text h t ht
    obtain ⟨gap, rest, htext, _, hpos, hrest⟩ := h
    rcases List.mem_cons.1 ht with rfl | ht
    · exact ⟨gap, rest, htext, hpos⟩
    · obtain ⟨before, after, hb, hp⟩ := ih _ rest hrest t ht
      refine ⟨gap ++ (u.Val.data ++ before), after, by rw [htext, hb]; simp, ?_⟩
      rw [hp, byteLen_append, byteLen_append]
      omega

theorem Tiled.bounds {ts : List Token} {off : Nat} {text : List Char} (h : Tiled off text ts)
    {t : Token} (ht : t ∈ ts) :
    off ≤ t.Pos ∧ t.Pos + byteLen t.Val.data ≤ off + byteLen text := by
  obtain ⟨before, after, hb, hp⟩ := Tiled.place ts off text h t ht
  rw [hb, hp, byteLen_append, byteLen_append]
  omega

theorem Tiled.ordered : ∀ (ts : List Token) (off : Nat) (text : List Char), Tiled off text ts →
    ts.Pairwise (fun t u => t.Pos + byteLen t.Val.data ≤ u.Pos) := by
  intro ts
  induction ts with
  | nil => intro _ _ _; exact List.Pairwise.nil
  | cons t ts ih =>
    intro off text h
    obtain ⟨gap, rest, _, _, hpos, hrest⟩ := h
    refine List.Pairwise.cons ?_ (ih _ rest hrest)
    intro u hu
    have := (Tiled.bounds hrest hu).1
    omega

/-! ## C12 -/

/-- C12: when the scanner halts, the tokens before the last one lie in a part
`a` of the input that starts at offset 0, one after the other: each stands at
the byte offset `Pos` where its text starts, its text is the input from there,
and the runes of `a` in no token are blanks (`Tiled`).  The last token stands at
the end of `a`; if it is EOF then `a` is the whole input and its text is empty.
So every token but an ERROR token has the input at `Pos` as its text, and a
token ends before the one sent after it starts. -/
theorem C12_tokens_lie_in_the_input_in_order (L : GoLib) (input : String)
    (sent : List Token) (h : Scans L input sent) :
    ∃ ts last a b, sent = ts ++ [last] ∧ input.data = a ++ b ∧ Tiled 0 a ts ∧
      last.Pos = byteLen a ∧ (last.Typ ≠ .ERROR → b = [] ∧ last.Val = "") ∧
      (∀ t ∈ sent, t.Typ ≠ .ERROR → ∃ before after,
        input.data = before ++ (t.Val.data ++ after) ∧ t.Pos = byteLen before) ∧
      sent.Pairwise (fun t u => t.Pos + byteLen t.Val.data ≤ u.Pos) := by
  obtain ⟨ts, last, a, b, rfl, hin, ht, hpos, hlast⟩ := h.final
  refine ⟨ts, last, a, b, rfl, hin, ht, hpos, hlast, ?_, ?_⟩
  · intro t hmem hne
    rcases List.mem_append.1 hmem with hmem | hmem
    · obtain ⟨before, after, hb, hp⟩ := Tiled.place ts 0 a ht t hmem
      exact ⟨before, after ++ b, by rw [hin, hb]; simp, by simpa using hp⟩
    · simp only [List.mem_singleton] at hmem
      subst hmem
      obtain ⟨hb, hv⟩ := hlast hne
      subst hb
      exact ⟨a, [], by rw [hin, hv]; simp, hpos⟩
  · rw [List.pairwise_append]
    refine ⟨Tiled.ordered ts 0 a ht, List.pairwise_singleton _ _, ?_⟩
    intro t ht' u hu
    simp only [List.mem_singleton] at hu
    subst hu
    have := (Tiled.bounds ht ht').2
    omega

/-- C12 at the input of `TestAction`, `size :under "Subject" 10M;`. -/
theorem C12_tokens_lie_in_the_input_in_order_witness :
    Scans GoLib.ascii "size :under \"Subject\" 10M;"
        (⟨.IDENTIFIER, 0, "size"⟩ :: [⟨.TAG, 5, ":under"⟩, ⟨.STRING, 12, "\"Subject\""⟩,
          ⟨.NUMBER, 22, "10M"⟩] ++ [⟨.SEMICOLON, 25, ";"⟩, ⟨.EOF, 26, ""⟩]) ∧
      ∃ ts last a b,
        (⟨.IDENTIFIER, 0, "size"⟩ :: [⟨.TAG, 5, ":under"⟩, ⟨.STRING, 12, "\"Subject\""⟩,
          ⟨.NUMBER, 22, "10M"⟩] ++ [⟨.SEMICOLON, 25, ";"⟩, ⟨.EOF, 26, ""⟩]) = ts ++ [last] ∧
        "size :under \"Subject\" 10M;".data = a ++ b ∧ Tiled 0 a ts ∧
        last.Pos = byteLen a ∧ (last.Typ ≠ .ERROR → b = [] ∧ last.Val = "") ∧
        (∀ t ∈ (⟨.IDENTIFIER, 0, "size"⟩ :: [⟨.TAG, 5, ":under"⟩, ⟨.STRING, 12, "\"Subject\""⟩,
            ⟨.NUMBER, 22, "10M"⟩] ++ [⟨.SEMICOLON, 25, ";"⟩, ⟨.EOF, 26, ""⟩] : List Token),
          t.Typ ≠ .ERROR → ∃ before after,
            "size :under \"Subject\" 10M;".data = before ++ (t.Val.data ++ after) ∧
              t.Pos = byteLen before) ∧
        (⟨.IDENTIFIER, 0, "size"⟩ :: [⟨.TAG, 5, ":under"⟩, ⟨.STRING, 12, "\"Subject\""⟩,
          ⟨.NUMBER, 22, "10M"⟩] ++ [⟨.SEMICOLON, 25, ";"⟩, ⟨.EOF, 26, ""⟩] : List Token).Pairwise
          (fun t u => t.Pos + byteLen t.Val.data ≤ u.Pos) :=
  ⟨⟨50, scan_sizeUnder GoLib.ascii⟩,
    C12_tokens_lie_in_the_input_in_order GoLib.ascii "size :under \"Subject\" 10M;" _
      ⟨50, scan_sizeUnder GoLib.ascii⟩⟩

/-! ## Equality of syntax trees -/

theorem equalsStringsLoop_iff : ∀ (as bs : List String), as.length = bs.length →
    (equalsStringsLoop as bs = true ↔ as = bs)
  | [], [], _ => by simp [equalsStringsLoop]
  | [], _ :: _, h => by simp at h
  | _ :: _, [], h => by simp at h
  | a :: as, b :: bs, h => by
    have ih := equalsStringsLoop_iff as bs (by simpa using h)
    by_cases hab : a = b
    · simp [equalsStringsLoop, hab, ih]
    · simp [equalsStringsLoop, hab]

theorem argument_equals_iff (a b : Argument) : Argument.Equals a b = true ↔ a = b := by
  cases a <;> cases b <;> simp [Argument.Equals]
  rename_i av bv
  by_cases h : av.length = bv.length
  · simp [h, equalsStringsLoop_iff av bv h]
  · simp [h]
    intro hab
    exact h (by rw [hab])

theorem equalsArgumentsLoop_iff : ∀ (as bs : List Argument), as.length = bs.length →
    (equalsArgumentsLoop as bs = true ↔ as = bs)
  | [], [], _ => by simp [equalsArgumentsLoop]
  | [], _ :: _, h => by simp at h
  | _ :: _, [], h => by simp at h
  | a :: as, b :: bs, h => by
    have ih := equalsArgumentsLoop_iff as bs (by simpa using h)
    have ha := argument_equals_iff a b
    by_cases hab : Argument.Equals a b = true
    · have e := ha.1 hab
      subst e
      simp [equalsArgumentsLoop, hab, ih]
    · have hne : a ≠ b := fun e => hab (ha.2 e)
      simp [equalsArgumentsLoop, hab, hne]

theorem equalsArguments_iff (as bs : List Argument) : equalsArguments as bs = true ↔ as = bs := by
  unfold equalsArguments
  by_cases h : as.length = bs.length
  · simp [h, equalsArgumentsLoop_iff as bs h]
  · simp [h]
    intro hab
    exact h (by rw [hab])

mutual
theorem test_equals_iff : ∀ (a b : Test), Test.Equals a b = true ↔ a = b
  | .TrueTest, b => by cases b <;> simp [Test.Equals]
  | .FalseTest, b => by cases b <;> simp [Test.Equals]
  | .NotTest t, b => by
    have ih := test_equals_iff t
    cases b <;> simp [Test.Equals, ih]
  | .AllofTest ts, b => by
    have ih := tests_equalsLoop_iff ts
    cases b <;> simp [Test.Equals]
    rename_i bs
    by_cases h : ts.length = bs.length
    · simp [h, ih bs h]
    · simp [h]
      intro hab
      exact h (by rw [hab])
  | .AnyofTest ts, b => by
    have ih := tests_equalsLoop_iff ts
    cases b <;> simp [Test.Equals]
    rename_i bs
    by_cases h : ts.length = bs.length
    · simp [h, ih bs h]
    · simp [h]
      intro hab
      exact h (by rw [hab])
  | .GenericTest name args, b => by
    cases b <;> simp [Test.Equals, equalsArguments_iff]
theorem tests_equalsLoop_iff : ∀ (as bs : List Test), as.length = bs.length →
    (Test.equalsLoop as bs = true ↔ as = bs)
  | [], [], _ => by simp [Test.equalsLoop]
  | [], _ :: _, h => by simp at h
  | _ :: _, [], h => by simp at h
  | a :: as, b :: bs, h => by
    have ih := tests_equalsLoop_iff as bs (by simpa using h)
    have ha := test_equals_iff a b
    by_cases hab : Test.Equals a b = true
    · have e := ha.1 hab
      subst e
      simp [Test.equalsLoop, hab, ih]
    · have hne : a ≠ b := fun e => hab (ha.2 e)
      simp [Test.equalsLoop, hab, hne]
end

theorem equalsOptTest_iff (a b : Option Test) : equalsOptTest a b = true ↔ a = b := by
  cases a <;> cases b <;> simp [equalsOptTest, test_equals_iff]

mutual
theorem command_equals_iff : ∀ (a b : Command), Command.Equals a b = true ↔ a = b
  | .StopCommand, b => by cases b <;> simp [Command.Equals]
  | .CommentCommand style text, b => by cases b <;> simp [Command.Equals]
  | .GenericCommand name args, b => by
    cases b <;> simp [Command.Equals, equalsArguments_iff]
  | .ControlCommand name test block, b => by
    have ih := commands_equalsLoop_iff block
    cases b <;> simp [Command.Equals, equalsOptTest_iff]
    rename_i bn bt bb
    by_cases h : block.length = bb.length
    · simp [h, ih bb h, and_assoc]
    · simp [h]
      intro _ _ hab
      exact h (by rw [hab])
theorem commands_equalsLoop_iff : ∀ (as bs : List Command), as.length = bs.length →
    (Command.equalsLoop as bs = true ↔ as = bs)
  | [], [], _ => by simp [Command.equalsLoop]
  | [], _ :: _, h => by simp at h
  | _ :: _, [], h => by simp at h
  | a :: as, b :: bs, h => by
    have ih := commands_equalsLoop_iff as bs (by simpa using h)
    have ha := command_equals_iff a b
    by_cases hab : Command.Equals a b = true
    · have e := ha.1 hab
      subst e
      simp [Command.equalsLoop, hab, ih]
    · have hne : a ≠ b := fun e => hab (ha.2 e)
      simp [Command.equalsLoop, hab, hne]
end

theorem equalsCommands_iff (as bs : List Command) : equalsCommands as bs = true ↔ as = bs := by
  unfold equalsCommands
  by_cases h : as.length = bs.length
  · simp [h, commands_equalsLoop_iff as bs h]
  · simp [h]
    intro hab
    exact h (by rw [hab])

theorem file_eq_iff (a b : File) : a = b ↔ a.Name = b.Name ∧ a.List = b.List := by
  cases a; cases b; simp

/-- C23: `Equals a b` is true exactly when `a` and `b` are the same tree: the
same variant with equal names and texts, equal child nodes and equal sequences
of arguments, tests and commands; so `Equals a a` is true for every node. -/
theorem C23_equals_is_structural_equality :
    (∀ a b : Node, Equals a b = true ↔ a = b) ∧ ∀ a : Node, Equals a a = true := by
  have h : ∀ a b : Node, Equals a b = true ↔ a = b := by
    intro a b
    cases a <;> cases b <;>
      simp [Equals, command_equals_iff, test_equals_iff, argument_equals_iff,
        equalsCommands_iff, file_eq_iff]
  exact ⟨h, fun a => (h a a).2 rfl⟩

/-- C24: `TrueTest` and a `GenericTest` named `true` are never `Equals`, in
either order and whatever the arguments, though `TrueTest` and the `GenericTest`
named `true` without arguments have the same text `true`. -/
theorem C24_true_test_differs_from_generic_true (args : List Argument) :
    Equals (.Test .TrueTest) (.Test (.GenericTest "true" args)) = false ∧
      Equals (.Test (.GenericTest "true" args)) (.Test .TrueTest) = false ∧
      Test.String .TrueTest = "true" ∧ Test.String (.GenericTest "true" []) = "true" :=
  ⟨rfl, rfl, rfl, rfl⟩

/-- C25: `Equals` of nil and `b` is true exactly when `b` is nil; `Equals` of
a node that is not nil and nil is false; and two control commands with the
same name that are `Equals` have tests that are both absent, or both present
and `Equals`. -/
theorem C25_absence_equals_only_absence :
    (∀ b : Node, Equals .nil b = true ↔ b = .nil) ∧
      (∀ a : Node, a ≠ .nil → Equals a .nil = false) ∧
      (∀ (name : String) (ta tb : Option Test) (ba bb : List Command),
        Equals (.Command (.ControlCommand name ta ba)) (.Command (.ControlCommand name tb bb)) = true →
          (ta = none ∧ tb = none) ∨
            ∃ x y, ta = some x ∧ tb = some y ∧ Equals (.Test x) (.Test y) = true) ∧
      (∀ (name : String) (ta tb : Option Test) (ba bb : List Command),
        equalsCommands ba bb = true →
          (Equals (.Command (.ControlCommand name ta ba)) (.Command (.ControlCommand name tb bb)) = true ↔
            Equals (Node.ofTest ta) (Node.ofTest tb) = true)) := by
  refine ⟨?_, ?_, ?_, ?_⟩
  · intro b
    cases b <;> simp [Equals]
  · intro a ha
    cases a
    · exact absurd rfl ha
    all_goals rfl
  · intro name ta tb ba bb h
    cases ta <;> cases tb <;> simp [Equals, Command.Equals, equalsOptTest] at h ⊢
    exact h.1
  · intro name ta tb ba bb h
    have hb : (if ba.length ≠ bb.length then false else Command.equalsLoop ba bb) = true := h
    cases ta <;> cases tb <;> simp [Equals, Command.Equals, equalsOptTest, Node.ofTest, hb]

/-- C25 at a control command with and without a test. -/
theorem C25_absence_equals_only_absence_witness :
    Node.Test .TrueTest ≠ .nil ∧ Equals (.Test .TrueTest) .nil = false ∧
      equalsCommands [.StopCommand] [.StopCommand] = true ∧
      (Equals (.Command (.ControlCommand "if" (some .TrueTest) [.StopCommand]))
          (.Command (.ControlCommand "if" none [.StopCommand])) = true ↔
        Equals (Node.ofTest (some .TrueTest)) (Node.ofTest none) = true) :=
  ⟨by simp, C25_absence_equals_only_absence.2.1 _ (by simp), rfl,
    C25_absence_equals_only_absence.2.2.2 "if" (some .TrueTest) none [.StopCommand] [.StopCommand] rfl⟩

/-! ## Rendering -/

theorem tabs_data (d : Nat) : (tabs d).data = List.replicate d '\t' := by
  induction d with
  | zero => rfl
  | succ d ih =>
    show ("\t" ++ tabs d).data = _
    rw [String.data_append, ih]
    rfl

theorem String.empty_append_eq (s : String) : "" ++ s = s := by
  apply String.ext
  rw [String.data_append]
  rfl

theorem blockLoop_append (d : Nat) : ∀ (pre post : List Command),
    blockLoop (pre ++ post) d = blockLoop pre d ++ blockLoop post d
  | [], post => by
    show blockLoop post d = "" ++ blockLoop post d
    rw [String.empty_append_eq]
  | c :: pre, post => by
    show stringDepth c (d + 1) ++ "\n" ++ blockLoop (pre ++ post) d =
      stringDepth c (d + 1) ++ "\n" ++ blockLoop pre d ++ blockLoop post d
    rw [blockLoop_append d pre post]
    simp only [String.append_assoc]

theorem argumentsLoop_no_tab (args : List Argument) :
    (argumentsLoop args ++ ";").data.head? ≠ some '\t' := by
  cases args with
  | nil => simp [argumentsLoop]
  | cons a as =>
    show ((" " ++ a.String ++ argumentsLoop as) ++ ";").data.head? ≠ _
    simp only [String.data_append]
    simp

/-- The text after the tabs of a rendered command. -/
theorem stringDepth_body (c : Command) (d : Nat) :
    ∃ body : String, stringDepth c d = tabs d ++ body ∧
      (tabName c = false → body.data.head? ≠ some '\t') := by
  cases c with
  | StopCommand => exact ⟨"stop;", rfl, fun _ => by simp⟩
  | CommentCommand style text =>
    by_cases h : style = "line"
    · refine ⟨style ++ " " ++ text, ?_, fun _ => ?_⟩
      · show (if style = "line" then _ else _) = _
        rw [if_pos h]
        simp only [String.append_assoc]
      · subst h
        simp only [String.data_append]
        simp
    · refine ⟨"/*" ++ text ++ "*/", ?_, fun _ => ?_⟩
      · show (if style = "line" then _ else _) = _
        rw [if_neg h]
        simp only [String.append_assoc]
      · simp only [String.data_append]
        simp
  | GenericCommand name args =>
    refine ⟨name ++ (argumentsLoop args ++ ";"), ?_, fun hn => ?_⟩
    · show tabs d ++ name ++ argumentsLoop args ++ ";" = _
      simp only [String.append_assoc]
    · have hn' : name.data.head? ≠ some '\t' := by simpa [tabName] using hn
      have ha := argumentsLoop_no_tab args
      rw [String.data_append]
      cases hd : name.data with
      | nil => simpa using ha
      | cons x xs =>
        rw [hd] at hn'
        simpa using hn'
  | ControlCommand name test block =>
    refine ⟨name ++ ((match test with
          | some t => " " ++ t.String
          | none => "") ++ (" " ++ ("\x7b\n" ++ (blockLoop block d ++ (tabs d ++ "\x7d"))))), ?_,
      fun hn => ?_⟩
    · show tabs d ++ name ++ _ ++ " " ++ "\x7b\n" ++ blockLoop block d ++ tabs d ++ "\x7d" = _
      simp only [String.append_assoc]
    · have hn' : name.data.head? ≠ some '\t' := by simpa [tabName] using hn
      rw [String.data_append]
      cases hd : name.data with
      | nil =>
        cases test with
        | none => simp only [String.data_append]; simp
        | some t => simp only [String.data_append]; simp
      | cons x xs =>
        rw [hd] at hn'
        simpa using hn'

/-- C26: a rendered command begins with `d` tabs, and the character after them
is no tab unless the name of the command begins with one; a stop, comment or
generic command is rendered as `d` tabs and its rendering at depth 0; a control
command is rendered as `d` tabs, its name and test, an opening brace and a line
break, its block, `d` tabs and the closing brace, where every command of the
block is rendered at depth `d + 1` and followed by a line break. -/
theorem C26_rendering_indents_by_depth (d : Nat) :
    (tabs d).data = List.replicate d '\t' ∧
      (∀ c : Command, ∃ body : String, stringDepth c d = tabs d ++ body ∧
        (stringDepth c d).data.take d = List.replicate d '\t' ∧
        (tabName c = false → (stringDepth c d).data[d]? ≠ some '\t')) ∧
      stringDepth .StopCommand d = tabs d ++ stringDepth .StopCommand 0 ∧
      (∀ style text, stringDepth (.CommentCommand style text) d =
        tabs d ++ stringDepth (.CommentCommand style text) 0) ∧
      (∀ name args, stringDepth (.GenericCommand name args) d =
        tabs d ++ stringDepth (.GenericCommand name args) 0) ∧
      (∀ name test block, stringDepth (.ControlCommand name test block) d =
        tabs d ++ name ++ (match test with
          | some t => " " ++ Test.String t
          | none => "") ++ " " ++ "\x7b\n" ++ blockLoop block d ++ tabs d ++ "\x7d") ∧
      blockLoop [] d = "" ∧
      ∀ (pre post : List Command) (c : Command),
        blockLoop (pre ++ c :: post) d =
          blockLoop pre d ++ (stringDepth c (d + 1) ++ "\n") ++ blockLoop post d := by
  refine ⟨tabs_data d, ?_, ?_, ?_, ?_, fun _ _ _ => rfl, rfl, ?_⟩
  · intro c
    obtain ⟨body, hb, hh⟩ := stringDepth_body c d
    refine ⟨body, hb, ?_, fun hn => ?_⟩
    · rw [hb, String.data_append, tabs_data]
      simp
    · rw [hb, String.data_append, tabs_data]
      rw [List.getElem?_append_right (by simp)]
      have := hh hn
      simp only [List.length_replicate, Nat.sub_self]
      cases hbd : body.data with
      | nil => simp
      | cons x xs =>
        rw [hbd] at this
        simpa using this
  · show tabs d ++ "stop;" = tabs d ++ ("" ++ "stop;")
    rw [String.empty_append_eq]
  · intro style text
    show (if style = "line" then _ else _) = tabs d ++ (if style = "line" then _ else _)
    by_cases h : style = "line"
    · rw [if_pos h, if_pos h]
      show _ = tabs d ++ ("" ++ style ++ " " ++ text)
      rw [String.empty_append_eq]
      simp only [String.append_assoc]
    · rw [if_neg h, if_neg h]
      show _ = tabs d ++ ("" ++ "/*" ++ text ++ "*/")
      rw [String.empty_append_eq]
      simp only [String.append_assoc]
  · intro name args
    show tabs d ++ name ++ argumentsLoop args ++ ";" = tabs d ++ ("" ++ name ++ argumentsLoop args ++ ";")
    rw [String.empty_append_eq]
    simp only [String.append_assoc]
  · intro pre post c
    rw [blockLoop_append]
    show _ = blockLoop pre d ++ (stringDepth c (d + 1) ++ "\n") ++ blockLoop post d
    show blockLoop pre d ++ (stringDepth c (d + 1) ++ "\n" ++ blockLoop post d) = _
    simp only [String.append_assoc]

/-- C26 at depth 1 and a generic command. -/
theorem C26_rendering_indents_by_depth_witness :
    tabName (.GenericCommand "keep" []) = false ∧
      (stringDepth (.GenericCommand "keep" []) 1).data[1]? ≠ some '\t' := by
  obtain ⟨body, _, _, h⟩ := (C26_rendering_indents_by_depth 1).2.1 (.GenericCommand "keep" [])
  exact ⟨rfl, h rfl⟩

/-! ## `accept` at the end of the tokens -/

theorem Parser.next_on_eof (p : Parser) (t : Token) (hp : p.pos ≠ -1) (hi : p.item = .ok t)
    (ht : t.Typ = .EOF) : p.next = .ok (t, p) := by
  unfold Parser.next
  rw [if_pos hp, hi]
  simp [ht]

theorem Parser.next_off_eof (p q : Parser) (t : Token) (hp : ¬ p.atEOF)
    (h : p.next = .ok (t, q)) : q = p.adv := by
  rcases Parser.next_spec p q t h with ⟨_, hqp⟩ | ⟨hq, _⟩
  · exfalso
    apply hp
    unfold Parser.next at h
    obtain ⟨atEOF, h1, h⟩ := Run.bind_eq_ok h
    split at h
    · rename_i hat
      split at h1
      · rename_i hne
        obtain ⟨t0, ht0, h1⟩ := Run.bind_eq_ok h1
        cases h1
        exact ⟨hne, t0, ht0, by simpa using hat⟩
      · cases h1
        cases hat
    · dsimp only at h
      split at h
      · cases h
      · obtain ⟨t', ht', h⟩ := Run.bind_eq_ok h
        split at h
        · cases h
        · cases h
          have hpos : p.pos + 1 = p.pos := congrArg Parser.pos hqp
          omega
  · exact hq

/-- What a call of `accept` that returns false does to the position: off an
EOF token the parser is left as it was; on an EOF token it is left one token
back, as with the tokens `stop` and EOF and the parser on the EOF token. -/
theorem accept_on_and_off_eof :
    (∀ (p q : Parser) (valid : TokenTypes), ¬ p.atEOF → p.accept valid = .ok (false, q) → q = p) ∧
      (∀ (p q : Parser) (valid : TokenTypes), p.atEOF → p.accept valid = .ok (false, q) →
        q.pos = p.pos - 1) ∧
      (∀ (p : Parser) (valid : TokenTypes), p.atEOF → TokenType.EOF ∉ valid →
        p.accept valid = .ok (false, { p with pos := p.pos - 1 })) ∧
      (stopEnd 1).accept [.SEMICOLON] = .ok (false, stopEnd 0) := by
  refine ⟨?_, ?_, ?_, rfl⟩
  · intro p q valid hp h
    unfold Parser.accept at h
    obtain ⟨⟨item, p1⟩, h1, h⟩ := Run.bind_eq_ok h
    simp only at h
    split at h
    · cases h
    · obtain ⟨p2, h2, h⟩ := Run.bind_eq_ok h
      have hq : q = p2 := by cases h; rfl
      have e1 := Parser.next_off_eof p p1 item hp h1
      have e2 := Parser.backup_spec p1 p2 h2
      rw [hq, e2, e1]
      cases p
      simp [Parser.adv]
  · intro p q valid hp h
    obtain ⟨hne, t, hi, ht⟩ := hp
    have hn := Parser.next_on_eof p t hne hi ht
    unfold Parser.accept at h
    rw [hn] at h
    simp only [Run.bind_ok] at h
    split at h
    · cases h
    · obtain ⟨p2, h2, h⟩ := Run.bind_eq_ok h
      have hq : q = p2 := by cases h; rfl
      rw [hq, Parser.backup_spec p p2 h2]
  · intro p valid hp hv
    obtain ⟨hne, t, hi, ht⟩ := hp
    have hn := Parser.next_on_eof p t hne hi ht
    have hpos : ¬ p.pos ≤ -1 := by
      intro hle
      unfold Parser.item at hi
      rw [if_pos (by omega)] at hi
      cases hi
    have hany : ¬ (valid.any (fun tokTyp => decide (t.Typ = tokTyp)) = true) := by
      intro hv'
      rw [List.any_eq_true] at hv'
      obtain ⟨x, hx, hxe⟩ := hv'
      have : t.Typ = x := by simpa using hxe
      exact hv (by rw [← ht, this]; exact hx)
    unfold Parser.accept
    rw [hn]
    simp only [Run.bind_ok]
    rw [if_neg hany]
    unfold Parser.backup
    rw [if_neg hpos]
    rfl

/-! ## Tags -/

theorem lexTag_reach (L : GoLib) {pre rest : List Char} {d : Int} {items : List Token}
    (hrest : isAlphaNumeric L rest.head? = false) :
    ∀ (v tok : List Char) (l : Lexer), l.Is pre tok (v ++ rest) d items →
      (∀ c ∈ v, isAlphaNumeric L (some c) = true) →
      ∃ l', Reaches L (some .lexTag, l) (some .lexStart, l') ∧
        l'.Is (pre ++ (tok ++ v)) [] rest d
          (items ++ [⟨.TAG, byteLen pre, String.mk (tok ++ v)⟩]) := by
  intro v
  induction v with
  | nil =>
    intro tok l his _
    have his' : l.Is pre tok rest d items := his
    cases rest with
    | nil =>
      refine ⟨Lexer.emit { l with width := 0 } .TAG, Reaches.by_step ?_ (Reaches.here L _), ?_⟩
      · show lexTag L l = _
        unfold lexTag
        rw [his'.next_nil]
        simp only [isAlphaNumeric, Bool.false_eq_true, if_false, Lexer.backup_zero]
      · simpa using (his'.width 0).emit_is .TAG
    | cons c rest =>
      refine ⟨Lexer.emit { l with width := 1 } .TAG, Reaches.by_step ?_ (Reaches.here L _), ?_⟩
      · show lexTag L l = _
        unfold lexTag
        rw [his'.next_cons]
        have hc : isAlphaNumeric L (some c) = false := hrest
        simp only [hc, Bool.false_eq_true, if_false, Lexer.backup_step]
      · simpa using (his'.width 1).emit_is .TAG
  | cons c v ih =>
    intro tok l his hv
    have his' : l.Is pre tok (c :: (v ++ rest)) d items := his
    obtain ⟨l', hr, his2⟩ := ih (tok ++ [c]) _ his'.step_is (fun x hx => hv x (by simp [hx]))
    refine ⟨l', Reaches.by_step ?_ hr, by simpa using his2⟩
    show lexTag L l = _
    unfold lexTag
    rw [his'.next_cons]
    simp only [hv c (by simp), if_true]

set_option smartUnfolding false in
theorem scan_testArguments (L : GoLib) :
    (lexTokens L 40 testArgumentsInput).map shape =
      some [(.STRING, "\"subject\""), (.TAG, ":under"), (.NUMBER, "1024k"), (.EOF, "")] := rfl

set_option smartUnfolding false in
theorem run_testArgumentsAtTag (L : GoLib) :
    Lexer.run L 11 (Lex testArgumentsInput) = (some .lexStart, testArgumentsAtTag) := rfl

/-- C21: when the scanner, about to read a token, stands before a colon, a run
`v` of letters, digits and underscores, and a text `rest` that does not begin
with one, it sends one TAG token whose text is the colon and `v`, and gets back
to `lexStart` with all of `rest` still to read. -/
theorem C21_tag_is_colon_and_word (L : GoLib) (l : Lexer) (pre v rest : List Char) (d : Int)
    (items : List Token) (his : l.Is pre [] (':' :: (v ++ rest)) d items)
    (hv : ∀ c ∈ v, isAlphaNumeric L (some c) = true)
    (hrest : isAlphaNumeric L rest.head? = false) :
    ∃ l', Reaches L (some .lexStart, l) (some .lexStart, l') ∧
      l'.Is (pre ++ ':' :: v) [] rest d
        (items ++ [⟨.TAG, byteLen pre, String.mk (':' :: v)⟩]) := by
  have hstep : lexStart L l = (some .lexTag, { l with width := 1, pos := l.pos + 1 }) := by
    unfold lexStart
    rw [his.next_cons]
    rfl
  obtain ⟨l', hr, his'⟩ := lexTag_reach L hrest v [':'] _ his.start_one hv
  exact ⟨l', Reaches.by_step hstep hr, by simpa using his'⟩

/-- C21 at the input of `TestArguments`: after the STRING token and the blank,
the scanner sends TAG `:under` and stands before the blank that follows; the
whole input scans to STRING, TAG, NUMBER and EOF. -/
theorem C21_tag_is_colon_and_word_witness :
    Lexer.run GoLib.ascii 11 (Lex testArgumentsInput) = (some .lexStart, testArgumentsAtTag) ∧
    (∃ l', Reaches GoLib.ascii
        (some .lexStart, testArgumentsAtTag)
        (some .lexStart, l') ∧
      l'.Is ("\"subject\" ".data ++ ':' :: "under".data) [] " 1024k".data 0
        ([⟨.STRING, 0, "\"subject\""⟩] ++
          [⟨.TAG, byteLen "\"subject\" ".data, String.mk (':' :: "under".data)⟩])) ∧
      (lexTokens GoLib.ascii 40 testArgumentsInput).map shape =
        some [(.STRING, "\"subject\""), (.TAG, ":under"), (.NUMBER, "1024k"), (.EOF, "")] :=
  ⟨run_testArgumentsAtTag GoLib.ascii,
    C21_tag_is_colon_and_word GoLib.ascii testArgumentsAtTag "\"subject\" ".data "under".data " 1024k".data 0
      [⟨.STRING, 0, "\"subject\""⟩] ⟨rfl, rfl, rfl, rfl, rfl⟩ (by decide) rfl,
    scan_testArguments GoLib.ascii⟩

/-! ## Parentheses and strings -/

theorem countTyp_append (k : TokenType) (a b : List Token) :
    countTyp k (a ++ b) = countTyp k a + countTyp k b := by
  simp [countTyp]

theorem countTyp_one (k : TokenType) (t : Token) :
    countTyp k [t] = if t.Typ = k then 1 else 0 := by
  by_cases h : t.Typ = k <;> simp [countTyp, h]

theorem take_snoc (items : List Token) (t : Token) (n : Nat) :
    (items ++ [t]).take n = items.take n ∨ (items ++ [t]).take n = items ++ [t] := by
  by_cases h : n ≤ items.length
  · left
    rw [List.take_append_of_le_length h]
  · right
    rw [List.take_of_length_le (by simp; omega)]

theorem ParensOK.of_none : ParensOK [] := by
  intro n
  simp [countTyp]

theorem ParensOK.push {items : List Token} (h : ParensOK items) (t : Token)
    (ht : countTyp .RIGHTPAREN (items ++ [t]) ≤ countTyp .LEFTPAREN (items ++ [t])) :
    ParensOK (items ++ [t]) := by
  intro n
  rcases take_snoc items t n with e | e
  · rw [e]; exact h n
  · rw [e]; exact ht

theorem ParensOK.total {items : List Token} (h : ParensOK items) :
    countTyp .RIGHTPAREN items ≤ countTyp .LEFTPAREN items := by
  have := h items.length
  simpa using this

theorem Marks.snoc_other {d : Int} {items : List Token} (h : Marks d items) (typ : TokenType)
    (p : Nat) (v : String)
    (ht : typ ≠ .LEFTPAREN ∧ typ ≠ .RIGHTPAREN ∧ typ ≠ .STRING) :
    Marks d (items ++ [⟨typ, p, v⟩]) := by
  obtain ⟨h1, h2, h3⟩ := h
  have hl : countTyp .LEFTPAREN (items ++ [⟨typ, p, v⟩]) = countTyp .LEFTPAREN items := by
    rw [countTyp_append, countTyp_one, if_neg ht.1]; rfl
  have hr : countTyp .RIGHTPAREN (items ++ [⟨typ, p, v⟩]) = countTyp .RIGHTPAREN items := by
    rw [countTyp_append, countTyp_one, if_neg ht.2.1]; rfl
  refine ⟨by rw [hl, hr]; exact h1, h2.push _ (by rw [hl, hr]; exact h2.total), ?_⟩
  intro t hmem hs
  rcases List.mem_append.1 hmem with hm | hm
  · exact h3 t hm hs
  · simp only [List.mem_singleton] at hm
    subst hm
    exact absurd hs ht.2.2

theorem Marks.snoc_string {d : Int} {items : List Token} (h : Marks d items)
    (p : Nat) (v : String) (hv : StrText v.data) : Marks d (items ++ [⟨.STRING, p, v⟩]) := by
  obtain ⟨h1, h2, h3⟩ := h
  have hl : countTyp .LEFTPAREN (items ++ [⟨.STRING, p, v⟩]) = countTyp .LEFTPAREN items := by
    rw [countTyp_append, countTyp_one, if_neg (fun e => by cases e)]; rfl
  have hr : countTyp .RIGHTPAREN (items ++ [⟨.STRING, p, v⟩]) = countTyp .RIGHTPAREN items := by
    rw [countTyp_append, countTyp_one, if_neg (fun e => by cases e)]; rfl
  refine ⟨by rw [hl, hr]; exact h1, h2.push _ (by rw [hl, hr]; exact h2.total), ?_⟩
  intro t hmem hs
  rcases List.mem_append.1 hmem with hm | hm
  · exact h3 t hm hs
  · simp only [List.mem_singleton] at hm
    subst hm
    exact hv

theorem Marks.snoc_left {d : Int} {items : List Token} (h : Marks d items)
    (p : Nat) (v : String) : Marks (d + 1) (items ++ [⟨.LEFTPAREN, p, v⟩]) := by
  obtain ⟨h1, h2, h3⟩ := h
  have hl : countTyp .LEFTPAREN (items ++ [⟨.LEFTPAREN, p, v⟩]) = countTyp .LEFTPAREN items + 1 := by
    rw [countTyp_append, countTyp_one, if_pos rfl]
  have hr : countTyp .RIGHTPAREN (items ++ [⟨.LEFTPAREN, p, v⟩]) = countTyp .RIGHTPAREN items := by
    rw [countTyp_append, countTyp_one, if_neg (fun e => by cases e)]; rfl
  have hall := h2.total
  refine ⟨by rw [hl, hr, h1]; push_cast; ring, h2.push _ (by rw [hl, hr]; omega), ?_⟩
  intro t hmem hs
  rcases List.mem_append.1 hmem with hm | hm
  · exact h3 t hm hs
  · simp only [List.mem_singleton] at hm
    subst hm
    cases hs

theorem Marks.snoc_right {d : Int} {items : List Token} (h : Marks d items)
    (p : Nat) (v : String) (hd : ¬ (d - 1 < 0)) :
    Marks (d - 1) (items ++ [⟨.RIGHTPAREN, p, v⟩]) := by
  obtain ⟨h1, h2, h3⟩ := h
  have hl : countTyp .LEFTPAREN (items ++ [⟨.RIGHTPAREN, p, v⟩]) = countTyp .LEFTPAREN items := by
    rw [countTyp_append, countTyp_one, if_neg (fun e => by cases e)]; rfl
  have hr : countTyp .RIGHTPAREN (items ++ [⟨.RIGHTPAREN, p, v⟩]) =
      countTyp .RIGHTPAREN items + 1 := by
    rw [countTyp_append, countTyp_one, if_pos rfl]
  refine ⟨by rw [hl, hr, h1]; push_cast; ring, h2.push _ (by rw [hl, hr]; omega), ?_⟩
  intro t hmem hs
  rcases List.mem_append.1 hmem with hm | hm
  · exact h3 t hm hs
  · simp only [List.mem_singleton] at hm
    subst hm
    cases hs

theorem Ended.after_error {items : List Token}
    (h : ∀ t ∈ items, t.Typ = .STRING → StrText t.Val.data) (p : Nat) (m : String) :
    Ended (items ++ [⟨.ERROR, p, m⟩]) := by
  refine ⟨?_, ?_⟩
  · intro t hmem hs
    rcases List.mem_append.1 hmem with hm | hm
    · exact h t hm hs
    · simp only [List.mem_singleton] at hm
      subst hm
      cases hs
  · rintro ⟨ts, e, he, hty⟩
    have := List.append_inj_right' he (by simp)
    simp only [List.cons.injEq, and_true] at this
    subst this
    cases hty

theorem Ended.after_eof {d : Int} {items : List Token} (h : Marks d items) (p : Nat) (v : String) :
    Ended (items ++ [⟨.EOF, p, v⟩]) :=
  let h' := h.snoc_other .EOF p v (by decide)
  ⟨h'.2.2, fun _ => h'.2.1⟩

theorem MarkInv.keeps {l : Lexer} {s : StateFn} {pre tok suf : List Char}
    {d : Int} {items : List Token} (his : l.Is pre tok suf d items)
    (hm : Marks d items) (hq : QuoteOK s tok) : MarkInv (some s, l) :=
  ⟨pre, tok, suf, ⟨his.input_eq, his.start_eq, his.pos_eq, rfl, rfl⟩,
    by rw [his.depth_eq, his.items_eq]; exact hm, hq⟩

theorem MarkInv.emits {l : Lexer} {pre tok suf : List Char}
    {d : Int} {items : List Token} (typ : TokenType) (his : l.Is pre tok suf d items)
    (hm : Marks d items) (ht : typ ≠ .LEFTPAREN ∧ typ ≠ .RIGHTPAREN ∧ typ ≠ .STRING) :
    MarkInv (some .lexStart, l.emit typ) :=
  MarkInv.keeps (his.emit_is typ) (hm.snoc_other typ _ _ ht) rfl

theorem MarkInv.fails {l : Lexer} {pre tok suf : List Char}
    {d : Int} {items : List Token} (msg : String) (his : l.Is pre tok suf d items)
    (hm : ∀ t ∈ items, t.Typ = .STRING → StrText t.Val.data) :
    MarkInv (l.errorf msg) := by
  show Ended (l.errorf msg).2.items
  rw [his.errorf_sent]
  exact Ended.after_error hm _ _

theorem MarkInv.branch {c : Prop} [Decidable c]
    {a b : Option StateFn × Lexer} (ha : c → MarkInv a) (hb : ¬c → MarkInv b) :
    MarkInv (if c then a else b) := by
  by_cases h : c
  · rw [if_pos h]; exact ha h
  · rw [if_neg h]; exact hb h

theorem keyword_kind (k : TokenType) (h : k.toNat > TokenType.COMMAND.toNat) :
    k ≠ .LEFTPAREN ∧ k ≠ .RIGHTPAREN ∧ k ≠ .STRING := by
  cases k <;> simp [TokenType.toNat] at h ⊢

theorem lexSemiColon_marks (l : Lexer)
    (h : MarkInv (some .lexSemiColon, l)) : MarkInv (lexSemiColon l) := by
  obtain ⟨pre, tok, suf, his, hm, _⟩ := h
  exact MarkInv.emits .SEMICOLON his hm (by decide)

theorem lexSpace_marks (l : Lexer)
    (h : MarkInv (some .lexSpace, l)) : MarkInv (lexSpace l) := by
  obtain ⟨pre, tok, suf, his, hm, _⟩ := h
  unfold lexSpace
  obtain ⟨l1, hpk, his1⟩ := his.peek
  rw [hpk]
  refine MarkInv.branch (fun hsp => ?_) (fun _ => MarkInv.keeps his1.ignore hm rfl)
  cases suf with
  | nil => simp [isSpace] at hsp
  | cons c suf =>
    rw [his1.next_cons]
    exact MarkInv.keeps his1.step_is hm trivial

theorem lexEndOfLine_marks (l : Lexer)
    (h : MarkInv (some .lexEndOfLine, l)) : MarkInv (lexEndOfLine l) := by
  obtain ⟨pre, tok, suf, his, hm, _⟩ := h
  unfold lexEndOfLine
  obtain ⟨l1, hpk, his1⟩ := his.peek
  rw [hpk]
  refine MarkInv.branch (fun hsp => ?_) (fun _ => MarkInv.keeps his1.ignore hm rfl)
  cases suf with
  | nil => simp [isEndOfLine] at hsp
  | cons c suf =>
    rw [his1.next_cons]
    exact MarkInv.keeps his1.step_is hm trivial

theorem lexString_marks (l : Lexer)
    (h : MarkInv (some .lexString, l)) : MarkInv (lexString l) := by
  obtain ⟨pre, tok, suf, his, hm, hq⟩ := h
  obtain ⟨s, hs, hno⟩ : ∃ s, tok = '"' :: s ∧ '"' ∉ s := hq
  unfold lexString
  cases suf with
  | nil =>
    rw [his.next_nil]
    refine MarkInv.branch (fun _ => MarkInv.keeps (his.width 0) hm ⟨s, hs, hno⟩) (fun _ => ?_)
    exact MarkInv.branch (fun _ => MarkInv.fails _ (his.width 0) hm.2.2)
      (fun hc => absurd rfl hc)
  | cons c suf =>
    rw [his.next_cons]
    refine MarkInv.branch (fun hc => ?_) (fun hc => ?_)
    · refine MarkInv.keeps his.step_is hm ⟨s ++ [c], by rw [hs]; rfl, ?_⟩
      intro hmem
      rcases List.mem_append.1 hmem with hm' | hm'
      · exact hno hm'
      · simp only [List.mem_singleton] at hm'
        exact hc (by rw [← hm'])
    · have hcq : c = '"' := by
        by_contra hne
        exact hc (by simp [hne])
      refine MarkInv.branch (fun _ => MarkInv.fails _ his.step_is hm.2.2) (fun _ => ?_)
      refine MarkInv.keeps (his.step_is.emit_is .STRING) (hm.snoc_string _ _ ?_) rfl
      exact ⟨s, by rw [hs, hcq]; rfl, hno⟩

theorem lexTag_marks (L : GoLib) (l : Lexer)
    (h : MarkInv (some .lexTag, l)) : MarkInv (lexTag L l) := by
  obtain ⟨pre, tok, suf, his, hm, _⟩ := h
  unfold lexTag
  cases suf with
  | nil =>
    rw [his.next_nil]
    refine MarkInv.branch (fun hc => by simp [isAlphaNumeric] at hc) (fun _ => ?_)
    rw [Lexer.backup_zero]
    exact MarkInv.emits .TAG (his.width 0) hm (by decide)
  | cons c suf =>
    rw [his.next_cons]
    refine MarkInv.branch (fun _ => MarkInv.keeps his.step_is hm trivial) (fun _ => ?_)
    rw [Lexer.backup_step]
    exact MarkInv.emits .TAG (his.width 1) hm (by decide)

theorem lexIdentifier_marks (L : GoLib) (l : Lexer)
    (h : MarkInv (some .lexIdentifier, l)) : MarkInv (lexIdentifier L l) := by
  obtain ⟨pre, tok, suf, his, hm, _⟩ := h
  unfold lexIdentifier
  cases suf with
  | nil =>
    rw [his.next_nil]
    refine MarkInv.branch (fun hc => by simp [isAlphaNumeric] at hc) (fun _ => ?_)
    rw [Lexer.backup_zero]
    exact MarkInv.branch (fun hk => MarkInv.emits _ (his.width 0) hm (keyword_kind _ hk))
      (fun _ => MarkInv.emits _ (his.width 0) hm (by decide))
  | cons c suf =>
    rw [his.next_cons]
    refine MarkInv.branch (fun _ => MarkInv.keeps his.step_is hm trivial) (fun _ => ?_)
    rw [Lexer.backup_step]
    exact MarkInv.branch (fun hk => MarkInv.emits _ (his.width 1) hm (keyword_kind _ hk))
      (fun _ => MarkInv.emits _ (his.width 1) hm (by decide))

theorem lexLineComment_marks (l : Lexer)
    (h : MarkInv (some .lexLineComment, l)) : MarkInv (lexLineComment l) := by
  obtain ⟨pre, tok, suf, his, hm, _⟩ := h
  unfold lexLineComment
  cases suf with
  | nil =>
    rw [his.next_nil]
    refine MarkInv.branch (fun _ => MarkInv.keeps (his.width 0) hm trivial) (fun _ => ?_)
    rw [Lexer.backup_zero]
    obtain ⟨b, l2, hat, his2⟩ := (his.width 0).atTerminator
    rw [hat]
    exact MarkInv.branch (fun _ => MarkInv.fails _ his2 hm.2.2)
      (fun _ => MarkInv.emits _ his2 hm (by decide))
  | cons c suf =>
    rw [his.next_cons]
    refine MarkInv.branch (fun _ => MarkInv.keeps his.step_is hm trivial) (fun _ => ?_)
    rw [Lexer.backup_step]
    obtain ⟨b, l2, hat, his2⟩ := (his.width 1).atTerminator
    rw [hat]
    exact MarkInv.branch (fun _ => MarkInv.fails _ his2 hm.2.2)
      (fun _ => MarkInv.emits _ his2 hm (by decide))

theorem lexBlockComment_marks (l : Lexer)
    (h : MarkInv (some .lexBlockComment, l)) : MarkInv (lexBlockComment l) := by
  obtain ⟨pre, tok, suf, his, hm, _⟩ := h
  unfold lexBlockComment
  cases suf with
  | nil =>
    rw [his.next_nil]
    refine MarkInv.branch (fun _ => MarkInv.keeps (his.width 0) hm trivial) (fun _ => ?_)
    refine MarkInv.branch (fun _ => MarkInv.fails _ (his.width 0) hm.2.2) (fun _ => ?_)
    exact MarkInv.branch (fun _ => MarkInv.emits _ (his.width 0) hm (by decide))
      (fun _ => MarkInv.fails _ (his.width 0) hm.2.2)
  | cons c suf =>
    rw [his.next_cons]
    refine MarkInv.branch (fun _ => MarkInv.keeps his.step_is hm trivial) (fun _ => ?_)
    refine MarkInv.branch (fun _ => MarkInv.fails _ his.step_is hm.2.2) (fun _ => ?_)
    exact MarkInv.branch (fun _ => MarkInv.emits _ his.step_is hm (by decide))
      (fun _ => MarkInv.fails _ his.step_is hm.2.2)

theorem lexNumber_marks (L : GoLib) (l : Lexer)
    (h : MarkInv (some .lexNumber, l)) : MarkInv (lexNumber L l) := by
  obtain ⟨pre, tok, suf, his, hm, hb⟩ := h
  have hb' : tok = [] := hb
  subst hb'
  obtain ⟨b, l', tok', suf', hscan, his', _⟩ := his.scanNumber_moves L
  unfold lexNumber
  rw [hscan]
  exact MarkInv.branch (fun _ => MarkInv.fails _ his' hm.2.2)
    (fun _ => MarkInv.emits _ his' hm (by decide))

theorem lexStart_marks (L : GoLib) (l : Lexer)
    (h : MarkInv (some .lexStart, l)) : MarkInv (lexStart L l) := by
  obtain ⟨pre, tok, suf, his, hm, hb⟩ := h
  have hb' : tok = [] := hb
  subst hb'
  unfold lexStart
  cases suf with
  | nil =>
    rw [his.next_nil]
    show Ended (Lexer.emit _ .EOF).items
    rw [((his.width 0).emit_is .EOF).items_eq]
    exact Ended.after_eof hm _ _
  | cons c suf =>
    rw [his.next_cons]
    have his1 := his.start_one
    show MarkInv (if c = ';' then _ else _)
    refine MarkInv.branch (fun _ => MarkInv.keeps his1 hm trivial) (fun _ => ?_)
    refine MarkInv.branch (fun _ => MarkInv.keeps his1 hm trivial) (fun _ => ?_)
    refine MarkInv.branch (fun _ => MarkInv.emits _ his1 hm (by decide)) (fun _ => ?_)
    refine MarkInv.branch (fun hc => MarkInv.keeps his1 hm ⟨[], by rw [hc], by simp⟩) (fun _ => ?_)
    refine MarkInv.branch (fun _ => ?_) (fun _ => ?_)
    · exact MarkInv.keeps ((his1.emit_is .LEFTPAREN).depth _) (hm.snoc_left _ _) rfl
    refine MarkInv.branch (fun _ => ?_) (fun _ => ?_)
    · refine MarkInv.branch (fun _ => ?_) (fun hd => ?_)
      · refine MarkInv.fails _ ((his1.emit_is .RIGHTPAREN).depth _) ?_
        intro t hmem hs
        rcases List.mem_append.1 hmem with hm' | hm'
        · exact hm.2.2 t hm' hs
        · simp only [List.mem_singleton] at hm'
          subst hm'
          cases hs
      · exact MarkInv.keeps ((his1.emit_is .RIGHTPAREN).depth _) (hm.snoc_right _ _ hd) rfl
    refine MarkInv.branch (fun _ => MarkInv.emits _ his1 hm (by decide)) (fun _ => ?_)
    refine MarkInv.branch (fun _ => MarkInv.emits _ his1 hm (by decide)) (fun _ => ?_)
    refine MarkInv.branch (fun _ => MarkInv.emits _ his1 hm (by decide)) (fun _ => ?_)
    refine MarkInv.branch (fun _ => MarkInv.emits _ his1 hm (by decide)) (fun _ => ?_)
    refine MarkInv.branch (fun _ => MarkInv.keeps his1 hm trivial) (fun _ => ?_)
    refine MarkInv.branch (fun _ => MarkInv.keeps his1 hm trivial) (fun _ => ?_)
    refine MarkInv.branch (fun _ => ?_) (fun _ => ?_)
    · rw [Lexer.backup_step]
      exact MarkInv.keeps (his.width 1) hm rfl
    refine MarkInv.branch (fun _ => ?_) (fun _ => ?_)
    · rw [Lexer.backup_step]
      exact MarkInv.keeps (his.width 1) hm trivial
    refine MarkInv.branch (fun _ => MarkInv.keeps his1 hm trivial) (fun _ => ?_)
    refine MarkInv.branch (fun _ => ?_) (fun _ => MarkInv.fails _ his1 hm.2.2)
    obtain ⟨l2, hpk, his2⟩ := his1.peek
    rw [hpk]
    exact MarkInv.branch (fun _ => MarkInv.keeps his2 hm trivial)
      (fun _ => MarkInv.fails _ his2 hm.2.2)

theorem step_marks (L : GoLib) (s : StateFn) (l : Lexer)
    (h : MarkInv (some s, l)) : MarkInv (step L s l) := by
  cases s
  · exact lexStart_marks L l h
  · exact lexSemiColon_marks l h
  · exact lexSpace_marks l h
  · exact lexEndOfLine_marks l h
  · exact lexNumber_marks L l h
  · exact lexString_marks l h
  · exact lexTag_marks L l h
  · exact lexIdentifier_marks L l h
  · exact lexLineComment_marks l h
  · exact lexBlockComment_marks l h

theorem Lexer.run_marks (L : GoLib) (n : Nat) :
    ∀ c, MarkInv c → MarkInv (Lexer.run L n c) := by
  induction n with
  | zero => intro c h; simpa [Lexer.run] using h
  | succ n ih =>
    rintro ⟨s, l⟩ h
    cases s with
    | none => rw [Lexer.run_none]; exact h
    | some s => exact ih _ (step_marks L s l h)

/-- The invariant holds after any number of steps of a scan. -/
theorem MarkInv.of_run (L : GoLib) (input : String) (n : Nat) :
    MarkInv (Lexer.run L n (Lex input)) :=
  Lexer.run_marks L n (Lex input)
    (MarkInv.keeps (Lexer.Is.lex input) ⟨rfl, ParensOK.of_none, fun t ht => by cases ht⟩ rfl)

/-- The STRING tokens sent after any number of steps have the text of a
string. -/
theorem Lexer.run_strings (L : GoLib) (input : String) (n : Nat) :
    ∀ t ∈ (Lexer.run L n (Lex input)).2.items, t.Typ = .STRING → StrText t.Val.data := by
  have h := MarkInv.of_run L input n
  rcases hr : Lexer.run L n (Lex input) with ⟨s, l⟩
  rw [hr] at h
  cases s with
  | none => exact h.1
  | some s =>
    obtain ⟨_, _, _, _, hm, _⟩ := h
    exact hm.2.2

/-- C22: when the scanner, about to read a token after as many LEFTPAREN as
RIGHTPAREN tokens, stands before `)`, the scan halts with the tokens sent so
far, a RIGHTPAREN token and an ERROR token; and in the tokens of a scan that
ends with EOF no initial part has more RIGHTPAREN than LEFTPAREN tokens. -/
theorem C22_right_paren_needs_left_paren (L : GoLib) (input : String) :
    (∀ (n : Nat) (l : Lexer) (pre rest : List Char),
        Lexer.run L n (Lex input) = (some .lexStart, l) →
        l.Is pre [] (')' :: rest) l.parenDepth l.items →
        countTyp .LEFTPAREN l.items = countTyp .RIGHTPAREN l.items →
        Scans L input (l.items ++ [⟨.RIGHTPAREN, byteLen pre, ")"⟩,
          ⟨.ERROR, byteLen (pre ++ [')']), "unexpected right paren"⟩])) ∧
      ∀ sent, Scans L input sent → (∃ ts e, sent = ts ++ [e] ∧ e.Typ = .EOF) →
        ∀ k, countTyp .RIGHTPAREN (sent.take k) ≤ countTyp .LEFTPAREN (sent.take k) := by
  constructor
  · intro n l pre rest hrun his hcount
    have hinv := MarkInv.of_run L input n
    rw [hrun] at hinv
    obtain ⟨_, _, _, _, hm, _⟩ := hinv
    have hd : l.parenDepth = 0 := by
      have := hm.1
      simp only at this
      rw [this, hcount]
      simp
    have his1 := (his.start_one.emit_is .RIGHTPAREN).depth (l.parenDepth - 1)
    have hstep : lexStart L l =
        Lexer.errorf { Lexer.emit { l with width := 1, pos := l.pos + 1 } .RIGHTPAREN with
          parenDepth := l.parenDepth - 1 } "unexpected right paren" := by
      unfold lexStart
      rw [his.next_cons]
      show (if l.parenDepth - 1 < 0 then _ else _) = _
      rw [if_pos (by rw [hd]; decide)]
      rfl
    refine ⟨n + 1, ?_⟩
    unfold lexTokens
    rw [Lexer.run_add, hrun]
    show (match Lexer.run L 0 (lexStart L l) with
      | (none, l) => some l.items
      | (some _, _) => none) = _
    rw [hstep]
    show some (Lexer.errorf _ "unexpected right paren").2.items = _
    rw [his1.errorf_sent]
    simp
  · intro sent hs hlast k
    obtain ⟨fuel, hf⟩ := hs
    unfold lexTokens at hf
    have hinv := MarkInv.of_run L input fuel
    rcases hr : Lexer.run L fuel (Lex input) with ⟨s, l⟩
    rw [hr] at hf hinv
    cases s with
    | some s => cases hf
    | none =>
      cases hf
      exact hinv.2 hlast k

set_option smartUnfolding false in
theorem run_closedParens (L : GoLib) :
    Lexer.run L 2 (Lex "())") =
      (some .lexStart, { input := "())".data, pos := 2, start := 2, width := 1, parenDepth := 0,
                         items := [⟨.LEFTPAREN, 0, "("⟩, ⟨.RIGHTPAREN, 1, ")"⟩] }) := rfl

set_option smartUnfolding false in
theorem scan_parens (L : GoLib) :
    lexTokens L 10 "(())" = some [⟨.LEFTPAREN, 0, "("⟩, ⟨.LEFTPAREN, 1, "("⟩,
      ⟨.RIGHTPAREN, 2, ")"⟩, ⟨.RIGHTPAREN, 3, ")"⟩, ⟨.EOF, 4, ""⟩] := rfl

/-- C22 at `())`, where the second `)` is read after one LEFTPAREN and one
RIGHTPAREN token. -/
theorem C22_right_paren_needs_left_paren_witness :
    Scans GoLib.ascii "())" ([⟨.LEFTPAREN, 0, "("⟩, ⟨.RIGHTPAREN, 1, ")"⟩] ++
      [⟨.RIGHTPAREN, byteLen "()".data, ")"⟩,
        ⟨.ERROR, byteLen ("()".data ++ [')']), "unexpected right paren"⟩]) ∧
      Scans GoLib.ascii "(())" [⟨.LEFTPAREN, 0, "("⟩, ⟨.LEFTPAREN, 1, "("⟩,
        ⟨.RIGHTPAREN, 2, ")"⟩, ⟨.RIGHTPAREN, 3, ")"⟩, ⟨.EOF, 4, ""⟩] ∧
      ∀ k, countTyp .RIGHTPAREN (List.take k [⟨.LEFTPAREN, 0, "("⟩, ⟨.LEFTPAREN, 1, "("⟩,
          ⟨.RIGHTPAREN, 2, ")"⟩, ⟨.RIGHTPAREN, 3, ")"⟩, ⟨.EOF, 4, ""⟩]) ≤
        countTyp .LEFTPAREN (List.take k [⟨.LEFTPAREN, 0, "("⟩, ⟨.LEFTPAREN, 1, "("⟩,
          ⟨.RIGHTPAREN, 2, ")"⟩, ⟨.RIGHTPAREN, 3, ")"⟩, ⟨.EOF, 4, ""⟩]) :=
  ⟨(C22_right_paren_needs_left_paren GoLib.ascii "())").1 2 _ "()".data [] (run_closedParens _)
      ⟨rfl, rfl, rfl, rfl, rfl⟩ rfl,
    ⟨10, scan_parens _⟩,
    (C22_right_paren_needs_left_paren GoLib.ascii "(())").2 _ ⟨10, scan_parens _⟩
      ⟨[⟨.LEFTPAREN, 0, "("⟩, ⟨.LEFTPAREN, 1, "("⟩, ⟨.RIGHTPAREN, 2, ")"⟩,
        ⟨.RIGHTPAREN, 3, ")"⟩], ⟨.EOF, 4, ""⟩, rfl, rfl⟩⟩

/-- C29: a STRING token sent at any point of a scan has a text of at least two
characters that begins and ends with a double quote and holds no other double
quote. -/
theorem C29_string_token_is_quoted_text (L : GoLib) (input : String) (n : Nat) (t : Token)
    (ht : t ∈ (Lexer.run L n (Lex input)).2.items) (hs : t.Typ = .STRING) :
    2 ≤ t.Val.length ∧ t.Val.data.head? = some '"' ∧ t.Val.data.getLast? = some '"' ∧
      ∃ s, t.Val.data = '"' :: (s ++ ['"']) ∧ '"' ∉ s := by
  obtain ⟨s, hs', hno⟩ := Lexer.run_strings L input n t ht hs
  refine ⟨?_, ?_, ?_, s, hs', hno⟩
  · show 2 ≤ t.Val.data.length
    rw [hs']
    simp
  · rw [hs']
    rfl
  · rw [hs']
    rw [← List.cons_append, List.getLast?_append]
    rfl

set_option smartUnfolding false in
theorem run_escapedQuote (L : GoLib) :
    (Lexer.run L 4 (Lex escapedQuoteInput)).2.items = [⟨.STRING, 0, "\"a\\\""⟩] := rfl

/-- C29 at `"a\\"b"`: the STRING token sent first ends at the quote after the
backslash. -/
theorem C29_string_token_is_quoted_text_witness :
    (Lexer.run GoLib.ascii 4 (Lex escapedQuoteInput)).2.items = [⟨.STRING, 0, "\"a\\\""⟩] ∧
      2 ≤ ("\"a\\\"" : String).length ∧ ("\"a\\\"" : String).data.head? = some '"' ∧
      ("\"a\\\"" : String).data.getLast? = some '"' ∧
      ∃ s, ("\"a\\\"" : String).data = '"' :: (s ++ ['"']) ∧ '"' ∉ s :=
  ⟨run_escapedQuote GoLib.ascii,
    C29_string_token_is_quoted_text GoLib.ascii escapedQuoteInput 4 ⟨.STRING, 0, "\"a\\\""⟩
      (by rw [run_escapedQuote]; simp) rfl⟩

/-! ## Termination of the parser -/

theorem Buffer.rest_ok {t : Token} {ts : List Token} (h : Buffer (t :: ts)) : Buffer ts :=
  ⟨fun x hx => h.1 x (List.mem_cons_of_mem _ hx),
    fun a x b e hx => h.2 (t :: a) x b (by rw [e]; rfl) hx⟩

theorem Buffer.drop_left : ∀ (pre : List Token) {rest : List Token},
    Buffer (pre ++ rest) → Buffer rest
  | [], _, h => h
  | _ :: pre, _, h => Buffer.drop_left pre (Buffer.rest_ok h)

theorem Buffer.head_eof {t : Token} {ts : List Token} (h : Buffer (t :: ts))
    (ht : t.Typ = .EOF) : ts = [] :=
  h.2 [] t ts rfl ht

theorem WellFormed.buffer {items : List Token} (h : WellFormed items) : Buffer items := by
  obtain ⟨body, e, rfl, he, hbody⟩ := h
  refine ⟨?_, ?_⟩
  · intro t ht
    rcases List.mem_append.1 ht with hm | hm
    · exact (hbody t hm).2
    · simp only [List.mem_singleton] at hm
      subst hm
      rw [he]
      decide
  · intro a t b hab ht
    by_contra hb
    have hsplit : b = b.dropLast ++ [b.getLast hb] := (List.dropLast_append_getLast hb).symm
    have hab' : body ++ [e] = (a ++ t :: b.dropLast) ++ [b.getLast hb] := by
      rw [hab]
      nth_rewrite 1 [hsplit]
      simp
    have hbody' : body = a ++ t :: b.dropLast := List.append_inj_left' hab' rfl
    exact (hbody t (by rw [hbody']; simp)).1 ht

theorem Before.first {p : Parser} {ts : List Token} (h : Before p ts) :
    (if p.pos ≠ -1 then (p.item >>= fun t => pure (decide (t.Typ = .EOF)))
      else (pure false : Run Bool)) = .ok false := by
  obtain ⟨_, _, h3⟩ := h
  rcases h3 with h3 | ⟨t0, h30, h31⟩
  · rw [if_neg (by simp [h3])]; rfl
  · by_cases hp : p.pos ≠ -1
    · rw [if_pos hp, h30]; simp [h31]
    · rw [if_neg hp]; rfl

/-- With no token left, `next` ends the process. -/
theorem Before.next_none {p : Parser} (h : Before p []) : ∃ d, p.next = .exit d := by
  have hfirst := h.first
  obtain ⟨h1, h2, _⟩ := h
  unfold Parser.next
  rw [hfirst]
  simp only [Run.bind_ok, Bool.false_eq_true, if_false]
  have hlen : p.Items.length ≤ (p.pos + 1).toNat := by
    by_contra hc
    have : (p.Items.drop (p.pos + 1).toNat).length = 0 := by rw [h2]; rfl
    rw [List.length_drop] at this
    omega
  have hge : (p.pos + 1 : Int) ≥ (p.Items.length : Int) := by omega
  rw [if_pos hge]
  exact ⟨_, rfl⟩

theorem Prog.branches {α : Type} {s : Bool} {ts : List Token} {c : Prop} [Decidable c]
    {a b : Run (α × Parser)} (ha : c → Prog s ts a) (hb : ¬c → Prog s ts b) :
    Prog s ts (if c then a else b) := by
  by_cases h : c
  · rw [if_pos h]; exact ha h
  · rw [if_neg h]; exact hb h

theorem Took.shift {s z : Bool} (pre : List Token) {rest : List Token} {q : Parser}
    (h : Took z rest q) (hs : s = true → z = true ∨ 0 < pre.length) :
    Took s (pre ++ rest) q := by
  obtain ⟨a, b, rfl, hb, hlen⟩ := h
  refine ⟨pre ++ a, b, by simp, hb, fun e => ?_⟩
  rcases hs e with h2 | h2
  · have := hlen h2
    simp
    omega
  · simp
    omega

theorem Prog.lift {α : Type} {s z : Bool} (pre : List Token) {rest : List Token}
    {r : Run (α × Parser)} (h : Prog z rest r) (hs : s = true → z = true ∨ 0 < pre.length) :
    Prog s (pre ++ rest) r := by
  cases r with
  | ok a => exact Took.shift pre h hs
  | exit d => trivial
  | blocked => exact h
  | outOfFuel => exact h

theorem Prog.then_run {α β : Type} {y s : Bool} {ts : List Token} {r : Run (α × Parser)}
    {f : α × Parser → Run (β × Parser)} (h : Prog y ts r)
    (hf : ∀ x q, Took y ts q → Prog s ts (f (x, q))) : Prog s ts (r >>= f) := by
  cases r with
  | ok a => exact hf a.1 a.2 h
  | exit d => trivial
  | blocked => exact h
  | outOfFuel => exact h

theorem Prog.after_next {β : Type} {s : Bool} {p : Parser} {ts : List Token} (hb : Before p ts)
    (hbuf : Buffer ts) {f : Token × Parser → Run (β × Parser)}
    (hf : ∀ t rest, ts = t :: rest → Prog s ts (f (t, p.adv))) : Prog s ts (p.next >>= f) := by
  cases ts with
  | nil =>
    obtain ⟨d, hd⟩ := hb.next_none
    rw [hd]
    trivial
  | cons t rest =>
    rw [hb.next (hbuf.1 t (List.mem_cons_self _ _))]
    exact hf t rest rfl

theorem Took.single {p : Parser} {t : Token} {rest : List Token} (s : Bool)
    (hb : Before p (t :: rest)) (ht : t.Typ ≠ .EOF) : Took s (t :: rest) p.adv :=
  ⟨[t], rest, rfl, hb.adv ht, fun _ => Nat.one_pos⟩

theorem Took.nothing {p : Parser} {ts : List Token} (hb : Before p ts) : Took false ts p :=
  ⟨[], ts, rfl, hb, fun h => by cases h⟩

theorem parseStringsLoop_prog (L : GoLib) : ∀ (fuel : Nat) (p : Parser) (ts : List Token)
    (sl : List String), Before p ts → Buffer ts → 2 * ts.length < fuel →
    Prog true ts (parseStringsLoop L fuel p sl) := by
  intro fuel
  induction fuel with
  | zero => intro p ts sl _ _ hf; omega
  | succ fuel ih =>
    intro p ts sl hb hbuf hf
    rw [parseStringsLoop]
    refine Prog.after_next hb hbuf ?_
    intro t rest hts
    subst hts
    refine Prog.branches (fun ht => ?_) (fun _ => trivial)
    have hb1 := hb.adv (by rw [ht]; decide)
    cases strconvUnquote L t.Val with
    | none => trivial
    | some s =>
      refine Prog.lift [t] (z := false) (Prog.after_next hb1 hbuf.rest_ok ?_) (fun _ => Or.inr Nat.one_pos)
      intro t2 rest2 hts2
      subst hts2
      refine Prog.branches (fun ht2 => ?_) (fun _ => Prog.branches (fun ht2 => ?_) (fun _ => trivial))
      · have hb2 := hb1.adv (by rw [ht2]; decide)
        refine Prog.lift [t2] (ih _ _ _ hb2 hbuf.rest_ok.rest_ok ?_) (fun h => by cases h)
        simp only [List.length_cons] at hf
        omega
      · exact Took.single false hb1 (by rw [ht2]; decide)

theorem parseStrings_prog (L : GoLib) (fuel : Nat) (p : Parser) (ts : List Token)
    (hb : Before p ts) (hbuf : Buffer ts) (hf : 2 * ts.length < fuel) :
    Prog true ts (parseStrings L fuel p) := by
  unfold parseStrings
  refine Prog.after_next hb hbuf ?_
  intro t rest hts
  subst hts
  refine Prog.branches (fun ht => ?_) (fun _ => trivial)
  have hb1 := hb.adv (by rw [ht]; decide)
  refine Prog.lift [t] (parseStringsLoop_prog L fuel _ rest [] hb1 hbuf.rest_ok ?_)
    (fun _ => Or.inl rfl)
  simp only [List.length_cons] at hf
  omega

theorem parseArgumentsLoop_prog (L : GoLib) : ∀ (fuel : Nat) (p : Parser) (ts : List Token)
    (al : List Argument), Before p ts → Buffer ts → 2 * ts.length + 1 < fuel →
    Prog false ts (parseArgumentsLoop L fuel p al) := by
  intro fuel
  induction fuel with
  | zero => intro p ts al _ _ hf; omega
  | succ fuel ih =>
    intro p ts al hb hbuf hf
    rw [parseArgumentsLoop]
    refine Prog.after_next hb hbuf ?_
    intro t rest hts
    subst hts
    have hlen : 2 * rest.length + 1 < fuel := by
      simp only [List.length_cons] at hf
      omega
    have hrec : ∀ al', t.Typ ≠ .EOF → Prog false (t :: rest) (parseArgumentsLoop L fuel p.adv al') :=
      fun al' ht => Prog.lift [t] (ih _ _ al' (hb.adv ht) hbuf.rest_ok hlen) (fun h => by cases h)
    refine Prog.branches (fun ht => hrec _ (by rw [ht]; decide)) (fun _ => ?_)
    refine Prog.branches (fun ht => hrec _ (by rw [ht]; decide)) (fun _ => ?_)
    refine Prog.branches (fun ht => ?_) (fun _ => ?_)
    · cases strconvUnquote L t.Val with
      | none => trivial
      | some s => exact hrec _ (by rw [ht]; decide)
    refine Prog.branches (fun ht => ?_) (fun _ => ?_)
    · rw [hb.backup]
      simp only [Run.bind_ok]
      refine Prog.then_run (parseStrings_prog L fuel p _ hb hbuf (by omega)) ?_
      rintro sl q ⟨pre, rest', hts, hbq, hpre⟩
      have hbuf' : Buffer rest' := Buffer.drop_left pre (hts ▸ hbuf)
      have hl := congrArg List.length hts
      simp only [List.length_cons, List.length_append] at hl
      have hp := hpre rfl
      rw [hts]
      exact Prog.lift pre (ih _ _ _ hbq hbuf' (by omega)) (fun h => by cases h)
    refine Prog.branches (fun _ => ?_) (fun _ => trivial)
    rw [hb.backup]
    exact Took.nothing hb

theorem parseArguments_prog (L : GoLib) (fuel : Nat) (p : Parser) (ts : List Token)
    (hb : Before p ts) (hbuf : Buffer ts) (hf : 2 * ts.length + 1 < fuel) :
    Prog false ts (parseArguments L fuel p) :=
  parseArgumentsLoop_prog L fuel p ts [] hb hbuf hf

theorem parseTest_prog_all (L : GoLib) (fuel : Nat) :
    (∀ (p : Parser) (ts : List Token), Before p ts → Buffer ts → 2 * ts.length < fuel →
      Prog true ts (parseTest L fuel p)) ∧
    (∀ (p : Parser) (ts : List Token), Before p ts → Buffer ts → 2 * ts.length < fuel →
      Prog true ts (parseTests L fuel p)) ∧
    (∀ (p : Parser) (ts : List Token) (tl : List Test), Before p ts → Buffer ts →
      2 * ts.length + 1 < fuel → Prog true ts (parseTestsLoop L fuel p tl)) := by
  induction fuel with
  | zero =>
    exact ⟨fun _ _ _ _ hf => by omega, fun _ _ _ _ hf => by omega, fun _ _ _ _ _ hf => by omega⟩
  | succ fuel ih =>
    obtain ⟨ih1, ih2, ih3⟩ := ih
    refine ⟨?_, ?_, ?_⟩
    · intro p ts hb hbuf hf
      rw [parseTest]
      refine Prog.after_next hb hbuf ?_
      intro t rest hts
      subst hts
      have hlen : 2 * rest.length + 1 < fuel := by
        simp only [List.length_cons] at hf
        omega
      refine Prog.branches (fun ht => ?_) (fun _ => ?_)
      · have hb1 := hb.adv (by rw [ht]; decide)
        exact Prog.then_run (Prog.lift [t] (ih1 _ _ hb1 hbuf.rest_ok (by omega)) (fun _ => Or.inl rfl))
          (fun _ _ h => h)
      refine Prog.branches (fun ht => ?_) (fun _ => ?_)
      · have hb1 := hb.adv (by rw [ht]; decide)
        exact Prog.then_run (Prog.lift [t] (ih2 _ _ hb1 hbuf.rest_ok (by omega)) (fun _ => Or.inl rfl))
          (fun _ _ h => h)
      refine Prog.branches (fun ht => ?_) (fun _ => ?_)
      · have hb1 := hb.adv (by rw [ht]; decide)
        exact Prog.then_run (Prog.lift [t] (ih2 _ _ hb1 hbuf.rest_ok (by omega)) (fun _ => Or.inl rfl))
          (fun _ _ h => h)
      refine Prog.branches (fun ht => Took.single true hb (by rw [ht]; decide)) (fun _ => ?_)
      refine Prog.branches (fun ht => Took.single true hb (by rw [ht]; decide)) (fun _ => ?_)
      refine Prog.branches (fun ht => ?_) (fun _ => trivial)
      have hb1 := hb.adv (by rw [ht]; decide)
      exact Prog.then_run (Prog.lift [t] (parseArguments_prog L fuel _ _ hb1 hbuf.rest_ok hlen)
        (fun _ => Or.inr Nat.one_pos)) (fun _ _ h => h)
    · intro p ts hb hbuf hf
      rw [parseTests]
      refine Prog.after_next hb hbuf ?_
      intro t rest hts
      subst hts
      refine Prog.branches (fun ht => ?_) (fun _ => trivial)
      have hb1 := hb.adv (by rw [ht]; decide)
      refine Prog.lift [t] (ih3 _ _ [] hb1 hbuf.rest_ok ?_) (fun _ => Or.inl rfl)
      simp only [List.length_cons] at hf
      omega
    · intro p ts tl hb hbuf hf
      rw [parseTestsLoop]
      refine Prog.then_run (ih1 p ts hb hbuf (by omega)) ?_
      rintro x q ⟨pre, rest, hts, hbq, hpre⟩
      subst hts
      have hbuf' : Buffer rest := Buffer.drop_left pre hbuf
      have hp := hpre rfl
      simp only [List.length_append] at hf
      refine Prog.lift pre (z := false) (Prog.after_next hbq hbuf' ?_) (fun _ => Or.inr hp)
      intro t2 rest2 hts2
      subst hts2
      simp only [List.length_cons] at hf
      refine Prog.branches (fun ht2 => ?_) (fun _ => Prog.branches (fun ht2 => ?_) (fun _ => trivial))
      · have hb2 := hbq.adv (by rw [ht2]; decide)
        exact Prog.lift [t2] (ih3 _ _ _ hb2 hbuf'.rest_ok (by omega)) (fun h => by cases h)
      · exact Took.single false hbq (by rw [ht2]; decide)

/-- After `accept`, the parser has either ended the process, or returned false,
or taken a token. -/
theorem accept_took {q : Parser} {rest : List Token} (hb : Before q rest)
    (hbuf : Buffer rest) (valid : TokenTypes) (hv : TokenType.EOF ∉ valid) :
    (∃ d, q.accept valid = .exit d) ∨ (∃ q', q.accept valid = .ok (false, q')) ∨
      ∃ q', q.accept valid = .ok (true, q') ∧ Took true rest q' := by
  unfold Parser.accept
  cases rest with
  | nil =>
    obtain ⟨d, hd⟩ := hb.next_none
    rw [hd]
    exact Or.inl ⟨d, rfl⟩
  | cons t rest =>
    rw [hb.next (hbuf.1 t (List.mem_cons_self _ _))]
    simp only [Run.bind_ok]
    by_cases hany : valid.any (fun tokTyp => decide (t.Typ = tokTyp)) = true
    · rw [if_pos hany]
      refine Or.inr (Or.inr ⟨_, rfl, Took.single true hb ?_⟩)
      intro ht
      rw [List.any_eq_true] at hany
      obtain ⟨x, hx, hxe⟩ := hany
      have : t.Typ = x := by simpa using hxe
      exact hv (by rw [← ht, this]; exact hx)
    · rw [if_neg hany, hb.backup]
      exact Or.inr (Or.inl ⟨_, rfl⟩)

/-- The end of a stop or generic command: `accept` of a semicolon, then what
follows on false and on true. -/
theorem Prog.after_accept {β : Type} {q : Parser} {rest : List Token} (hb : Before q rest)
    (hbuf : Buffer rest) {f : Bool × Parser → Run (β × Parser)}
    (hfalse : ∀ q', Prog true rest (f (false, q')))
    (htrue : ∀ q', Took true rest q' → Prog true rest (f (true, q'))) :
    Prog true rest (q.accept [.SEMICOLON] >>= f) := by
  rcases accept_took hb hbuf [.SEMICOLON] (by decide) with ⟨e, h⟩ | ⟨q', h⟩ | ⟨q', h, ht⟩
  · rw [h]; trivial
  · rw [h]; exact hfalse q'
  · rw [h]; exact htrue q' ht

theorem parseCommand_prog_all (L : GoLib) (fuel : Nat) :
    (∀ (p : Parser) (ts : List Token), Before p ts → Buffer ts → 2 * ts.length < fuel →
      Prog true ts (parseCommand L fuel p)) ∧
    (∀ (p : Parser) (ts : List Token), Before p ts → Buffer ts → 2 * ts.length < fuel →
      Prog true ts (parseBlock L fuel p)) ∧
    (∀ (p : Parser) (ts : List Token) (cl : List Command), Before p ts → Buffer ts →
      2 * ts.length + 1 < fuel → Prog true ts (parseBlockLoop L fuel p cl)) := by
  induction fuel with
  | zero =>
    exact ⟨fun _ _ _ _ hf => by omega, fun _ _ _ _ hf => by omega, fun _ _ _ _ _ hf => by omega⟩
  | succ fuel ih =>
    obtain ⟨ih1, ih2, ih3⟩ := ih
    refine ⟨?_, ?_, ?_⟩
    · intro p ts hb hbuf hf
      rw [parseCommand]
      refine Prog.after_next hb hbuf ?_
      intro t rest hts
      subst hts
      have hlen : 2 * rest.length + 1 < fuel := by
        simp only [List.length_cons] at hf
        omega
      refine Prog.branches (fun ht => ?_) (fun _ => ?_)
      · have hb1 := hb.adv (by rcases ht with h | h | h <;> rw [h] <;> decide)
        refine Prog.then_run (y := true) ?_ ?_
        · refine Prog.branches (fun _ => ?_) (fun _ => Took.single true hb
            (by rcases ht with h | h | h <;> rw [h] <;> decide))
          exact Prog.then_run (Prog.lift [t] ((parseTest_prog_all L fuel).1 _ _ hb1 hbuf.rest_ok
            (by omega)) (fun _ => Or.inl rfl)) (fun _ _ h => h)
        · rintro test q ⟨pre, rest', hts, hbq, hpre⟩
          have hbuf' : Buffer rest' := Buffer.drop_left pre (hts ▸ hbuf)
          have hl := congrArg List.length hts
          simp only [List.length_cons, List.length_append] at hl
          have hp := hpre rfl
          rw [hts]
          exact Prog.then_run (Prog.lift pre (ih2 _ _ hbq hbuf' (by omega)) (fun _ => Or.inl rfl))
            (fun _ _ h => h)
      refine Prog.branches (fun ht => Took.single true hb (by rw [ht]; decide)) (fun _ => ?_)
      refine Prog.branches (fun ht => Took.single true hb (by rw [ht]; decide)) (fun _ => ?_)
      refine Prog.branches (fun ht => ?_) (fun _ => ?_)
      · have hb1 := hb.adv (by rw [ht]; decide)
        exact Prog.lift [t] (Prog.after_accept hb1 hbuf.rest_ok (fun _ => trivial) (fun _ h => h))
          (fun _ => Or.inl rfl)
      refine Prog.branches (fun ht => ?_) (fun _ => trivial)
      have hb1 := hb.adv (by rw [ht]; decide)
      refine Prog.then_run (y := true) (Prog.lift [t] (parseArguments_prog L fuel _ _ hb1 hbuf.rest_ok hlen)
        (fun _ => Or.inr Nat.one_pos)) ?_
      rintro al q ⟨pre, rest', hts, hbq, hpre⟩
      have hbuf' : Buffer rest' := Buffer.drop_left pre (hts ▸ hbuf)
      rw [hts]
      exact Prog.lift pre (Prog.after_accept hbq hbuf' (fun _ => trivial) (fun _ h => h))
        (fun _ => Or.inl rfl)
    · intro p ts hb hbuf hf
      rw [parseBlock]
      refine Prog.after_next hb hbuf ?_
      intro t rest hts
      subst hts
      refine Prog.branches (fun ht => ?_) (fun _ => trivial)
      have hb1 := hb.adv (by rw [ht]; decide)
      refine Prog.lift [t] (ih3 _ _ [] hb1 hbuf.rest_ok ?_) (fun _ => Or.inl rfl)
      simp only [List.length_cons] at hf
      omega
    · intro p ts cl hb hbuf hf
      rw [parseBlockLoop]
      refine Prog.then_run (ih1 p ts hb hbuf (by omega)) ?_
      rintro c q ⟨pre, rest, hts, hbq, hpre⟩
      subst hts
      have hbuf' : Buffer rest := Buffer.drop_left pre hbuf
      have hp := hpre rfl
      simp only [List.length_append] at hf
      refine Prog.lift pre (z := true) (Prog.after_next hbq hbuf' ?_) (fun _ => Or.inl rfl)
      intro t2 rest2 hts2
      refine Prog.branches (fun ht2 => ?_) (fun _ => ?_)
      · subst hts2
        exact Took.single true hbq (by rw [ht2]; decide)
      · rw [hbq.backup]
        exact ih3 _ _ _ hbq hbuf' (by omega)

/-- With enough budget `parseFile` ends, by a value or by `errorf`. -/
theorem parseFile_halts (L : GoLib) (fuel : Nat) (p : Parser) (ts : List Token)
    (hb : Before p ts) (hbuf : Buffer ts) (hf : 2 * ts.length < fuel) :
    Run.Halted (parseFile L fuel p) := by
  unfold parseFile
  cases ts with
  | nil =>
    obtain ⟨d, hd⟩ := hb.next_none
    rw [hd]
    exact Or.inr ⟨d, rfl⟩
  | cons t rest =>
    rw [hb.next (hbuf.1 t (List.mem_cons_self _ _))]
    simp only [Run.bind_ok]
    split
    · rw [hb.backup]
      simp only [Run.bind_ok]
      have h := (parseCommand_prog_all L fuel).1 p _ hb hbuf hf
      cases hr : parseCommand L fuel p with
      | ok a => exact Or.inl ⟨_, rfl⟩
      | exit d => exact Or.inr ⟨d, rfl⟩
      | blocked => rw [hr] at h; exact absurd h id
      | outOfFuel => rw [hr] at h; exact absurd h id
    · split
      · exact Or.inl ⟨_, rfl⟩
      · exact Or.inr ⟨_, rfl⟩

/-- C28: on a token buffer without ERROR token whose only EOF token is the
last, `parseFile` ends within a budget of twice the number of tokens and one,
by a value or by `errorf`; and within such a budget each of `parseCommand`,
`parseBlock`, `parseTest`, `parseTests`, `parseArguments` and `parseStrings`,
started before tokens `ts` of such a buffer, ends by `errorf` or by a value
with the parser further in `ts`, at least one token further for all but
`parseArguments`, and not standing on the EOF token. -/
theorem C28_parser_terminates (L : GoLib) (name : String) (items : List Token)
    (hwf : WellFormed items) (fuel : Nat) (hf : 2 * items.length < fuel) :
    Run.Halted (parseFile L fuel { Parser.init name with Items := items }) ∧
      ∀ (p : Parser) (ts : List Token), Before p ts → Buffer ts → 2 * ts.length + 1 < fuel →
        Prog true ts (parseCommand L fuel p) ∧ Prog true ts (parseBlock L fuel p) ∧
        (∀ cl, Prog true ts (parseBlockLoop L fuel p cl)) ∧
        Prog true ts (parseTest L fuel p) ∧ Prog true ts (parseTests L fuel p) ∧
        (∀ tl, Prog true ts (parseTestsLoop L fuel p tl)) ∧
        Prog false ts (parseArguments L fuel p) ∧ Prog true ts (parseStrings L fuel p) := by
  refine ⟨parseFile_halts L fuel _ items (Before.init name items) hwf.buffer hf, ?_⟩
  intro p ts hb hbuf h
  have hc := parseCommand_prog_all L fuel
  have ht := parseTest_prog_all L fuel
  exact ⟨hc.1 p ts hb hbuf (by omega), hc.2.1 p ts hb hbuf (by omega),
    fun cl => hc.2.2 p ts cl hb hbuf h, ht.1 p ts hb hbuf (by omega),
    ht.2.1 p ts hb hbuf (by omega), fun tl => ht.2.2 p ts tl hb hbuf h,
    parseArguments_prog L fuel p ts hb hbuf h, parseStrings_prog L fuel p ts hb hbuf (by omega)⟩

theorem wellFormed_stopItems : WellFormed stopItems :=
  ⟨[⟨.STOP, 0, "stop"⟩, ⟨.SEMICOLON, 4, ";"⟩], ⟨.EOF, 5, ""⟩, rfl, rfl, by
    intro t ht
    simp only [List.mem_cons, List.mem_singleton, List.not_mem_nil, or_false] at ht
    rcases ht with rfl | rfl <;> exact ⟨by decide, by decide⟩⟩

theorem wellFormed_ifItems : WellFormed ifItems :=
  ⟨[⟨.IF, 0, "if"⟩], ⟨.EOF, 2, ""⟩, rfl, rfl, by
    intro t ht
    simp only [List.mem_singleton] at ht
    subst ht
    exact ⟨by decide, by decide⟩⟩

set_option smartUnfolding false in
theorem eval_stopItems (L : GoLib) :
    (parseFile L 7 { Parser.init "t" with Items := stopItems }).Sat
      (fun q => q.List = [.StopCommand]) ∧
    parseFile L 5 { Parser.init "t" with Items := ifItems } = .exit ⟨"Invalid Test statement", ""⟩ := by
  constructor
  · intro a h
    cases h
    rfl
  · rfl

/-- C28 at the tokens of `stop;`, where `parseFile` returns, and at the tokens
`if` and EOF, where the parser reads the EOF token and ends by `errorf`. -/
theorem C28_parser_terminates_witness :
    WellFormed stopItems ∧
      Run.Halted (parseFile GoLib.ascii 7 { Parser.init "t" with Items := stopItems }) ∧
      WellFormed ifItems ∧
      Run.Halted (parseFile GoLib.ascii 5 { Parser.init "t" with Items := ifItems }) ∧
      parseFile GoLib.ascii 5 { Parser.init "t" with Items := ifItems } =
        .exit ⟨"Invalid Test statement", ""⟩ :=
  ⟨wellFormed_stopItems,
    (C28_parser_terminates GoLib.ascii "t" stopItems wellFormed_stopItems 7 (by decide)).1,
    wellFormed_ifItems,
    (C28_parser_terminates GoLib.ascii "t" ifItems wellFormed_ifItems 5 (by decide)).1,
    (eval_stopItems GoLib.ascii).2⟩

/-! ## Commands without a semicolon -/

/-- The tokens of a scan that ends with EOF are all received. -/
theorem receive_of_scan {L : GoLib} {text : String} {sent : List Token}
    (hscan : Scans L text sent) (hend : ∃ ts e, sent = ts ++ [e] ∧ e.Typ = .EOF) :
    receive sent = some sent ∧ ∀ t ∈ sent, t.Typ ≠ .ERROR := by
  obtain ⟨_, pre, last, hsent, hpre, _⟩ := hscan.sent
  obtain ⟨ts, e, hsent', he⟩ := hend
  have hlast : last = e := by
    have := List.append_inj_right' (hsent.symm.trans hsent') rfl
    simpa using this
  subst hlast
  refine ⟨?_, ?_⟩
  · rw [hsent, receive_plain pre last hpre, if_pos he]
  · intro t ht
    rw [hsent] at ht
    rcases List.mem_append.1 ht with hm | hm
    · exact (hpre t hm).2
    · simp only [List.mem_singleton] at hm
      subst hm
      rw [he]
      decide

/-- After an argument sequence, a token that starts no argument and is no
terminator ends the process. -/
theorem parseArgumentsLoop_rejects (L : GoLib) {args : List Argument} {toks : List Token}
    (h : ArgsToks L args toks) :
    ∀ (p : Parser) (bad : Token) (rest : List Token) (al : List Argument) (fuel : Nat),
      Before p (toks ++ bad :: rest) → atTerminator bad = false →
      bad.Typ ≠ .NUMBER → bad.Typ ≠ .TAG → bad.Typ ≠ .STRING → bad.Typ ≠ .LEFTBRACKET →
      bad.Typ ≠ .ERROR → toks.length < fuel →
      ∃ d, parseArgumentsLoop L fuel p al = .exit d := by
  induction h with
  | nil =>
    intro p bad rest al fuel hb hterm h1 h2 h3 h4 h5 hf
    obtain ⟨n, rfl⟩ : ∃ n, fuel = n + 1 := ⟨fuel - 1, by omega⟩
    have hb' : Before p (bad :: rest) := hb
    rw [parseArgumentsLoop, Before.next hb' h5]
    simp only [Run.bind_ok, h1, h2, h3, h4, if_false, hterm, Bool.false_eq_true]
    exact ⟨_, rfl⟩
  | cons a as ta tas ha _ ih =>
    intro p bad rest al fuel hb hterm h1 h2 h3 h4 h5 hf
    obtain ⟨n, rfl⟩ : ∃ n, fuel = n + 1 := ⟨fuel - 1, by omega⟩
    cases ha with
    | number t ht =>
      have hb' : Before p (t :: (tas ++ bad :: rest)) := by simpa using hb
      obtain ⟨d, hd⟩ := ih p.adv bad rest (al ++ [.NumberArgument t.Val]) n
        (Before.adv hb' (by rw [ht]; simp)) hterm h1 h2 h3 h4 h5 (by simp at hf; omega)
      refine ⟨d, ?_⟩
      rw [parseArgumentsLoop, Before.next hb' (by rw [ht]; simp)]
      simp only [Run.bind_ok, ht, if_true]
      rw [hd]
    | tag t ht =>
      have hb' : Before p (t :: (tas ++ bad :: rest)) := by simpa using hb
      obtain ⟨d, hd⟩ := ih p.adv bad rest (al ++ [.TagArgument t.Val]) n
        (Before.adv hb' (by rw [ht]; simp)) hterm h1 h2 h3 h4 h5 (by simp at hf; omega)
      refine ⟨d, ?_⟩
      rw [parseArgumentsLoop, Before.next hb' (by rw [ht]; simp)]
      simp only [Run.bind_ok, ht, reduceCtorEq, if_false, if_true]
      rw [hd]
    | string t s ht hs =>
      have hb' : Before p (t :: (tas ++ bad :: rest)) := by simpa using hb
      obtain ⟨d, hd⟩ := ih p.adv bad rest (al ++ [.StringArgument [s]]) n
        (Before.adv hb' (by rw [ht]; simp)) hterm h1 h2 h3 h4 h5 (by simp at hf; omega)
      refine ⟨d, ?_⟩
      rw [parseArgumentsLoop, Before.next hb' (by rw [ht]; simp)]
      simp only [Run.bind_ok, ht, reduceCtorEq, if_false, if_true, hs]
      rw [hd]
    | list lb ss ts hlb hss =>
      have hb' : Before p (lb :: (ts ++ (tas ++ bad :: rest))) := by simpa using hb
      have hlen := hss.length_le
      simp only [List.length_append, List.length_cons] at hf
      obtain ⟨q1, hq1, hbq1⟩ := parseStrings_complete L lb hlb hss p (tas ++ bad :: rest) n hb'
        (by omega)
      obtain ⟨d, hd⟩ := ih q1 bad rest (al ++ [.StringArgument ss]) n hbq1 hterm h1 h2 h3 h4 h5
        (by omega)
      refine ⟨d, ?_⟩
      rw [parseArgumentsLoop, Before.next hb' (by rw [hlb]; simp)]
      simp only [Run.bind_ok, hlb, reduceCtorEq, if_false, if_true]
      rw [Before.backup hb']
      simp only [Run.bind_ok]
      rw [hq1]
      simp only [Run.bind_ok]
      rw [hd]

/-- A `stop` that is the first command read and that no `;` follows ends the
process. -/
theorem parseFile_stop_unterminated (L : GoLib) (fuel : Nat) (p : Parser) (st t2 : Token)
    (rest : List Token) (hb : Before p (st :: t2 :: rest)) (hst : st.Typ = .STOP)
    (h2 : t2.Typ ≠ .SEMICOLON) (h2e : t2.Typ ≠ .ERROR) :
    ∃ d, parseFile L (fuel + 1) p = .exit d := by
  have hstE : st.Typ ≠ .ERROR := by rw [hst]; simp
  have hb1 : Before p.adv (t2 :: rest) := Before.adv hb (by rw [hst]; simp)
  have hacc : p.adv.accept [.SEMICOLON] = .ok (false, p.adv) := by
    unfold Parser.accept
    rw [Before.next hb1 h2e]
    simp only [Run.bind_ok]
    rw [if_neg (by simpa using h2), Before.backup hb1]
    rfl
  have hcmd : parseCommand L (fuel + 1) p = .exit ⟨"Invalid command", st.Val⟩ := by
    rw [parseCommand, Before.next hb hstE]
    simp only [Run.bind_ok, hst, reduceCtorEq, or_self, if_false, if_true]
    rw [hacc]
    rfl
  refine ⟨⟨"Invalid command", st.Val⟩, ?_⟩
  unfold parseFile
  rw [Before.next hb hstE]
  have hcmdT : st.IsCommand = true := by simp [Token.IsCommand, hst, TokenType.toNat]
  simp only [Run.bind_ok, hcmdT, true_or, if_true]
  rw [Before.backup hb]
  simp only [Run.bind_ok]
  rw [hcmd]
  rfl

/-- An identifier with its arguments that is the first command read and that
no `;` follows ends the process. -/
theorem parseFile_generic_unterminated (L : GoLib) (fuel : Nat) (p : Parser) (id t2 : Token)
    (toks rest : List Token) (al : List Argument)
    (hb : Before p (id :: (toks ++ t2 :: rest))) (hid : id.Typ = .IDENTIFIER)
    (hargs : ArgsToks L al toks) (h2 : t2.Typ ≠ .SEMICOLON) (hn : t2.Typ ≠ .NUMBER)
    (ht : t2.Typ ≠ .TAG) (hs : t2.Typ ≠ .STRING) (hl : t2.Typ ≠ .LEFTBRACKET)
    (he : t2.Typ ≠ .ERROR) (hf : toks.length < fuel) :
    ∃ d, parseFile L (fuel + 1) p = .exit d := by
  have hidE : id.Typ ≠ .ERROR := by rw [hid]; simp
  have hb1 : Before p.adv (toks ++ t2 :: rest) := Before.adv hb (by rw [hid]; simp)
  have hcmd : ∃ d, parseCommand L (fuel + 1) p = .exit d := by
    rw [parseCommand, Before.next hb hidE]
    simp only [Run.bind_ok, hid, reduceCtorEq, or_self, if_false, if_true]
    unfold parseArguments
    cases hterm : atTerminator t2 with
    | true =>
      obtain ⟨q, hq, hbq⟩ := parseArgumentsLoop_complete L hargs p.adv t2 rest [] fuel hb1 hterm hf
      rw [hq]
      simp only [Run.bind_ok]
      have hacc : q.accept [.SEMICOLON] = .ok (false, q) := by
        unfold Parser.accept
        rw [Before.next hbq he]
        simp only [Run.bind_ok]
        rw [if_neg (by simpa using h2), Before.backup hbq]
        rfl
      rw [hacc]
      exact ⟨_, rfl⟩
    | false =>
      obtain ⟨d, hd⟩ := parseArgumentsLoop_rejects L hargs p.adv t2 rest [] fuel hb1 hterm
        hn ht hs hl he hf
      rw [hd]
      exact ⟨d, rfl⟩
  obtain ⟨d, hd⟩ := hcmd
  refine ⟨d, ?_⟩
  unfold parseFile
  rw [Before.next hb hidE]
  simp only [Run.bind_ok, hid, or_true, if_true]
  rw [Before.backup hb]
  simp only [Run.bind_ok]
  rw [hd]
  rfl

/-- What `Parse` returns on the tokens of a scan that ends with EOF, when
`parseFile` ends the process on them. -/
theorem Returns_exit_of_scan (L : GoLib) (name : String) {text : String} {sent : List Token}
    (hscan : Scans L text sent) (hend : ∃ ts e, sent = ts ++ [e] ∧ e.Typ = .EOF) (k : Nat)
    (h : ∀ fuel, k ≤ fuel →
      ∃ d, parseFile L (fuel + 1) { Parser.init name with Items := sent } = .exit d) :
    ∃ d, Returns L name text (.exit d) := by
  obtain ⟨hrecv, _⟩ := receive_of_scan hscan hend
  obtain ⟨fuel0, h0⟩ := hscan
  have hlex := lexTokens_mono L h0 (Nat.le_succ_of_le (Nat.le_max_left fuel0 k))
  obtain ⟨d, hd⟩ := h (max fuel0 k) (Nat.le_max_right fuel0 k)
  refine ⟨d, by simp, max fuel0 k + 1, ?_⟩
  rw [Parse_of_tokens L name hlex]
  unfold Parser.run
  rw [hrecv]
  show (parseFile L (max fuel0 k + 1) { Parser.init name with Items := sent } >>= _) = _
  rw [hd]
  rfl

set_option smartUnfolding false in
theorem eval_stopStop (L : GoLib) :
    Parse L 50 "t" stopStopInput = .ok { Name := "t", List := [.StopCommand] } ∧
      lexTokens L 50 stopStopInput = some [⟨.STOP, 0, "stop"⟩, ⟨.SEMICOLON, 4, ";"⟩,
        ⟨.STOP, 6, "stop"⟩, ⟨.EOF, 10, ""⟩] := ⟨rfl, rfl⟩

set_option smartUnfolding false in
theorem scan_unterminated (L : GoLib) :
    lexTokens L 50 "stop" = some [⟨.STOP, 0, "stop"⟩, ⟨.EOF, 4, ""⟩] ∧
      lexTokens L 50 "keep :flags 1" = some [⟨.IDENTIFIER, 0, "keep"⟩, ⟨.TAG, 5, ":flags"⟩,
        ⟨.NUMBER, 12, "1"⟩, ⟨.EOF, 13, ""⟩] := ⟨rfl, rfl⟩

/-- C9 (defect of the code, the one of C1): `parseFile` reads one command, so a
command after the first is never read and a missing `;` after it is not
reported: on `stop; stop`, whose second `stop` is followed by EOF, `Parse`
returns a file with the first `stop`.  For the command that is read the claim
holds: when the scan ends with EOF and begins with `stop` and a token that is
no `;`, or with an identifier, its arguments and a token that starts no
argument and is no `;`, `Parse` ends with a report; `parseCommand`, which also
reads the commands of blocks, ends with a report when `stop`, or an identifier
with its arguments, is not followed by `;`, and returns a StopCommand or
GenericCommand only after it has taken a `;`. -/
theorem C9_semicolon_checked_on_first_command_only (L : GoLib) :
    Returns L "t" stopStopInput (.ok { Name := "t", List := [.StopCommand] }) ∧
      Scans L stopStopInput [⟨.STOP, 0, "stop"⟩, ⟨.SEMICOLON, 4, ";"⟩, ⟨.STOP, 6, "stop"⟩,
        ⟨.EOF, 10, ""⟩] ∧
      (∀ (name text : String) (st t2 : Token) (rest : List Token),
        Scans L text (st :: t2 :: rest) →
        (∃ ts e, st :: t2 :: rest = ts ++ [e] ∧ e.Typ = .EOF) →
        st.Typ = .STOP → t2.Typ ≠ .SEMICOLON →
        ∃ d, Returns L name text (.exit d)) ∧
      (∀ (name text : String) (id t2 : Token) (toks rest : List Token) (al : List Argument),
        Scans L text (id :: (toks ++ t2 :: rest)) →
        (∃ ts e, id :: (toks ++ t2 :: rest) = ts ++ [e] ∧ e.Typ = .EOF) →
        id.Typ = .IDENTIFIER → ArgsToks L al toks →
        t2.Typ ≠ .NUMBER → t2.Typ ≠ .TAG → t2.Typ ≠ .STRING → t2.Typ ≠ .LEFTBRACKET →
        t2.Typ ≠ .SEMICOLON →
        ∃ d, Returns L name text (.exit d)) ∧
      (∀ (fuel : Nat) (p p1 : Parser) (t : Token),
        p.next = .ok (t, p1) → t.Typ = .STOP →
        (¬ ∃ t2 q, p1.next = .ok (t2, q) ∧ t2.Typ = .SEMICOLON) →
        ∃ d, parseCommand L (fuel + 1) p = .exit d) ∧
      (∀ (fuel : Nat) (p p1 p2 : Parser) (t : Token) (al : List Argument),
        p.next = .ok (t, p1) → t.Typ = .IDENTIFIER →
        parseArguments L fuel p1 = .ok (al, p2) →
        (¬ ∃ t2 q, p2.next = .ok (t2, q) ∧ t2.Typ = .SEMICOLON) →
        ∃ d, parseCommand L (fuel + 1) p = .exit d) ∧
      (∀ (fuel : Nat) (p q : Parser) (c : Command),
        parseCommand L fuel p = .ok (c, q) →
        (c = .StopCommand ∨ ∃ name al, c = .GenericCommand name al) →
        ∃ t, q.item = .ok t ∧ t.Typ = .SEMICOLON) := by
  have hold := parseCommand_needs_semicolon L
  refine ⟨⟨by simp, 50, (eval_stopStop L).1⟩, ⟨50, (eval_stopStop L).2⟩, ?_, ?_,
    hold.1, hold.2.1, hold.2.2.1⟩
  · intro name text st t2 rest hscan hend hst h2
    have h2e := (receive_of_scan hscan hend).2 t2 (by simp)
    refine Returns_exit_of_scan L name hscan hend 0 (fun fuel _ => ?_)
    exact parseFile_stop_unterminated L fuel _ st t2 rest (Before.init name _) hst h2 h2e
  · intro name text id t2 toks rest al hscan hend hid hargs hn ht hs hl h2
    have h2e := (receive_of_scan hscan hend).2 t2 (by simp)
    refine Returns_exit_of_scan L name hscan hend (toks.length + 1) (fun fuel hf => ?_)
    exact parseFile_generic_unterminated L fuel _ id t2 toks rest al (Before.init name _) hid
      hargs h2 hn ht hs hl h2e (by omega)

/-- C9 at `stop` and at `keep :flags 1`, each followed by the end of the
input. -/
theorem C9_semicolon_checked_on_first_command_only_witness :
    (∃ d, Returns GoLib.ascii "t" "stop" (.exit d)) ∧
      ∃ d, Returns GoLib.ascii "t" "keep :flags 1" (.exit d) :=
  ⟨(C9_semicolon_checked_on_first_command_only GoLib.ascii).2.2.1 "t" "stop" ⟨.STOP, 0, "stop"⟩
      ⟨.EOF, 4, ""⟩ [] ⟨50, (scan_unterminated _).1⟩ ⟨[⟨.STOP, 0, "stop"⟩], ⟨.EOF, 4, ""⟩, rfl, rfl⟩
      rfl (by decide),
    (C9_semicolon_checked_on_first_command_only GoLib.ascii).2.2.2.1 "t" "keep :flags 1"
      ⟨.IDENTIFIER, 0, "keep"⟩ ⟨.EOF, 13, ""⟩ [⟨.TAG, 5, ":flags"⟩, ⟨.NUMBER, 12, "1"⟩] []
      [.TagArgument ":flags", .NumberArgument "1"] ⟨50, (scan_unterminated _).2⟩
      ⟨[⟨.IDENTIFIER, 0, "keep"⟩, ⟨.TAG, 5, ":flags"⟩, ⟨.NUMBER, 12, "1"⟩], ⟨.EOF, 13, ""⟩, rfl, rfl⟩
      rfl
      (ArgsToks.cons _ _ [_] [_] (ArgToks.tag ⟨.TAG, 5, ":flags"⟩ rfl)
        (ArgsToks.cons _ _ [_] [] (ArgToks.number ⟨.NUMBER, 12, "1"⟩ rfl) ArgsToks.nil))
      (by decide) (by decide) (by decide) (by decide) (by decide)⟩

/-! ## The position after `accept` -/

theorem Before.off_eof {p : Parser} {ts : List Token} (h : Before p ts) : ¬ p.atEOF := by
  rintro ⟨hne, t, hi, ht⟩
  rcases h.2.2 with h3 | ⟨t0, h30, h31⟩
  · exact hne h3
  · rw [hi] at h30
    cases h30
    exact h31 ht

/-- After `next` has returned a token that is no EOF token, the parser stands
on that token. -/
theorem next_off_eof_after (p p1 : Parser) (t : Token) (h : p.next = .ok (t, p1))
    (ht : t.Typ ≠ .EOF) : ¬ p1.atEOF := by
  rintro ⟨_, t1, hi, ht1⟩
  rw [Parser.next_item p p1 t h] at hi
  cases hi
  exact ht ht1

/-- A parser that `parseArguments` returns does not stand on an EOF token. -/
theorem parseArguments_off_eof (L : GoLib) (fuel : Nat) (p q : Parser) (ts : List Token)
    (al : List Argument) (hb : Before p ts) (hbuf : Buffer ts)
    (h : parseArguments L fuel p = .ok (al, q)) : ¬ q.atEOF := by
  have hle : Run.le (parseArguments L fuel p)
      (parseArguments L (max fuel (2 * ts.length + 2)) p) :=
    Run.le_of_step (fun k => parseArguments L k p)
      (fun k => parseArguments_step L k p) fuel (max fuel (2 * ts.length + 2))
      (Nat.le_max_left _ _)
  have hbig : parseArguments L (max fuel (2 * ts.length + 2)) p = .ok (al, q) := by
    have := Run.eq_of_le hle (by rw [h]; simp)
    rw [this, h]
  have hprog := parseArguments_prog L (max fuel (2 * ts.length + 2)) p ts hb hbuf
    (by have := Nat.le_max_right fuel (2 * ts.length + 2); omega)
  rw [hbig] at hprog
  obtain ⟨_, rest, _, hbq, _⟩ := hprog
  exact hbq.off_eof

/-- C27, as the code has it: a call of `accept` that returns false leaves the
parser as it was whenever the parser does not stand on an EOF token, and this
is so at both calls of `accept` in `parseCommand`: after `next` has returned a
`stop` token, and after `parseArguments` has returned.  On an EOF token a call
that returns false leaves the parser one token back. -/
theorem C27_accept_restores_off_eof :
    (∀ (p q : Parser) (valid : TokenTypes), ¬ p.atEOF → p.accept valid = .ok (false, q) → q = p) ∧
      (∀ (p p1 : Parser) (t : Token), p.next = .ok (t, p1) → t.Typ = .STOP → ¬ p1.atEOF) ∧
      (∀ (L : GoLib) (fuel : Nat) (p q : Parser) (ts : List Token) (al : List Argument),
        Before p ts → Buffer ts → parseArguments L fuel p = .ok (al, q) → ¬ q.atEOF) ∧
      (∀ (p q : Parser) (valid : TokenTypes), p.atEOF → p.accept valid = .ok (false, q) →
        q.pos = p.pos - 1) ∧
      (∀ (p : Parser) (valid : TokenTypes), p.atEOF → TokenType.EOF ∉ valid →
        p.accept valid = .ok (false, { p with pos := p.pos - 1 })) :=
  ⟨accept_on_and_off_eof.1,
    fun p p1 t h ht => next_off_eof_after p p1 t h (by rw [ht]; decide),
    fun L fuel p q ts al hb hbuf h => parseArguments_off_eof L fuel p q ts al hb hbuf h,
    accept_on_and_off_eof.2.1, accept_on_and_off_eof.2.2.1⟩

/-- C27 fails on the EOF token: with the tokens `stop` and EOF and the parser
on the EOF token, `accept` of a semicolon returns false and the parser stands
on `stop`, one token back. -/
theorem C27_accept_on_eof_counterexample :
    (∃ e, (stopEnd 1).Items = [⟨.STOP, 0, "stop"⟩] ++ [e] ∧ e.Typ = .EOF) ∧
      (stopEnd 1).accept [.SEMICOLON] = .ok (false, stopEnd 0) ∧
      (stopEnd 0).pos ≠ (stopEnd 1).pos :=
  ⟨⟨⟨.EOF, 4, ""⟩, rfl, rfl⟩, rfl, by decide⟩

/-- C27 at the tokens `stop` and EOF: on `stop`, where `parseCommand` calls
`accept`, the parser is left as it was. -/
theorem C27_accept_restores_off_eof_witness :
    (¬ (stopEnd 0).atEOF) ∧ (stopEnd 0).accept [.SEMICOLON] = .ok (false, stopEnd 0) ∧
      stopEnd 0 = stopEnd 0 ∧
      (stopEnd (-1)).next = .ok (⟨.STOP, 0, "stop"⟩, stopEnd 0) ∧
      (stopEnd 1).atEOF ∧
      (stopEnd 1).accept [.SEMICOLON] = .ok (false, { stopEnd 1 with pos := (stopEnd 1).pos - 1 }) := by
  have hoff : ¬ (stopEnd 0).atEOF := by
    rintro ⟨_, t, hi, ht⟩
    have h : (stopEnd 0).item = .ok ⟨.STOP, 0, "stop"⟩ := rfl
    rw [h] at hi
    cases hi
    cases ht
  have hacc : (stopEnd 0).accept [.SEMICOLON] = .ok (false, stopEnd 0) := rfl
  have hon : (stopEnd 1).atEOF := ⟨by decide, ⟨.EOF, 4, ""⟩, rfl, rfl⟩
  exact ⟨hoff, hacc, C27_accept_restores_off_eof.1 _ _ _ hoff hacc, rfl, hon,
    C27_accept_restores_off_eof.2.2.2.2 _ [.SEMICOLON] hon (by decide)⟩

end Sieve
